import Mathlib

/-!
# Message-queue calculator: the median heap and its dispatcher

A shallow embedding of `src/operating_systems/msg_queue_calc` (`Vector.c`,
`PriorityQueue.c`, `MedianHeap.c`, `calculator.c`, the command letters of `user.c`), and
of the state machine of `src/embedded_realtime/uart_comm/uart.c`, and the properties
proved of them.

Modelling conventions.

* A C function that can hit a failing `assert` returns a `Res`: `Res.ok` for a normal
  return, `Res.abort` for a failed assertion.  The recursive C functions
  (`_heapify_top_bottom`, `_heapify_bottom_top`, `_rebalance`) take a step budget as an
  extra first argument and return `Res.fuel` when it is used up; their callers pass a
  budget that is shown to be enough.
* C `int` values are integers of `Int`; signed overflow, which is undefined in C, is not
  modelled: an arithmetic result is the one of C as long as it lies in the range of `int`
  (`int_range`), and what is stated about the value of the running sum carries that
  condition.  The narrowing conversion of `int` to the `char` storage cell of `Vector` is
  modelled by `to_char` (two's complement, `char` signed, 8 bits).
* `malloc` is taken to succeed.  Cells of a fresh allocation hold `0`.
* A C `double` or `float` is a quotient of two integers (`CDouble`).  The division of
  `medianheap_get_average` rounds to binary64 (`CDouble.to_double`), and the stores of
  the sum and of the average into the `float` result slot of a message round to binary32
  (`CDouble.to_float`): to the nearest number of the format, the one with the even
  significand at a tie.  The other values the program holds in a `double` or a `float`
  slot (a cell value, the half of the sum of two cell values, a flag) are numbers of both
  formats and are kept as they are; the `elapsed` field is kept as the exact quotient.
* The calls on the message queue are taken to succeed, and the time measured for a
  request is an input of the model.
-/

namespace MsgQueueCalc

/-! ## Results of C calls -/

/-- Outcome of a modelled C call: a normal return, a failed `assert`, or an exhausted
step budget of the model. -/
inductive Res (α : Type) where
  | ok : α → Res α
  | abort : Res α
  | fuel : Res α
  deriving DecidableEq, Repr

/-- Sequencing of modelled calls: the first failure ends the computation. -/
def Res.bind {α β : Type} : Res α → (α → Res β) → Res β
  | Res.ok a, f => f a
  | Res.abort, _ => Res.abort
  | Res.fuel, _ => Res.fuel

instance : Monad Res where
  pure := Res.ok
  bind := Res.bind

/-! ## C doubles -/

/-- A C `double` or `float`, held as the quotient `num / den` of two integers.  A zero
denominator stands for the result of a division by zero. -/
structure CDouble where
  num : Int
  den : Int
  deriving DecidableEq, Repr

/-- The conversion `(double)n` of an `int`. -/
def CDouble.ofInt (n : Int) : CDouble := ⟨n, 1⟩

/-- Addition of two doubles. -/
def CDouble.add (a b : CDouble) : CDouble := ⟨a.num * b.den + b.num * a.den, a.den * b.den⟩

/-- The exact quotient of a double by an `int` (converted to double).  Where the
quotient can have more digits than a `double` holds, the caller rounds it
(`CDouble.to_double`). -/
def CDouble.divInt (a : CDouble) (k : Int) : CDouble := ⟨a.num, a.den * k⟩

/-- The comparison `a < b` of two doubles with positive denominators. -/
def CDouble.lt (a b : CDouble) : Bool := decide (a.num * b.den < b.num * a.den)

/-- The conversion `(int)x` of a double: truncation toward zero. -/
def CDouble.toInt (a : CDouble) : Int := Int.tdiv a.num a.den

/-- The rational number a `CDouble` stands for. -/
def CDouble.toRat (a : CDouble) : ℚ := (a.num : ℚ) / (a.den : ℚ)

/-- The number of binary digits of `n`, 0 for 0.  The first argument bounds the number of
halvings; `n` itself is always enough. -/
def bit_length : Nat → Nat → Nat
  | 0, _ => 0
  | fuel + 1, n => if n = 0 then 0 else bit_length fuel (n / 2) + 1

/-- The integer nearest to `n / d`; the even one of the two when `n / d` lies half way
between two integers. -/
def round_half_even (n d : Nat) : Nat :=
  if 2 * (n % d) < d then n / d
  else if d < 2 * (n % d) then n / d + 1
  else if (n / d) % 2 = 0 then n / d else n / d + 1

/-- The exponent of the leading binary digit of `n / d`, for positive `n` and `d`: the
`k` with `2 ^ k ≤ n / d < 2 ^ (k + 1)`.  The difference of the digit counts is `k` or
`k + 1`; the comparison decides. -/
def leading_exponent (n d : Nat) : Int :=
  let k : Int := (bit_length n n : Int) - (bit_length d d : Int)
  if d * 2 ^ k.toNat ≤ n * 2 ^ (-k).toNat then k else k - 1

/-- Rounding to a binary floating-point format with `p` significant digits, in the
default rounding mode of IEEE 754 (to nearest, ties to the even significand): with `e`
the exponent of the last of the `p` digits, the value is `m * 2 ^ e` for the integer `m`
nearest to `x / 2 ^ e`, returned in lowest terms.  Zero, and a value with denominator
zero, are returned as they are.  The exponent range of the format is not modelled: the
values the program rounds are an `int` and the quotient of an `int` by a count of
elements, which lie far inside the range of both `float` and `double`. -/
def CDouble.round (p : Nat) (x : CDouble) : CDouble :=
  if x.num = 0 ∨ x.den = 0 then x
  else
    let n := x.num.natAbs
    let d := x.den.natAbs
    let e : Int := leading_exponent n d - ((p : Int) - 1)
    let m := round_half_even (n * 2 ^ (-e).toNat) (d * 2 ^ e.toNat)
    let g := Nat.gcd m (2 ^ (-e).toNat)
    ⟨x.num.sign * x.den.sign * ((m * 2 ^ e.toNat / g : Nat) : Int),
      ((2 ^ (-e).toNat / g : Nat) : Int)⟩

/-- The result of an operation on `double`s, or of a conversion to `double`: rounded to
the 53 significant digits of binary64. -/
def CDouble.to_double (x : CDouble) : CDouble := x.round 53

/-- The conversion to `float` of a store into a `float` object: rounded to the 24
significant digits of binary32. -/
def CDouble.to_float (x : CDouble) : CDouble := x.round 24

/-- The values of a C `int` (32 bits, two's complement). -/
def int_range (x : Int) : Prop := -2147483648 ≤ x ∧ x ≤ 2147483647

instance (x : Int) : Decidable (int_range x) := by unfold int_range; infer_instance

/-! ## Vector.c -/

/-- Conversion of an `int` to the `char` cell of the vector (`char* elems`,
`vec_pushback(Vector*, char elem)`): the value modulo 256 in `-128..127`. -/
def to_char (n : Int) : Int := (n + 128) % 256 - 128

/-- The `Vector` struct.  `elems` lists the allocated cells of the backing array,
`size` is the `size_t` count of occupied cells. -/
structure Vector where
  elems : List Int
  capacity : Int
  size : Nat
  deriving DecidableEq, Repr

/-- `vec_allocate`: asserts `capacity >= 0`, size 0, `capacity` fresh cells. -/
def vec_allocate (capacity : Int) : Res Vector :=
  if capacity ≥ 0 then
    Res.ok { elems := List.replicate capacity.toNat 0, capacity := capacity, size := 0 }
  else Res.abort

/-- `_increase_capacity`: asserts `vector->capacity < new_capacity`, copies the first
`capacity` cells into a new array of `new_capacity` cells. -/
def _increase_capacity (vector : Vector) (new_capacity : Int) : Res Vector :=
  if vector.capacity < new_capacity then
    Res.ok { vector with
      elems := vector.elems.take vector.capacity.toNat
        ++ List.replicate (new_capacity - vector.capacity).toNat 0
      capacity := new_capacity }
  else Res.abort

/-- `vec_pushback`: doubles the capacity when `size == capacity`, then stores `elem`
(converted to `char` by the parameter type) at index `size` and increments `size`. -/
def vec_pushback (vector : Vector) (elem : Int) : Res Vector := do
  let v ← if (vector.size : Int) = vector.capacity then
      _increase_capacity vector (2 * vector.capacity)
    else pure vector
  pure { v with elems := v.elems.set v.size (to_char elem), size := v.size + 1 }

/-- `vec_capacity`. -/
def vec_capacity (vector : Vector) : Int := vector.capacity

/-- `vec_size`: the size as an `int`. -/
def vec_size (vector : Vector) : Int := (vector.size : Int)

/-- `vec_get`: asserts `index >= 0 && index < vector->size`. -/
def vec_get (vector : Vector) (index : Int) : Res Int :=
  if index ≥ 0 ∧ index < (vector.size : Int) then
    Res.ok (vector.elems.getD index.toNat 0)
  else Res.abort

/-- `vec_swap`: asserts `index_a < vector->size && index_b < vector->size`.  The
comparison is made in `size_t`: a negative index converts to a value of at least `2^63`
and fails it as well (for every size below `2^63`). -/
def vec_swap (vector : Vector) (index_a index_b : Int) : Res Vector :=
  if (0 ≤ index_a ∧ index_a < (vector.size : Int))
      ∧ (0 ≤ index_b ∧ index_b < (vector.size : Int)) then
    let temp := vector.elems.getD index_a.toNat 0
    let elems1 := vector.elems.set index_a.toNat (vector.elems.getD index_b.toNat 0)
    Res.ok { vector with elems := elems1.set index_b.toNat temp }
  else Res.abort

/-- `vec_pop`: returns `elems[size - 1]` and decrements the `size_t` size, with no
assertion.  On an empty vector the size wraps to `SIZE_MAX` and the value read lies
outside the array (taken as `0` here). -/
def vec_pop (vector : Vector) : Int × Vector :=
  if vector.size = 0 then
    (0, { vector with size := 18446744073709551615 })
  else
    (vector.elems.getD (vector.size - 1) 0, { vector with size := vector.size - 1 })

/-! ## PriorityQueue.c -/

/-- The `HEAP_TYPE` enum. -/
inductive HEAP_TYPE where
  | MIN
  | MAX
  deriving DecidableEq, Repr

/-- The `PriorityQueue` struct. -/
structure PriorityQueue where
  items : Vector
  heap_type : HEAP_TYPE
  deriving DecidableEq, Repr

/-- `_heapify_top_bottom`: sift the node `parent_node` down.  The first argument is the
step budget of the model. -/
def _heapify_top_bottom : Nat → PriorityQueue → Int → Res PriorityQueue
  | 0, _, _ => Res.fuel
  | fuel + 1, queue, parent_node => do
    let left := parent_node * 2 + 1
    let right := parent_node * 2 + 2
    let vec := queue.items
    let size := vec_size vec
    let predicate ←
      if !(decide (left ≥ size) || decide (left < 0)) then do
        let l ← vec_get vec left
        let p ← vec_get vec parent_node
        pure (if queue.heap_type = HEAP_TYPE.MIN then decide (l < p) else decide (l > p))
      else pure false
    let minmax := if predicate then left else parent_node
    let predicate ←
      if !(decide (right ≥ size) || decide (right < 0)) then do
        let r ← vec_get vec right
        let m ← vec_get vec minmax
        pure (if queue.heap_type = HEAP_TYPE.MIN then decide (r < m) else decide (r > m))
      else pure false
    let minmax := if predicate then right else minmax
    if minmax ≠ parent_node then do
      let vec ← vec_swap vec parent_node minmax
      _heapify_top_bottom fuel { queue with items := vec } minmax
    else pure queue

/-- `_heapify_bottom_top`: sift the node `index` up; the parent index is
`(index - 1) / 2` with C division (truncation toward zero).  The first argument is the
step budget of the model. -/
def _heapify_bottom_top : Nat → PriorityQueue → Int → Res PriorityQueue
  | 0, _, _ => Res.fuel
  | fuel + 1, queue, index => do
    let parent_node := Int.tdiv (index - 1) 2
    let vec := queue.items
    let p ← vec_get vec parent_node
    let c ← vec_get vec index
    let predicate := if queue.heap_type = HEAP_TYPE.MIN then decide (p > c) else decide (p < c)
    if predicate then do
      let vec ← vec_swap vec parent_node index
      _heapify_bottom_top fuel { queue with items := vec } parent_node
    else pure queue

/-- The loop of `_rebuild_heap`, `for (i = start; i >= 0; i--)`: the first argument is
the number of iterations left, so the current index is that number minus one. -/
def _rebuild_heap_loop : Nat → PriorityQueue → Res PriorityQueue
  | 0, queue => pure queue
  | i + 1, queue => do
    let queue ← _heapify_top_bottom (queue.items.size + 1) queue (i : Int)
    _rebuild_heap_loop i queue

/-- `_rebuild_heap`: sift down every node from `size / 2 - 1` to `0`. -/
def _rebuild_heap (queue : PriorityQueue) : Res PriorityQueue :=
  let start := Int.tdiv (vec_size queue.items) 2 - 1
  _rebuild_heap_loop (start + 1).toNat queue

/-- `priorityqueue_create`. -/
def priorityqueue_create (capacity : Int) (heap_type : HEAP_TYPE) : Res PriorityQueue := do
  let items ← vec_allocate capacity
  pure { items := items, heap_type := heap_type }

/-- `priorityqueue_insert`: append the key, then sift it up from the last index. -/
def priorityqueue_insert (queue : PriorityQueue) (key : Int) : Res PriorityQueue := do
  let items ← vec_pushback queue.items key
  _heapify_bottom_top (items.size + 1) { queue with items := items } ((items.size : Int) - 1)

/-- The scan of `priorityqueue_delete`, `for (i = 0; i < size; i++)`: the first
argument is the number of iterations left, `i` the current index. -/
def priorityqueue_delete_loop (items : Vector) (key : Int) :
    Nat → Int → Vector → Int → Res (Vector × Int)
  | 0, _, filtered, num_removed => pure (filtered, num_removed)
  | k + 1, i, filtered, num_removed => do
    let curr_elem ← vec_get items i
    if curr_elem ≠ key then do
      let filtered ← vec_pushback filtered curr_elem
      priorityqueue_delete_loop items key k (i + 1) filtered num_removed
    else
      priorityqueue_delete_loop items key k (i + 1) filtered (num_removed + 1)

/-- `priorityqueue_delete`: filter the key out into a new vector of the same capacity;
when something was removed the new vector replaces the old one and the heap is
rebuilt.  Returns the number of removed elements. -/
def priorityqueue_delete (queue : PriorityQueue) (key : Int) : Res (Int × PriorityQueue) := do
  let filtered ← vec_allocate queue.items.capacity
  let (filtered, num_removed) ←
    priorityqueue_delete_loop queue.items key queue.items.size 0 filtered 0
  if num_removed > 0 then do
    let queue ← _rebuild_heap { queue with items := filtered }
    pure (num_removed, queue)
  else pure (num_removed, queue)

/-- `priorityqueue_pop_root`: asserts a non-empty heap; swaps the root with the last
leaf, drops it, sifts the new root down. -/
def priorityqueue_pop_root (queue : PriorityQueue) : Res (Int × PriorityQueue) := do
  if queue.items.size > 0 then do
    let vec := queue.items
    let pop ← vec_get vec 0
    let vec ← vec_swap vec 0 ((vec.size : Int) - 1)
    let vec := (vec_pop vec).2
    let queue ← _heapify_top_bottom (vec.size + 1) { queue with items := vec } 0
    pure (pop, queue)
  else Res.abort

/-- The loop of `max_heap_get_min`, `for (i = 1 + n / 2; i < n; i++)`: the first
argument is the number of iterations left. -/
def max_heap_get_min_loop (items : Vector) : Nat → Int → Int → Res Int
  | 0, _, minimum_elem => pure minimum_elem
  | k + 1, i, minimum_elem => do
    let e ← vec_get items i
    max_heap_get_min_loop items k (i + 1) (if minimum_elem < e then minimum_elem else e)

/-- `max_heap_get_min`: asserts a non-empty MAX heap; the minimum over the indices
`n / 2 .. n - 1`. -/
def max_heap_get_min (queue : PriorityQueue) : Res Int :=
  if vec_size queue.items > 0 ∧ queue.heap_type = HEAP_TYPE.MAX then do
    let n := vec_size queue.items
    let minimum_elem ← vec_get queue.items (Int.tdiv n 2)
    max_heap_get_min_loop queue.items (n - (1 + Int.tdiv n 2)).toNat (1 + Int.tdiv n 2)
      minimum_elem
  else Res.abort

/-- `priorityqueue_peek`: asserts `capacity > 0`, then reads index 0. -/
def priorityqueue_peek (queue : PriorityQueue) : Res Int :=
  if vec_capacity queue.items > 0 then vec_get queue.items 0 else Res.abort

/-- `priorityqueue_capacity`. -/
def priorityqueue_capacity (queue : PriorityQueue) : Int := vec_capacity queue.items

/-- `priorityqueue_size`. -/
def priorityqueue_size (queue : PriorityQueue) : Int := vec_size queue.items

/-! ## MedianHeap.c -/

/-- The `MedianHeap` struct. -/
structure MedianHeap where
  maxHeap : PriorityQueue
  minHeap : PriorityQueue
  sum : Int
  deriving DecidableEq, Repr

/-- `_rebalance`: while the sizes differ by more than one, pop the root of the larger
heap and insert it into the other one.  The first argument is the step budget of the
model. -/
def _rebalance : Nat → MedianHeap → Res MedianHeap
  | 0, _ => Res.fuel
  | fuel + 1, heap => do
    let heap ←
      if (priorityqueue_size heap.maxHeap - priorityqueue_size heap.minHeap).natAbs > 1 then
        if priorityqueue_size heap.maxHeap > priorityqueue_size heap.minHeap then do
          let (pop, maxHeap) ← priorityqueue_pop_root heap.maxHeap
          let minHeap ← priorityqueue_insert heap.minHeap pop
          pure { heap with maxHeap := maxHeap, minHeap := minHeap }
        else do
          let (pop, minHeap) ← priorityqueue_pop_root heap.minHeap
          let maxHeap ← priorityqueue_insert heap.maxHeap pop
          pure { heap with maxHeap := maxHeap, minHeap := minHeap }
      else pure heap
    if (priorityqueue_size heap.maxHeap - priorityqueue_size heap.minHeap).natAbs > 1 then
      _rebalance fuel heap
    else pure heap

/-- The step budget handed to `_rebalance` by its callers: every step moves one
element, so the number of elements plus one is enough. -/
def rebalance_budget (heap : MedianHeap) : Nat :=
  heap.maxHeap.items.size + heap.minHeap.items.size + 1

/-- `medianheap_create`. -/
def medianheap_create (capacity : Int) : Res MedianHeap := do
  let maxHeap ← priorityqueue_create capacity HEAP_TYPE.MAX
  let minHeap ← priorityqueue_create capacity HEAP_TYPE.MIN
  pure { maxHeap := maxHeap, minHeap := minHeap, sum := 0 }

/-- `medianheap_is_empty`. -/
def medianheap_is_empty (heap : MedianHeap) : Bool :=
  decide (priorityqueue_size heap.minHeap = 0) && decide (priorityqueue_size heap.maxHeap = 0)

/-- `medianheap_get_median`: the average of the two roots when the sizes are equal,
else the root of the larger heap.  The roots are cell values, so their sum and its half
are numbers a `double` holds and nothing is rounded. -/
def medianheap_get_median (heap : MedianHeap) : Res CDouble :=
  if priorityqueue_size heap.maxHeap = priorityqueue_size heap.minHeap then do
    let a ← priorityqueue_peek heap.maxHeap
    let b ← priorityqueue_peek heap.minHeap
    pure (((CDouble.ofInt a).add (CDouble.ofInt b)).divInt 2)
  else if priorityqueue_size heap.maxHeap > priorityqueue_size heap.minHeap then do
    let a ← priorityqueue_peek heap.maxHeap
    pure (CDouble.ofInt a)
  else do
    let b ← priorityqueue_peek heap.minHeap
    pure (CDouble.ofInt b)

/-- `medianheap_insert`: into `minHeap` when the heap is empty or `n` is not below the
median, into `maxHeap` otherwise; then the sum is updated and the heap rebalanced.  The
new sum is that of the integers, which is that of C as long as it lies in the range of
`int`. -/
def medianheap_insert (heap : MedianHeap) (n : Int) : Res MedianHeap := do
  let heap ←
    if medianheap_is_empty heap then do
      let minHeap ← priorityqueue_insert heap.minHeap n
      pure { heap with minHeap := minHeap }
    else do
      let median ← medianheap_get_median heap
      if (CDouble.ofInt n).lt median then do
        let maxHeap ← priorityqueue_insert heap.maxHeap n
        pure { heap with maxHeap := maxHeap }
      else do
        let minHeap ← priorityqueue_insert heap.minHeap n
        pure { heap with minHeap := minHeap }
  let heap := { heap with sum := heap.sum + n }
  _rebalance (rebalance_budget heap) heap

/-- `medianheap_delete_all`: delete `n` from both heaps, subtract
`total_deleted * n` from the sum, rebalance.  The product and the difference are those
of the integers, which are those of C as long as they lie in the range of `int`. -/
def medianheap_delete_all (heap : MedianHeap) (n : Int) : Res MedianHeap := do
  let total_deleted := 0
  let (removed, maxHeap) ← priorityqueue_delete heap.maxHeap n
  let total_deleted := total_deleted + removed
  let (removed, minHeap) ← priorityqueue_delete heap.minHeap n
  let total_deleted := total_deleted + removed
  let heap := { maxHeap := maxHeap, minHeap := minHeap, sum := heap.sum - total_deleted * n }
  _rebalance (rebalance_budget heap) heap

/-- `medianheap_get_median2`: with equal sizes both roots go to `medians[0]`,
`medians[1]` and the result is `true`; otherwise the root of the larger heap goes to
`medians[0]`, `medians[1]` keeps its old value, and the result is `false`.  The caller's
array is passed in and returned as a pair. -/
def medianheap_get_median2 (heap : MedianHeap) (medians : Int × Int) :
    Res (Bool × (Int × Int)) :=
  if priorityqueue_size heap.maxHeap = priorityqueue_size heap.minHeap then do
    let a ← priorityqueue_peek heap.maxHeap
    let medians := ((CDouble.ofInt a).toInt, medians.2)
    let b ← priorityqueue_peek heap.minHeap
    let medians := (medians.1, (CDouble.ofInt b).toInt)
    pure (true, medians)
  else if priorityqueue_size heap.maxHeap > priorityqueue_size heap.minHeap then do
    let a ← priorityqueue_peek heap.maxHeap
    pure (false, ((CDouble.ofInt a).toInt, medians.2))
  else do
    let b ← priorityqueue_peek heap.minHeap
    pure (false, ((CDouble.ofInt b).toInt, medians.2))

/-- `medianheap_get_min`: asserts a non-empty heap; the root of `minHeap` when
`maxHeap` is empty, else `max_heap_get_min` of `maxHeap`. -/
def medianheap_get_min (heap : MedianHeap) : Res Int :=
  if !(medianheap_is_empty heap) then
    if priorityqueue_size heap.maxHeap = 0 then priorityqueue_peek heap.minHeap
    else max_heap_get_min heap.maxHeap
  else Res.abort

/-- `medianheap_get_sum`. -/
def medianheap_get_sum (heap : MedianHeap) : Int := heap.sum

/-- `medianheap_get_average`: `(double)heap->sum / total_elems`.  The conversion of the
`int` sum is exact; the quotient is rounded to a `double`. -/
def medianheap_get_average (heap : MedianHeap) : CDouble :=
  let total_elems := priorityqueue_size heap.maxHeap + priorityqueue_size heap.minHeap
  ((CDouble.ofInt heap.sum).divInt total_elems).to_double

/-! ## Message.h and calculator.c -/

/-- `operation_type` value `INSERT`. -/
def INSERT : Int := 0

/-- `operation_type` value `DELETE`. -/
def DELETE : Int := 1

/-- `operation_type` value `AVERAGE`. -/
def AVERAGE : Int := 2

/-- `operation_type` value `SUM`. -/
def SUM : Int := 3

/-- `operation_type` value `MINIMUM`. -/
def MINIMUM : Int := 4

/-- `operation_type` value `MEDIAN`. -/
def MEDIAN : Int := 5

/-- `operation_type` value `QUIT`. -/
def QUIT : Int := 6

/-- `operation_type` value `ERROR`. -/
def ERROR : Int := 7

/-- Operand index `RESULT`. -/
def RESULT : Nat := 0

/-- Operand index `ARGUMENT`. -/
def ARGUMENT : Nat := 0

/-- Operand index `MEDIAN1`. -/
def MEDIAN1 : Nat := 0

/-- Operand index `MEDIAN2`. -/
def MEDIAN2 : Nat := 1

/-- Operand index `FLAG_TWO_MEDIAN`. -/
def FLAG_TWO_MEDIAN : Nat := 2

/-- Flag value `TWO_MEDIANS`. -/
def TWO_MEDIANS : Int := 1

/-- Flag value `ONE_MEDIAN`. -/
def ONE_MEDIAN : Int := 0

/-- The `Message` struct.  `operation` is the enum value as an integer; the `float`
fields hold a `CDouble` each (what `command_controller` stores into them is rounded
there, where it can need rounding). -/
structure Message where
  my_msg_type : Int
  operation : Int
  operands : List CDouble
  elapsed : CDouble
  deriving DecidableEq, Repr

/-- The static locals of `command_controller`.  `dataset` is `none` before the first call
and again after `QUIT` has destroyed the heap. -/
structure Server where
  initialized : Bool
  dataset : Option MedianHeap
  medians : Int × Int
  total_elapsed : List Int
  total_commands : List Int
  deriving DecidableEq, Repr

/-- The server before its first request: the statics are zero-initialised. -/
def fresh_server : Server :=
  { initialized := false, dataset := none, medians := (0, 0),
    total_elapsed := List.replicate 6 0, total_commands := List.replicate 6 0 }

/-- The end of `command_controller`, after the `switch`: the measured time is added to
the total of the operation and the reply carries `total_elapsed / total_commands`. -/
def command_controller_finish (server : Server) (msg : Message) (elapsed : Int) :
    Server × Message :=
  if msg.operation < 6 ∧ msg.operation ≥ 0 then
    let total := server.total_elapsed.getD msg.operation.toNat 0 + elapsed
    let count := server.total_commands.getD msg.operation.toNat 0
    let server := { server with total_elapsed := server.total_elapsed.set msg.operation.toNat total }
    (server, { msg with elapsed := (CDouble.ofInt total).divInt count })
  else (server, msg)

/-- `command_controller`: one request processed against the static state.  `elapsed` is
what `chrono_elapsed` measures for this call.  A call after `QUIT` would use the freed
heap; it is modelled as a failure. -/
def command_controller (server : Server) (msg : Message) (elapsed : Int) :
    Res (Server × Message) := do
  let server ←
    if !server.initialized then do
      let dataset ← medianheap_create 10
      pure { server with initialized := true, dataset := some dataset }
    else pure server
  let count := server.total_commands.getD msg.operation.toNat 0 + 1
  let server :=
    if msg.operation < 6 ∧ msg.operation ≥ 0 then
      { server with total_commands := server.total_commands.set msg.operation.toNat count }
    else server
  match server.dataset with
  | none => Res.abort
  | some dataset =>
    if medianheap_is_empty dataset
        && !(decide (msg.operation = INSERT) || decide (msg.operation = QUIT)) then
      pure (server, { msg with operation := ERROR, elapsed := CDouble.ofInt elapsed })
    else if msg.operation = INSERT then do
      let dataset ← medianheap_insert dataset (msg.operands.getD ARGUMENT ⟨0, 1⟩).toInt
      pure (command_controller_finish { server with dataset := some dataset } msg elapsed)
    else if msg.operation = DELETE then do
      let dataset ← medianheap_delete_all dataset (msg.operands.getD ARGUMENT ⟨0, 1⟩).toInt
      pure (command_controller_finish { server with dataset := some dataset } msg elapsed)
    else if msg.operation = AVERAGE then
      let operands := msg.operands.set RESULT (medianheap_get_average dataset).to_float
      pure (command_controller_finish server { msg with operands := operands } elapsed)
    else if msg.operation = SUM then
      let operands :=
        msg.operands.set RESULT (CDouble.ofInt (medianheap_get_sum dataset)).to_float
      pure (command_controller_finish server { msg with operands := operands } elapsed)
    else if msg.operation = MINIMUM then do
      let minimum ← medianheap_get_min dataset
      let operands := msg.operands.set RESULT (CDouble.ofInt minimum)
      pure (command_controller_finish server { msg with operands := operands } elapsed)
    else if msg.operation = MEDIAN then do
      let (two, medians) ← medianheap_get_median2 dataset server.medians
      let server := { server with medians := medians }
      if two then
        let operands := msg.operands.set MEDIAN1 (CDouble.ofInt medians.1)
        let operands := operands.set MEDIAN2 (CDouble.ofInt medians.2)
        let operands := operands.set FLAG_TWO_MEDIAN (CDouble.ofInt TWO_MEDIANS)
        pure (command_controller_finish server { msg with operands := operands } elapsed)
      else
        let operands := msg.operands.set MEDIAN1 (CDouble.ofInt medians.1)
        let operands := operands.set FLAG_TWO_MEDIAN (CDouble.ofInt ONE_MEDIAN)
        pure (command_controller_finish server { msg with operands := operands } elapsed)
    else if msg.operation = QUIT then
      pure ({ server with dataset := none }, msg)
    else pure (server, msg)

/-- A request: the given operation with the argument in `operands[ARGUMENT]`. -/
def request (operation : Int) (argument : Int) : Message :=
  { my_msg_type := 1, operation := operation,
    operands := [CDouble.ofInt argument, CDouble.ofInt 0, CDouble.ofInt 0],
    elapsed := CDouble.ofInt 0 }

/-- One turn of the server loop of `main` in calculator.c: a request is received and
processed by `command_controller`; when the processed message has operation `QUIT` the
loop is left and nothing is sent (`none`), otherwise the message is sent back as the
reply.  The queue calls are taken to succeed. -/
def server_step (server : Server) (msg : Message) (elapsed : Int) :
    Res (Server × Option Message) := do
  let (server, msg) ← command_controller server msg elapsed
  if msg.operation = QUIT then pure (server, none) else pure (server, some msg)

/-- The server loop of `main` run on the requests that arrive, each with the time
measured for it: the statics at the end, the replies sent in order, and whether the loop
was left (by a `QUIT`; the requests after it are never read). -/
def server_loop (server : Server) : List (Message × Int) → Res (Server × List Message × Bool)
  | [] => pure (server, [], false)
  | (msg, elapsed) :: rest => do
    let (server, reply) ← server_step server msg elapsed
    match reply with
    | none => pure (server, [], true)
    | some r => do
      let (server, replies, left) ← server_loop server rest
      pure (server, r :: replies, left)

/-! ## user.c -/

/-- The C library's `tolower` in the "C" locale: the letters `A`..`Z` (65..90) go to
`a`..`z`, every other value is returned as it is. -/
def tolower (c : Int) : Int := if 65 ≤ c ∧ c ≤ 90 then c + 32 else c

/-- The code of a character, as the C `char` value. -/
def char_code (c : Char) : Int := (c.toNat : Int)

/-- `get_op_type`: the operation of a command letter, after `(char)tolower(command)`. -/
def get_op_type (command : Int) : Int :=
  let command := to_char (tolower command)
  if command = char_code 'i' then INSERT
  else if command = char_code 'd' then DELETE
  else if command = char_code 'a' then AVERAGE
  else if command = char_code 's' then SUM
  else if command = char_code 'm' then MINIMUM
  else if command = char_code 'u' then MEDIAN
  else if command = char_code 'q' then QUIT
  else ERROR

/-- `get_arg`: 0 for an operation other than INSERT and DELETE, else the integer read
by `scanf` (`typed`). -/
def get_arg (op : Int) (typed : Int) : Int :=
  if !(decide (op = INSERT) || decide (op = DELETE)) then 0 else typed

/-- `format_msg`: sets the operation from the command letter; returns false, leaving
the rest of the message alone, when it is `ERROR`; otherwise stores the argument and a
zero elapsed time and returns true.  `typed` is the integer the user types when asked. -/
def format_msg (msg : Message) (command : Int) (typed : Int) : Bool × Message :=
  let msg := { msg with operation := get_op_type command }
  if msg.operation = ERROR then (false, msg)
  else
    let operands := msg.operands.set ARGUMENT (CDouble.ofInt (get_arg msg.operation typed))
    (true, { msg with operands := operands, elapsed := CDouble.ofInt 0 })

/-- `prompt_user`: reads command letters (each with the integer typed after it, used
only by INSERT and DELETE) until `format_msg` returns true, and hands that message to
`main`, which sends it.  `none` when the input ends before a valid command. -/
def prompt_user (msg : Message) : List (Int × Int) → Option Message
  | [] => none
  | (command, typed) :: rest =>
    let (formatted, msg) := format_msg msg command typed
    if formatted then some msg else prompt_user msg rest

/-! ## Sequences of calls -/

/-- A mutating call on the median heap. -/
inductive Call where
  | insert (n : Int)
  | delete_all (n : Int)
  deriving DecidableEq, Repr

/-- Perform one call. -/
def Call.run (heap : MedianHeap) : Call → Res MedianHeap
  | Call.insert n => medianheap_insert heap n
  | Call.delete_all n => medianheap_delete_all heap n

/-- Perform the calls of a list in order, starting from `heap`. -/
def run_calls (heap : MedianHeap) : List Call → Res MedianHeap
  | [] => pure heap
  | c :: cs => do
    let heap ← c.run heap
    run_calls heap cs

/-- The heap produced by `medianheap_create capacity` followed by the given calls. -/
def medianheap_run (capacity : Int) (calls : List Call) : Res MedianHeap := do
  let heap ← medianheap_create capacity
  run_calls heap calls

/-- The argument of a call. -/
def Call.arg : Call → Int
  | Call.insert n => n
  | Call.delete_all n => n


/-! ## Specification vocabulary and proof devices -/

/-- The occupied cells `elems[0 .. size-1]` of a vector. -/
def Vector.contents (v : Vector) : List Int := v.elems.take v.size

/-- A value that fits the `char` storage cell. -/
def fits_cell (n : Int) : Prop := -128 ≤ n ∧ n ≤ 127

instance (n : Int) : Decidable (fits_cell n) := by unfold fits_cell; infer_instance

/-- A well-formed vector: `capacity` cells are allocated, `size <= capacity`, and
every cell holds a `char` value. -/
def Vector.wf (v : Vector) : Prop :=
  (v.elems.length : Int) = v.capacity ∧ v.size ≤ v.elems.length
    ∧ ∀ x ∈ v.elems, fits_cell x

/-- The elements a heap holds. -/
def PriorityQueue.contents (q : PriorityQueue) : List Int := q.items.contents

/-- Heap order between the value of a parent and the value of a child: `parent <= child`
in a MIN heap, `parent >= child` in a MAX heap. -/
def heap_le (t : HEAP_TYPE) (parent child : Int) : Prop :=
  match t with
  | HEAP_TYPE.MIN => parent ≤ child
  | HEAP_TYPE.MAX => child ≤ parent

/-- The heap property of an array: every index is in heap order with each of its
children `2i+1`, `2i+2` that exist. -/
def heap_property (t : HEAP_TYPE) (l : List Int) : Prop :=
  ∀ i : Nat, (2 * i + 1 < l.length → heap_le t (l.getD i 0) (l.getD (2 * i + 1) 0))
    ∧ (2 * i + 2 < l.length → heap_le t (l.getD i 0) (l.getD (2 * i + 2) 0))

/-- Heap order on every parent-child edge whose parent index is at least `k` and is
not `m` (the node being sifted). -/
def heap_from_except (t : HEAP_TYPE) (k m : Nat) (l : List Int) : Prop :=
  ∀ j : Nat, 0 < j → j < l.length → k ≤ (j - 1) / 2 → (j - 1) / 2 ≠ m →
    heap_le t (l.getD ((j - 1) / 2) 0) (l.getD j 0)

/-- Heap order on every parent-child edge whose parent index is at least `k`. -/
def heap_from (t : HEAP_TYPE) (k : Nat) (l : List Int) : Prop :=
  ∀ j : Nat, 0 < j → j < l.length → k ≤ (j - 1) / 2 →
    heap_le t (l.getD ((j - 1) / 2) 0) (l.getD j 0)

/-- Heap order on every parent-child edge except the one into `i`. -/
def heap_except_into (t : HEAP_TYPE) (i : Nat) (l : List Int) : Prop :=
  ∀ j : Nat, 0 < j → j < l.length → j ≠ i →
    heap_le t (l.getD ((j - 1) / 2) 0) (l.getD j 0)

/-- The list with the entries at `i` and `j` exchanged. -/
def swap_at (l : List Int) (i j : Nat) : List Int :=
  (l.set i (l.getD j 0)).set j (l.getD i 0)

/-- A well-formed heap: well-formed vector whose occupied cells satisfy the heap
property of the heap's type. -/
def PriorityQueue.wf (q : PriorityQueue) : Prop :=
  q.items.wf ∧ heap_property q.heap_type q.contents

/-- The structural invariant of the dual heap: `maxHeap` is a well-formed MAX heap,
`minHeap` a well-formed MIN heap. -/
def MedianHeap.wf (h : MedianHeap) : Prop :=
  h.maxHeap.wf ∧ h.minHeap.wf ∧ h.maxHeap.heap_type = HEAP_TYPE.MAX
    ∧ h.minHeap.heap_type = HEAP_TYPE.MIN

/-- The balance invariant `|size(maxHeap) - size(minHeap)| <= 1`. -/
def MedianHeap.balanced (h : MedianHeap) : Prop :=
  (priorityqueue_size h.maxHeap - priorityqueue_size h.minHeap).natAbs ≤ 1

/-- The ordering invariant: every element of `maxHeap` is `<=` every element of
`minHeap`. -/
def MedianHeap.ordered (h : MedianHeap) : Prop :=
  ∀ x ∈ h.maxHeap.contents, ∀ y ∈ h.minHeap.contents, x ≤ y

/-- All elements the dual heap holds: those of `maxHeap`, then those of `minHeap`. -/
def MedianHeap.elements (h : MedianHeap) : List Int :=
  h.maxHeap.contents ++ h.minHeap.contents

/-- The plain multiset (as a list) obtained by the same calls: an insert adds the
value, a delete-all removes every copy of it. -/
def Call.apply (s : List Int) : Call → List Int
  | Call.insert n => n :: s
  | Call.delete_all n => s.filter (fun x => decide (x ≠ n))

/-- The plain multiset after a list of calls, starting from `s`. -/
def apply_calls (s : List Int) : List Call → List Int
  | [] => s
  | c :: cs => apply_calls (c.apply s) cs

/-- The elements of a list in ascending order. -/
def sorted_of (l : List Int) : List Int := l.insertionSort (fun a b => a ≤ b)

/-- The statistical median of a non-empty list: the middle element of the sorted list
when the length is odd, the average of the two middle elements when it is even. -/
def stat_median (l : List Int) : ℚ :=
  let s := sorted_of l
  if s.length % 2 = 1 then ((s.getD (s.length / 2) 0 : Int) : ℚ)
  else (((s.getD (s.length / 2 - 1) 0 : Int) : ℚ) + ((s.getD (s.length / 2) 0 : Int) : ℚ)) / 2

instance (t : HEAP_TYPE) (a b : Int) : Decidable (heap_le t a b) := by
  unfold heap_le; cases t <;> infer_instance

/-- The index `_heapify_top_bottom` ends up with in `minmax`: the child of `m` that
violates heap order most, or `m` itself when none does. -/
def sift_target (t : HEAP_TYPE) (l : List Int) (m : Nat) : Nat :=
  let mm := if 2 * m + 1 < l.length ∧ ¬ heap_le t (l.getD m 0) (l.getD (2 * m + 1) 0)
    then 2 * m + 1 else m
  if 2 * m + 2 < l.length ∧ ¬ heap_le t (l.getD mm 0) (l.getD (2 * m + 2) 0)
    then 2 * m + 2 else mm

/-- The first half of `_rebalance`: one transfer from the larger heap to the smaller
one when the sizes differ by more than one, nothing otherwise. -/
def rebalance_step (heap : MedianHeap) : Res MedianHeap :=
  if (priorityqueue_size heap.maxHeap - priorityqueue_size heap.minHeap).natAbs > 1 then
    if priorityqueue_size heap.maxHeap > priorityqueue_size heap.minHeap then do
      let (pop, maxHeap) ← priorityqueue_pop_root heap.maxHeap
      let minHeap ← priorityqueue_insert heap.minHeap pop
      pure { heap with maxHeap := maxHeap, minHeap := minHeap }
    else do
      let (pop, minHeap) ← priorityqueue_pop_root heap.minHeap
      let maxHeap ← priorityqueue_insert heap.maxHeap pop
      pure { heap with maxHeap := maxHeap, minHeap := minHeap }
  else pure heap

/-- The difference of the two heap sizes. -/
def MedianHeap.gap (h : MedianHeap) : Nat :=
  (priorityqueue_size h.maxHeap - priorityqueue_size h.minHeap).natAbs

/-- Both heaps have room to grow: a capacity of at least one, which doubling keeps. -/
def MedianHeap.cap_pos (h : MedianHeap) : Prop :=
  1 ≤ h.maxHeap.items.capacity ∧ 1 ≤ h.minHeap.items.capacity

/-- The capacities a created dual heap can have: both at least one, or both zero (the
heap made by `medianheap_create(0)`, into which nothing can be inserted). -/
def MedianHeap.cap_ok (h : MedianHeap) : Prop :=
  h.cap_pos ∨ (h.maxHeap.items.capacity = 0 ∧ h.minHeap.items.capacity = 0)

/-- The invariant of every dual heap built by `medianheap_create`, `medianheap_insert`
and `medianheap_delete_all`. -/
def MedianHeap.inv (h : MedianHeap) : Prop :=
  h.wf ∧ h.balanced ∧ h.cap_ok

/-- The first half of `medianheap_insert`: the insertion into one of the two heaps,
before the sum is updated and the heap rebalanced. -/
def insert_place (heap : MedianHeap) (n : Int) : Res MedianHeap :=
  if medianheap_is_empty heap then do
    let minHeap ← priorityqueue_insert heap.minHeap n
    pure { heap with minHeap := minHeap }
  else do
    let median ← medianheap_get_median heap
    if (CDouble.ofInt n).lt median then do
      let maxHeap ← priorityqueue_insert heap.maxHeap n
      pure { heap with maxHeap := maxHeap }
    else do
      let minHeap ← priorityqueue_insert heap.minHeap n
      pure { heap with minHeap := minHeap }

/-- A dual heap written out by the cells and sizes of its two vectors (the capacity of
each vector is the number of cells listed) and its sum. -/
def heap_of (maxCells : List Int) (maxSize : Nat) (minCells : List Int) (minSize : Nat)
    (sum : Int) : MedianHeap :=
  { maxHeap := { items := { elems := maxCells, capacity := maxCells.length, size := maxSize },
                 heap_type := HEAP_TYPE.MAX },
    minHeap := { items := { elems := minCells, capacity := minCells.length, size := minSize },
                 heap_type := HEAP_TYPE.MIN },
    sum := sum }

/-- A server that can take a request: either it has not been initialised yet, or its
dataset is a well-formed, balanced dual heap with room to grow. -/
def Server.ready (s : Server) : Prop :=
  s.initialized = false ∨ ∃ h, s.dataset = some h ∧ h.inv ∧ h.cap_pos

/-- `_rebalance` with a count of the transfers it makes: the same steps, and one is
counted for every pop of a root that is inserted into the other heap. -/
def rebalance_transfers : Nat → MedianHeap → Res (Nat × MedianHeap)
  | 0, _ => Res.fuel
  | fuel + 1, heap => do
    let moved := if heap.gap > 1 then 1 else 0
    let heap ← rebalance_step heap
    if heap.gap > 1 then do
      let (more, heap) ← rebalance_transfers fuel heap
      pure (moved + more, heap)
    else pure (moved, heap)

/-- `medianheap_insert` with the count of the transfers its `_rebalance` makes. -/
def medianheap_insert_transfers (heap : MedianHeap) (n : Int) : Res (Nat × MedianHeap) := do
  let heap ← insert_place heap n
  let heap := { heap with sum := heap.sum + n }
  rebalance_transfers (rebalance_budget heap) heap

/-- `medianheap_delete_all` with the count of the transfers its `_rebalance` makes. -/
def medianheap_delete_all_transfers (heap : MedianHeap) (n : Int) :
    Res (Nat × MedianHeap) := do
  let total_deleted := 0
  let (removed, maxHeap) ← priorityqueue_delete heap.maxHeap n
  let total_deleted := total_deleted + removed
  let (removed, minHeap) ← priorityqueue_delete heap.minHeap n
  let total_deleted := total_deleted + removed
  let heap := { maxHeap := maxHeap, minHeap := minHeap, sum := heap.sum - total_deleted * n }
  rebalance_transfers (rebalance_budget heap) heap

/-- The statics of a server the loop can be in: either nothing has been initialised and
there is no dataset yet, or the statics are initialised and the dataset is a well-formed,
balanced dual heap with room to grow. -/
def Server.consistent (s : Server) : Prop :=
  (s.initialized = false ∧ s.dataset = none)
    ∨ (s.initialized = true ∧ ∃ h, s.dataset = some h ∧ h.inv ∧ h.cap_pos)

/-! ## uart.c (embedded_realtime/uart_comm): the LED state machine -/

/-- The pin mask `RED_LED`, `BIT0` of port 1. -/
def RED_LED : Nat := 1

/-- The pin mask `GREEN_LED`, `BIT1` of port 2. -/
def GREEN_LED : Nat := 2

/-- `Input_t` value `NEXT_STATE`. -/
def NEXT_STATE : Int := 0

/-- `Input_t` value `PREVIOUS_STATE`. -/
def PREVIOUS_STATE : Int := 1

/-- `Input_t` value `GET_STATE`. -/
def GET_STATE : Int := 2

/-- `State_t` value `OFF_STATE`. -/
def OFF_STATE : Int := 0

/-- `State_t` value `RED_STATE`. -/
def RED_STATE : Int := 1

/-- `State_t` value `GREEN_STATE`. -/
def GREEN_STATE : Int := 2

/-- `State_t` value `BOTH_STATE`. -/
def BOTH_STATE : Int := 3

/-- What `state_controller` reads and writes: its static `state`, the 8-bit output
registers `P1OUT` and `P2OUT`, and the bytes handed to `UART0_putchar`, oldest first. -/
structure Board where
  state : Int
  P1OUT : Nat
  P2OUT : Nat
  sent : List Int
  deriving DecidableEq, Repr

/-- The macro `RED_ON`: `P1OUT |= RED_LED`. -/
def RED_ON (b : Board) : Board := { b with P1OUT := b.P1OUT ||| RED_LED }

/-- The macro `RED_OFF`: `P1OUT &= ~RED_LED`, on an 8-bit register. -/
def RED_OFF (b : Board) : Board := { b with P1OUT := b.P1OUT &&& (255 - RED_LED) }

/-- The macro `GREEN_ON`: `P2OUT |= GREEN_LED`. -/
def GREEN_ON (b : Board) : Board := { b with P2OUT := b.P2OUT ||| GREEN_LED }

/-- The macro `GREEN_OFF`: `P2OUT &= ~GREEN_LED`, on an 8-bit register. -/
def GREEN_OFF (b : Board) : Board := { b with P2OUT := b.P2OUT &&& (255 - GREEN_LED) }

/-- `UART0_putchar`: the byte is transmitted (the wait for the transmit flag is taken to
end). -/
def UART0_putchar (b : Board) (c : Int) : Board := { b with sent := b.sent ++ [c] }

/-- `state_controller`: `GET_STATE` only reports the state; otherwise the transition of
the current state for `NEXT_STATE` or `PREVIOUS_STATE` is taken (none for any other
input) and the state is reported, as the character `'0' + state`.  A state value outside
the enum returns at once. -/
def state_controller (b : Board) (input : Int) : Board :=
  if input = GET_STATE then UART0_putchar b (48 + b.state)
  else if b.state = OFF_STATE then
    let b :=
      if input = NEXT_STATE then RED_ON { b with state := RED_STATE }
      else if input = PREVIOUS_STATE then GREEN_ON (RED_ON { b with state := BOTH_STATE })
      else b
    UART0_putchar b (48 + b.state)
  else if b.state = RED_STATE then
    let b :=
      if input = NEXT_STATE then RED_OFF (GREEN_ON { b with state := GREEN_STATE })
      else if input = PREVIOUS_STATE then RED_OFF { b with state := OFF_STATE }
      else b
    UART0_putchar b (48 + b.state)
  else if b.state = GREEN_STATE then
    let b :=
      if input = NEXT_STATE then RED_ON { b with state := BOTH_STATE }
      else if input = PREVIOUS_STATE then GREEN_OFF (RED_ON { b with state := RED_STATE })
      else b
    UART0_putchar b (48 + b.state)
  else if b.state = BOTH_STATE then
    let b :=
      if input = NEXT_STATE then GREEN_OFF (RED_OFF { b with state := OFF_STATE })
      else if input = PREVIOUS_STATE then RED_OFF { b with state := GREEN_STATE }
      else b
    UART0_putchar b (48 + b.state)
  else b

/-- The board after `setup()`: state `OFF_STATE`, the LED bits cleared in registers whose
other bits are those of `p1` and `p2`, nothing transmitted yet. -/
def board_after_setup (p1 p2 : Nat) : Board :=
  { state := OFF_STATE, P1OUT := p1 &&& (255 - RED_LED), P2OUT := p2 &&& (255 - GREEN_LED),
    sent := [] }

/-- The state machine run on a sequence of inputs, one call of `state_controller` per
input (the two interrupt handlers that call it have the same priority, so no call
interrupts another). -/
def run_inputs (b : Board) (inputs : List Int) : Board := inputs.foldl state_controller b

/-- The red LED output bit, `P1OUT & RED_LED`. -/
def red_bit (b : Board) : Bool := decide (b.P1OUT &&& RED_LED ≠ 0)

/-- The green LED output bit, `P2OUT & GREEN_LED`. -/
def green_bit (b : Board) : Bool := decide (b.P2OUT &&& GREEN_LED ≠ 0)


/-! ## Rounding -/

theorem bit_length_zero (fuel : Nat) : bit_length fuel 0 = 0 := by
  cases fuel <;> simp [bit_length]

theorem bit_length_spec : ∀ (fuel n : Nat), n ≤ fuel → 0 < n →
    2 ^ (bit_length fuel n - 1) ≤ n ∧ n < 2 ^ bit_length fuel n ∧ 0 < bit_length fuel n := by
  intro fuel
  induction fuel with
  | zero => intro n h1 h2; omega
  | succ fuel ih =>
    intro n h1 h2
    have hn : n ≠ 0 := by omega
    simp only [bit_length, hn, if_false, Nat.add_sub_cancel]
    rcases Nat.eq_zero_or_pos (n / 2) with h0 | h0
    · rw [h0, bit_length_zero]
      have : n = 1 := by omega
      subst this
      simp
    · obtain ⟨a, b, c⟩ := ih (n / 2) (by omega) h0
      refine ⟨?_, ?_, by omega⟩
      · have : 2 ^ bit_length fuel (n / 2) = 2 * 2 ^ (bit_length fuel (n / 2) - 1) := by
          rw [← pow_succ']
          congr 1
          omega
        omega
      · rw [pow_succ]
        omega

theorem two_zpow_split (k : Int) :
    (2 : ℚ) ^ k = (2 : ℚ) ^ k.toNat / (2 : ℚ) ^ (-k).toNat := by
  rcases le_total 0 k with h | h
  · lift k to ℕ using h
    have : (-(k : Int)).toNat = 0 := by omega
    rw [this]
    simp
  · obtain ⟨m, rfl⟩ : ∃ m : ℕ, k = -(m : Int) := ⟨(-k).toNat, by omega⟩
    have h1 : (-(m : Int)).toNat = 0 := by omega
    have h2 : (- -(m : Int)).toNat = m := by omega
    rw [h1, h2]
    simp [zpow_neg]

theorem leading_exponent_spec (n d : Nat) (hn : 0 < n) (hd : 0 < d) :
    (2 : ℚ) ^ leading_exponent n d ≤ (n : ℚ) / d
      ∧ (n : ℚ) / d < (2 : ℚ) ^ (leading_exponent n d + 1) := by
  obtain ⟨n1, n2, n3⟩ := bit_length_spec n n le_rfl hn
  obtain ⟨d1, d2, d3⟩ := bit_length_spec d d le_rfl hd
  have hdq : (0 : ℚ) < d := by exact_mod_cast hd
  have hnq : (0 : ℚ) < n := by exact_mod_cast hn
  have n1q : (2 : ℚ) ^ ((bit_length n n : Int) - 1) ≤ n := by
    have : ((bit_length n n : Int) - 1) = ((bit_length n n - 1 : Nat) : Int) := by omega
    rw [this, zpow_natCast]
    exact_mod_cast n1
  have n2q : (n : ℚ) < (2 : ℚ) ^ (bit_length n n : Int) := by
    rw [zpow_natCast]
    exact_mod_cast n2
  have d1q : (2 : ℚ) ^ ((bit_length d d : Int) - 1) ≤ d := by
    have : ((bit_length d d : Int) - 1) = ((bit_length d d - 1 : Nat) : Int) := by omega
    rw [this, zpow_natCast]
    exact_mod_cast d1
  have d2q : (d : ℚ) < (2 : ℚ) ^ (bit_length d d : Int) := by
    rw [zpow_natCast]
    exact_mod_cast d2
  have two : (0 : ℚ) < 2 := by norm_num
  have two0 : (2 : ℚ) ≠ 0 := by norm_num
  unfold leading_exponent
  simp only
  split
  · rename_i ht
    constructor
    · rw [two_zpow_split, div_le_div_iff₀ (by positivity) hdq]
      have : ((d * 2 ^ ((bit_length n n : Int) - (bit_length d d : Int)).toNat : Nat) : ℚ)
          ≤ ((n * 2 ^ (-((bit_length n n : Int) - (bit_length d d : Int))).toNat : Nat) : ℚ) := by
        exact_mod_cast ht
      push_cast at this
      linarith
    · rw [div_lt_iff₀ hdq]
      calc (n : ℚ) < (2 : ℚ) ^ (bit_length n n : Int) := n2q
        _ = (2 : ℚ) ^ ((bit_length n n : Int) - (bit_length d d : Int) + 1)
              * (2 : ℚ) ^ ((bit_length d d : Int) - 1) := by
            rw [← zpow_add₀ two0]
            congr 1
            ring
        _ ≤ (2 : ℚ) ^ ((bit_length n n : Int) - (bit_length d d : Int) + 1) * d :=
            mul_le_mul_of_nonneg_left d1q (by positivity)
  · rename_i ht
    constructor
    · rw [le_div_iff₀ hdq]
      calc (2 : ℚ) ^ ((bit_length n n : Int) - (bit_length d d : Int) - 1) * d
          ≤ (2 : ℚ) ^ ((bit_length n n : Int) - (bit_length d d : Int) - 1)
              * (2 : ℚ) ^ (bit_length d d : Int) :=
            mul_le_mul_of_nonneg_left d2q.le (by positivity)
        _ = (2 : ℚ) ^ ((bit_length n n : Int) - 1) := by
            rw [← zpow_add₀ two0]
            congr 1
            ring
        _ ≤ n := n1q
    · have e : (bit_length n n : Int) - (bit_length d d : Int) - 1 + 1
          = (bit_length n n : Int) - (bit_length d d : Int) := by ring
      rw [e, two_zpow_split, div_lt_div_iff₀ hdq (by positivity)]
      have : ((n * 2 ^ (-((bit_length n n : Int) - (bit_length d d : Int))).toNat : Nat) : ℚ)
          < ((d * 2 ^ ((bit_length n n : Int) - (bit_length d d : Int)).toNat : Nat) : ℚ) := by
        exact_mod_cast Nat.lt_of_not_le ht
      push_cast at this
      linarith

theorem round_half_even_err (n d : Nat) (hd : 0 < d) :
    |(round_half_even n d : ℚ) - (n : ℚ) / d| ≤ 1 / 2 := by
  have hdq : (0 : ℚ) < d := by exact_mod_cast hd
  have hsplit : (n : ℚ) = d * (n / d : Nat) + (n % d : Nat) := by
    exact_mod_cast (Nat.div_add_mod n d).symm
  have hr : ((n % d : Nat) : ℚ) < d := by exact_mod_cast Nat.mod_lt n hd
  have hr0 : (0 : ℚ) ≤ ((n % d : Nat) : ℚ) := by positivity
  have key : ∀ m : ℚ, |m * d - n| ≤ d / 2 → |m - (n : ℚ) / d| ≤ 1 / 2 := by
    intro m hm
    have : m - (n : ℚ) / d = (m * d - n) / d := by field_simp
    rw [this, abs_div, abs_of_pos hdq, div_le_iff₀ hdq]
    linarith
  apply key
  unfold round_half_even
  split
  · rename_i h
    have h2 : (2 : ℚ) * ((n % d : Nat) : ℚ) < d := by exact_mod_cast h
    rw [abs_le]
    constructor <;> nlinarith
  · split
    · rename_i h
      have h2 : (d : ℚ) < 2 * ((n % d : Nat) : ℚ) := by exact_mod_cast h
      push_cast
      rw [abs_le]
      constructor <;> nlinarith
    · rename_i h1 h2
      have h3 : (2 : ℚ) * ((n % d : Nat) : ℚ) = d := by
        have : 2 * (n % d) = d := by omega
        exact_mod_cast this
      split
      · rw [abs_le]
        constructor <;> nlinarith
      · push_cast
        rw [abs_le]
        constructor <;> nlinarith

theorem round_half_even_nearest (n d : Nat) (hd : 0 < d) (c : Int) :
    |(round_half_even n d : ℚ) - (n : ℚ) / d| ≤ |(c : ℚ) - (n : ℚ) / d| := by
  have h := round_half_even_err n d hd
  by_cases hc : c = (round_half_even n d : Int)
  · rw [hc]
    simp
  · have h1 : (1 : ℚ) ≤ |(c : ℚ) - (round_half_even n d : ℚ)| := by
      have : (1 : Int) ≤ |c - (round_half_even n d : Int)| := by
        have : c - (round_half_even n d : Int) ≠ 0 := sub_ne_zero.mpr hc
        exact Int.one_le_abs this
      exact_mod_cast this
    have h2 : |(c : ℚ) - (round_half_even n d : ℚ)|
        ≤ |(c : ℚ) - (n : ℚ) / d| + |(n : ℚ) / d - (round_half_even n d : ℚ)| :=
      abs_sub_le _ _ _
    rw [abs_sub_comm ((n : ℚ) / d)] at h2
    linarith

/-- The value of a `CDouble` as a sign times the quotient of the absolute values. -/
theorem toRat_sign_abs (x : CDouble) (hn : x.num ≠ 0) (hd : x.den ≠ 0) :
    ∃ s : ℚ, (s = 1 ∨ s = -1) ∧ ((x.num.sign * x.den.sign : Int) : ℚ) = s
      ∧ x.toRat = s * ((x.num.natAbs : ℚ) / (x.den.natAbs : ℚ)) := by
  have e1 : ((x.num.natAbs : Nat) : ℚ) = |(x.num : ℚ)| := by
    rw [Nat.cast_natAbs]; push_cast; rfl
  have e2 : ((x.den.natAbs : Nat) : ℚ) = |(x.den : ℚ)| := by
    rw [Nat.cast_natAbs]; push_cast; rfl
  have hnq : (x.num : ℚ) ≠ 0 := by exact_mod_cast hn
  have hdq : (x.den : ℚ) ≠ 0 := by exact_mod_cast hd
  unfold CDouble.toRat
  rw [e1, e2]
  rcases lt_or_gt_of_ne hn with h1 | h1 <;> rcases lt_or_gt_of_ne hd with h2 | h2
  · refine ⟨1, Or.inl rfl, ?_, ?_⟩
    · rw [Int.sign_eq_neg_one_of_neg h1, Int.sign_eq_neg_one_of_neg h2]; norm_num
    · have a : (x.num : ℚ) < 0 := by exact_mod_cast h1
      have b : (x.den : ℚ) < 0 := by exact_mod_cast h2
      rw [abs_of_neg a, abs_of_neg b, neg_div_neg_eq, one_mul]
  · refine ⟨-1, Or.inr rfl, ?_, ?_⟩
    · rw [Int.sign_eq_neg_one_of_neg h1, Int.sign_eq_one_of_pos h2]; norm_num
    · have a : (x.num : ℚ) < 0 := by exact_mod_cast h1
      have b : (0 : ℚ) < x.den := by exact_mod_cast h2
      rw [abs_of_neg a, abs_of_pos b]
      ring
  · refine ⟨-1, Or.inr rfl, ?_, ?_⟩
    · rw [Int.sign_eq_one_of_pos h1, Int.sign_eq_neg_one_of_neg h2]; norm_num
    · have a : (0 : ℚ) < x.num := by exact_mod_cast h1
      have b : (x.den : ℚ) < 0 := by exact_mod_cast h2
      rw [abs_of_pos a, abs_of_neg b, div_neg]
      ring
  · refine ⟨1, Or.inl rfl, ?_, ?_⟩
    · rw [Int.sign_eq_one_of_pos h1, Int.sign_eq_one_of_pos h2]; norm_num
    · have a : (0 : ℚ) < x.num := by exact_mod_cast h1
      have b : (0 : ℚ) < x.den := by exact_mod_cast h2
      rw [abs_of_pos a, abs_of_pos b, one_mul]

/-- What `CDouble.round` computes, for a value that is neither zero nor a division by
zero: with `s` the sign and `X` the magnitude of the value, the result is `s * m * 2 ^ e`,
where `2 ^ e` is the weight of the last of the `p` digits of `X` and `m` is an integer
nearest to `X / 2 ^ e`. -/
theorem round_core (p : Nat) (x : CDouble) (hn : x.num ≠ 0) (hd : x.den ≠ 0) :
    ∃ (s X : ℚ) (m : Nat) (e : Int), (s = 1 ∨ s = -1) ∧ 0 < X ∧ x.toRat = s * X
      ∧ (x.round p).toRat = s * ((m : ℚ) * (2 : ℚ) ^ e)
      ∧ (2 : ℚ) ^ (e + (p : Int) - 1) ≤ X ∧ X < (2 : ℚ) ^ (e + (p : Int))
      ∧ |(m : ℚ) - X / (2 : ℚ) ^ e| ≤ 1 / 2
      ∧ ∀ c : Int, |(m : ℚ) - X / (2 : ℚ) ^ e| ≤ |(c : ℚ) - X / (2 : ℚ) ^ e| := by
  obtain ⟨s, hs, hsign, hx⟩ := toRat_sign_abs x hn hd
  have hn0 : 0 < x.num.natAbs := Int.natAbs_pos.mpr hn
  have hd0 : 0 < x.den.natAbs := Int.natAbs_pos.mpr hd
  obtain ⟨hk1, hk2⟩ := leading_exponent_spec _ _ hn0 hd0
  have hnq : (0 : ℚ) < (x.num.natAbs : ℚ) := by exact_mod_cast hn0
  have hdq : (0 : ℚ) < (x.den.natAbs : ℚ) := by exact_mod_cast hd0
  have two0 : (2 : ℚ) ≠ 0 := by norm_num
  generalize hk : leading_exponent x.num.natAbs x.den.natAbs = k at hk1 hk2
  have hD : 0 < x.den.natAbs * 2 ^ (k - ((p : Int) - 1)).toNat := by positivity
  have hscaled : ((x.num.natAbs * 2 ^ (-(k - ((p : Int) - 1))).toNat : Nat) : ℚ)
      / ((x.den.natAbs * 2 ^ (k - ((p : Int) - 1)).toNat : Nat) : ℚ)
      = (x.num.natAbs : ℚ) / (x.den.natAbs : ℚ) / (2 : ℚ) ^ (k - ((p : Int) - 1)) := by
    rw [two_zpow_split (k - ((p : Int) - 1))]
    push_cast
    field_simp
  refine ⟨s, (x.num.natAbs : ℚ) / (x.den.natAbs : ℚ),
    round_half_even (x.num.natAbs * 2 ^ (-(k - ((p : Int) - 1))).toNat)
      (x.den.natAbs * 2 ^ (k - ((p : Int) - 1)).toNat),
    k - ((p : Int) - 1), hs, by positivity, hx, ?_, ?_, ?_, ?_, ?_⟩
  · unfold CDouble.round
    rw [if_neg (by simp [hn, hd])]
    simp only [hk]
    rw [two_zpow_split (k - ((p : Int) - 1))]
    generalize round_half_even (x.num.natAbs * 2 ^ (-(k - ((p : Int) - 1))).toNat)
      (x.den.natAbs * 2 ^ (k - ((p : Int) - 1)).toNat) = m
    generalize (k - ((p : Int) - 1)).toNat = a
    generalize (-(k - ((p : Int) - 1))).toNat = b
    have hgpos : 0 < Nat.gcd m (2 ^ b) := Nat.gcd_pos_of_pos_right _ (by positivity)
    have hg1 : Nat.gcd m (2 ^ b) ∣ m * 2 ^ a := Dvd.dvd.mul_right (Nat.gcd_dvd_left _ _) _
    have hg2 : Nat.gcd m (2 ^ b) ∣ 2 ^ b := Nat.gcd_dvd_right _ _
    have hgq : ((Nat.gcd m (2 ^ b) : Nat) : ℚ) ≠ 0 := by exact_mod_cast hgpos.ne'
    unfold CDouble.toRat
    simp only
    rw [Int.cast_mul, hsign, Int.cast_natCast, Int.cast_natCast, Nat.cast_div hg1 hgq,
      Nat.cast_div hg2 hgq, mul_div_assoc, div_div_div_cancel_right₀ hgq]
    push_cast
    rw [mul_div_assoc]
  · have : k - ((p : Int) - 1) + (p : Int) - 1 = k := by ring
    rw [this]
    exact hk1
  · have : k - ((p : Int) - 1) + (p : Int) = k + 1 := by ring
    rw [this]
    exact hk2
  · rw [← hscaled]
    exact round_half_even_err _ _ hD
  · intro c
    rw [← hscaled]
    exact round_half_even_nearest _ _ hD c

/-- Rounding moves a value by at most the fraction `2 ^ -p` of its magnitude. -/
theorem round_rel_err (p : Nat) (x : CDouble) :
    |(x.round p).toRat - x.toRat| ≤ |x.toRat| / (2 : ℚ) ^ p := by
  by_cases h0 : x.num = 0 ∨ x.den = 0
  · unfold CDouble.round
    rw [if_pos h0, sub_self, abs_zero]
    positivity
  · push_neg at h0
    obtain ⟨s, X, m, e, hs, hX, hx, hr, hlo, _, herr, _⟩ := round_core p x h0.1 h0.2
    have he : (0 : ℚ) < (2 : ℚ) ^ e := by positivity
    have habs : |s| = 1 := by rcases hs with h | h <;> rw [h] <;> norm_num
    have h1 : (x.round p).toRat - x.toRat = s * ((2 : ℚ) ^ e * ((m : ℚ) - X / (2 : ℚ) ^ e)) := by
      rw [hr, hx]
      field_simp
      ring
    have h2 : (2 : ℚ) ^ (e + (p : Int) - 1) = (2 : ℚ) ^ e * (2 : ℚ) ^ p / 2 := by
      rw [sub_eq_add_neg, zpow_add₀ (by norm_num : (2 : ℚ) ≠ 0),
        zpow_add₀ (by norm_num : (2 : ℚ) ≠ 0), zpow_natCast]
      norm_num
      ring
    rw [h1, abs_mul, habs, one_mul, abs_mul, abs_of_pos he, hx, abs_mul, habs, one_mul,
      abs_of_pos hX, le_div_iff₀ (by positivity)]
    rw [h2] at hlo
    have hp : (0 : ℚ) < (2 : ℚ) ^ p := by positivity
    calc (2 : ℚ) ^ e * |(m : ℚ) - X / (2 : ℚ) ^ e| * (2 : ℚ) ^ p
        ≤ (2 : ℚ) ^ e * (1 / 2) * (2 : ℚ) ^ p := by
          apply mul_le_mul_of_nonneg_right _ hp.le
          exact mul_le_mul_of_nonneg_left herr he.le
      _ = (2 : ℚ) ^ e * (2 : ℚ) ^ p / 2 := by ring
      _ ≤ X := hlo

/-- A value with at most `p` significant binary digits is not changed by rounding. -/
theorem round_exact (p : Nat) (x : CDouble) (i : Nat) (j : Int) (hi : i < 2 ^ p)
    (hx : |x.toRat| = (i : ℚ) * (2 : ℚ) ^ j) : (x.round p).toRat = x.toRat := by
  by_cases h0 : x.num = 0 ∨ x.den = 0
  · unfold CDouble.round
    rw [if_pos h0]
  · push_neg at h0
    obtain ⟨s, X, m, e, hs, hX, hxs, hr, hlo, _, _, hnear⟩ := round_core p x h0.1 h0.2
    have habs : |s| = 1 := by rcases hs with h | h <;> rw [h] <;> norm_num
    rw [hxs, abs_mul, habs, one_mul, abs_of_pos hX] at hx
    have two0 : (2 : ℚ) ≠ 0 := by norm_num
    have hj : (0 : ℚ) < (2 : ℚ) ^ j := by positivity
    have hiq : (i : ℚ) < (2 : ℚ) ^ (p : Int) := by
      rw [zpow_natCast]
      exact_mod_cast hi
    have hlt : (2 : ℚ) ^ (e + (p : Int) - 1) < (2 : ℚ) ^ ((p : Int) + j) := by
      calc (2 : ℚ) ^ (e + (p : Int) - 1) ≤ X := hlo
        _ = (i : ℚ) * (2 : ℚ) ^ j := hx
        _ < (2 : ℚ) ^ (p : Int) * (2 : ℚ) ^ j := mul_lt_mul_of_pos_right hiq hj
        _ = (2 : ℚ) ^ ((p : Int) + j) := (zpow_add₀ two0 _ _).symm
    have hej : e ≤ j := by
      have := (zpow_lt_zpow_iff_right₀ (by norm_num : (1 : ℚ) < 2)).mp hlt
      omega
    obtain ⟨t, ht⟩ : ∃ t : ℕ, j = e + (t : Int) := ⟨(j - e).toNat, by omega⟩
    have hc : X / (2 : ℚ) ^ e = ((i * 2 ^ t : Nat) : Int) := by
      rw [hx, ht, zpow_add₀ two0, zpow_natCast]
      push_cast
      field_simp
      ring
    have hm := hnear ((i * 2 ^ t : Nat) : Int)
    rw [hc, sub_self, abs_zero] at hm
    have hm2 : (m : ℚ) = ((i * 2 ^ t : Nat) : Int) := by
      have := abs_nonpos_iff.mp hm
      linarith
    rw [hr, hxs, hm2, ← hc]
    field_simp

/-- The result of rounding is a number of the format: at most `p` significant binary
digits. -/
theorem round_representable (p : Nat) (hp : 1 ≤ p) (x : CDouble) (hn : x.num ≠ 0)
    (hd : x.den ≠ 0) :
    ∃ (i : Nat) (j : Int), i < 2 ^ p ∧ |(x.round p).toRat| = (i : ℚ) * (2 : ℚ) ^ j := by
  obtain ⟨s, X, m, e, hs, hX, hxs, hr, _, hhi, herr, _⟩ := round_core p x hn hd
  have habs : |s| = 1 := by rcases hs with h | h <;> rw [h] <;> norm_num
  have two0 : (2 : ℚ) ≠ 0 := by norm_num
  have he : (0 : ℚ) < (2 : ℚ) ^ e := by positivity
  have hval : |(x.round p).toRat| = (m : ℚ) * (2 : ℚ) ^ e := by
    rw [hr, abs_mul, habs, one_mul, abs_of_nonneg (by positivity)]
  have hscaled : X / (2 : ℚ) ^ e < (2 : ℚ) ^ p := by
    rw [div_lt_iff₀ he, ← zpow_natCast, ← zpow_add₀ two0, add_comm]
    exact hhi
  have hm : m ≤ 2 ^ p := by
    have h1 := (abs_le.mp herr).2
    have h2 : (m : ℚ) < (2 : ℚ) ^ p + 1 := by linarith
    have h3 : m < 2 ^ p + 1 := by exact_mod_cast h2
    omega
  rcases Nat.lt_or_ge m (2 ^ p) with h | h
  · exact ⟨m, e, h, hval⟩
  · have hm2 : m = 2 ^ p := le_antisymm hm h
    refine ⟨1, e + (p : Int), Nat.one_lt_two_pow (by omega), ?_⟩
    rw [hval, hm2, zpow_add₀ two0, zpow_natCast]
    push_cast
    ring

/-- The result of rounding is a number of the format nearest to the value: no number
with at most `p` significant binary digits is nearer. -/
theorem round_nearest (p : Nat) (hp : 1 ≤ p) (x : CDouble) (y : ℚ) (i : Nat) (j : Int)
    (hi : i < 2 ^ p) (hy : |y| = (i : ℚ) * (2 : ℚ) ^ j) :
    |(x.round p).toRat - x.toRat| ≤ |y - x.toRat| := by
  by_cases h0 : x.num = 0 ∨ x.den = 0
  · unfold CDouble.round
    rw [if_pos h0, sub_self, abs_zero]
    exact abs_nonneg _
  · push_neg at h0
    obtain ⟨s, X, m, e, hs, hX, hxs, hr, hlo, _, herr, hnear⟩ := round_core p x h0.1 h0.2
    have habs : |s| = 1 := by rcases hs with h | h <;> rw [h] <;> norm_num
    have hss : s * s = 1 := by rcases hs with h | h <;> rw [h] <;> norm_num
    have two0 : (2 : ℚ) ≠ 0 := by norm_num
    have he : (0 : ℚ) < (2 : ℚ) ^ e := by positivity
    have hleft : |(x.round p).toRat - x.toRat| = (2 : ℚ) ^ e * |(m : ℚ) - X / (2 : ℚ) ^ e| := by
      have h1 : (x.round p).toRat - x.toRat
          = s * ((2 : ℚ) ^ e * ((m : ℚ) - X / (2 : ℚ) ^ e)) := by
        rw [hr, hxs]
        field_simp
        ring
      rw [h1, abs_mul, habs, one_mul, abs_mul, abs_of_pos he]
    -- the distance of a multiple of the last place to the value
    have hmult : ∀ c : Int, (2 : ℚ) ^ e * |(m : ℚ) - X / (2 : ℚ) ^ e|
        ≤ |(c : ℚ) * (2 : ℚ) ^ e - X| := by
      intro c
      have h1 : (c : ℚ) * (2 : ℚ) ^ e - X = (2 : ℚ) ^ e * ((c : ℚ) - X / (2 : ℚ) ^ e) := by
        field_simp
      rw [h1, abs_mul, abs_of_pos he]
      exact mul_le_mul_of_nonneg_left (hnear c) he.le
    have hp2 : (2 : ℚ) ^ (e + (p : Int) - 1) = (((2 ^ (p - 1) : Nat) : Int) : ℚ) * (2 : ℚ) ^ e := by
      have : e + (p : Int) - 1 = ((p - 1 : Nat) : Int) + e := by omega
      rw [this, zpow_add₀ two0, zpow_natCast]
      push_cast
      ring
    rw [hleft, hxs]
    -- write `y = s * Y`
    obtain ⟨Y, hY⟩ : ∃ Y : ℚ, y = s * Y := ⟨s * y, by rw [← mul_assoc, hss, one_mul]⟩
    have hYabs : |Y| = (i : ℚ) * (2 : ℚ) ^ j := by
      rw [← hy, hY, abs_mul, habs, one_mul]
    have hright : |y - s * X| = |Y - X| := by
      rw [hY, ← mul_sub, abs_mul, habs, one_mul]
    rw [hright]
    rcases lt_or_ge Y ((2 : ℚ) ^ (e + (p : Int) - 1)) with hsmall | hbig
    · -- below the binade of the value: the lower end of the binade is nearer
      have h1 := hmult ((2 ^ (p - 1) : Nat) : Int)
      rw [← hp2, abs_of_nonpos (show (2 : ℚ) ^ (e + (p : Int) - 1) - X ≤ 0 by linarith)] at h1
      rw [abs_of_nonpos (show Y - X ≤ 0 by linarith)]
      linarith
    · -- in or above the binade: a multiple of the last place
      have hYpos : 0 < Y := lt_of_lt_of_le (by positivity) hbig
      rw [abs_of_pos hYpos] at hYabs
      have hj : (0 : ℚ) < (2 : ℚ) ^ j := by positivity
      have hiq : (i : ℚ) < (2 : ℚ) ^ (p : Int) := by
        rw [zpow_natCast]
        exact_mod_cast hi
      have hlt : (2 : ℚ) ^ (e + (p : Int) - 1) < (2 : ℚ) ^ ((p : Int) + j) := by
        calc (2 : ℚ) ^ (e + (p : Int) - 1) ≤ Y := hbig
          _ = (i : ℚ) * (2 : ℚ) ^ j := hYabs
          _ < (2 : ℚ) ^ (p : Int) * (2 : ℚ) ^ j := mul_lt_mul_of_pos_right hiq hj
          _ = (2 : ℚ) ^ ((p : Int) + j) := (zpow_add₀ two0 _ _).symm
      have hej : e ≤ j := by
        have := (zpow_lt_zpow_iff_right₀ (by norm_num : (1 : ℚ) < 2)).mp hlt
        omega
      obtain ⟨t, ht⟩ : ∃ t : ℕ, j = e + (t : Int) := ⟨(j - e).toNat, by omega⟩
      have hYc : Y = (((i * 2 ^ t : Nat) : Int) : ℚ) * (2 : ℚ) ^ e := by
        rw [hYabs, ht, zpow_add₀ two0, zpow_natCast]
        push_cast
        ring
      rw [hYc]
      exact hmult _

@[simp] theorem Res.pure_eq {α : Type} (a : α) : (pure a : Res α) = Res.ok a := rfl

@[simp] theorem Res.ok_bind {α β : Type} (a : α) (f : α → Res β) :
    (Res.ok a >>= f) = f a := rfl

@[simp] theorem Res.abort_bind {α β : Type} (f : α → Res β) :
    ((Res.abort : Res α) >>= f) = Res.abort := rfl

@[simp] theorem Res.fuel_bind {α β : Type} (f : α → Res β) :
    ((Res.fuel : Res α) >>= f) = Res.fuel := rfl

theorem Res.bind_eq_ok {α β : Type} {x : Res α} {f : α → Res β} {b : β} :
    (x >>= f) = Res.ok b ↔ ∃ a, x = Res.ok a ∧ f a = Res.ok b := by
  cases x with
  | ok a => simp
  | abort => simp
  | fuel => simp

/-! ## Lists: reading, swapping -/

theorem getD_take_of_lt (l : List Int) {i n : Nat} (h : i < n) :
    (l.take n).getD i 0 = l.getD i 0 := by
  simp [List.getElem?_take_of_lt h]

theorem length_swap_at (l : List Int) (i j : Nat) : (swap_at l i j).length = l.length := by
  simp [swap_at]

theorem getD_swap_at_left (l : List Int) {i j : Nat} (hi : i < l.length) (hj : j < l.length) :
    (swap_at l i j).getD i 0 = l.getD j 0 := by
  unfold swap_at
  by_cases hij : i = j
  · subst hij; simp [hi]
  · simp [List.getElem?_set, hi, hj, hij, Ne.symm hij]

theorem getD_swap_at_right (l : List Int) {i j : Nat} (hj : j < l.length) :
    (swap_at l i j).getD j 0 = l.getD i 0 := by
  unfold swap_at
  simp [List.getElem?_set, hj]

theorem getD_swap_at_other (l : List Int) {i j k : Nat} (hi : k ≠ i) (hj : k ≠ j) :
    (swap_at l i j).getD k 0 = l.getD k 0 := by
  unfold swap_at
  simp [List.getElem?_set, Ne.symm hi, Ne.symm hj]

theorem swap_at_perm (l : List Int) {i j : Nat} (hi : i < l.length) (hj : j < l.length) :
    List.Perm (swap_at l i j) l := by
  rw [List.perm_iff_count]
  intro a
  unfold swap_at
  rw [List.count_set _ _ _ _ (by simpa using hj), List.count_set _ _ _ _ hi]
  have h1 : l[i] = a → 0 < l.count a := fun h => by
    subst h; exact List.count_pos_iff.mpr (List.getElem_mem hi)
  by_cases hij : i = j
  · subst hij
    simp [List.getElem?_eq_getElem hi]
    by_cases h : l[i] = a
    · have := h1 h
      simp [h]; omega
    · simp [h]
  · simp [List.getElem_set, hij, List.getElem?_eq_getElem hi, List.getElem?_eq_getElem hj]
    by_cases hia : l[i] = a <;> by_cases hja : l[j] = a <;> simp [hia, hja]
    · have := h1 hia
      omega
    · have := h1 hia
      omega

/-! ## Vector.c -/

theorem to_char_fits (n : Int) : fits_cell (to_char n) := by
  unfold fits_cell to_char
  omega

theorem to_char_of_fits {n : Int} (h : fits_cell n) : to_char n = n := by
  unfold fits_cell at h
  unfold to_char
  omega

theorem fits_getD {l : List Int} (h : ∀ x ∈ l, fits_cell x) (i : Nat) :
    fits_cell (l.getD i 0) := by
  by_cases hi : i < l.length
  · rw [List.getD_eq_getElem _ _ hi]
    exact h _ (List.getElem_mem hi)
  · rw [List.getD_eq_default _ _ (by omega)]
    decide

theorem fits_set {l : List Int} (h : ∀ x ∈ l, fits_cell x) (i : Nat) {a : Int}
    (ha : fits_cell a) : ∀ x ∈ l.set i a, fits_cell x := by
  intro x hx
  rcases List.mem_or_eq_of_mem_set hx with h1 | h1
  · exact h x h1
  · rw [h1]; exact ha

theorem vec_get_ok (v : Vector) {i : Nat} (h : i < v.size) :
    vec_get v (i : Int) = Res.ok (v.contents.getD i 0) := by
  have h2 : ((i : Int) ≥ 0 ∧ (i : Int) < (v.size : Int)) := ⟨by omega, by omega⟩
  unfold vec_get
  rw [if_pos h2, Vector.contents, getD_take_of_lt _ h]
  simp

theorem vec_get_eq_ok {v : Vector} {index x : Int} (h : vec_get v index = Res.ok x) :
    0 ≤ index ∧ index.toNat < v.size ∧ x = v.contents.getD index.toNat 0 := by
  unfold vec_get at h
  split at h
  · rename_i hc
    have hlt : index.toNat < v.size := by omega
    refine ⟨hc.1, hlt, ?_⟩
    rw [Vector.contents, getD_take_of_lt _ hlt]
    injection h with h
    exact h.symm
  · cases h

theorem contents_length {v : Vector} (h : v.wf) : v.contents.length = v.size := by
  unfold Vector.contents
  rw [List.length_take]
  exact Nat.min_eq_left h.2.1

theorem contents_fits {v : Vector} (h : v.wf) : ∀ x ∈ v.contents, fits_cell x :=
  fun x hx => h.2.2 x (List.mem_of_mem_take hx)

theorem vec_swap_ok {v : Vector} (hw : v.wf) {i j : Nat} (hi : i < v.size) (hj : j < v.size) :
    ∃ w, vec_swap v (i : Int) (j : Int) = Res.ok w ∧ w.contents = swap_at v.contents i j
      ∧ w.size = v.size ∧ w.capacity = v.capacity ∧ w.wf := by
  have hc : ((0 ≤ (i : Int) ∧ (i : Int) < (v.size : Int))
      ∧ (0 ≤ (j : Int) ∧ (j : Int) < (v.size : Int))) := ⟨⟨by omega, by omega⟩, by omega, by omega⟩
  unfold vec_swap
  rw [if_pos hc]
  refine ⟨_, rfl, ?_, rfl, rfl, ?_⟩
  · simp only [Vector.contents, swap_at, Int.toNat_ofNat, List.set_take]
    rw [getD_take_of_lt _ hi, getD_take_of_lt _ hj]
  · obtain ⟨h1, h2, h3⟩ := hw
    refine ⟨?_, ?_, ?_⟩
    · simpa using h1
    · simpa using h2
    · exact fits_set (fits_set h3 _ (fits_getD h3 _)) _ (fits_getD h3 _)

theorem vec_swap_eq_ok {v w : Vector} {a b : Int} (h : vec_swap v a b = Res.ok w) :
    0 ≤ a ∧ a.toNat < v.size ∧ 0 ≤ b ∧ b.toNat < v.size := by
  unfold vec_swap at h
  split at h
  · rename_i hc
    omega
  · cases h

theorem vec_pop_spec {v : Vector} (hw : v.wf) (hs : 0 < v.size) :
    (vec_pop v).2.contents = v.contents.take (v.size - 1) ∧ (vec_pop v).2.size = v.size - 1
      ∧ (vec_pop v).2.capacity = v.capacity ∧ (vec_pop v).2.wf := by
  have hne : v.size ≠ 0 := by omega
  unfold vec_pop
  rw [if_neg hne]
  refine ⟨?_, rfl, rfl, ?_⟩
  · simp only [Vector.contents, List.take_take]
    rw [Nat.min_eq_left (by omega)]
  · obtain ⟨h1, h2, h3⟩ := hw
    exact ⟨h1, by simp only; omega, h3⟩

theorem vec_allocate_eq_ok {capacity : Int} {v : Vector} (h : vec_allocate capacity = Res.ok v) :
    0 ≤ capacity ∧ v.size = 0 ∧ v.capacity = capacity ∧ v.wf ∧ v.contents = [] := by
  unfold vec_allocate at h
  split at h
  · rename_i hc
    injection h with h
    subst h
    refine ⟨hc, rfl, rfl, ⟨?_, ?_, ?_⟩, ?_⟩
    · simp
      omega
    · simp
    · intro x hx
      rw [(List.mem_replicate.mp hx).2]
      decide
    · simp [Vector.contents]
  · cases h

theorem vec_allocate_ok {capacity : Int} (h : 0 ≤ capacity) :
    ∃ v, vec_allocate capacity = Res.ok v := by
  unfold vec_allocate
  rw [if_pos h]
  exact ⟨_, rfl⟩

theorem vec_pushback_eq_ok {v w : Vector} {x : Int} (hw : v.wf) (h : vec_pushback v x = Res.ok w) :
    w.contents = v.contents ++ [to_char x] ∧ w.size = v.size + 1 ∧ w.wf
      ∧ v.capacity ≤ w.capacity ∧ 1 ≤ w.capacity
      ∧ ((v.size : Int) < v.capacity → w.capacity = v.capacity) ∧ 1 ≤ v.capacity := by
  unfold vec_pushback at h
  obtain ⟨hcap, hsz, hfit⟩ := hw
  split at h
  · rename_i hfull
    unfold _increase_capacity at h
    split at h
    · rename_i hlt
      simp only [Res.ok_bind, Res.pure_eq] at h
      injection h with h
      subst h
      have hlen : v.size = v.elems.length := by omega
      have htk : v.capacity.toNat = v.elems.length := by omega
      refine ⟨?_, rfl, ⟨?_, ?_, ?_⟩, ?_, ?_, ?_, by omega⟩
      · simp only [Vector.contents]
        rw [htk, List.take_length, hlen, List.take_length]
        have hpos : 0 < (2 * v.capacity - v.capacity).toNat := by omega
        obtain ⟨k, hk⟩ := Nat.exists_eq_succ_of_ne_zero (Nat.pos_iff_ne_zero.mp hpos)
        rw [hk, List.replicate_succ]
        rw [List.set_append_right _ _ (Nat.le_refl _)]
        simp only [Nat.sub_self, List.set_cons_zero]
        rw [List.take_append_eq_append_take, List.take_of_length_le (Nat.le_succ _)]
        simp
      · simp only [List.length_set, List.length_append, List.length_take, List.length_replicate]
        omega
      · simp only [List.length_set, List.length_append, List.length_take, List.length_replicate]
        omega
      · apply fits_set _ _ (to_char_fits x)
        intro y hy
        rcases List.mem_append.mp hy with h1 | h1
        · exact hfit y (List.mem_of_mem_take h1)
        · rw [(List.mem_replicate.mp h1).2]
          decide
      · simp only; omega
      · simp only; omega
      · intro hh; omega
    · simp at h
  · rename_i hnf
    simp only [Res.pure_eq, Res.ok_bind] at h
    injection h with h
    subst h
    have hlt : v.size < v.elems.length := by omega
    refine ⟨?_, rfl, ⟨?_, ?_, ?_⟩, ?_, ?_, ?_, by omega⟩
    · simp only [Vector.contents]
      rw [List.take_succ, List.set_take, List.set_eq_of_length_le (by simp)]
      simp [hlt]
    · simp only [List.length_set]
      omega
    · simp only [List.length_set]
      omega
    · exact fits_set hfit _ (to_char_fits x)
    · simp only; omega
    · simp only; omega
    · intro _; rfl

theorem vec_pushback_ok {v : Vector} (x : Int) (hc : 1 ≤ v.capacity) :
    ∃ w, vec_pushback v x = Res.ok w := by
  unfold vec_pushback
  split
  · unfold _increase_capacity
    rw [if_pos (by omega)]
    exact ⟨_, rfl⟩
  · exact ⟨_, rfl⟩


theorem test_iff (t : HEAP_TYPE) (c p : Int) :
    (if t = HEAP_TYPE.MIN then decide (c < p) else decide (c > p)) = decide (¬ heap_le t p c) := by
  cases t <;> simp [heap_le]

theorem heapify_top_bottom_step (fuel : Nat) (q : PriorityQueue) (hw : q.items.wf) (m : Nat) :
    _heapify_top_bottom (fuel + 1) q (m : Int) =
      if sift_target q.heap_type q.contents m ≠ m then
        vec_swap q.items (m : Int) (sift_target q.heap_type q.contents m : Nat) >>= fun v =>
          _heapify_top_bottom fuel { q with items := v } (sift_target q.heap_type q.contents m : Nat)
      else Res.ok q := by
  have hlen : q.contents.length = q.items.size := contents_length hw
  have e1 : (m : Int) * 2 + 1 = ((2 * m + 1 : Nat) : Int) := by push_cast; ring
  have e2 : (m : Int) * 2 + 2 = ((2 * m + 2 : Nat) : Int) := by push_cast; ring
  have n1 : ¬ (2 * (m : Int) + 1 = m) := by omega
  have n2 : ¬ (2 * (m : Int) + 2 = m) := by omega
  have n3 : ¬ (2 * m + 1 = m) := by omega
  have n4 : ¬ (2 * m + 2 = m) := by omega
  rw [_heapify_top_bottom]
  simp only [e1, e2, vec_size, sift_target, hlen]
  by_cases h1 : 2 * m + 1 < q.items.size
  · have hm : m < q.items.size := by omega
    have c1 : (!(decide (((2 * m + 1 : Nat) : Int) ≥ (q.items.size : Int))
        || decide (((2 * m + 1 : Nat) : Int) < 0))) = true := by
      simp; omega
    rw [if_pos c1, vec_get_ok _ h1, vec_get_ok _ hm]
    simp only [Res.ok_bind, Res.pure_eq, test_iff]
    by_cases h2 : 2 * m + 2 < q.items.size
    · have c2 : (!(decide (((2 * m + 2 : Nat) : Int) ≥ (q.items.size : Int))
          || decide (((2 * m + 2 : Nat) : Int) < 0))) = true := by
        simp; omega
      rw [if_pos c2, vec_get_ok _ h2]
      by_cases b1 : heap_le q.heap_type (q.items.contents.getD m 0)
          (q.items.contents.getD (2 * m + 1) 0)
      · simp only [b1, not_true_eq_false, decide_False, Bool.false_eq_true, if_false,
          and_false, h1, h2, true_and, PriorityQueue.contents]
        rw [vec_get_ok _ hm]
        simp only [Res.ok_bind, Res.pure_eq, test_iff]
        by_cases b2 : heap_le q.heap_type (q.items.contents.getD m 0)
            (q.items.contents.getD (2 * m + 2) 0)
        · simp [-List.getD_eq_getElem?_getD, b2, n1, n2, n3, n4]
        · simp [-List.getD_eq_getElem?_getD, b2, n1, n2, n3, n4]
      · simp only [b1, not_false_eq_true, decide_True, if_true,
          and_true, h1, h2, true_and, PriorityQueue.contents]
        rw [vec_get_ok _ h1]
        simp only [Res.ok_bind, Res.pure_eq, test_iff]
        by_cases b2 : heap_le q.heap_type (q.items.contents.getD (2 * m + 1) 0)
            (q.items.contents.getD (2 * m + 2) 0)
        · simp [-List.getD_eq_getElem?_getD, b2, n1, n2, n3, n4]
        · simp [-List.getD_eq_getElem?_getD, b2, n1, n2, n3, n4]
    · have c2 : ¬ (!(decide (((2 * m + 2 : Nat) : Int) ≥ (q.items.size : Int))
          || decide (((2 * m + 2 : Nat) : Int) < 0))) = true := by
        simp; omega
      rw [if_neg c2]
      by_cases b1 : heap_le q.heap_type (q.items.contents.getD m 0)
          (q.items.contents.getD (2 * m + 1) 0)
      · simp [-List.getD_eq_getElem?_getD, b1, h1, h2, PriorityQueue.contents, n1, n2, n3, n4]
      · simp [-List.getD_eq_getElem?_getD, b1, h1, h2, PriorityQueue.contents, n1, n2, n3, n4]
  · have h2 : ¬ 2 * m + 2 < q.items.size := by omega
    have c1 : ¬ (!(decide (((2 * m + 1 : Nat) : Int) ≥ (q.items.size : Int))
        || decide (((2 * m + 1 : Nat) : Int) < 0))) = true := by
      simp; omega
    have c2 : ¬ (!(decide (((2 * m + 2 : Nat) : Int) ≥ (q.items.size : Int))
        || decide (((2 * m + 2 : Nat) : Int) < 0))) = true := by
      simp; omega
    rw [if_neg c1]
    simp only [Res.ok_bind, Res.pure_eq]
    rw [if_neg c2]
    simp [h1, h2]

theorem heap_le_refl (t : HEAP_TYPE) (a : Int) : heap_le t a a := by
  cases t <;> simp [heap_le]

theorem heap_le_trans {t : HEAP_TYPE} {a b c : Int} (h1 : heap_le t a b) (h2 : heap_le t b c) :
    heap_le t a c := by
  cases t <;> simp only [heap_le] at * <;> omega

theorem heap_le_of_not {t : HEAP_TYPE} {a b : Int} (h : ¬ heap_le t a b) : heap_le t b a := by
  cases t <;> simp only [heap_le] at * <;> omega

theorem sift_target_cases (t : HEAP_TYPE) (l : List Int) (m : Nat) :
    (sift_target t l m = m
      ∧ (2 * m + 1 < l.length → heap_le t (l.getD m 0) (l.getD (2 * m + 1) 0))
      ∧ (2 * m + 2 < l.length → heap_le t (l.getD m 0) (l.getD (2 * m + 2) 0)))
    ∨ ((sift_target t l m = 2 * m + 1 ∨ sift_target t l m = 2 * m + 2)
      ∧ sift_target t l m < l.length
      ∧ heap_le t (l.getD (sift_target t l m) 0) (l.getD m 0)
      ∧ (2 * m + 1 < l.length →
          heap_le t (l.getD (sift_target t l m) 0) (l.getD (2 * m + 1) 0))
      ∧ (2 * m + 2 < l.length →
          heap_le t (l.getD (sift_target t l m) 0) (l.getD (2 * m + 2) 0))) := by
  unfold sift_target
  by_cases c1 : 2 * m + 1 < l.length ∧ ¬ heap_le t (l.getD m 0) (l.getD (2 * m + 1) 0)
  · simp only [c1, and_self, if_true, not_false_eq_true]
    by_cases c2 : 2 * m + 2 < l.length
        ∧ ¬ heap_le t (l.getD (2 * m + 1) 0) (l.getD (2 * m + 2) 0)
    · rw [if_pos c2]
      right
      refine ⟨Or.inr rfl, c2.1, ?_, ?_, fun _ => heap_le_refl _ _⟩
      · exact heap_le_trans (heap_le_of_not c2.2) (heap_le_of_not c1.2)
      · exact fun _ => heap_le_of_not c2.2
    · rw [if_neg c2]
      right
      refine ⟨Or.inl rfl, c1.1, heap_le_of_not c1.2, fun _ => heap_le_refl _ _, ?_⟩
      intro h2
      by_contra hn
      exact c2 ⟨h2, hn⟩
  · rw [if_neg c1]
    simp only
    by_cases c2 : 2 * m + 2 < l.length ∧ ¬ heap_le t (l.getD m 0) (l.getD (2 * m + 2) 0)
    · rw [if_pos c2]
      right
      refine ⟨Or.inr rfl, c2.1, heap_le_of_not c2.2, ?_, fun _ => heap_le_refl _ _⟩
      intro h1
      have : heap_le t (l.getD m 0) (l.getD (2 * m + 1) 0) := by
        by_contra hn
        exact c1 ⟨h1, hn⟩
      exact heap_le_trans (heap_le_of_not c2.2) this
    · rw [if_neg c2]
      left
      refine ⟨rfl, ?_, ?_⟩
      · intro h1
        by_contra hn
        exact c1 ⟨h1, hn⟩
      · intro h2
        by_contra hn
        exact c2 ⟨h2, hn⟩

theorem heapify_top_bottom_ok : ∀ (fuel : Nat) (q : PriorityQueue) (m k : Nat),
    q.items.wf → k ≤ m → q.items.size ≤ m + fuel →
    heap_from_except q.heap_type k m q.contents →
    (0 < m → k ≤ (m - 1) / 2 → ∀ c, c < q.contents.length → 0 < c → (c - 1) / 2 = m →
      heap_le q.heap_type (q.contents.getD ((m - 1) / 2) 0) (q.contents.getD c 0)) →
    ∃ r, _heapify_top_bottom (fuel + 1) q (m : Int) = Res.ok r
      ∧ heap_from q.heap_type k r.contents ∧ r.contents.Perm q.contents
      ∧ r.heap_type = q.heap_type ∧ r.items.wf ∧ r.items.size = q.items.size
      ∧ r.items.capacity = q.items.capacity := by
  intro fuel
  induction fuel with
  | zero =>
    intro q m k hw hkm hfuel hex hgp
    have hlen : q.contents.length = q.items.size := contents_length hw
    rw [heapify_top_bottom_step _ _ hw]
    rcases sift_target_cases q.heap_type q.contents m with ⟨hc, h1, h2⟩ | ⟨_, hlt, _⟩
    · rw [if_neg (by simpa using hc)]
      refine ⟨q, rfl, ?_, List.Perm.refl _, rfl, hw, rfl, rfl⟩
      intro j hj0 hjn hk
      by_cases hp : (j - 1) / 2 = m
      · omega
      · exact hex j hj0 hjn hk hp
    · omega
  | succ fuel ih =>
    intro q m k hw hkm hfuel hex hgp
    have hlen : q.contents.length = q.items.size := contents_length hw
    rw [heapify_top_bottom_step _ _ hw]
    rcases sift_target_cases q.heap_type q.contents m with ⟨hc, h1, h2⟩ | ⟨hc, hlt, hcm, hc1, hc2⟩
    · rw [if_neg (by simpa using hc)]
      refine ⟨q, rfl, ?_, List.Perm.refl _, rfl, hw, rfl, rfl⟩
      intro j hj0 hjn hk
      by_cases hp : (j - 1) / 2 = m
      · have : j = 2 * m + 1 ∨ j = 2 * m + 2 := by omega
        rw [hp]
        rcases this with rfl | rfl
        · exact h1 hjn
        · exact h2 hjn
      · exact hex j hj0 hjn hk hp
    · generalize hcdef : sift_target q.heap_type q.contents m = c at hc hlt hcm hc1 hc2
      have hcne : c ≠ m := by omega
      have hmn : m < q.items.size := by omega
      have hcn : c < q.items.size := by omega
      rw [if_pos hcne]
      obtain ⟨w, hsw, hwc, hws, hwcap, hww⟩ := vec_swap_ok hw hmn hcn
      rw [hsw, Res.ok_bind]
      have hpar : (c - 1) / 2 = m := by omega
      have hmL : m < q.contents.length := by omega
      have hcL : c < q.contents.length := by omega
      simp only [PriorityQueue.contents] at hex hgp hlen hlt hcm hc1 hc2 hmL hcL ih ⊢
      obtain ⟨r, hr, hrh, hrp, hrt, hrw, hrs, hrc⟩ :=
        ih { q with items := w } c k hww (by omega) (by simp only; omega)
          (by
            simp only [hwc]
            intro j hj0 hjn hkp hpc
            rw [length_swap_at] at hjn
            by_cases hp : (j - 1) / 2 = m
            · rw [hp, getD_swap_at_left _ hmL hcL]
              by_cases hjc : j = c
              · rw [hjc, getD_swap_at_right _ hcL]
                exact hcm
              · rw [getD_swap_at_other _ (by omega) hjc]
                have : j = 2 * m + 1 ∨ j = 2 * m + 2 := by omega
                rcases this with rfl | rfl
                · exact hc1 hjn
                · exact hc2 hjn
            · rw [getD_swap_at_other _ hp hpc]
              have hjc : j ≠ c := by
                intro h; rw [h] at hp; exact hp hpar
              by_cases hjm : j = m
              · rw [hjm, getD_swap_at_left _ hmL hcL]
                rw [hjm] at hkp hj0
                exact hgp hj0 hkp c hcL (by omega) hpar
              · rw [getD_swap_at_other _ hjm hjc]
                exact hex j hj0 hjn hkp hp)
          (by
            simp only [hwc]
            intro hc0 hkc d hd hd0 hdp
            rw [length_swap_at] at hd
            rw [hpar, getD_swap_at_left _ hmL hcL, getD_swap_at_other _ (by omega) (by omega)]
            have := hex d hd0 hd (by omega) (by omega)
            rw [hdp] at this
            exact this)
      refine ⟨r, hr, hrh, ?_, hrt, hrw, by rw [hrs]; exact hws, by rw [hrc]; exact hwcap⟩
      refine hrp.trans ?_
      simp only [hwc]
      exact swap_at_perm _ hmL hcL


theorem parent_index (i : Nat) : Int.tdiv ((i : Int) - 1) 2 = (((i - 1) / 2 : Nat) : Int) := by
  cases i with
  | zero => decide
  | succ n =>
    have h : ((n + 1 : Nat) : Int) - 1 = (n : Int) := by push_cast; ring
    rw [h, Int.tdiv_eq_ediv (by omega) (by omega)]
    simp

theorem heapify_bottom_top_step (fuel : Nat) (q : PriorityQueue) (i : Nat)
    (hi : i < q.items.size) :
    _heapify_bottom_top (fuel + 1) q (i : Int) =
      if ¬ heap_le q.heap_type (q.contents.getD ((i - 1) / 2) 0) (q.contents.getD i 0) then
        vec_swap q.items (((i - 1) / 2 : Nat) : Int) (i : Int) >>= fun v =>
          _heapify_bottom_top fuel { q with items := v } (((i - 1) / 2 : Nat) : Int)
      else Res.ok q := by
  have hp : (i - 1) / 2 < q.items.size := by omega
  rw [_heapify_bottom_top]
  simp only [parent_index]
  rw [vec_get_ok _ hp, vec_get_ok _ hi]
  simp only [Res.ok_bind, Res.pure_eq, PriorityQueue.contents]
  have e : ∀ c p : Int, (if q.heap_type = HEAP_TYPE.MIN then decide (p > c) else decide (p < c))
      = decide (¬ heap_le q.heap_type p c) := by
    intro c p
    cases q.heap_type <;> simp [heap_le]
  rw [e]
  simp only [decide_eq_true_eq]

theorem heap_from_zero_iff (t : HEAP_TYPE) (l : List Int) :
    heap_from t 0 l ↔ heap_property t l := by
  constructor
  · intro h i
    constructor
    · intro h1
      have := h (2 * i + 1) (by omega) h1 (by omega)
      have e : (2 * i + 1 - 1) / 2 = i := by omega
      rwa [e] at this
    · intro h2
      have := h (2 * i + 2) (by omega) h2 (by omega)
      have e : (2 * i + 2 - 1) / 2 = i := by omega
      rwa [e] at this
  · intro h j hj0 hjn _
    have hj : j = 2 * ((j - 1) / 2) + 1 ∨ j = 2 * ((j - 1) / 2) + 2 := by omega
    rcases hj with hj | hj
    · have := (h ((j - 1) / 2)).1 (by omega)
      rwa [← hj] at this
    · have := (h ((j - 1) / 2)).2 (by omega)
      rwa [← hj] at this

theorem heapify_bottom_top_ok : ∀ (fuel : Nat) (q : PriorityQueue) (i : Nat),
    q.items.wf → i < q.items.size → i ≤ fuel →
    heap_except_into q.heap_type i q.contents →
    (0 < i → ∀ d, d < q.contents.length → 0 < d → (d - 1) / 2 = i →
      heap_le q.heap_type (q.contents.getD ((i - 1) / 2) 0) (q.contents.getD d 0)) →
    ∃ r, _heapify_bottom_top (fuel + 1) q (i : Int) = Res.ok r
      ∧ heap_property q.heap_type r.contents ∧ r.contents.Perm q.contents
      ∧ r.heap_type = q.heap_type ∧ r.items.wf ∧ r.items.size = q.items.size
      ∧ r.items.capacity = q.items.capacity := by
  intro fuel
  induction fuel with
  | zero =>
    intro q i hw hi hfuel hex _
    have hi0 : i = 0 := by omega
    subst hi0
    rw [heapify_bottom_top_step _ _ _ hi]
    rw [if_neg (by simpa using heap_le_refl _ _)]
    refine ⟨q, rfl, ?_, List.Perm.refl _, rfl, hw, rfl, rfl⟩
    rw [← heap_from_zero_iff]
    intro j hj0 hjn _
    exact hex j hj0 hjn (by omega)
  | succ fuel ih =>
    intro q i hw hi hfuel hex hgp
    have hlen : q.contents.length = q.items.size := contents_length hw
    rw [heapify_bottom_top_step _ _ _ hi]
    by_cases hle : heap_le q.heap_type (q.contents.getD ((i - 1) / 2) 0) (q.contents.getD i 0)
    · rw [if_neg (by simpa using hle)]
      refine ⟨q, rfl, ?_, List.Perm.refl _, rfl, hw, rfl, rfl⟩
      rw [← heap_from_zero_iff]
      intro j hj0 hjn _
      by_cases hji : j = i
      · rw [hji]; exact hle
      · exact hex j hj0 hjn hji
    · rw [if_pos hle]
      have hi0 : 0 < i := by
        rcases Nat.eq_zero_or_pos i with h | h
        · subst h
          exact absurd (heap_le_refl _ _) hle
        · exact h
      generalize hpdef : (i - 1) / 2 = p at hle hgp
      have hpi : p < i := by omega
      have hpn : p < q.items.size := by omega
      obtain ⟨w, hsw, hwc, hws, hwcap, hww⟩ := vec_swap_ok hw hpn hi
      rw [hsw, Res.ok_bind]
      have hpL : p < q.contents.length := by omega
      have hiL : i < q.contents.length := by omega
      have hip : heap_le q.heap_type (q.contents.getD i 0) (q.contents.getD p 0) :=
        heap_le_of_not hle
      simp only [PriorityQueue.contents] at hex hgp hlen hpL hiL hip hle ih ⊢
      obtain ⟨r, hr, hrh, hrp, hrt, hrw, hrs, hrc⟩ :=
        ih { q with items := w } p hww (by simp only; omega) (by omega)
          (by
            simp only [hwc]
            intro j hj0 hjn hjp
            rw [length_swap_at] at hjn
            by_cases hji : j = i
            · rw [hji, hpdef, getD_swap_at_left _ hpL hiL, getD_swap_at_right _ hiL]
              exact hip
            · rw [getD_swap_at_other _ hjp hji]
              by_cases h1 : (j - 1) / 2 = p
              · rw [h1, getD_swap_at_left _ hpL hiL]
                have := hex j hj0 hjn hji
                rw [h1] at this
                exact heap_le_trans hip this
              · by_cases h2 : (j - 1) / 2 = i
                · rw [h2, getD_swap_at_right _ hiL]
                  exact hgp hi0 j hjn hj0 h2
                · rw [getD_swap_at_other _ h1 h2]
                  exact hex j hj0 hjn hji)
          (by
            simp only [hwc]
            intro hp0 d hd hd0 hdp
            rw [length_swap_at] at hd
            rw [getD_swap_at_other _ (by omega) (by omega)]
            have hgp_p := hex p hp0 hpL (by omega)
            by_cases hdi : d = i
            · rw [hdi, getD_swap_at_right _ hiL]
              exact hgp_p
            · rw [getD_swap_at_other _ (by omega) hdi]
              have := hex d hd0 hd hdi
              rw [hdp] at this
              exact heap_le_trans hgp_p this)
      refine ⟨r, hr, hrh, ?_, hrt, hrw, by rw [hrs]; exact hws, by rw [hrc]; exact hwcap⟩
      refine hrp.trans ?_
      simp only [hwc]
      exact swap_at_perm _ hpL hiL


/-! ## PriorityQueue.c: insert, peek, pop -/

theorem getD_append_single_lt (l : List Int) (x : Int) {j : Nat} (h : j < l.length) :
    (l ++ [x]).getD j 0 = l.getD j 0 := by
  rw [List.getD_append _ _ _ _ h]

theorem heap_property_parent {t : HEAP_TYPE} {l : List Int} (h : heap_property t l)
    {j : Nat} (hj0 : 0 < j) (hjn : j < l.length) :
    heap_le t (l.getD ((j - 1) / 2) 0) (l.getD j 0) :=
  (heap_from_zero_iff t l).mpr h j hj0 hjn (Nat.zero_le _)

theorem priorityqueue_insert_eq_ok {q r : PriorityQueue} {key : Int} (hw : q.wf)
    (h : priorityqueue_insert q key = Res.ok r) :
    r.wf ∧ r.contents.Perm (to_char key :: q.contents) ∧ r.heap_type = q.heap_type
      ∧ r.items.size = q.items.size + 1 ∧ q.items.capacity ≤ r.items.capacity
      ∧ 1 ≤ r.items.capacity ∧ 1 ≤ q.items.capacity := by
  unfold priorityqueue_insert at h
  obtain ⟨w, hpush, hsift⟩ := Res.bind_eq_ok.mp h
  obtain ⟨hwc, hws, hww, hcap, hcap1, _, hcap0⟩ := vec_pushback_eq_ok hw.1 hpush
  have hlen : q.items.contents.length = q.items.size := contents_length hw.1
  have hidx : ((w.size : Int) - 1) = ((q.items.size : Nat) : Int) := by rw [hws]; push_cast; ring
  rw [hidx] at hsift
  obtain ⟨r', hr', hrh, hrp, hrt, hrw, hrs, hrc⟩ :=
    heapify_bottom_top_ok w.size { q with items := w } q.items.size hww
      (by simp only; omega) (by omega)
      (by
        simp only [PriorityQueue.contents, hwc]
        intro j hj0 hjn hji
        rw [List.length_append, List.length_singleton] at hjn
        have hj : j < q.items.contents.length := by omega
        rw [getD_append_single_lt _ _ hj, getD_append_single_lt _ _ (by omega)]
        exact heap_property_parent hw.2 hj0 hj)
      (by
        simp only [PriorityQueue.contents, hwc]
        intro _ d hd hd0 hdp
        rw [List.length_append, List.length_singleton] at hd
        omega)
  rw [hr'] at hsift
  injection hsift with hsift
  subst hsift
  refine ⟨⟨hrw, by rw [hrt]; exact hrh⟩, ?_, hrt, by rw [hrs]; exact hws,
    by rw [hrc]; exact hcap, by rw [hrc]; exact hcap1, hcap0⟩
  refine hrp.trans ?_
  simp only [PriorityQueue.contents, hwc]
  exact List.perm_append_singleton _ _

theorem priorityqueue_insert_ok {q : PriorityQueue} (key : Int) (hw : q.wf)
    (hc : 1 ≤ q.items.capacity) : ∃ r, priorityqueue_insert q key = Res.ok r := by
  obtain ⟨w, hpush⟩ := @vec_pushback_ok q.items key hc
  obtain ⟨hwc, hws, hww, hcap, hcap1, _⟩ := vec_pushback_eq_ok hw.1 hpush
  have hlen : q.items.contents.length = q.items.size := contents_length hw.1
  have hidx : ((w.size : Int) - 1) = ((q.items.size : Nat) : Int) := by rw [hws]; push_cast; ring
  unfold priorityqueue_insert
  rw [hpush, Res.ok_bind, hidx]
  obtain ⟨r', hr', _⟩ :=
    heapify_bottom_top_ok w.size { q with items := w } q.items.size hww
      (by simp only; omega) (by omega)
      (by
        simp only [PriorityQueue.contents, hwc]
        intro j hj0 hjn hji
        rw [List.length_append, List.length_singleton] at hjn
        have hj : j < q.items.contents.length := by omega
        rw [getD_append_single_lt _ _ hj, getD_append_single_lt _ _ (by omega)]
        exact heap_property_parent hw.2 hj0 hj)
      (by
        simp only [PriorityQueue.contents, hwc]
        intro _ d hd hd0 hdp
        rw [List.length_append, List.length_singleton] at hd
        omega)
  exact ⟨r', hr'⟩

theorem priorityqueue_peek_ok {q : PriorityQueue} (hw : q.items.wf) (hs : 0 < q.items.size) :
    priorityqueue_peek q = Res.ok (q.contents.getD 0 0) := by
  unfold priorityqueue_peek vec_capacity
  have hc : q.items.capacity > 0 := by
    have := hw.1
    have := hw.2.1
    omega
  rw [if_pos hc]
  exact vec_get_ok _ hs

theorem priorityqueue_peek_eq_ok {q : PriorityQueue} {x : Int}
    (h : priorityqueue_peek q = Res.ok x) :
    0 < q.items.size ∧ x = q.contents.getD 0 0 := by
  unfold priorityqueue_peek at h
  split at h
  · obtain ⟨_, h2, h3⟩ := vec_get_eq_ok h
    exact ⟨by omega, h3⟩
  · cases h

/-- The root of a heap is in heap order with every element. -/
theorem root_extreme {t : HEAP_TYPE} {l : List Int} (h : heap_property t l) :
    ∀ j, j < l.length → heap_le t (l.getD 0 0) (l.getD j 0) := by
  intro j
  induction j using Nat.strong_induction_on with
  | _ j ih =>
    intro hj
    rcases Nat.eq_zero_or_pos j with h0 | h0
    · subst h0; exact heap_le_refl _ _
    · exact heap_le_trans (ih ((j - 1) / 2) (by omega) (by omega)) (heap_property_parent h h0 hj)

theorem mem_iff_getD {l : List Int} {x : Int} : x ∈ l ↔ ∃ j, j < l.length ∧ l.getD j 0 = x := by
  constructor
  · intro hx
    obtain ⟨j, hj, hjx⟩ := List.getElem_of_mem hx
    exact ⟨j, hj, by rw [List.getD_eq_getElem _ _ hj]; exact hjx⟩
  · rintro ⟨j, hj, hjx⟩
    rw [List.getD_eq_getElem _ _ hj] at hjx
    rw [← hjx]
    exact List.getElem_mem hj

theorem root_extreme_mem {t : HEAP_TYPE} {l : List Int} (h : heap_property t l) :
    ∀ x ∈ l, heap_le t (l.getD 0 0) x := by
  intro x hx
  obtain ⟨j, hj, hjx⟩ := mem_iff_getD.mp hx
  rw [← hjx]
  exact root_extreme h j hj

theorem take_pred_append_last (l : List Int) (h : 0 < l.length) :
    l.take (l.length - 1) ++ [l.getD (l.length - 1) 0] = l := by
  have h1 : l.length - 1 < l.length := by omega
  rw [List.getD_eq_getElem _ _ h1]
  have := @List.take_succ Int l (l.length - 1)
  rw [List.getElem?_eq_getElem h1] at this
  simp only [Option.toList] at this
  rw [← this]
  have e : l.length - 1 + 1 = l.length := by omega
  rw [e, List.take_length]

theorem priorityqueue_pop_root_ok {q : PriorityQueue} (hw : q.wf) (hs : 0 < q.items.size) :
    ∃ r, priorityqueue_pop_root q = Res.ok (q.contents.getD 0 0, r)
      ∧ r.wf ∧ (q.contents.getD 0 0 :: r.contents).Perm q.contents
      ∧ r.heap_type = q.heap_type ∧ r.items.size = q.items.size - 1
      ∧ r.items.capacity = q.items.capacity := by
  have hlen : q.items.contents.length = q.items.size := contents_length hw.1
  unfold priorityqueue_pop_root
  simp only [gt_iff_lt, hs, if_true]
  have hg : vec_get q.items 0 = Res.ok (q.items.contents.getD 0 0) := vec_get_ok q.items hs
  rw [hg]
  simp only [Res.ok_bind]
  have hidx : ((q.items.size : Int) - 1) = ((q.items.size - 1 : Nat) : Int) := by omega
  rw [hidx]
  obtain ⟨w, hsw, hwc, hws, hwcap, hww⟩ :=
    vec_swap_ok hw.1 hs (show q.items.size - 1 < q.items.size by omega)
  have hsw0 : vec_swap q.items 0 ((q.items.size - 1 : Nat) : Int) = Res.ok w := hsw
  rw [hsw0]
  simp only [Res.ok_bind]
  obtain ⟨hpc, hps, hpcap, hpw⟩ := vec_pop_spec hww (by omega)
  have hlast : (0 : Int) = ((0 : Nat) : Int) := rfl
  have hfuel : (vec_pop w).2.size + 1 = (q.items.size - 1) + 1 := by rw [hps, hws]
  rw [hfuel]
  obtain ⟨r, hr, hrh, hrp, hrt, hrw, hrs, hrc⟩ :=
    heapify_top_bottom_ok (q.items.size - 1) { q with items := (vec_pop w).2 } 0 0 hpw
      (Nat.le_refl _) (by simp only; omega)
      (by
        simp only [PriorityQueue.contents, hpc, hwc, hws]
        intro j hj0 hjn hk hp
        rw [List.length_take, length_swap_at, hlen] at hjn
        rw [getD_take_of_lt _ (by omega), getD_take_of_lt _ (by omega),
          getD_swap_at_other _ (by omega) (by omega), getD_swap_at_other _ (by omega) (by omega)]
        exact heap_property_parent hw.2 hj0 (by rw [PriorityQueue.contents, hlen]; omega))
      (by intro h; omega)
  refine ⟨r, ?_, ⟨hrw, by rw [hrt]; exact (heap_from_zero_iff _ _).mp hrh⟩, ?_, hrt,
    by rw [hrs, hps, hws],
    by rw [hrc, hpcap, hwcap]⟩
  · have hr0 : _heapify_top_bottom (q.items.size - 1 + 1)
        { q with items := (vec_pop w).2 } 0 = Res.ok r := hr
    rw [hr0]
    rfl
  · have hperm : (q.items.contents.getD 0 0 :: r.contents).Perm
        (q.items.contents.getD 0 0 :: (vec_pop w).2.contents) := List.Perm.cons _ hrp
    refine hperm.trans ?_
    rw [hpc, hwc, hws]
    have hsl : (swap_at q.items.contents 0 (q.items.size - 1)).length = q.items.size := by
      rw [length_swap_at, hlen]
    have := take_pred_append_last (swap_at q.items.contents 0 (q.items.size - 1)) (by omega)
    rw [hsl, getD_swap_at_right _ (by omega)] at this
    have hp2 := @swap_at_perm q.items.contents 0 (q.items.size - 1)
      (by omega) (by omega)
    rw [← this] at hp2
    exact (List.perm_append_singleton _ _).symm.trans hp2


/-! ## PriorityQueue.c: rebuild and delete -/

theorem rebuild_heap_loop_ok : ∀ (i : Nat) (q : PriorityQueue),
    q.items.wf → heap_from q.heap_type i q.contents →
    ∃ r, _rebuild_heap_loop i q = Res.ok r
      ∧ heap_property q.heap_type r.contents ∧ r.contents.Perm q.contents
      ∧ r.heap_type = q.heap_type ∧ r.items.wf ∧ r.items.size = q.items.size
      ∧ r.items.capacity = q.items.capacity := by
  intro i
  induction i with
  | zero =>
    intro q hw hh
    exact ⟨q, rfl, (heap_from_zero_iff _ _).mp hh, List.Perm.refl _, rfl, hw, rfl, rfl⟩
  | succ i ih =>
    intro q hw hh
    obtain ⟨r1, hr1, hh1, hp1, ht1, hw1, hs1, hc1⟩ :=
      heapify_top_bottom_ok q.items.size q i i hw (Nat.le_refl _) (by omega)
        (fun j hj0 hjn hk hne => hh j hj0 hjn (by omega))
        (fun h0 hk => by omega)
    rw [_rebuild_heap_loop, hr1, Res.ok_bind]
    obtain ⟨r, hr, hh2, hp2, ht2, hw2, hs2, hc2⟩ := ih r1 hw1 (by rw [ht1]; exact hh1)
    exact ⟨r, hr, by rw [← ht1]; exact hh2, hp2.trans hp1, by rw [ht2, ht1], hw2,
      by rw [hs2, hs1], by rw [hc2, hc1]⟩

theorem rebuild_heap_ok (q : PriorityQueue) (hw : q.items.wf) :
    ∃ r, _rebuild_heap q = Res.ok r
      ∧ heap_property q.heap_type r.contents ∧ r.contents.Perm q.contents
      ∧ r.heap_type = q.heap_type ∧ r.items.wf ∧ r.items.size = q.items.size
      ∧ r.items.capacity = q.items.capacity := by
  unfold _rebuild_heap
  have hlen : q.contents.length = q.items.size := contents_length hw
  have e : (Int.tdiv (vec_size q.items) 2 - 1 + 1).toNat = q.items.size / 2 := by
    unfold vec_size
    rw [Int.tdiv_eq_ediv (by omega) (by omega)]
    omega
  simp only [e]
  apply rebuild_heap_loop_ok _ _ hw
  intro j hj0 hjn hk
  omega

theorem priorityqueue_delete_loop_ok (items : Vector) (key : Int) (hw : items.wf) :
    ∀ (k i : Nat) (f : Vector) (num : Int), f.wf → i + k = items.size →
      ((f.size + k : Nat) : Int) ≤ f.capacity →
      ∃ g, priorityqueue_delete_loop items key k (i : Int) f num
          = Res.ok (g, num + ((items.contents.drop i).count key : Nat))
        ∧ g.contents = f.contents ++ (items.contents.drop i).filter (fun x => decide (x ≠ key))
        ∧ g.wf ∧ g.capacity = f.capacity := by
  have hlen : items.contents.length = items.size := contents_length hw
  intro k
  induction k with
  | zero =>
    intro i f num hf hik _
    have hd : items.contents.drop i = [] := List.drop_eq_nil_of_le (by omega)
    refine ⟨f, ?_, ?_, hf, rfl⟩
    · rw [priorityqueue_delete_loop, hd]
      simp
    · rw [hd]; simp
  | succ k ih =>
    intro i f num hf hik hcap
    have hi : i < items.size := by omega
    have hiL : i < items.contents.length := by omega
    have hd : items.contents.drop i = items.contents.getD i 0 :: items.contents.drop (i + 1) := by
      rw [List.getD_eq_getElem _ _ hiL]
      exact List.drop_eq_getElem_cons hiL
    have hcast : ((i : Int) + 1) = ((i + 1 : Nat) : Int) := by push_cast; ring
    rw [priorityqueue_delete_loop, vec_get_ok _ hi, Res.ok_bind, hcast, hd]
    by_cases hk : items.contents.getD i 0 = key
    · rw [if_neg (by simpa using hk)]
      obtain ⟨g, hg, hgc, hgw, hgcap⟩ := ih (i + 1) f (num + 1) hf (by omega) (by omega)
      refine ⟨g, ?_, ?_, hgw, hgcap⟩
      · rw [hg, List.count_cons, hk]
        simp only [beq_self_eq_true, if_true]
        push_cast
        congr 2
        ring
      · rw [hgc, List.filter_cons, hk]
        simp
    · rw [if_pos hk]
      obtain ⟨f1, hf1⟩ := @vec_pushback_ok f (items.contents.getD i 0) (by omega)
      obtain ⟨hc1, hs1, hw1, _, _, hcap1, _⟩ := vec_pushback_eq_ok hf hf1
      rw [to_char_of_fits (fits_getD (contents_fits hw) i)] at hc1
      rw [hf1, Res.ok_bind]
      obtain ⟨g, hg, hgc, hgw, hgcap⟩ := ih (i + 1) f1 num hw1 (by omega)
        (by rw [hcap1 (by omega), hs1]; omega)
      refine ⟨g, ?_, ?_, hgw, by rw [hgcap, hcap1 (by omega)]⟩
      · rw [hg, List.count_cons]
        simp [-List.getD_eq_getElem?_getD, hk]
      · rw [hgc, hc1, List.filter_cons]
        simp [-List.getD_eq_getElem?_getD, hk]

theorem priorityqueue_delete_ok (q : PriorityQueue) (key : Int) (hw : q.wf) :
    ∃ r, priorityqueue_delete q key = Res.ok (((q.contents.count key : Nat) : Int), r)
      ∧ r.wf ∧ r.contents.Perm (q.contents.filter (fun x => decide (x ≠ key)))
      ∧ r.heap_type = q.heap_type ∧ r.items.capacity = q.items.capacity
      ∧ (key ∉ q.contents → r = q) := by
  have hlen : q.items.contents.length = q.items.size := contents_length hw.1
  have hcap0 : 0 ≤ q.items.capacity := by
    have := hw.1.1
    omega
  obtain ⟨f, hf⟩ := vec_allocate_ok hcap0
  obtain ⟨_, hfs, hfcap, hfw, hfc⟩ := vec_allocate_eq_ok hf
  obtain ⟨g, hg, hgc, hgw, hgcap⟩ := priorityqueue_delete_loop_ok q.items key hw.1
    q.items.size 0 f 0 hfw (by omega)
    (by
      have := hw.1.1
      have := hw.1.2.1
      rw [hfs, hfcap]; omega)
  have hg0 : priorityqueue_delete_loop q.items key q.items.size 0 f 0
      = Res.ok (g, ((q.items.contents.count key : Nat) : Int)) := by
    have := hg
    simp only [List.drop_zero, zero_add] at this
    exact this
  unfold priorityqueue_delete
  rw [hf, Res.ok_bind, hg0, Res.ok_bind]
  simp only [List.drop_zero, hfc, List.nil_append] at hgc
  by_cases hpos : ((q.items.contents.count key : Nat) : Int) > 0
  · simp only [hpos, if_true]
    obtain ⟨r, hr, hrh, hrp, hrt, hrw, hrs, hrc⟩ := rebuild_heap_ok { q with items := g } hgw
    rw [hr]
    refine ⟨r, rfl, ⟨hrw, by rw [hrt]; exact hrh⟩, ?_, hrt, by rw [hrc]; exact hgcap.trans hfcap, ?_⟩
    · refine hrp.trans ?_
      simp only [PriorityQueue.contents, hgc]
      exact List.Perm.refl _
    · intro hnot
      have : q.items.contents.count key = 0 := List.count_eq_zero_of_not_mem hnot
      omega
  · simp only [hpos, if_false]
    refine ⟨q, rfl, hw, ?_, rfl, rfl, fun _ => rfl⟩
    have hz : q.items.contents.count key = 0 := by omega
    have hnot : key ∉ q.items.contents := List.count_eq_zero.mp hz
    simp only [PriorityQueue.contents]
    rw [List.filter_eq_self.mpr]
    intro a ha
    simp only [ne_eq, decide_eq_true_eq]
    intro h
    exact hnot (h ▸ ha)


/-! ## PriorityQueue.c: the minimum of a max heap -/

theorem max_heap_get_min_loop_ok (items : Vector) :
    ∀ (k i : Nat) (cur : Int), i + k = items.size →
      ∃ v, max_heap_get_min_loop items k (i : Int) cur = Res.ok v ∧ v ≤ cur
        ∧ (∀ j, i ≤ j → j < items.size → v ≤ items.contents.getD j 0)
        ∧ (v = cur ∨ ∃ j, i ≤ j ∧ j < items.size ∧ v = items.contents.getD j 0) := by
  intro k
  induction k with
  | zero =>
    intro i cur hik
    exact ⟨cur, rfl, Int.le_refl _, fun j h1 h2 => by omega, Or.inl rfl⟩
  | succ k ih =>
    intro i cur hik
    have hi : i < items.size := by omega
    have hcast : ((i : Int) + 1) = ((i + 1 : Nat) : Int) := by push_cast; ring
    rw [max_heap_get_min_loop, vec_get_ok _ hi, Res.ok_bind, hcast]
    obtain ⟨v, hv, hle, hall, hex⟩ :=
      ih (i + 1) (if cur < items.contents.getD i 0 then cur else items.contents.getD i 0)
        (by omega)
    refine ⟨v, hv, ?_, ?_, ?_⟩
    · split at hle <;> omega
    · intro j hj1 hj2
      rcases Nat.eq_or_lt_of_le hj1 with h | h
      · rw [← h]
        split at hle <;> omega
      · exact hall j (by omega) hj2
    · rcases hex with h | ⟨j, h1, h2, h3⟩
      · split at h
        · exact Or.inl h
        · exact Or.inr ⟨i, Nat.le_refl _, hi, h⟩
      · exact Or.inr ⟨j, by omega, h2, h3⟩

/-- In a max heap every element dominates some element of the last row. -/
theorem max_heap_leaf_below {l : List Int} (h : heap_property HEAP_TYPE.MAX l) :
    ∀ (d j : Nat), l.length - j ≤ d → j < l.length →
      ∃ e, l.length / 2 ≤ e ∧ e < l.length ∧ l.getD e 0 ≤ l.getD j 0 := by
  intro d
  induction d with
  | zero => intro j h1 h2; omega
  | succ d ih =>
    intro j h1 h2
    by_cases hj : l.length / 2 ≤ j
    · exact ⟨j, hj, h2, Int.le_refl _⟩
    · have hc : 2 * j + 1 < l.length := by omega
      obtain ⟨e, he1, he2, he3⟩ := ih (2 * j + 1) (by omega) hc
      have := (h j).1 hc
      simp only [heap_le] at this
      exact ⟨e, he1, he2, by omega⟩

theorem max_heap_get_min_ok {q : PriorityQueue} (hw : q.wf) (ht : q.heap_type = HEAP_TYPE.MAX)
    (hs : 0 < q.items.size) :
    ∃ v, max_heap_get_min q = Res.ok v ∧ v ∈ q.contents ∧ ∀ x ∈ q.contents, v ≤ x := by
  have hlen : q.items.contents.length = q.items.size := contents_length hw.1
  unfold max_heap_get_min vec_size
  have hc : ((q.items.size : Int) > 0 ∧ q.heap_type = HEAP_TYPE.MAX) := ⟨by omega, ht⟩
  rw [if_pos hc]
  have e1 : Int.tdiv (q.items.size : Int) 2 = ((q.items.size / 2 : Nat) : Int) := by
    rw [Int.tdiv_eq_ediv (by omega) (by omega)]
    simp
  have e2 : (1 : Int) + ((q.items.size / 2 : Nat) : Int) = ((q.items.size / 2 + 1 : Nat) : Int) := by
    push_cast; ring
  have e3 : ((q.items.size : Int) - ((q.items.size / 2 + 1 : Nat) : Int)).toNat
      = q.items.size - (q.items.size / 2 + 1) := by omega
  have hhalf : q.items.size / 2 < q.items.size := by omega
  simp only []
  rw [e1, e2, e3, vec_get_ok _ hhalf, Res.ok_bind]
  obtain ⟨v, hv, hle, hall, hex⟩ := max_heap_get_min_loop_ok q.items
    (q.items.size - (q.items.size / 2 + 1)) (q.items.size / 2 + 1)
    (q.items.contents.getD (q.items.size / 2) 0) (by omega)
  refine ⟨v, hv, ?_, ?_⟩
  · apply mem_iff_getD.mpr
    rcases hex with h | ⟨j, h1, h2, h3⟩
    · exact ⟨q.items.size / 2, by rw [PriorityQueue.contents, hlen]; exact hhalf, h.symm⟩
    · exact ⟨j, by rw [PriorityQueue.contents, hlen]; exact h2, h3.symm⟩
  · intro x hx
    obtain ⟨j, hj, hjx⟩ := mem_iff_getD.mp hx
    have hmax : heap_property HEAP_TYPE.MAX q.contents := by rw [← ht]; exact hw.2
    obtain ⟨e, he1, he2, he3⟩ := max_heap_leaf_below hmax q.contents.length j (by omega) hj
    rw [PriorityQueue.contents, hlen] at he1 he2
    rw [← hjx]
    refine Int.le_trans ?_ he3
    rcases Nat.eq_or_lt_of_le he1 with h | h
    · rw [← h]; exact hle
    · exact hall e (by omega) he2


/-! ## MedianHeap.c: rebalancing -/

theorem rebalance_unfold (fuel : Nat) (h : MedianHeap) :
    _rebalance (fuel + 1) h = rebalance_step h >>= fun h1 =>
      if h1.gap > 1 then _rebalance fuel h1 else Res.ok h1 := by
  rw [_rebalance]
  unfold rebalance_step MedianHeap.gap
  split
  · split
    · rcases priorityqueue_pop_root h.maxHeap with ⟨pop, mh⟩ | _ | _
      · simp only [Res.ok_bind]
        rcases priorityqueue_insert h.minHeap pop with m | _ | _ <;> rfl
      · rfl
      · rfl
    · rcases priorityqueue_pop_root h.minHeap with ⟨pop, mh⟩ | _ | _
      · simp only [Res.ok_bind]
        rcases priorityqueue_insert h.maxHeap pop with m | _ | _ <;> rfl
      · rfl
      · rfl
  · rfl

theorem gap_eq (h : MedianHeap) :
    h.gap = ((h.maxHeap.items.size : Int) - (h.minHeap.items.size : Int)).natAbs := rfl

theorem balanced_iff (h : MedianHeap) : h.balanced ↔ h.gap ≤ 1 := Iff.rfl

theorem size_zero_of_cap_zero {v : Vector} (hw : v.wf) (hc : v.capacity = 0) : v.size = 0 := by
  have := hw.1
  have := hw.2.1
  omega

theorem gap_le_of_cap_zero {h : MedianHeap} (hw : h.wf)
    (hc : h.maxHeap.items.capacity = 0 ∧ h.minHeap.items.capacity = 0) : h.gap ≤ 1 := by
  rw [gap_eq, size_zero_of_cap_zero hw.1.1 hc.1, size_zero_of_cap_zero hw.2.1.1 hc.2]
  decide

theorem rebalance_step_eq_ok {h r : MedianHeap} (hw : h.wf) (hr : rebalance_step h = Res.ok r) :
    r.wf ∧ r.elements.Perm h.elements ∧ r.sum = h.sum ∧ (h.ordered → r.ordered)
      ∧ (h.cap_pos → r.cap_pos)
      ∧ (h.gap > 1 → r.gap = h.gap - 2)
      ∧ (h.gap ≤ 1 → r = h) := by
  obtain ⟨hmax, hmin, htmax, htmin⟩ := hw
  unfold rebalance_step at hr
  have hg := gap_eq h
  by_cases hgap : (priorityqueue_size h.maxHeap - priorityqueue_size h.minHeap).natAbs > 1
  · rw [if_pos hgap] at hr
    have hgap2 : h.gap > 1 := hgap
    simp only [priorityqueue_size, vec_size] at hr hgap
    by_cases hdir : (h.maxHeap.items.size : Int) > (h.minHeap.items.size : Int)
    · rw [if_pos hdir] at hr
      obtain ⟨p, hp, hpw, hpperm, hpt, hps, hpc⟩ :=
        priorityqueue_pop_root_ok hmax (by omega)
      rw [hp, Res.ok_bind] at hr
      obtain ⟨m, hm, hr2⟩ := Res.bind_eq_ok.mp hr
      obtain ⟨hmw, hmperm, hmt, hms, hmc, hmc1, _⟩ := priorityqueue_insert_eq_ok hmin hm
      simp only [Res.pure_eq] at hr2
      injection hr2 with hr2
      subst hr2
      have hroot : fits_cell (h.maxHeap.contents.getD 0 0) := fits_getD (contents_fits hmax.1) 0
      rw [to_char_of_fits hroot] at hmperm
      refine ⟨⟨hpw, hmw, by rw [hpt]; exact htmax, by rw [hmt]; exact htmin⟩, ?_, rfl, ?_, ?_,
        ?_, ?_⟩
      · simp only [MedianHeap.elements]
        have h1 : (p.contents ++ m.contents).Perm
            (p.contents ++ (h.maxHeap.contents.getD 0 0 :: h.minHeap.contents)) :=
          List.Perm.append_left _ hmperm
        refine h1.trans ?_
        refine List.perm_middle.trans ?_
        have h2 : (h.maxHeap.contents.getD 0 0 :: p.contents ++ h.minHeap.contents).Perm
            (h.maxHeap.contents ++ h.minHeap.contents) := List.Perm.append_right _ hpperm
        exact h2
      · intro hord x hx y hy
        have hxm : x ∈ h.maxHeap.contents := hpperm.subset (List.mem_cons_of_mem _ hx)
        rcases List.mem_cons.mp (hmperm.subset hy) with hy1 | hy1
        · rw [hy1]
          have := root_extreme_mem hmax.2 x hxm
          rw [htmax] at this
          exact this
        · exact hord x hxm y hy1
      · intro hcp
        exact ⟨by rw [hpc]; exact hcp.1, hmc1⟩
      · intro _
        rw [gap_eq, hg]
        simp only [hps, hms]
        omega
      · intro hle; omega
    · rw [if_neg hdir] at hr
      obtain ⟨p, hp, hpw, hpperm, hpt, hps, hpc⟩ :=
        priorityqueue_pop_root_ok hmin (by omega)
      rw [hp, Res.ok_bind] at hr
      obtain ⟨m, hm, hr2⟩ := Res.bind_eq_ok.mp hr
      obtain ⟨hmw, hmperm, hmt, hms, hmc, hmc1, _⟩ := priorityqueue_insert_eq_ok hmax hm
      simp only [Res.pure_eq] at hr2
      injection hr2 with hr2
      subst hr2
      have hroot : fits_cell (h.minHeap.contents.getD 0 0) := fits_getD (contents_fits hmin.1) 0
      rw [to_char_of_fits hroot] at hmperm
      refine ⟨⟨hmw, hpw, by rw [hmt]; exact htmax, by rw [hpt]; exact htmin⟩, ?_, rfl, ?_, ?_,
        ?_, ?_⟩
      · simp only [MedianHeap.elements]
        have h1 : (m.contents ++ p.contents).Perm
            ((h.minHeap.contents.getD 0 0 :: h.maxHeap.contents) ++ p.contents) :=
          List.Perm.append_right _ hmperm
        refine h1.trans ?_
        have h2 : (h.maxHeap.contents ++ (h.minHeap.contents.getD 0 0 :: p.contents)).Perm
            (h.maxHeap.contents ++ h.minHeap.contents) := List.Perm.append_left _ hpperm
        refine List.Perm.trans ?_ h2
        exact List.perm_middle.symm
      · intro hord x hx y hy
        have hym : y ∈ h.minHeap.contents := hpperm.subset (List.mem_cons_of_mem _ hy)
        rcases List.mem_cons.mp (hmperm.subset hx) with hx1 | hx1
        · rw [hx1]
          have := root_extreme_mem hmin.2 y hym
          rw [htmin] at this
          exact this
        · exact hord x hx1 y hym
      · intro hcp
        exact ⟨hmc1, by rw [hpc]; exact hcp.2⟩
      · intro _
        rw [gap_eq, hg]
        simp only [hps, hms]
        omega
      · intro hle; omega
  · rw [if_neg hgap] at hr
    simp only [Res.pure_eq] at hr
    injection hr with hr
    subst hr
    have hgap2 : ¬ h.gap > 1 := hgap
    exact ⟨⟨hmax, hmin, htmax, htmin⟩, List.Perm.refl _, rfl, fun x => x, fun x => x,
      fun hh => absurd hh hgap2, fun _ => rfl⟩

theorem rebalance_step_ok {h : MedianHeap} (hw : h.wf) (hc : h.cap_pos) :
    ∃ r, rebalance_step h = Res.ok r := by
  obtain ⟨hmax, hmin, htmax, htmin⟩ := hw
  unfold rebalance_step
  by_cases hgap : (priorityqueue_size h.maxHeap - priorityqueue_size h.minHeap).natAbs > 1
  · rw [if_pos hgap]
    simp only [priorityqueue_size, vec_size] at hgap ⊢
    by_cases hdir : (h.maxHeap.items.size : Int) > (h.minHeap.items.size : Int)
    · rw [if_pos hdir]
      obtain ⟨p, hp, _⟩ := priorityqueue_pop_root_ok hmax (by omega)
      obtain ⟨m, hm⟩ := priorityqueue_insert_ok (h.maxHeap.contents.getD 0 0) hmin hc.2
      rw [hp, Res.ok_bind, hm, Res.ok_bind]
      exact ⟨_, rfl⟩
    · rw [if_neg hdir]
      obtain ⟨p, hp, _⟩ := priorityqueue_pop_root_ok hmin (by omega)
      obtain ⟨m, hm⟩ := priorityqueue_insert_ok (h.minHeap.contents.getD 0 0) hmax hc.1
      rw [hp, Res.ok_bind, hm, Res.ok_bind]
      exact ⟨_, rfl⟩
  · rw [if_neg hgap]
    exact ⟨h, rfl⟩

theorem rebalance_eq_ok : ∀ (fuel : Nat) {h r : MedianHeap}, h.wf → _rebalance fuel h = Res.ok r →
    r.wf ∧ r.balanced ∧ r.elements.Perm h.elements ∧ r.sum = h.sum ∧ (h.ordered → r.ordered)
      ∧ (h.cap_pos → r.cap_pos) ∧ (h.gap ≤ 1 → r = h) ∧ (h.cap_ok → r.cap_ok) := by
  intro fuel
  induction fuel with
  | zero =>
    intro h r _ hr
    rw [_rebalance] at hr
    cases hr
  | succ fuel ih =>
    intro h r hw hr
    rw [rebalance_unfold] at hr
    obtain ⟨h1, hs, hr1⟩ := Res.bind_eq_ok.mp hr
    obtain ⟨hw1, hp1, hsum1, hord1, hcap1, hgap1, hsame1⟩ := rebalance_step_eq_ok hw hs
    by_cases hg : h1.gap > 1
    · rw [if_pos hg] at hr1
      obtain ⟨hw2, hb2, hp2, hsum2, hord2, hcap2, _, _⟩ := ih hw1 hr1
      have hsame : h.gap ≤ 1 → r = h := by
        intro hle
        rw [hsame1 hle] at hg
        omega
      refine ⟨hw2, hb2, hp2.trans hp1, by rw [hsum2, hsum1], fun ho => hord2 (hord1 ho),
        fun hc => hcap2 (hcap1 hc), hsame, ?_⟩
      rintro (hc | hc)
      · exact Or.inl (hcap2 (hcap1 hc))
      · rw [hsame (gap_le_of_cap_zero hw hc)]
        exact Or.inr hc
    · rw [if_neg hg] at hr1
      injection hr1 with hr1
      subst hr1
      refine ⟨hw1, by rw [balanced_iff]; omega, hp1, hsum1, hord1, hcap1, hsame1, ?_⟩
      rintro (hc | hc)
      · exact Or.inl (hcap1 hc)
      · rw [hsame1 (gap_le_of_cap_zero hw hc)]
        exact Or.inr hc

theorem rebalance_ok : ∀ (fuel : Nat) {h : MedianHeap}, h.wf → h.cap_pos → h.gap < fuel + 1 →
    ∃ r, _rebalance (fuel + 1) h = Res.ok r := by
  intro fuel
  induction fuel with
  | zero =>
    intro h hw hc hf
    obtain ⟨h1, hs⟩ := rebalance_step_ok hw hc
    obtain ⟨_, _, _, _, _, hgap1, hsame⟩ := rebalance_step_eq_ok hw hs
    rw [rebalance_unfold, hs, Res.ok_bind]
    have : ¬ h1.gap > 1 := by rw [hsame (by omega)]; omega
    rw [if_neg this]
    exact ⟨h1, rfl⟩
  | succ fuel ih =>
    intro h hw hc hf
    obtain ⟨h1, hs⟩ := rebalance_step_ok hw hc
    obtain ⟨hw1, _, _, _, hcap1, hgap1, hsame1⟩ := rebalance_step_eq_ok hw hs
    rw [rebalance_unfold, hs, Res.ok_bind]
    by_cases hg : h1.gap > 1
    · rw [if_pos hg]
      apply ih hw1 (hcap1 hc)
      by_cases hh : h.gap > 1
      · rw [hgap1 hh]; omega
      · rw [hsame1 (by omega)] at hg
        omega
    · rw [if_neg hg]
      exact ⟨h1, rfl⟩

theorem rebalance_balanced {h : MedianHeap} (fuel : Nat) (hb : h.gap ≤ 1) :
    _rebalance (fuel + 1) h = Res.ok h := by
  rw [rebalance_unfold]
  have hs : rebalance_step h = Res.ok h := by
    unfold rebalance_step
    have : ¬ (priorityqueue_size h.maxHeap - priorityqueue_size h.minHeap).natAbs > 1 := by
      have := hb
      unfold MedianHeap.gap at this
      omega
    rw [if_neg this]
    rfl
  rw [hs, Res.ok_bind, if_neg (by omega)]


/-! ## MedianHeap.c: insert, delete_all, create -/

theorem insert_unfold (h : MedianHeap) (n : Int) :
    medianheap_insert h n = insert_place h n >>= fun h1 =>
      _rebalance (rebalance_budget { h1 with sum := h1.sum + n }) { h1 with sum := h1.sum + n } := by
  unfold medianheap_insert insert_place
  split
  · rcases priorityqueue_insert h.minHeap n with m | _ | _ <;> rfl
  · rcases medianheap_get_median h with m | _ | _
    · simp only [Res.ok_bind]
      split
      · rcases priorityqueue_insert h.maxHeap n with m | _ | _ <;> rfl
      · rcases priorityqueue_insert h.minHeap n with m | _ | _ <;> rfl
    · rfl
    · rfl

theorem is_empty_iff (h : MedianHeap) :
    medianheap_is_empty h = true ↔ h.minHeap.items.size = 0 ∧ h.maxHeap.items.size = 0 := by
  unfold medianheap_is_empty priorityqueue_size vec_size
  simp

/-- The median as computed by the code: which roots it reads, and the value. -/
theorem get_median_ok {h : MedianHeap} (hw : h.wf)
    (hne : ¬ (h.minHeap.items.size = 0 ∧ h.maxHeap.items.size = 0)) :
    medianheap_get_median h = Res.ok
      (if h.maxHeap.items.size = h.minHeap.items.size then
        ((CDouble.ofInt (h.maxHeap.contents.getD 0 0)).add
          (CDouble.ofInt (h.minHeap.contents.getD 0 0))).divInt 2
      else if h.maxHeap.items.size > h.minHeap.items.size then
        CDouble.ofInt (h.maxHeap.contents.getD 0 0)
      else CDouble.ofInt (h.minHeap.contents.getD 0 0)) := by
  obtain ⟨hmax, hmin, _, _⟩ := hw
  unfold medianheap_get_median priorityqueue_size vec_size
  by_cases heq : h.maxHeap.items.size = h.minHeap.items.size
  · have c : ((h.maxHeap.items.size : Int) = (h.minHeap.items.size : Int)) := by omega
    rw [if_pos c, if_pos heq, priorityqueue_peek_ok hmax.1 (by omega),
      priorityqueue_peek_ok hmin.1 (by omega)]
    rfl
  · have c : ¬ ((h.maxHeap.items.size : Int) = (h.minHeap.items.size : Int)) := by omega
    rw [if_neg c, if_neg heq]
    by_cases hgt : h.maxHeap.items.size > h.minHeap.items.size
    · have c2 : ((h.maxHeap.items.size : Int) > (h.minHeap.items.size : Int)) := by omega
      rw [if_pos c2, if_pos hgt, priorityqueue_peek_ok hmax.1 (by omega)]
      rfl
    · have c2 : ¬ ((h.maxHeap.items.size : Int) > (h.minHeap.items.size : Int)) := by omega
      rw [if_neg c2, if_neg hgt, priorityqueue_peek_ok hmin.1 (by omega)]
      rfl

theorem mem_contents_getD_zero {q : PriorityQueue} (hw : q.items.wf) (hs : 0 < q.items.size) :
    q.contents.getD 0 0 ∈ q.contents :=
  mem_iff_getD.mpr ⟨0, by rw [PriorityQueue.contents, contents_length hw]; exact hs, rfl⟩

theorem insert_place_eq_ok {h r : MedianHeap} {n : Int} (hw : h.wf)
    (hr : insert_place h n = Res.ok r) :
    r.wf ∧ r.elements.Perm (to_char n :: h.elements) ∧ r.sum = h.sum
      ∧ (h.cap_pos → r.cap_pos) ∧ (fits_cell n → h.ordered → r.ordered)
      ∧ (h.cap_ok → r.cap_ok) := by
  obtain ⟨hmax, hmin, htmax, htmin⟩ := hw
  have hmaxlen : h.maxHeap.contents.length = h.maxHeap.items.size := contents_length hmax.1
  have hminlen : h.minHeap.contents.length = h.minHeap.items.size := contents_length hmin.1
  -- the two possible placements
  have into_min : ∀ m, priorityqueue_insert h.minHeap n = Res.ok m →
      (fits_cell n → h.ordered → ∀ x ∈ h.maxHeap.contents, x ≤ n) →
      ({ h with minHeap := m } : MedianHeap).wf
        ∧ ({ h with minHeap := m } : MedianHeap).elements.Perm (to_char n :: h.elements)
        ∧ (h.cap_pos → ({ h with minHeap := m } : MedianHeap).cap_pos)
        ∧ (fits_cell n → h.ordered → ({ h with minHeap := m } : MedianHeap).ordered)
        ∧ (h.cap_ok → ({ h with minHeap := m } : MedianHeap).cap_ok) := by
    intro m hm hle
    obtain ⟨hmw, hmperm, hmt, hms, hmc, hmc1, hmc0⟩ := priorityqueue_insert_eq_ok hmin hm
    refine ⟨⟨hmax, hmw, htmax, by rw [hmt]; exact htmin⟩, ?_, fun hc => ⟨hc.1, hmc1⟩, ?_, ?_⟩
    rotate_left 2
    · rintro (hc | hc)
      · exact Or.inl ⟨hc.1, hmc1⟩
      · omega
    · simp only [MedianHeap.elements]
      exact (List.Perm.append_left _ hmperm).trans List.perm_middle
    · intro hfit hord x hx y hy
      rw [to_char_of_fits hfit] at hmperm
      rcases List.mem_cons.mp (hmperm.subset hy) with hy1 | hy1
      · rw [hy1]; exact hle hfit hord x hx
      · exact hord x hx y hy1
  have into_max : ∀ m, priorityqueue_insert h.maxHeap n = Res.ok m →
      (fits_cell n → h.ordered → ∀ y ∈ h.minHeap.contents, n ≤ y) →
      ({ h with maxHeap := m } : MedianHeap).wf
        ∧ ({ h with maxHeap := m } : MedianHeap).elements.Perm (to_char n :: h.elements)
        ∧ (h.cap_pos → ({ h with maxHeap := m } : MedianHeap).cap_pos)
        ∧ (fits_cell n → h.ordered → ({ h with maxHeap := m } : MedianHeap).ordered)
        ∧ (h.cap_ok → ({ h with maxHeap := m } : MedianHeap).cap_ok) := by
    intro m hm hle
    obtain ⟨hmw, hmperm, hmt, hms, hmc, hmc1, hmc0⟩ := priorityqueue_insert_eq_ok hmax hm
    refine ⟨⟨hmw, hmin, by rw [hmt]; exact htmax, htmin⟩, ?_, fun hc => ⟨hmc1, hc.2⟩, ?_, ?_⟩
    rotate_left 2
    · rintro (hc | hc)
      · exact Or.inl ⟨hmc1, hc.2⟩
      · omega
    · simp only [MedianHeap.elements]
      exact List.Perm.append_right _ hmperm
    · intro hfit hord x hx y hy
      rw [to_char_of_fits hfit] at hmperm
      rcases List.mem_cons.mp (hmperm.subset hx) with hx1 | hx1
      · rw [hx1]; exact hle hfit hord y hy
      · exact hord x hx1 y hy
  have root_max : ∀ x ∈ h.maxHeap.contents, x ≤ h.maxHeap.contents.getD 0 0 := by
    intro x hx
    have := root_extreme_mem hmax.2 x hx
    rw [htmax] at this
    exact this
  have root_min : ∀ y ∈ h.minHeap.contents, h.minHeap.contents.getD 0 0 ≤ y := by
    intro y hy
    have := root_extreme_mem hmin.2 y hy
    rw [htmin] at this
    exact this
  unfold insert_place at hr
  by_cases hemp : medianheap_is_empty h = true
  · rw [if_pos hemp] at hr
    obtain ⟨m, hm, hr2⟩ := Res.bind_eq_ok.mp hr
    simp only [Res.pure_eq] at hr2
    injection hr2 with hr2
    subst hr2
    obtain ⟨h1, h2, h3, h4, h5'⟩ := into_min m hm (by
      intro _ _ x hx
      have h0 := ((is_empty_iff h).mp hemp).2
      rw [← hmaxlen] at h0
      rw [List.length_eq_zero.mp h0] at hx
      cases hx)
    exact ⟨h1, h2, rfl, h3, h4, h5'⟩
  · rw [if_neg hemp] at hr
    have hne : ¬ (h.minHeap.items.size = 0 ∧ h.maxHeap.items.size = 0) :=
      fun hh => hemp ((is_empty_iff h).mpr hh)
    rw [get_median_ok ⟨hmax, hmin, htmax, htmin⟩ hne, Res.ok_bind] at hr
    by_cases heq : h.maxHeap.items.size = h.minHeap.items.size
    · have hmaxpos : 0 < h.maxHeap.items.size := by omega
      have hminpos : 0 < h.minHeap.items.size := by omega
      have ha := mem_contents_getD_zero hmax.1 hmaxpos
      have hb := mem_contents_getD_zero hmin.1 hminpos
      rw [if_pos heq] at hr
      simp only [CDouble.lt, CDouble.ofInt, CDouble.add, CDouble.divInt, decide_eq_true_eq] at hr
      by_cases hlt : n * (1 * 1 * 2) <
          (h.maxHeap.contents.getD 0 0 * 1 + h.minHeap.contents.getD 0 0 * 1) * 1
      · rw [if_pos hlt] at hr
        obtain ⟨m, hm, hr2⟩ := Res.bind_eq_ok.mp hr
        simp only [Res.pure_eq] at hr2
        injection hr2 with hr2
        subst hr2
        obtain ⟨h1, h2, h3, h4, h5'⟩ := into_max m hm (by
          intro _ hord y hy
          have h5 := root_min y hy
          have h6 := hord _ ha _ hb
          omega)
        exact ⟨h1, h2, rfl, h3, h4, h5'⟩
      · rw [if_neg hlt] at hr
        obtain ⟨m, hm, hr2⟩ := Res.bind_eq_ok.mp hr
        simp only [Res.pure_eq] at hr2
        injection hr2 with hr2
        subst hr2
        obtain ⟨h1, h2, h3, h4, h5'⟩ := into_min m hm (by
          intro _ hord x hx
          have h5 := root_max x hx
          have h6 := hord _ ha _ hb
          omega)
        exact ⟨h1, h2, rfl, h3, h4, h5'⟩
    · rw [if_neg heq] at hr
      by_cases hgt : h.maxHeap.items.size > h.minHeap.items.size
      · have hmaxpos : 0 < h.maxHeap.items.size := by omega
        have ha := mem_contents_getD_zero hmax.1 hmaxpos
        rw [if_pos hgt] at hr
        simp only [CDouble.lt, CDouble.ofInt, decide_eq_true_eq] at hr
        by_cases hlt : n * 1 < h.maxHeap.contents.getD 0 0 * 1
        · rw [if_pos hlt] at hr
          obtain ⟨m, hm, hr2⟩ := Res.bind_eq_ok.mp hr
          simp only [Res.pure_eq] at hr2
          injection hr2 with hr2
          subst hr2
          obtain ⟨h1, h2, h3, h4, h5'⟩ := into_max m hm (by
            intro _ hord y hy
            have h6 := hord _ ha _ hy
            omega)
          exact ⟨h1, h2, rfl, h3, h4, h5'⟩
        · rw [if_neg hlt] at hr
          obtain ⟨m, hm, hr2⟩ := Res.bind_eq_ok.mp hr
          simp only [Res.pure_eq] at hr2
          injection hr2 with hr2
          subst hr2
          obtain ⟨h1, h2, h3, h4, h5'⟩ := into_min m hm (by
            intro _ hord x hx
            have h5 := root_max x hx
            omega)
          exact ⟨h1, h2, rfl, h3, h4, h5'⟩
      · have hminpos : 0 < h.minHeap.items.size := by omega
        have hb := mem_contents_getD_zero hmin.1 hminpos
        rw [if_neg hgt] at hr
        simp only [CDouble.lt, CDouble.ofInt, decide_eq_true_eq] at hr
        by_cases hlt : n * 1 < h.minHeap.contents.getD 0 0 * 1
        · rw [if_pos hlt] at hr
          obtain ⟨m, hm, hr2⟩ := Res.bind_eq_ok.mp hr
          simp only [Res.pure_eq] at hr2
          injection hr2 with hr2
          subst hr2
          obtain ⟨h1, h2, h3, h4, h5'⟩ := into_max m hm (by
            intro _ hord y hy
            have h5 := root_min y hy
            omega)
          exact ⟨h1, h2, rfl, h3, h4, h5'⟩
        · rw [if_neg hlt] at hr
          obtain ⟨m, hm, hr2⟩ := Res.bind_eq_ok.mp hr
          simp only [Res.pure_eq] at hr2
          injection hr2 with hr2
          subst hr2
          obtain ⟨h1, h2, h3, h4, h5'⟩ := into_min m hm (by
            intro _ hord x hx
            have h6 := hord _ hx _ hb
            omega)
          exact ⟨h1, h2, rfl, h3, h4, h5'⟩

theorem insert_place_ok {h : MedianHeap} (n : Int) (hw : h.wf) (hc : h.cap_pos) :
    ∃ r, insert_place h n = Res.ok r := by
  obtain ⟨m1, hm1⟩ := priorityqueue_insert_ok n hw.1 hc.1
  obtain ⟨m2, hm2⟩ := priorityqueue_insert_ok n hw.2.1 hc.2
  unfold insert_place
  by_cases hemp : medianheap_is_empty h = true
  · rw [if_pos hemp, hm2]
    exact ⟨_, rfl⟩
  · have hne : ¬ (h.minHeap.items.size = 0 ∧ h.maxHeap.items.size = 0) :=
      fun hh => hemp ((is_empty_iff h).mpr hh)
    rw [if_neg hemp, get_median_ok hw hne, Res.ok_bind]
    generalize (if h.maxHeap.items.size = h.minHeap.items.size then
        ((CDouble.ofInt (h.maxHeap.contents.getD 0 0)).add
          (CDouble.ofInt (h.minHeap.contents.getD 0 0))).divInt 2
      else if h.maxHeap.items.size > h.minHeap.items.size then
        CDouble.ofInt (h.maxHeap.contents.getD 0 0)
      else CDouble.ofInt (h.minHeap.contents.getD 0 0)) = med
    by_cases hlt : (CDouble.ofInt n).lt med = true
    · rw [if_pos hlt, hm1]; exact ⟨_, rfl⟩
    · rw [if_neg hlt, hm2]; exact ⟨_, rfl⟩


/-! ## MedianHeap.c: the mutating calls -/

theorem gap_lt_budget (h : MedianHeap) : h.gap < rebalance_budget h := by
  rw [gap_eq]
  unfold rebalance_budget
  omega

theorem medianheap_insert_eq_ok {h r : MedianHeap} {n : Int} (hw : h.wf)
    (hr : medianheap_insert h n = Res.ok r) :
    r.wf ∧ r.balanced ∧ r.elements.Perm (to_char n :: h.elements) ∧ r.sum = h.sum + n
      ∧ (h.cap_pos → r.cap_pos) ∧ (fits_cell n → h.ordered → r.ordered)
      ∧ (h.cap_ok → r.cap_ok) := by
  rw [insert_unfold] at hr
  obtain ⟨h1, hp, hr1⟩ := Res.bind_eq_ok.mp hr
  obtain ⟨hw1, hperm1, hsum1, hcap1, hord1, hcok1⟩ := insert_place_eq_ok hw hp
  obtain ⟨hw2, hb2, hperm2, hsum2, hord2, hcap2, _, hcok2⟩ :=
    @rebalance_eq_ok _ { h1 with sum := h1.sum + n } _ hw1 hr1
  exact ⟨hw2, hb2, hperm2.trans hperm1, by rw [hsum2]; simp only [hsum1],
    fun hc => hcap2 (hcap1 hc), fun hf ho => hord2 (hord1 hf ho), fun hc => hcok2 (hcok1 hc)⟩

theorem medianheap_insert_ok {h : MedianHeap} (n : Int) (hw : h.wf) (hc : h.cap_pos) :
    ∃ r, medianheap_insert h n = Res.ok r := by
  obtain ⟨h1, hp⟩ := insert_place_ok n hw hc
  obtain ⟨hw1, _, _, hcap1, _, _⟩ := insert_place_eq_ok hw hp
  rw [insert_unfold, hp, Res.ok_bind]
  have hb := gap_lt_budget { h1 with sum := h1.sum + n }
  obtain ⟨f, hf⟩ : ∃ f, rebalance_budget { h1 with sum := h1.sum + n } = f + 1 := ⟨_, rfl⟩
  rw [hf] at hb ⊢
  exact @rebalance_ok f { h1 with sum := h1.sum + n } hw1 (hcap1 hc) hb

theorem filter_append_ne (l1 l2 : List Int) (n : Int) :
    (l1 ++ l2).filter (fun x => decide (x ≠ n))
      = l1.filter (fun x => decide (x ≠ n)) ++ l2.filter (fun x => decide (x ≠ n)) :=
  List.filter_append _ _

theorem medianheap_delete_all_unfold (h : MedianHeap) (n : Int) (hw : h.wf) :
    ∃ p m, priorityqueue_delete h.maxHeap n = Res.ok (((h.maxHeap.contents.count n : Nat) : Int), p)
      ∧ priorityqueue_delete h.minHeap n = Res.ok (((h.minHeap.contents.count n : Nat) : Int), m)
      ∧ medianheap_delete_all h n =
        _rebalance (rebalance_budget (MedianHeap.mk p m (h.sum - ((h.elements.count n : Nat) : Int) * n)))
          { maxHeap := p, minHeap := m, sum := h.sum - ((h.elements.count n : Nat) : Int) * n }
      ∧ p.wf ∧ m.wf ∧ p.heap_type = h.maxHeap.heap_type ∧ m.heap_type = h.minHeap.heap_type
      ∧ p.contents.Perm (h.maxHeap.contents.filter (fun x => decide (x ≠ n)))
      ∧ m.contents.Perm (h.minHeap.contents.filter (fun x => decide (x ≠ n)))
      ∧ p.items.capacity = h.maxHeap.items.capacity
      ∧ m.items.capacity = h.minHeap.items.capacity
      ∧ (n ∉ h.maxHeap.contents → p = h.maxHeap) ∧ (n ∉ h.minHeap.contents → m = h.minHeap) := by
  obtain ⟨p, hp, hpw, hpperm, hpt, hpc, hpsame⟩ := priorityqueue_delete_ok h.maxHeap n hw.1
  obtain ⟨m, hm, hmw, hmperm, hmt, hmc, hmsame⟩ := priorityqueue_delete_ok h.minHeap n hw.2.1
  refine ⟨p, m, hp, hm, ?_, hpw, hmw, hpt, hmt, hpperm, hmperm, hpc, hmc, hpsame, hmsame⟩
  unfold medianheap_delete_all
  rw [hp, Res.ok_bind]
  simp only
  rw [hm, Res.ok_bind]
  simp only [MedianHeap.elements, List.count_append]
  push_cast
  simp only [zero_add]

theorem medianheap_delete_all_eq_ok {h r : MedianHeap} {n : Int} (hw : h.wf)
    (hr : medianheap_delete_all h n = Res.ok r) :
    r.wf ∧ r.balanced ∧ r.elements.Perm (h.elements.filter (fun x => decide (x ≠ n)))
      ∧ r.sum = h.sum - ((h.elements.count n : Nat) : Int) * n
      ∧ (h.cap_pos → r.cap_pos) ∧ (h.ordered → r.ordered) ∧ (h.cap_ok → r.cap_ok) := by
  obtain ⟨p, m, _, _, hun, hpw, hmw, hpt, hmt, hpperm, hmperm, hpc, hmc, _, _⟩ :=
    medianheap_delete_all_unfold h n hw
  rw [hun] at hr
  have hw1 : (MedianHeap.mk p m (h.sum - ((h.elements.count n : Nat) : Int) * n)).wf :=
    ⟨hpw, hmw, by rw [hpt]; exact hw.2.2.1, by rw [hmt]; exact hw.2.2.2⟩
  obtain ⟨hw2, hb2, hperm2, hsum2, hord2, hcap2, _, hcok2⟩ := rebalance_eq_ok _ hw1 hr
  refine ⟨hw2, hb2, ?_, hsum2, ?_, ?_, ?_⟩
  · refine hperm2.trans ?_
    simp only [MedianHeap.elements]
    rw [filter_append_ne]
    exact List.Perm.append hpperm hmperm
  · intro hc
    exact hcap2 ⟨by rw [hpc]; exact hc.1, by rw [hmc]; exact hc.2⟩
  · intro ho
    apply hord2
    intro x hx y hy
    exact ho x (List.mem_of_mem_filter (hpperm.subset hx)) y
      (List.mem_of_mem_filter (hmperm.subset hy))
  · intro hc
    apply hcok2
    rcases hc with hc | hc
    · exact Or.inl ⟨by rw [hpc]; exact hc.1, by rw [hmc]; exact hc.2⟩
    · exact Or.inr ⟨by rw [hpc]; exact hc.1, by rw [hmc]; exact hc.2⟩

/-- Deleting a value that is in neither heap of a balanced dual heap returns the heap
as it was. -/
theorem medianheap_delete_all_absent {h : MedianHeap} {n : Int} (hw : h.wf) (hb : h.balanced)
    (h1 : n ∉ h.maxHeap.contents) (h2 : n ∉ h.minHeap.contents) :
    medianheap_delete_all h n = Res.ok h := by
  obtain ⟨p, m, _, _, hun, _, _, _, _, _, _, _, _, hpsame, hmsame⟩ :=
    medianheap_delete_all_unfold h n hw
  rw [hun, hpsame h1, hmsame h2]
  have hc : h.elements.count n = 0 := by
    apply List.count_eq_zero_of_not_mem
    simp only [MedianHeap.elements, List.mem_append]
    rintro (hh | hh)
    · exact h1 hh
    · exact h2 hh
  rw [hc]
  simp only [Nat.cast_zero, zero_mul, sub_zero]
  exact rebalance_balanced _ hb

theorem medianheap_delete_all_ok {h : MedianHeap} (n : Int) (hw : h.wf) (hb : h.balanced)
    (hc : h.cap_ok) : ∃ r, medianheap_delete_all h n = Res.ok r := by
  rcases hc with hc | hc
  · obtain ⟨p, m, _, _, hun, hpw, hmw, hpt, hmt, _, _, hpc, hmc, _, _⟩ :=
      medianheap_delete_all_unfold h n hw
    rw [hun]
    have hw1 : (MedianHeap.mk p m (h.sum - ((h.elements.count n : Nat) : Int) * n)).wf :=
      ⟨hpw, hmw, by rw [hpt]; exact hw.2.2.1, by rw [hmt]; exact hw.2.2.2⟩
    have hg := gap_lt_budget (MedianHeap.mk p m (h.sum - ((h.elements.count n : Nat) : Int) * n))
    obtain ⟨f, hf⟩ : ∃ f, rebalance_budget
        (MedianHeap.mk p m (h.sum - ((h.elements.count n : Nat) : Int) * n)) = f + 1 := ⟨_, rfl⟩
    rw [hf] at hg ⊢
    exact rebalance_ok f hw1 ⟨by rw [hpc]; exact hc.1, by rw [hmc]; exact hc.2⟩ hg
  · have e1 : h.maxHeap.contents = [] := by
      apply List.length_eq_zero.mp
      rw [PriorityQueue.contents, contents_length hw.1.1]
      exact size_zero_of_cap_zero hw.1.1 hc.1
    have e2 : h.minHeap.contents = [] := by
      apply List.length_eq_zero.mp
      rw [PriorityQueue.contents, contents_length hw.2.1.1]
      exact size_zero_of_cap_zero hw.2.1.1 hc.2
    exact ⟨h, medianheap_delete_all_absent hw hb (by rw [e1]; simp) (by rw [e2]; simp)⟩

theorem medianheap_create_eq_ok {capacity : Int} {h : MedianHeap}
    (hr : medianheap_create capacity = Res.ok h) :
    h.inv ∧ h.ordered ∧ h.elements = [] ∧ h.sum = 0 ∧ (1 ≤ capacity → h.cap_pos) := by
  unfold medianheap_create priorityqueue_create at hr
  obtain ⟨p, hp, hr1⟩ := Res.bind_eq_ok.mp hr
  obtain ⟨v1, hv1, hp1⟩ := Res.bind_eq_ok.mp hp
  obtain ⟨m, hm, hr2⟩ := Res.bind_eq_ok.mp hr1
  obtain ⟨v2, hv2, hm1⟩ := Res.bind_eq_ok.mp hm
  simp only [Res.pure_eq] at hp1 hm1 hr2
  injection hp1 with hp1
  injection hm1 with hm1
  injection hr2 with hr2
  subst hp1 hm1 hr2
  obtain ⟨hc0, hs1, hcap1, hw1, hcon1⟩ := vec_allocate_eq_ok hv1
  obtain ⟨_, hs2, hcap2, hw2, hcon2⟩ := vec_allocate_eq_ok hv2
  have hp : ∀ t, heap_property t ([] : List Int) := by
    intro t i
    constructor <;> intro hh <;> simp at hh
  refine ⟨⟨⟨⟨hw1, ?_⟩, ⟨hw2, ?_⟩, rfl, rfl⟩, ?_, ?_⟩, ?_, ?_, rfl, ?_⟩
  · simp only [PriorityQueue.contents, hcon1]; exact hp _
  · simp only [PriorityQueue.contents, hcon2]; exact hp _
  · unfold MedianHeap.balanced priorityqueue_size vec_size
    simp only [hs1, hs2]
    decide
  · unfold MedianHeap.cap_ok MedianHeap.cap_pos
    simp only [hcap1, hcap2]
    omega
  · intro x hx
    simp only [PriorityQueue.contents, hcon1] at hx
    cases hx
  · simp only [MedianHeap.elements, PriorityQueue.contents, hcon1, hcon2]
    rfl
  · intro hc
    unfold MedianHeap.cap_pos
    simp only [hcap1, hcap2]
    exact ⟨hc, hc⟩

theorem medianheap_create_ok {capacity : Int} (hc : 0 ≤ capacity) :
    ∃ h, medianheap_create capacity = Res.ok h := by
  obtain ⟨v, hv⟩ := vec_allocate_ok hc
  unfold medianheap_create priorityqueue_create
  rw [hv]
  exact ⟨_, rfl⟩


/-! ## Sequences of calls -/

theorem sum_filter_ne (l : List Int) (n : Int) :
    (l.filter (fun x => decide (x ≠ n))).sum = l.sum - ((l.count n : Nat) : Int) * n := by
  induction l with
  | nil => simp
  | cons a t ih =>
    by_cases ha : a = n
    · subst ha
      simp only [ne_eq, not_true_eq_false, decide_False, Bool.false_eq_true, not_false_eq_true,
        List.filter_cons_of_neg, List.sum_cons, List.count_cons_self, Nat.cast_add, Nat.cast_one]
      rw [ih]
      ring
    · have hne : (a == n) = false := by simpa using ha
      rw [List.filter_cons_of_pos (by simpa using ha), List.sum_cons, List.sum_cons, ih,
        List.count_cons, hne]
      simp only [Bool.false_eq_true, if_false, add_zero]
      ring

theorem call_apply_perm {s t : List Int} (c : Call) (h : s.Perm t) :
    (c.apply s).Perm (c.apply t) := by
  cases c with
  | insert n => exact List.Perm.cons n h
  | delete_all n => exact List.Perm.filter _ h

theorem apply_calls_perm : ∀ (cs : List Call) {s t : List Int}, s.Perm t →
    (apply_calls s cs).Perm (apply_calls t cs) := by
  intro cs
  induction cs with
  | nil => intro s t h; exact h
  | cons c cs ih => intro s t h; exact ih (call_apply_perm c h)

theorem call_run_eq_ok {h r : MedianHeap} {c : Call} (hi : h.inv) (hr : c.run h = Res.ok r) :
    r.inv ∧ (h.cap_pos → r.cap_pos)
      ∧ (fits_cell c.arg → (h.ordered → r.ordered) ∧ r.elements.Perm (c.apply h.elements)
          ∧ (h.sum = h.elements.sum → r.sum = r.elements.sum)) := by
  obtain ⟨hw, hb, hc⟩ := hi
  cases c with
  | insert n =>
    obtain ⟨hw1, hb1, hperm, hsum, hcap, hord, hcok⟩ := medianheap_insert_eq_ok hw hr
    refine ⟨⟨hw1, hb1, hcok hc⟩, hcap, fun hf => ⟨hord hf, ?_, ?_⟩⟩
    · have hf2 : fits_cell n := hf
      rw [to_char_of_fits hf2] at hperm
      exact hperm
    · intro hs
      have hf2 : fits_cell n := hf
      rw [to_char_of_fits hf2] at hperm
      rw [hsum, hperm.sum_eq, List.sum_cons, hs]
      ring
  | delete_all n =>
    obtain ⟨hw1, hb1, hperm, hsum, hcap, hord, hcok⟩ := medianheap_delete_all_eq_ok hw hr
    refine ⟨⟨hw1, hb1, hcok hc⟩, hcap, fun _ => ⟨hord, hperm, ?_⟩⟩
    intro hs
    rw [hsum, hperm.sum_eq, sum_filter_ne, hs]

theorem run_calls_eq_ok : ∀ (cs : List Call) {h r : MedianHeap}, h.inv →
    run_calls h cs = Res.ok r →
    r.inv ∧ (h.cap_pos → r.cap_pos)
      ∧ ((∀ c ∈ cs, fits_cell c.arg) → (h.ordered → r.ordered)
          ∧ r.elements.Perm (apply_calls h.elements cs)
          ∧ (h.sum = h.elements.sum → r.sum = r.elements.sum)) := by
  intro cs
  induction cs with
  | nil =>
    intro h r hi hr
    injection hr with hr
    subst hr
    exact ⟨hi, fun x => x, fun _ => ⟨fun x => x, List.Perm.refl _, fun x => x⟩⟩
  | cons c cs ih =>
    intro h r hi hr
    rw [run_calls] at hr
    obtain ⟨h1, hc, hr1⟩ := Res.bind_eq_ok.mp hr
    obtain ⟨hi1, hcap1, hfit1⟩ := call_run_eq_ok hi hc
    obtain ⟨hi2, hcap2, hfit2⟩ := ih hi1 hr1
    refine ⟨hi2, fun x => hcap2 (hcap1 x), fun hall => ?_⟩
    obtain ⟨ho1, hp1, hs1⟩ := hfit1 (hall c (List.mem_cons_self _ _))
    obtain ⟨ho2, hp2, hs2⟩ := hfit2 (fun d hd => hall d (List.mem_cons_of_mem _ hd))
    exact ⟨fun x => ho2 (ho1 x), hp2.trans (apply_calls_perm cs hp1), fun x => hs2 (hs1 x)⟩

theorem run_calls_ok : ∀ (cs : List Call) {h : MedianHeap}, h.inv → h.cap_pos →
    ∃ r, run_calls h cs = Res.ok r := by
  intro cs
  induction cs with
  | nil => intro h _ _; exact ⟨h, rfl⟩
  | cons c cs ih =>
    intro h hi hc
    have hstep : ∃ h1, c.run h = Res.ok h1 := by
      cases c with
      | insert n => exact medianheap_insert_ok n hi.1 hc
      | delete_all n => exact medianheap_delete_all_ok n hi.1 hi.2.1 hi.2.2
    obtain ⟨h1, hs⟩ := hstep
    obtain ⟨hi1, hcap1, _⟩ := call_run_eq_ok hi hs
    obtain ⟨r, hr⟩ := ih hi1 (hcap1 hc)
    exact ⟨r, by rw [run_calls, hs, Res.ok_bind]; exact hr⟩

/-- What holds of every heap produced by `medianheap_create` and a list of calls. -/
theorem medianheap_run_eq_ok {capacity : Int} {cs : List Call} {h : MedianHeap}
    (hr : medianheap_run capacity cs = Res.ok h) :
    h.inv ∧ (1 ≤ capacity → h.cap_pos)
      ∧ ((∀ c ∈ cs, fits_cell c.arg) →
          h.ordered ∧ h.elements.Perm (apply_calls [] cs) ∧ h.sum = h.elements.sum) := by
  unfold medianheap_run at hr
  obtain ⟨h0, hc, hr1⟩ := Res.bind_eq_ok.mp hr
  obtain ⟨hi0, ho0, he0, hs0, hcap0⟩ := medianheap_create_eq_ok hc
  obtain ⟨hi1, hcap1, hfit⟩ := run_calls_eq_ok cs hi0 hr1
  refine ⟨hi1, fun x => hcap1 (hcap0 x), fun hall => ?_⟩
  obtain ⟨ho, hp, hs⟩ := hfit hall
  rw [he0] at hp
  exact ⟨ho ho0, hp, hs (by rw [hs0, he0]; rfl)⟩

/-- With a capacity of at least one, `medianheap_create` and every list of calls run to
completion: no assertion fails and no step budget runs out. -/
theorem medianheap_run_ok {capacity : Int} (hcap : 1 ≤ capacity) (cs : List Call) :
    ∃ h, medianheap_run capacity cs = Res.ok h := by
  obtain ⟨h0, hc⟩ := @medianheap_create_ok capacity (by omega)
  obtain ⟨hi0, _, _, _, hcap0⟩ := medianheap_create_eq_ok hc
  obtain ⟨r, hr⟩ := run_calls_ok cs hi0 (hcap0 hcap)
  exact ⟨r, by unfold medianheap_run; rw [hc, Res.ok_bind]; exact hr⟩


/-! ## Sorted lists and the middle elements -/

theorem sorted_of_sorted (l : List Int) : (sorted_of l).Sorted (fun a b => a ≤ b) :=
  List.sorted_insertionSort _ l

theorem sorted_of_perm (l : List Int) : (sorted_of l).Perm l :=
  List.perm_insertionSort _ l

theorem sorted_of_length (l : List Int) : (sorted_of l).length = l.length :=
  List.length_insertionSort _ l

theorem sorted_of_congr {l t : List Int} (h : l.Perm t) : sorted_of l = sorted_of t :=
  List.eq_of_perm_of_sorted ((sorted_of_perm l).trans (h.trans (sorted_of_perm t).symm))
    (sorted_of_sorted l) (sorted_of_sorted t)

theorem sorted_of_append {a b : List Int} (h : ∀ x ∈ a, ∀ y ∈ b, x ≤ y) :
    sorted_of (a ++ b) = sorted_of a ++ sorted_of b := by
  apply List.eq_of_perm_of_sorted _ (sorted_of_sorted _)
  · unfold List.Sorted
    rw [List.pairwise_append]
    refine ⟨sorted_of_sorted a, sorted_of_sorted b, ?_⟩
    intro x hx y hy
    exact h x ((sorted_of_perm a).subset hx) y ((sorted_of_perm b).subset hy)
  · exact (sorted_of_perm _).trans
      (List.Perm.append (sorted_of_perm a).symm (sorted_of_perm b).symm)

theorem sorted_getD_le {s : List Int} (hs : s.Sorted (fun a b => a ≤ b)) {i j : Nat}
    (hij : i ≤ j) (hj : j < s.length) : s.getD i 0 ≤ s.getD j 0 := by
  rw [List.getD_eq_getElem _ _ hj, List.getD_eq_getElem _ _ (by omega)]
  rcases Nat.eq_or_lt_of_le hij with h | h
  · subst h; exact Int.le_refl _
  · exact List.pairwise_iff_getElem.mp hs i j (by omega) hj h

/-- The last element of the sorted list is the greatest element. -/
theorem sorted_of_last {l : List Int} {a : Int} (ha : a ∈ l) (hmax : ∀ x ∈ l, x ≤ a) :
    (sorted_of l).getD (l.length - 1) 0 = a := by
  have hlen := sorted_of_length l
  have hpos : 0 < l.length := List.length_pos_of_mem ha
  have h1 : (sorted_of l).getD (l.length - 1) 0 ∈ l := by
    apply (sorted_of_perm l).subset
    exact mem_iff_getD.mpr ⟨l.length - 1, by omega, rfl⟩
  obtain ⟨j, hj, hja⟩ := mem_iff_getD.mp ((sorted_of_perm l).symm.subset ha)
  have h2 := sorted_getD_le (sorted_of_sorted l) (show j ≤ l.length - 1 by omega) (by omega)
  rw [hja] at h2
  exact Int.le_antisymm (hmax _ h1) h2

/-- The first element of the sorted list is the least element. -/
theorem sorted_of_first {l : List Int} {b : Int} (hb : b ∈ l) (hmin : ∀ x ∈ l, b ≤ x) :
    (sorted_of l).getD 0 0 = b := by
  have hlen := sorted_of_length l
  have hpos : 0 < l.length := List.length_pos_of_mem hb
  have h1 : (sorted_of l).getD 0 0 ∈ l := by
    apply (sorted_of_perm l).subset
    exact mem_iff_getD.mpr ⟨0, by omega, rfl⟩
  obtain ⟨j, hj, hjb⟩ := mem_iff_getD.mp ((sorted_of_perm l).symm.subset hb)
  have h2 := sorted_getD_le (sorted_of_sorted l) (Nat.zero_le j) hj
  rw [hjb] at h2
  exact Int.le_antisymm h2 (hmin _ h1)

/-- In an ordered dual heap the root of `maxHeap` is the element of the sorted multiset
at index `size(maxHeap) - 1` and the root of `minHeap` the one at index
`size(maxHeap)`. -/
theorem roots_in_sorted {h : MedianHeap} (hw : h.wf) (ho : h.ordered) :
    (0 < h.maxHeap.items.size →
      (sorted_of h.elements).getD (h.maxHeap.items.size - 1) 0 = h.maxHeap.contents.getD 0 0)
    ∧ (0 < h.minHeap.items.size →
      (sorted_of h.elements).getD h.maxHeap.items.size 0 = h.minHeap.contents.getD 0 0) := by
  obtain ⟨hmax, hmin, htmax, htmin⟩ := hw
  have hmaxlen : h.maxHeap.contents.length = h.maxHeap.items.size := contents_length hmax.1
  have hminlen : h.minHeap.contents.length = h.minHeap.items.size := contents_length hmin.1
  have hs : sorted_of h.elements = sorted_of h.maxHeap.contents ++ sorted_of h.minHeap.contents :=
    sorted_of_append ho
  have hl1 : (sorted_of h.maxHeap.contents).length = h.maxHeap.items.size := by
    rw [sorted_of_length, hmaxlen]
  constructor
  · intro hpos
    rw [hs, List.getD_append _ _ _ _ (by omega), ← hmaxlen]
    apply sorted_of_last (mem_contents_getD_zero hmax.1 hpos)
    intro x hx
    have := root_extreme_mem hmax.2 x hx
    rw [htmax] at this
    exact this
  · intro hpos
    rw [hs, List.getD_append_right _ _ _ _ (by omega), hl1, Nat.sub_self]
    apply sorted_of_first (mem_contents_getD_zero hmin.1 hpos)
    intro x hx
    have := root_extreme_mem hmin.2 x hx
    rw [htmin] at this
    exact this

theorem elements_length {h : MedianHeap} (hw : h.wf) :
    h.elements.length = h.maxHeap.items.size + h.minHeap.items.size := by
  simp only [MedianHeap.elements, List.length_append]
  rw [PriorityQueue.contents, PriorityQueue.contents, contents_length hw.1.1,
    contents_length hw.2.1.1]


/-! ## The dual heap: claims -/

theorem length_filter_ne_add_count (l : List Int) (v : Int) :
    (l.filter (fun x => decide (x ≠ v))).length + l.count v = l.length := by
  induction l with
  | nil => simp
  | cons a t ih =>
    by_cases ha : a = v
    · subst ha
      rw [List.filter_cons_of_neg (by simp), List.count_cons_self, List.length_cons]
      omega
    · have hne : (a == v) = false := by simpa using ha
      rw [List.filter_cons_of_pos (by simpa using ha), List.count_cons, hne]
      simp only [List.length_cons, Bool.false_eq_true, if_false]
      omega

theorem is_empty_false_iff {h : MedianHeap} (hw : h.wf) :
    medianheap_is_empty h = false ↔ h.elements ≠ [] := by
  have hlen := elements_length hw
  constructor
  · intro he hnil
    have h0 : h.elements.length = 0 := by rw [hnil]; rfl
    have : medianheap_is_empty h = true := (is_empty_iff h).mpr ⟨by omega, by omega⟩
    rw [he] at this
    cases this
  · intro hne
    cases hb : medianheap_is_empty h with
    | false => rfl
    | true =>
      have := (is_empty_iff h).mp hb
      exact absurd (List.length_eq_zero.mp (by omega)) hne

/-- C1 (as the code behaves): after `medianheap_create(10)` and `medianheap_insert(200)`
the heap holds -56 and `medianheap_get_median` returns -56, while the statistical median
of the inserted multiset {200} is 200. -/
theorem median_of_wide_value :
    medianheap_run 10 [Call.insert 200]
        = Res.ok (heap_of [0, 0, 0, 0, 0, 0, 0, 0, 0, 0] 0 [-56, 0, 0, 0, 0, 0, 0, 0, 0, 0] 1 200)
    ∧ medianheap_get_median
        (heap_of [0, 0, 0, 0, 0, 0, 0, 0, 0, 0] 0 [-56, 0, 0, 0, 0, 0, 0, 0, 0, 0] 1 200)
        = Res.ok (CDouble.ofInt (-56))
    ∧ (CDouble.ofInt (-56)).toRat = -56
    ∧ stat_median (apply_calls [] [Call.insert 200]) = 200 := by
  refine ⟨by decide, by decide, ?_, ?_⟩
  · simp [CDouble.toRat, CDouble.ofInt]
  · have hs : sorted_of (apply_calls [] [Call.insert 200]) = [200] := by decide
    unfold stat_median
    simp only [hs]
    norm_num

/-- C2: balance invariant.  Every heap reached from `medianheap_create` by a list of
`medianheap_insert` and `medianheap_delete_all` calls with any integer arguments has
sub-heap sizes that differ by at most 1; and when the capacity is at least 1 every
continuation of the call list runs to completion (no assertion fails, no budget runs
out) and ends in such a heap again. -/
theorem balance_invariant (capacity : Int) (calls : List Call) (h : MedianHeap)
    (hr : medianheap_run capacity calls = Res.ok h) :
    (priorityqueue_size h.maxHeap - priorityqueue_size h.minHeap).natAbs ≤ 1
    ∧ (1 ≤ capacity → ∀ more : List Call,
        ∃ r, medianheap_run capacity (calls ++ more) = Res.ok r
          ∧ (priorityqueue_size r.maxHeap - priorityqueue_size r.minHeap).natAbs ≤ 1) := by
  refine ⟨(medianheap_run_eq_ok hr).1.2.1, fun hc more => ?_⟩
  obtain ⟨r, hrr⟩ := medianheap_run_ok hc (calls ++ more)
  exact ⟨r, hrr, (medianheap_run_eq_ok hrr).1.2.1⟩

theorem balance_invariant_witness :
    medianheap_run 10 [Call.insert 5, Call.insert 1, Call.insert 3, Call.insert 2,
        Call.delete_all 3]
        = Res.ok (heap_of [2, 1, 0, 0, 0, 0, 0, 0, 0, 0] 2 [5, 0, 0, 0, 0, 0, 0, 0, 0, 0] 1 8)
    ∧ (priorityqueue_size
          (heap_of [2, 1, 0, 0, 0, 0, 0, 0, 0, 0] 2 [5, 0, 0, 0, 0, 0, 0, 0, 0, 0] 1 8).maxHeap
        - priorityqueue_size
          (heap_of [2, 1, 0, 0, 0, 0, 0, 0, 0, 0] 2 [5, 0, 0, 0, 0, 0, 0, 0, 0, 0] 1
            8).minHeap).natAbs ≤ 1
    ∧ ∃ r, medianheap_run 10 ([Call.insert 5, Call.insert 1, Call.insert 3, Call.insert 2,
          Call.delete_all 3] ++ [Call.insert 300, Call.delete_all 1]) = Res.ok r
        ∧ (priorityqueue_size r.maxHeap - priorityqueue_size r.minHeap).natAbs ≤ 1 :=
  ⟨by decide,
    (balance_invariant 10 [Call.insert 5, Call.insert 1, Call.insert 3, Call.insert 2,
      Call.delete_all 3] _ (by decide)).1,
    (balance_invariant 10 [Call.insert 5, Call.insert 1, Call.insert 3, Call.insert 2,
      Call.delete_all 3]
      (heap_of [2, 1, 0, 0, 0, 0, 0, 0, 0, 0] 2 [5, 0, 0, 0, 0, 0, 0, 0, 0, 0] 1 8)
      (by decide)).2 (by decide) [Call.insert 300, Call.delete_all 1]⟩

/-- C3: ordering invariant.  In every heap reached from `medianheap_create` by a list of
calls whose arguments all fit the storage cell (-128..127), every element of `maxHeap` is
`<=` every element of `minHeap`; and when the capacity is at least 1 every continuation
by fitting calls runs to completion and ends in such a heap again. -/
theorem ordering_invariant (capacity : Int) (calls : List Call) (h : MedianHeap)
    (hfit : ∀ c ∈ calls, fits_cell c.arg)
    (hr : medianheap_run capacity calls = Res.ok h) :
    (∀ x ∈ h.maxHeap.contents, ∀ y ∈ h.minHeap.contents, x ≤ y)
    ∧ (1 ≤ capacity → ∀ more : List Call, (∀ c ∈ more, fits_cell c.arg) →
        ∃ r, medianheap_run capacity (calls ++ more) = Res.ok r
          ∧ ∀ x ∈ r.maxHeap.contents, ∀ y ∈ r.minHeap.contents, x ≤ y) := by
  refine ⟨((medianheap_run_eq_ok hr).2.2 hfit).1, fun hc more hmore => ?_⟩
  obtain ⟨r, hrr⟩ := medianheap_run_ok hc (calls ++ more)
  refine ⟨r, hrr, ((medianheap_run_eq_ok hrr).2.2 ?_).1⟩
  intro c hcm
  rcases List.mem_append.mp hcm with h1 | h1
  · exact hfit c h1
  · exact hmore c h1

theorem ordering_invariant_witness :
    (∀ c ∈ [Call.insert 5, Call.insert 1, Call.insert 3, Call.insert 2], fits_cell c.arg)
    ∧ medianheap_run 10 [Call.insert 5, Call.insert 1, Call.insert 3, Call.insert 2]
        = Res.ok (heap_of [2, 1, 0, 0, 0, 0, 0, 0, 0, 0] 2 [3, 5, 0, 0, 0, 0, 0, 0, 0, 0] 2 11)
    ∧ (heap_of [2, 1, 0, 0, 0, 0, 0, 0, 0, 0] 2 [3, 5, 0, 0, 0, 0, 0, 0, 0, 0] 2
        11).maxHeap.contents = [2, 1]
    ∧ (heap_of [2, 1, 0, 0, 0, 0, 0, 0, 0, 0] 2 [3, 5, 0, 0, 0, 0, 0, 0, 0, 0] 2
        11).minHeap.contents = [3, 5]
    ∧ ∀ x ∈ (heap_of [2, 1, 0, 0, 0, 0, 0, 0, 0, 0] 2 [3, 5, 0, 0, 0, 0, 0, 0, 0, 0] 2
          11).maxHeap.contents,
        ∀ y ∈ (heap_of [2, 1, 0, 0, 0, 0, 0, 0, 0, 0] 2 [3, 5, 0, 0, 0, 0, 0, 0, 0, 0] 2
          11).minHeap.contents, x ≤ y :=
  ⟨by decide, by decide, by decide, by decide,
    (ordering_invariant 10 [Call.insert 5, Call.insert 1, Call.insert 3, Call.insert 2] _
      (by decide) (by decide)).1⟩

/-- C4 (as the code behaves): after `medianheap_create(10)` and `medianheap_insert(200)`
`medianheap_get_sum` is 200, while the only element held by the two heaps is -56. -/
theorem sum_of_wide_value :
    medianheap_run 10 [Call.insert 200]
        = Res.ok (heap_of [0, 0, 0, 0, 0, 0, 0, 0, 0, 0] 0 [-56, 0, 0, 0, 0, 0, 0, 0, 0, 0] 1 200)
    ∧ medianheap_get_sum
        (heap_of [0, 0, 0, 0, 0, 0, 0, 0, 0, 0] 0 [-56, 0, 0, 0, 0, 0, 0, 0, 0, 0] 1 200) = 200
    ∧ (heap_of [0, 0, 0, 0, 0, 0, 0, 0, 0, 0] 0 [-56, 0, 0, 0, 0, 0, 0, 0, 0, 0] 1 200).elements
        = [-56]
    ∧ (heap_of [0, 0, 0, 0, 0, 0, 0, 0, 0, 0] 0 [-56, 0, 0, 0, 0, 0, 0, 0, 0, 0] 1
        200).elements.sum = -56 :=
  ⟨by decide, by decide, by decide, by decide⟩


/-- C6: deleting an absent value.  For every heap reached from `medianheap_create` by any
list of calls and every `v` that occurs in neither sub-heap, `priorityqueue_delete` on
each sub-heap returns 0 and leaves it as it was, and `medianheap_delete_all(v)` returns
the very same structure (same cells and sizes of both vectors, same sum, hence same
median). -/
theorem delete_absent_unchanged (capacity : Int) (calls : List Call) (h : MedianHeap) (v : Int)
    (hr : medianheap_run capacity calls = Res.ok h)
    (hmax : v ∉ h.maxHeap.contents) (hmin : v ∉ h.minHeap.contents) :
    priorityqueue_delete h.maxHeap v = Res.ok (0, h.maxHeap)
      ∧ priorityqueue_delete h.minHeap v = Res.ok (0, h.minHeap)
      ∧ medianheap_delete_all h v = Res.ok h := by
  obtain ⟨⟨hw, hb, _⟩, _, _⟩ := medianheap_run_eq_ok hr
  obtain ⟨p, hp, _, _, _, _, hpsame⟩ := priorityqueue_delete_ok h.maxHeap v hw.1
  obtain ⟨m, hm, _, _, _, _, hmsame⟩ := priorityqueue_delete_ok h.minHeap v hw.2.1
  rw [hpsame hmax, List.count_eq_zero_of_not_mem hmax] at hp
  rw [hmsame hmin, List.count_eq_zero_of_not_mem hmin] at hm
  exact ⟨hp, hm, medianheap_delete_all_absent hw hb hmax hmin⟩

theorem delete_absent_unchanged_witness :
    medianheap_run 10 [Call.insert 5, Call.insert 1, Call.insert 3, Call.insert 2]
        = Res.ok (heap_of [2, 1, 0, 0, 0, 0, 0, 0, 0, 0] 2 [3, 5, 0, 0, 0, 0, 0, 0, 0, 0] 2 11)
    ∧ priorityqueue_delete
        (heap_of [2, 1, 0, 0, 0, 0, 0, 0, 0, 0] 2 [3, 5, 0, 0, 0, 0, 0, 0, 0, 0] 2 11).maxHeap 4
        = Res.ok (0,
          (heap_of [2, 1, 0, 0, 0, 0, 0, 0, 0, 0] 2 [3, 5, 0, 0, 0, 0, 0, 0, 0, 0] 2 11).maxHeap)
    ∧ priorityqueue_delete
        (heap_of [2, 1, 0, 0, 0, 0, 0, 0, 0, 0] 2 [3, 5, 0, 0, 0, 0, 0, 0, 0, 0] 2 11).minHeap 4
        = Res.ok (0,
          (heap_of [2, 1, 0, 0, 0, 0, 0, 0, 0, 0] 2 [3, 5, 0, 0, 0, 0, 0, 0, 0, 0] 2 11).minHeap)
    ∧ medianheap_delete_all
        (heap_of [2, 1, 0, 0, 0, 0, 0, 0, 0, 0] 2 [3, 5, 0, 0, 0, 0, 0, 0, 0, 0] 2 11) 4
        = Res.ok (heap_of [2, 1, 0, 0, 0, 0, 0, 0, 0, 0] 2 [3, 5, 0, 0, 0, 0, 0, 0, 0, 0] 2 11) :=
  ⟨by decide,
    delete_absent_unchanged 10 [Call.insert 5, Call.insert 1, Call.insert 3, Call.insert 2]
      _ 4 (by decide) (by decide) (by decide)⟩


theorem apply_calls_inserts (l s : List Int) :
    apply_calls s (l.map Call.insert) = l.reverse ++ s := by
  induction l generalizing s with
  | nil => rfl
  | cons a t ih =>
    simp only [List.map_cons, apply_calls, Call.apply, ih, List.reverse_cons,
      List.append_assoc, List.singleton_append]

theorem get_min_ok {h : MedianHeap} (hw : h.wf) (ho : h.ordered)
    (hne : medianheap_is_empty h = false) :
    ∃ m, medianheap_get_min h = Res.ok m ∧ m ∈ h.elements ∧ ∀ x ∈ h.elements, m ≤ x := by
  obtain ⟨hmax, hmin, htmax, htmin⟩ := hw
  have hmaxlen : h.maxHeap.contents.length = h.maxHeap.items.size := contents_length hmax.1
  unfold medianheap_get_min
  simp only [hne, Bool.not_false, if_true, priorityqueue_size, vec_size]
  by_cases hz : h.maxHeap.items.size = 0
  · have hc : ((h.maxHeap.items.size : Int) = 0) := by omega
    rw [if_pos hc]
    have hminpos : 0 < h.minHeap.items.size := by
      rcases Nat.eq_zero_or_pos h.minHeap.items.size with h0 | h0
      · have := (is_empty_iff h).mpr ⟨h0, hz⟩
        rw [hne] at this
        cases this
      · exact h0
    have hnil : h.maxHeap.contents = [] := List.length_eq_zero.mp (by omega)
    refine ⟨_, priorityqueue_peek_ok hmin.1 hminpos, ?_, ?_⟩
    · simp only [MedianHeap.elements, hnil, List.nil_append]
      exact mem_contents_getD_zero hmin.1 hminpos
    · intro x hx
      simp only [MedianHeap.elements, hnil, List.nil_append] at hx
      have := root_extreme_mem hmin.2 x hx
      rw [htmin] at this
      exact this
  · have hc : ¬ ((h.maxHeap.items.size : Int) = 0) := by omega
    rw [if_neg hc]
    obtain ⟨v, hv, hvm, hvle⟩ := max_heap_get_min_ok hmax htmax (by omega)
    refine ⟨v, hv, ?_, ?_⟩
    · simp only [MedianHeap.elements, List.mem_append]
      exact Or.inl hvm
    · intro x hx
      simp only [MedianHeap.elements, List.mem_append] at hx
      rcases hx with hx | hx
      · exact hvle x hx
      · exact ho v hvm x hx

/-- C7: minimum.  For every non-empty heap reached from `medianheap_create` by calls whose
arguments fit the storage cell, `medianheap_get_min` returns an element of the multiset
built by the same calls that is `<=` every element of it, whichever sub-heap holds it;
and for the values 1..7 inserted in any order into a heap of capacity 10 it returns 1. -/
theorem get_min_smallest (capacity : Int) (calls : List Call) (h : MedianHeap)
    (hfit : ∀ c ∈ calls, fits_cell c.arg) (hr : medianheap_run capacity calls = Res.ok h)
    (hne : medianheap_is_empty h = false) :
    (∃ m, medianheap_get_min h = Res.ok m ∧ m ∈ apply_calls [] calls
      ∧ ∀ x ∈ apply_calls [] calls, m ≤ x)
    ∧ ∀ l : List Int, l.Perm [1, 2, 3, 4, 5, 6, 7] →
      ∃ r, medianheap_run 10 (l.map Call.insert) = Res.ok r
        ∧ medianheap_get_min r = Res.ok 1 := by
  have general : ∀ (capacity : Int) (calls : List Call) (h : MedianHeap),
      (∀ c ∈ calls, fits_cell c.arg) → medianheap_run capacity calls = Res.ok h →
      medianheap_is_empty h = false →
      ∃ m, medianheap_get_min h = Res.ok m ∧ m ∈ apply_calls [] calls
        ∧ ∀ x ∈ apply_calls [] calls, m ≤ x := by
    intro capacity calls h hfit hr hne
    obtain ⟨⟨hw, _, _⟩, _, hf⟩ := medianheap_run_eq_ok hr
    obtain ⟨ho, hperm, _⟩ := hf hfit
    obtain ⟨m, hm, hmem, hle⟩ := get_min_ok hw ho hne
    exact ⟨m, hm, hperm.subset hmem, fun x hx => hle x (hperm.symm.subset hx)⟩
  refine ⟨general capacity calls h hfit hr hne, ?_⟩
  intro l hl
  obtain ⟨r, hrr⟩ := @medianheap_run_ok 10 (by decide) (l.map Call.insert)
  have hrange : ∀ x ∈ l, 1 ≤ x ∧ x ≤ 7 := by
    intro x hx
    have := hl.subset hx
    simp only [List.mem_cons, List.mem_singleton, List.not_mem_nil, or_false] at this
    omega
  have hfit2 : ∀ c ∈ l.map Call.insert, fits_cell c.arg := by
    intro c hc
    obtain ⟨x, hx, hxc⟩ := List.mem_map.mp hc
    rw [← hxc]
    have := hrange x hx
    simp only [Call.arg, fits_cell]
    omega
  obtain ⟨⟨hw, _, _⟩, _, hf⟩ := medianheap_run_eq_ok hrr
  obtain ⟨_, hperm, _⟩ := hf hfit2
  rw [apply_calls_inserts, List.append_nil] at hperm
  have hone : (1 : Int) ∈ r.elements :=
    hperm.symm.subset (List.mem_reverse.mpr (hl.symm.subset (by simp)))
  have hne2 : medianheap_is_empty r = false :=
    (is_empty_false_iff hw).mpr (List.ne_nil_of_mem hone)
  obtain ⟨m, hm, hmem, hle⟩ := general 10 _ r hfit2 hrr hne2
  rw [apply_calls_inserts, List.append_nil] at hmem hle
  have h1 := hle 1 (List.mem_reverse.mpr (hl.symm.subset (by simp)))
  have h2 := hrange m (List.mem_reverse.mp hmem)
  have : m = 1 := by omega
  rw [this] at hm
  exact ⟨r, hrr, hm⟩

theorem get_min_smallest_witness :
    (∀ c ∈ [Call.insert 5, Call.insert 1, Call.insert 3, Call.insert 2, Call.delete_all 1],
        fits_cell c.arg)
    ∧ medianheap_run 10
          [Call.insert 5, Call.insert 1, Call.insert 3, Call.insert 2, Call.delete_all 1]
        = Res.ok (heap_of [2, 0, 0, 0, 0, 0, 0, 0, 0, 0] 1 [3, 5, 0, 0, 0, 0, 0, 0, 0, 0] 2 10)
    ∧ medianheap_get_min
          (heap_of [2, 0, 0, 0, 0, 0, 0, 0, 0, 0] 1 [3, 5, 0, 0, 0, 0, 0, 0, 0, 0] 2 10)
        = Res.ok 2
    ∧ (∃ m, medianheap_get_min
          (heap_of [2, 0, 0, 0, 0, 0, 0, 0, 0, 0] 1 [3, 5, 0, 0, 0, 0, 0, 0, 0, 0] 2 10)
          = Res.ok m
        ∧ m ∈ apply_calls []
          [Call.insert 5, Call.insert 1, Call.insert 3, Call.insert 2, Call.delete_all 1]
        ∧ ∀ x ∈ apply_calls []
          [Call.insert 5, Call.insert 1, Call.insert 3, Call.insert 2, Call.delete_all 1], m ≤ x)
    ∧ ∃ r, medianheap_run 10 ([4, 7, 1, 6, 2, 5, 3].map Call.insert) = Res.ok r
        ∧ medianheap_get_min r = Res.ok 1 :=
  ⟨by decide, by decide, by decide,
    (get_min_smallest 10
      [Call.insert 5, Call.insert 1, Call.insert 3, Call.insert 2, Call.delete_all 1] _
      (by decide) (by decide) (by decide)).1,
    (get_min_smallest 10
      [Call.insert 5, Call.insert 1, Call.insert 3, Call.insert 2, Call.delete_all 1]
      (heap_of [2, 0, 0, 0, 0, 0, 0, 0, 0, 0] 1 [3, 5, 0, 0, 0, 0, 0, 0, 0, 0] 2 10)
      (by decide) (by decide) (by decide)).2 [4, 7, 1, 6, 2, 5, 3] (by decide)⟩


theorem cdouble_round_trip (a : Int) : (CDouble.ofInt a).toInt = a := by
  simp [CDouble.ofInt, CDouble.toInt]

theorem get_median2_ok {h : MedianHeap} (hw : h.wf) (hb : h.balanced) (ho : h.ordered)
    (hne : medianheap_is_empty h = false) (medians : Int × Int) :
    ∃ flag m0 m1, medianheap_get_median2 h medians = Res.ok (flag, (m0, m1))
      ∧ (flag = true ↔ h.elements.length % 2 = 0)
      ∧ (flag = true → m0 = (sorted_of h.elements).getD (h.elements.length / 2 - 1) 0
          ∧ m1 = (sorted_of h.elements).getD (h.elements.length / 2) 0)
      ∧ (flag = false → m0 = (sorted_of h.elements).getD (h.elements.length / 2) 0
          ∧ m1 = medians.2) := by
  have hlen := elements_length hw
  obtain ⟨hrmax, hrmin⟩ := roots_in_sorted hw ho
  have hnz : ¬ (h.minHeap.items.size = 0 ∧ h.maxHeap.items.size = 0) := by
    intro hh
    have := (is_empty_iff h).mpr hh
    rw [hne] at this
    cases this
  have hbal : ((h.maxHeap.items.size : Int) - (h.minHeap.items.size : Int)).natAbs ≤ 1 := hb
  obtain ⟨hmax, hmin, _, _⟩ := hw
  unfold medianheap_get_median2 priorityqueue_size vec_size
  by_cases heq : h.maxHeap.items.size = h.minHeap.items.size
  · have c : ((h.maxHeap.items.size : Int) = (h.minHeap.items.size : Int)) := by omega
    rw [if_pos c, priorityqueue_peek_ok hmax.1 (by omega), priorityqueue_peek_ok hmin.1 (by omega)]
    refine ⟨true, _, _, rfl, ?_, ?_, ?_⟩
    · simp only [true_iff]; omega
    · intro _
      have e1 : h.elements.length / 2 - 1 = h.maxHeap.items.size - 1 := by omega
      have e2 : h.elements.length / 2 = h.maxHeap.items.size := by omega
      rw [e1, e2, hrmax (by omega), hrmin (by omega), cdouble_round_trip, cdouble_round_trip]
      exact ⟨rfl, rfl⟩
    · intro hf; cases hf
  · have c : ¬ ((h.maxHeap.items.size : Int) = (h.minHeap.items.size : Int)) := by omega
    rw [if_neg c]
    by_cases hgt : h.maxHeap.items.size > h.minHeap.items.size
    · have c2 : ((h.maxHeap.items.size : Int) > (h.minHeap.items.size : Int)) := by omega
      rw [if_pos c2, priorityqueue_peek_ok hmax.1 (by omega)]
      refine ⟨false, _, _, rfl, ?_, ?_, ?_⟩
      · simp only [Bool.false_eq_true, false_iff]; omega
      · intro hf; cases hf
      · intro _
        have e2 : h.elements.length / 2 = h.maxHeap.items.size - 1 := by omega
        rw [e2, hrmax (by omega), cdouble_round_trip]
        exact ⟨rfl, rfl⟩
    · have c2 : ¬ ((h.maxHeap.items.size : Int) > (h.minHeap.items.size : Int)) := by omega
      rw [if_neg c2, priorityqueue_peek_ok hmin.1 (by omega)]
      refine ⟨false, _, _, rfl, ?_, ?_, ?_⟩
      · simp only [Bool.false_eq_true, false_iff]; omega
      · intro hf; cases hf
      · intro _
        have e2 : h.elements.length / 2 = h.maxHeap.items.size := by omega
        rw [e2, hrmin (by omega), cdouble_round_trip]
        exact ⟨rfl, rfl⟩

/-- C8: the two medians.  For every non-empty heap reached from `medianheap_create` by
calls whose arguments fit the storage cell, `medianheap_get_median2` returns; it returns
true exactly when the number of elements is even, and then `medians[0]`, `medians[1]` are
the lower and upper middle elements of the sorted multiset; when the number is odd it
returns false, `medians[0]` is the middle element and `medians[1]` is left as it was.
After inserting 5, 1, 3, 2 it reports the two medians 2 and 3. -/
theorem get_median2_middle (capacity : Int) (calls : List Call) (h : MedianHeap)
    (medians : Int × Int) (hfit : ∀ c ∈ calls, fits_cell c.arg)
    (hr : medianheap_run capacity calls = Res.ok h) (hne : medianheap_is_empty h = false) :
    (∃ flag m0 m1, medianheap_get_median2 h medians = Res.ok (flag, (m0, m1))
      ∧ (flag = true ↔ (apply_calls [] calls).length % 2 = 0)
      ∧ (flag = true →
          m0 = (sorted_of (apply_calls [] calls)).getD ((apply_calls [] calls).length / 2 - 1) 0
          ∧ m1 = (sorted_of (apply_calls [] calls)).getD ((apply_calls [] calls).length / 2) 0)
      ∧ (flag = false →
          m0 = (sorted_of (apply_calls [] calls)).getD ((apply_calls [] calls).length / 2) 0
          ∧ m1 = medians.2))
    ∧ (medianheap_run 10 [Call.insert 5, Call.insert 1, Call.insert 3, Call.insert 2]
        >>= fun r => medianheap_get_median2 r (0, 0)) = Res.ok (true, (2, 3)) := by
  refine ⟨?_, by decide⟩
  obtain ⟨⟨hw, hb, _⟩, _, hf⟩ := medianheap_run_eq_ok hr
  obtain ⟨ho, hperm, _⟩ := hf hfit
  obtain ⟨flag, m0, m1, hm, h1, h2, h3⟩ := get_median2_ok hw hb ho hne medians
  rw [sorted_of_congr hperm, hperm.length_eq] at h2 h3
  rw [hperm.length_eq] at h1
  exact ⟨flag, m0, m1, hm, h1, h2, h3⟩

theorem get_median2_middle_witness :
    (∀ c ∈ [Call.insert 5, Call.insert 1, Call.insert 3], fits_cell c.arg)
    ∧ medianheap_run 10 [Call.insert 5, Call.insert 1, Call.insert 3]
        = Res.ok (heap_of [1, 0, 0, 0, 0, 0, 0, 0, 0, 0] 1 [3, 5, 0, 0, 0, 0, 0, 0, 0, 0] 2 9)
    ∧ medianheap_get_median2
          (heap_of [1, 0, 0, 0, 0, 0, 0, 0, 0, 0] 1 [3, 5, 0, 0, 0, 0, 0, 0, 0, 0] 2 9) (7, 9)
        = Res.ok (false, (3, 9))
    ∧ sorted_of (apply_calls [] [Call.insert 5, Call.insert 1, Call.insert 3]) = [1, 3, 5]
    ∧ ∃ flag m0 m1, medianheap_get_median2
          (heap_of [1, 0, 0, 0, 0, 0, 0, 0, 0, 0] 1 [3, 5, 0, 0, 0, 0, 0, 0, 0, 0] 2 9) (7, 9)
          = Res.ok (flag, (m0, m1))
        ∧ (flag = true
            ↔ (apply_calls [] [Call.insert 5, Call.insert 1, Call.insert 3]).length % 2 = 0)
        ∧ (flag = true →
            m0 = (sorted_of (apply_calls [] [Call.insert 5, Call.insert 1, Call.insert 3])).getD
              ((apply_calls [] [Call.insert 5, Call.insert 1, Call.insert 3]).length / 2 - 1) 0
            ∧ m1 = (sorted_of (apply_calls [] [Call.insert 5, Call.insert 1, Call.insert 3])).getD
              ((apply_calls [] [Call.insert 5, Call.insert 1, Call.insert 3]).length / 2) 0)
        ∧ (flag = false →
            m0 = (sorted_of (apply_calls [] [Call.insert 5, Call.insert 1, Call.insert 3])).getD
              ((apply_calls [] [Call.insert 5, Call.insert 1, Call.insert 3]).length / 2) 0
            ∧ m1 = ((7, 9) : Int × Int).2) :=
  ⟨by decide, by decide, by decide, by decide,
    (get_median2_middle 10 [Call.insert 5, Call.insert 1, Call.insert 3] _ (7, 9)
      (by decide) (by decide) (by decide)).1⟩

theorem average_eq_round (h : MedianHeap) :
    medianheap_get_average h
      = ((CDouble.ofInt h.sum).divInt
          (priorityqueue_size h.maxHeap + priorityqueue_size h.minHeap)).round 53 := rfl

theorem exact_quotient_toRat (h : MedianHeap) :
    ((CDouble.ofInt h.sum).divInt
        (priorityqueue_size h.maxHeap + priorityqueue_size h.minHeap)).toRat
      = (medianheap_get_sum h : ℚ)
        / ((priorityqueue_size h.maxHeap + priorityqueue_size h.minHeap : Int) : ℚ) := by
  simp [medianheap_get_sum, CDouble.toRat, CDouble.divInt, CDouble.ofInt]

/-- C9, the claim as worded fails: after inserting 1, 1 and 2 the sum is 4 and the two
heaps hold 3 elements, but `medianheap_get_average` returns 6004799503160661 / 2 ^ 52,
the `double` nearest to 4 / 3, and not the quotient of the sum by the count. -/
theorem average_of_one_one_two :
    medianheap_run 10 [Call.insert 1, Call.insert 1, Call.insert 2]
        = Res.ok (heap_of [1, 0, 0, 0, 0, 0, 0, 0, 0, 0] 1 [1, 2, 0, 0, 0, 0, 0, 0, 0, 0] 2 4)
    ∧ medianheap_is_empty
        (heap_of [1, 0, 0, 0, 0, 0, 0, 0, 0, 0] 1 [1, 2, 0, 0, 0, 0, 0, 0, 0, 0] 2 4) = false
    ∧ medianheap_get_sum
        (heap_of [1, 0, 0, 0, 0, 0, 0, 0, 0, 0] 1 [1, 2, 0, 0, 0, 0, 0, 0, 0, 0] 2 4) = 4
    ∧ priorityqueue_size
          (heap_of [1, 0, 0, 0, 0, 0, 0, 0, 0, 0] 1 [1, 2, 0, 0, 0, 0, 0, 0, 0, 0] 2 4).maxHeap
        + priorityqueue_size
          (heap_of [1, 0, 0, 0, 0, 0, 0, 0, 0, 0] 1 [1, 2, 0, 0, 0, 0, 0, 0, 0, 0] 2 4).minHeap
        = 3
    ∧ medianheap_get_average
        (heap_of [1, 0, 0, 0, 0, 0, 0, 0, 0, 0] 1 [1, 2, 0, 0, 0, 0, 0, 0, 0, 0] 2 4)
        = CDouble.mk 6004799503160661 4503599627370496
    ∧ (medianheap_get_average
        (heap_of [1, 0, 0, 0, 0, 0, 0, 0, 0, 0] 1 [1, 2, 0, 0, 0, 0, 0, 0, 0, 0] 2 4)).toRat
        ≠ ((medianheap_get_sum
            (heap_of [1, 0, 0, 0, 0, 0, 0, 0, 0, 0] 1 [1, 2, 0, 0, 0, 0, 0, 0, 0, 0] 2 4) : Int)
            : ℚ)
          / ((priorityqueue_size
              (heap_of [1, 0, 0, 0, 0, 0, 0, 0, 0, 0] 1 [1, 2, 0, 0, 0, 0, 0, 0, 0, 0] 2
                4).maxHeap
            + priorityqueue_size
              (heap_of [1, 0, 0, 0, 0, 0, 0, 0, 0, 0] 1 [1, 2, 0, 0, 0, 0, 0, 0, 0, 0] 2
                4).minHeap : Int) : ℚ) := by
  have e1 : medianheap_get_sum
      (heap_of [1, 0, 0, 0, 0, 0, 0, 0, 0, 0] 1 [1, 2, 0, 0, 0, 0, 0, 0, 0, 0] 2 4) = 4 := by
    decide
  have e2 : priorityqueue_size
        (heap_of [1, 0, 0, 0, 0, 0, 0, 0, 0, 0] 1 [1, 2, 0, 0, 0, 0, 0, 0, 0, 0] 2 4).maxHeap
      + priorityqueue_size
        (heap_of [1, 0, 0, 0, 0, 0, 0, 0, 0, 0] 1 [1, 2, 0, 0, 0, 0, 0, 0, 0, 0] 2 4).minHeap
      = 3 := by decide
  have e3 : medianheap_get_average
      (heap_of [1, 0, 0, 0, 0, 0, 0, 0, 0, 0] 1 [1, 2, 0, 0, 0, 0, 0, 0, 0, 0] 2 4)
      = CDouble.mk 6004799503160661 4503599627370496 := by decide
  refine ⟨by decide, by decide, e1, e2, e3, ?_⟩
  rw [e1, e2, e3]
  simp only [CDouble.toRat]
  norm_num

/-- C9, amended: average.  For every non-empty heap reached from `medianheap_create` by
any list of calls, the divisor `size(maxHeap) + size(minHeap)` of
`medianheap_get_average` is the number of elements held and is positive, and the value
returned is the quotient of `medianheap_get_sum` by it rounded to a `double`: it is a
number with at most 53 significant binary digits, no such number is nearer to the
quotient, and it differs from the quotient by at most the fraction `2 ^ -53` of it.  It
is the quotient itself whenever the quotient is such a number, in particular whenever the
count divides a sum in the range of `int`.  After inserting 10 twice the sum is 20 and
the average 10. -/
theorem average_is_rounded_quotient (capacity : Int) (calls : List Call) (h : MedianHeap)
    (hr : medianheap_run capacity calls = Res.ok h) (hne : medianheap_is_empty h = false) :
    0 < priorityqueue_size h.maxHeap + priorityqueue_size h.minHeap
    ∧ priorityqueue_size h.maxHeap + priorityqueue_size h.minHeap
      = ((h.elements.length : Nat) : Int)
    ∧ (∃ (i : Nat) (j : Int), i < 2 ^ 53
        ∧ |(medianheap_get_average h).toRat| = (i : ℚ) * (2 : ℚ) ^ j)
    ∧ (∀ (y : ℚ) (i : Nat) (j : Int), i < 2 ^ 53 → |y| = (i : ℚ) * (2 : ℚ) ^ j →
        |(medianheap_get_average h).toRat
            - (medianheap_get_sum h : ℚ)
              / ((priorityqueue_size h.maxHeap + priorityqueue_size h.minHeap : Int) : ℚ)|
          ≤ |y - (medianheap_get_sum h : ℚ)
              / ((priorityqueue_size h.maxHeap + priorityqueue_size h.minHeap : Int) : ℚ)|)
    ∧ |(medianheap_get_average h).toRat
          - (medianheap_get_sum h : ℚ)
            / ((priorityqueue_size h.maxHeap + priorityqueue_size h.minHeap : Int) : ℚ)|
        ≤ |(medianheap_get_sum h : ℚ)
            / ((priorityqueue_size h.maxHeap + priorityqueue_size h.minHeap : Int) : ℚ)|
          / 2 ^ 53
    ∧ (∀ (i : Nat) (j : Int), i < 2 ^ 53 →
        |(medianheap_get_sum h : ℚ)
            / ((priorityqueue_size h.maxHeap + priorityqueue_size h.minHeap : Int) : ℚ)|
          = (i : ℚ) * (2 : ℚ) ^ j →
        (medianheap_get_average h).toRat
          = (medianheap_get_sum h : ℚ)
            / ((priorityqueue_size h.maxHeap + priorityqueue_size h.minHeap : Int) : ℚ))
    ∧ (priorityqueue_size h.maxHeap + priorityqueue_size h.minHeap ∣ medianheap_get_sum h →
        int_range (medianheap_get_sum h) →
        (medianheap_get_average h).toRat
          = (medianheap_get_sum h : ℚ)
            / ((priorityqueue_size h.maxHeap + priorityqueue_size h.minHeap : Int) : ℚ))
    ∧ medianheap_run 10 [Call.insert 10, Call.insert 10]
        = Res.ok (heap_of [10, 0, 0, 0, 0, 0, 0, 0, 0, 0] 1 [10, 10, 0, 0, 0, 0, 0, 0, 0, 0] 1 20)
    ∧ medianheap_get_sum
        (heap_of [10, 0, 0, 0, 0, 0, 0, 0, 0, 0] 1 [10, 10, 0, 0, 0, 0, 0, 0, 0, 0] 1 20) = 20
    ∧ medianheap_get_average
        (heap_of [10, 0, 0, 0, 0, 0, 0, 0, 0, 0] 1 [10, 10, 0, 0, 0, 0, 0, 0, 0, 0] 1 20)
        = CDouble.ofInt 10 := by
  have hpos : 0 < priorityqueue_size h.maxHeap + priorityqueue_size h.minHeap := by
    unfold priorityqueue_size vec_size
    rcases Nat.eq_zero_or_pos h.minHeap.items.size with h0 | h0
    · rcases Nat.eq_zero_or_pos h.maxHeap.items.size with h1 | h1
      · have := (is_empty_iff h).mpr ⟨h0, h1⟩
        rw [hne] at this
        cases this
      · omega
    · omega
  have hcount : priorityqueue_size h.maxHeap + priorityqueue_size h.minHeap
      = ((h.elements.length : Nat) : Int) := by
    rw [elements_length (medianheap_run_eq_ok hr).1.1]
    simp [priorityqueue_size, vec_size]
  have hexact : ∀ (i : Nat) (j : Int), i < 2 ^ 53 →
      |(medianheap_get_sum h : ℚ)
          / ((priorityqueue_size h.maxHeap + priorityqueue_size h.minHeap : Int) : ℚ)|
        = (i : ℚ) * (2 : ℚ) ^ j →
      (medianheap_get_average h).toRat
        = (medianheap_get_sum h : ℚ)
          / ((priorityqueue_size h.maxHeap + priorityqueue_size h.minHeap : Int) : ℚ) := by
    intro i j hi hq
    rw [← exact_quotient_toRat] at hq ⊢
    rw [average_eq_round]
    exact round_exact 53 _ i j hi hq
  refine ⟨hpos, hcount, ?_, ?_, ?_, hexact, ?_, by decide, by decide, by decide⟩
  · by_cases hz : h.sum = 0
    · refine ⟨0, 0, by norm_num, ?_⟩
      rw [average_eq_round]
      unfold CDouble.round
      rw [if_pos (Or.inl (by simp [CDouble.divInt, CDouble.ofInt, hz]))]
      simp [CDouble.toRat, CDouble.divInt, CDouble.ofInt, hz]
    · rw [average_eq_round]
      apply round_representable 53 (by norm_num)
      · simpa [CDouble.divInt, CDouble.ofInt] using hz
      · simp only [CDouble.divInt, CDouble.ofInt]
        omega
  · intro y i j hi hy
    rw [← exact_quotient_toRat, average_eq_round]
    exact round_nearest 53 (by norm_num) _ y i j hi hy
  · rw [← exact_quotient_toRat, average_eq_round]
    exact round_rel_err 53 _
  · intro hdvd hrange
    have hc0 : ((priorityqueue_size h.maxHeap + priorityqueue_size h.minHeap : Int) : ℚ) ≠ 0 := by
      exact_mod_cast hpos.ne'
    refine hexact (medianheap_get_sum h
        / (priorityqueue_size h.maxHeap + priorityqueue_size h.minHeap)).natAbs 0 ?_ ?_
    · have h1 := Int.natAbs_div_le_natAbs (medianheap_get_sum h)
        (priorityqueue_size h.maxHeap + priorityqueue_size h.minHeap)
      have h2 : (medianheap_get_sum h).natAbs ≤ 2147483648 := by
        unfold int_range at hrange
        omega
      calc _ ≤ 2147483648 := le_trans h1 h2
        _ < 2 ^ 53 := by norm_num
    · rw [← Int.cast_div hdvd hc0, Nat.cast_natAbs, zpow_zero, mul_one]
      push_cast
      rfl

theorem average_is_rounded_quotient_witness :
    medianheap_run 10 [Call.insert 1, Call.insert 2]
        = Res.ok (heap_of [1, 0, 0, 0, 0, 0, 0, 0, 0, 0] 1 [2, 1, 0, 0, 0, 0, 0, 0, 0, 0] 1 3)
    ∧ medianheap_get_average
          (heap_of [1, 0, 0, 0, 0, 0, 0, 0, 0, 0] 1 [2, 1, 0, 0, 0, 0, 0, 0, 0, 0] 1 3)
        = CDouble.mk 3 2
    ∧ 0 < priorityqueue_size
          (heap_of [1, 0, 0, 0, 0, 0, 0, 0, 0, 0] 1 [2, 1, 0, 0, 0, 0, 0, 0, 0, 0] 1 3).maxHeap
        + priorityqueue_size
          (heap_of [1, 0, 0, 0, 0, 0, 0, 0, 0, 0] 1 [2, 1, 0, 0, 0, 0, 0, 0, 0, 0] 1 3).minHeap
    ∧ |(medianheap_get_average
          (heap_of [1, 0, 0, 0, 0, 0, 0, 0, 0, 0] 1 [2, 1, 0, 0, 0, 0, 0, 0, 0, 0] 1 3)).toRat
        - (medianheap_get_sum
            (heap_of [1, 0, 0, 0, 0, 0, 0, 0, 0, 0] 1 [2, 1, 0, 0, 0, 0, 0, 0, 0, 0] 1 3) : ℚ)
          / ((priorityqueue_size
              (heap_of [1, 0, 0, 0, 0, 0, 0, 0, 0, 0] 1 [2, 1, 0, 0, 0, 0, 0, 0, 0, 0] 1
                3).maxHeap
            + priorityqueue_size
              (heap_of [1, 0, 0, 0, 0, 0, 0, 0, 0, 0] 1 [2, 1, 0, 0, 0, 0, 0, 0, 0, 0] 1
                3).minHeap : Int) : ℚ)|
      ≤ |(medianheap_get_sum
            (heap_of [1, 0, 0, 0, 0, 0, 0, 0, 0, 0] 1 [2, 1, 0, 0, 0, 0, 0, 0, 0, 0] 1 3) : ℚ)
          / ((priorityqueue_size
              (heap_of [1, 0, 0, 0, 0, 0, 0, 0, 0, 0] 1 [2, 1, 0, 0, 0, 0, 0, 0, 0, 0] 1
                3).maxHeap
            + priorityqueue_size
              (heap_of [1, 0, 0, 0, 0, 0, 0, 0, 0, 0] 1 [2, 1, 0, 0, 0, 0, 0, 0, 0, 0] 1
                3).minHeap : Int) : ℚ)| / 2 ^ 53 :=
  ⟨by decide, by decide,
    (average_is_rounded_quotient 10 [Call.insert 1, Call.insert 2] _ (by decide)
      (by decide)).1,
    (average_is_rounded_quotient 10 [Call.insert 1, Call.insert 2] _ (by decide)
      (by decide)).2.2.2.2.1⟩


/-! ## calculator.c: error gating and INSERT -/

theorem finish_dataset (server : Server) (msg : Message) (elapsed : Int) :
    (command_controller_finish server msg elapsed).1.dataset = server.dataset := by
  unfold command_controller_finish
  split <;> rfl

theorem finish_operation (server : Server) (msg : Message) (elapsed : Int) :
    (command_controller_finish server msg elapsed).2.operation = msg.operation := by
  unfold command_controller_finish
  split <;> rfl

/-- Error gating: on an initialised server whose dataset is empty, a request whose
operation is neither INSERT nor QUIT is answered with ERROR, the operands are left as
they were and the dataset is not touched. -/
theorem error_gate_on_empty (server : Server) (msg : Message) (elapsed : Int) (h : MedianHeap)
    (hinit : server.initialized = true) (hd : server.dataset = some h)
    (hemp : medianheap_is_empty h = true)
    (h1 : msg.operation ≠ INSERT) (h2 : msg.operation ≠ QUIT) :
    ∃ s, command_controller server msg elapsed
        = Res.ok (s, { msg with operation := ERROR, elapsed := CDouble.ofInt elapsed })
      ∧ s.dataset = some h := by
  unfold command_controller
  simp only [hinit, Bool.not_true, Bool.false_eq_true, if_false, Res.pure_eq, Res.ok_bind]
  by_cases hr : msg.operation < 6 ∧ msg.operation ≥ 0
  · simp only [hr, and_self, if_true, hd, hemp, h1, h2, decide_False, Bool.or_self,
      Bool.not_false, Bool.and_self]
    exact ⟨_, rfl, rfl⟩
  · simp only [hr, if_false, hd, hemp, h1, h2, decide_False, Bool.or_self,
      Bool.not_false, Bool.and_self, if_true]
    exact ⟨_, rfl, hd⟩

/-- An INSERT request on an initialised server whose dataset is a heap reached from
`medianheap_create` with room to grow is processed by `medianheap_insert` and answered
with operation INSERT. -/
theorem insert_reply (server : Server) (msg : Message) (elapsed : Int) (h : MedianHeap)
    (hinit : server.initialized = true) (hd : server.dataset = some h)
    (hi : h.inv) (hc : h.cap_pos) (hop : msg.operation = INSERT) :
    ∃ s r d, command_controller server msg elapsed = Res.ok (s, r)
      ∧ medianheap_insert h (msg.operands.getD ARGUMENT ⟨0, 1⟩).toInt = Res.ok d
      ∧ s.dataset = some d ∧ r.operation = INSERT := by
  obtain ⟨d, hins⟩ := medianheap_insert_ok (msg.operands.getD ARGUMENT ⟨0, 1⟩).toInt hi.1 hc
  have hr : msg.operation < 6 ∧ msg.operation ≥ 0 := by
    rw [hop]; decide
  unfold command_controller
  simp only [hinit, Bool.not_true, Bool.false_eq_true, if_false, Res.pure_eq, Res.ok_bind,
    hr, and_self, if_true, hd]
  simp only [hop, decide_True, Bool.true_or, Bool.not_true, Bool.and_false,
    Bool.false_eq_true, if_false, if_true, hins, Res.ok_bind]
  exact ⟨_, _, d, rfl, rfl, finish_dataset _ _ _, (finish_operation _ _ _).trans hop⟩

/-- C10 (as the code behaves): on a fresh server DELETE, AVERAGE, SUM, MINIMUM and MEDIAN
are answered with ERROR and INSERT 200 is answered with INSERT, but the dataset then
holds -56 and not 200: the sum is 200, the only element is -56, and a following MINIMUM
request is answered with -56. -/
theorem insert_request_of_wide_value :
    [DELETE, AVERAGE, SUM, MINIMUM, MEDIAN].map (fun op =>
        command_controller fresh_server (request op 0) 7 >>= fun r => Res.ok r.2.operation)
      = [Res.ok ERROR, Res.ok ERROR, Res.ok ERROR, Res.ok ERROR, Res.ok ERROR]
    ∧ (command_controller fresh_server (request INSERT 200) 7
        >>= fun r => Res.ok (r.2.operation, r.1.dataset))
      = Res.ok (INSERT,
          some (heap_of [0, 0, 0, 0, 0, 0, 0, 0, 0, 0] 0 [-56, 0, 0, 0, 0, 0, 0, 0, 0, 0] 1 200))
    ∧ (heap_of [0, 0, 0, 0, 0, 0, 0, 0, 0, 0] 0 [-56, 0, 0, 0, 0, 0, 0, 0, 0, 0] 1 200).elements
        = [-56]
    ∧ (command_controller fresh_server (request INSERT 200) 7
        >>= fun r => command_controller r.1 (request MINIMUM 0) 7
        >>= fun r => Res.ok (r.2.operation, r.2.operands.getD RESULT ⟨0, 1⟩))
      = Res.ok (MINIMUM, CDouble.ofInt (-56)) :=
  ⟨by decide, by decide, by decide, by decide⟩


/-! ## The median of values that fit the storage cell -/

theorem stat_median_congr {l t : List Int} (h : l.Perm t) : stat_median l = stat_median t := by
  unfold stat_median
  rw [sorted_of_congr h]

/-- On a balanced, ordered, non-empty dual heap `medianheap_get_median` returns the
statistical median of the elements held. -/
theorem get_median_stat {h : MedianHeap} (hw : h.wf) (hb : h.balanced) (ho : h.ordered)
    (hne : medianheap_is_empty h = false) :
    ∃ m, medianheap_get_median h = Res.ok m ∧ m.toRat = stat_median h.elements := by
  have hlen := elements_length hw
  obtain ⟨hrmax, hrmin⟩ := roots_in_sorted hw ho
  have hnz : ¬ (h.minHeap.items.size = 0 ∧ h.maxHeap.items.size = 0) := by
    intro hh
    have := (is_empty_iff h).mpr hh
    rw [hne] at this
    cases this
  have hbal : ((h.maxHeap.items.size : Int) - (h.minHeap.items.size : Int)).natAbs ≤ 1 := hb
  refine ⟨_, get_median_ok hw hnz, ?_⟩
  unfold stat_median
  simp only [sorted_of_length]
  by_cases heq : h.maxHeap.items.size = h.minHeap.items.size
  · have e0 : ¬ h.elements.length % 2 = 1 := by omega
    have e1 : h.elements.length / 2 - 1 = h.maxHeap.items.size - 1 := by omega
    have e2 : h.elements.length / 2 = h.maxHeap.items.size := by omega
    rw [if_pos heq, if_neg e0, e1, e2, hrmax (by omega), hrmin (by omega)]
    simp only [CDouble.toRat, CDouble.divInt, CDouble.add, CDouble.ofInt]
    push_cast
    ring
  · rw [if_neg heq]
    by_cases hgt : h.maxHeap.items.size > h.minHeap.items.size
    · have e0 : h.elements.length % 2 = 1 := by omega
      have e2 : h.elements.length / 2 = h.maxHeap.items.size - 1 := by omega
      rw [if_pos hgt, if_pos e0, e2, hrmax (by omega)]
      simp [CDouble.toRat, CDouble.ofInt]
    · have e0 : h.elements.length % 2 = 1 := by omega
      have e2 : h.elements.length / 2 = h.maxHeap.items.size := by omega
      rw [if_neg hgt, if_pos e0, e2, hrmin (by omega)]
      simp [CDouble.toRat, CDouble.ofInt]

/-- For calls whose arguments all fit the storage cell, the median reported for the
non-empty heap reached is the statistical median of the multiset built by the same
calls. -/
theorem median_of_fitting_calls {capacity : Int} {calls : List Call} {h : MedianHeap}
    (hfit : ∀ c ∈ calls, fits_cell c.arg) (hr : medianheap_run capacity calls = Res.ok h)
    (hne : medianheap_is_empty h = false) :
    ∃ m, medianheap_get_median h = Res.ok m ∧ m.toRat = stat_median (apply_calls [] calls) := by
  obtain ⟨⟨hw, hb, _⟩, _, hf⟩ := medianheap_run_eq_ok hr
  obtain ⟨ho, hperm, _⟩ := hf hfit
  obtain ⟨m, hm, hs⟩ := get_median_stat hw hb ho hne
  exact ⟨m, hm, hs.trans (stat_median_congr hperm)⟩


/-! ## calculator.c: the dispatcher on a dataset that is not empty -/

theorem getD_set_other {α : Type} (l : List α) (i j : Nat) (x d : α) (h : i ≠ j) :
    (l.set i x).getD j d = l.getD j d := by
  simp [List.getD_eq_getElem?_getD, List.getElem?_set, h]

theorem finish_operands (server : Server) (msg : Message) (elapsed : Int) :
    (command_controller_finish server msg elapsed).2.operands = msg.operands := by
  unfold command_controller_finish
  split <;> rfl

theorem finish_initialized (server : Server) (msg : Message) (elapsed : Int) :
    (command_controller_finish server msg elapsed).1.initialized = server.initialized := by
  unfold command_controller_finish
  split <;> rfl

/-- The dual heap the first request creates: `medianheap_create(10)`. -/
theorem create_ten : medianheap_create 10
    = Res.ok (heap_of [0, 0, 0, 0, 0, 0, 0, 0, 0, 0] 0 [0, 0, 0, 0, 0, 0, 0, 0, 0, 0] 0 0) := by
  decide

/-- The first request initialises the statics and is then processed as on an
initialised server with an empty dataset. -/
theorem controller_first (server : Server) (msg : Message) (elapsed : Int)
    (hinit : server.initialized = false) :
    command_controller server msg elapsed
      = command_controller (Server.mk true
          (some (heap_of [0, 0, 0, 0, 0, 0, 0, 0, 0, 0] 0 [0, 0, 0, 0, 0, 0, 0, 0, 0, 0] 0 0))
          server.medians server.total_elapsed server.total_commands) msg elapsed := by
  unfold command_controller
  simp only [hinit, Bool.not_false, if_true, create_ten, Res.pure_eq, Res.ok_bind,
    Bool.not_true, Bool.false_eq_true, if_false]

theorem gate_open {h : MedianHeap} (hne : medianheap_is_empty h = false) (op : Int) :
    (medianheap_is_empty h && !(decide (op = INSERT) || decide (op = QUIT))) = false := by
  rw [hne]; rfl

/-- A DELETE request on a dataset that is not empty is processed by
`medianheap_delete_all` and answered with operation DELETE and the operands it came
with. -/
theorem delete_reply (server : Server) (msg : Message) (elapsed : Int) (h d : MedianHeap)
    (hinit : server.initialized = true) (hd : server.dataset = some h)
    (hne : medianheap_is_empty h = false) (hop : msg.operation = DELETE)
    (hdel : medianheap_delete_all h (msg.operands.getD ARGUMENT ⟨0, 1⟩).toInt = Res.ok d) :
    ∃ s r, command_controller server msg elapsed = Res.ok (s, r)
      ∧ s.dataset = some d ∧ r.operation = DELETE ∧ r.operands = msg.operands := by
  have hr : msg.operation < 6 ∧ msg.operation ≥ 0 := by
    rw [hop]; decide
  have n1 : ¬ msg.operation = INSERT := by rw [hop]; decide
  unfold command_controller
  simp only [hinit, Bool.not_true, Bool.false_eq_true, if_false, Res.pure_eq, Res.ok_bind,
    hr, and_self, if_true, hd, gate_open hne]
  simp only [n1, if_false, hop, if_true, hdel, Res.ok_bind]
  exact ⟨_, _, rfl, finish_dataset _ _ _, (finish_operation _ _ _).trans hop,
    finish_operands _ _ _⟩

/-- A SUM request on a dataset that is not empty: operation kept, `medianheap_get_sum`
converted to `float` stored in the result slot, dataset as it was. -/
theorem sum_reply (server : Server) (msg : Message) (elapsed : Int) (h : MedianHeap)
    (hinit : server.initialized = true) (hd : server.dataset = some h)
    (hne : medianheap_is_empty h = false) (hop : msg.operation = SUM) :
    ∃ s r, command_controller server msg elapsed = Res.ok (s, r)
      ∧ s.dataset = some h ∧ r.operation = SUM
      ∧ r.operands
        = msg.operands.set RESULT (CDouble.ofInt (medianheap_get_sum h)).to_float := by
  have hr : msg.operation < 6 ∧ msg.operation ≥ 0 := by
    rw [hop]; decide
  have n1 : ¬ msg.operation = INSERT := by rw [hop]; decide
  have n2 : ¬ msg.operation = DELETE := by rw [hop]; decide
  have n3 : ¬ msg.operation = AVERAGE := by rw [hop]; decide
  unfold command_controller
  simp only [hinit, Bool.not_true, Bool.false_eq_true, if_false, Res.pure_eq, Res.ok_bind,
    hr, and_self, if_true, hd, gate_open hne]
  simp only [n1, n2, n3, if_false, if_pos hop]
  exact ⟨_, _, rfl, finish_dataset _ _ _, (finish_operation _ _ _).trans hop,
    finish_operands _ _ _⟩

/-- An AVERAGE request on a dataset that is not empty: operation kept,
`medianheap_get_average` converted to `float` stored in the result slot, dataset as it
was. -/
theorem average_reply (server : Server) (msg : Message) (elapsed : Int) (h : MedianHeap)
    (hinit : server.initialized = true) (hd : server.dataset = some h)
    (hne : medianheap_is_empty h = false) (hop : msg.operation = AVERAGE) :
    ∃ s r, command_controller server msg elapsed = Res.ok (s, r)
      ∧ s.dataset = some h ∧ r.operation = AVERAGE
      ∧ r.operands = msg.operands.set RESULT (medianheap_get_average h).to_float := by
  have hr : msg.operation < 6 ∧ msg.operation ≥ 0 := by
    rw [hop]; decide
  have n1 : ¬ msg.operation = INSERT := by rw [hop]; decide
  have n2 : ¬ msg.operation = DELETE := by rw [hop]; decide
  unfold command_controller
  simp only [hinit, Bool.not_true, Bool.false_eq_true, if_false, Res.pure_eq, Res.ok_bind,
    hr, and_self, if_true, hd, gate_open hne]
  simp only [n1, n2, if_false, if_pos hop]
  exact ⟨_, _, rfl, finish_dataset _ _ _, (finish_operation _ _ _).trans hop,
    finish_operands _ _ _⟩

/-- A MINIMUM request on a dataset that is not empty: operation kept, the value of
`medianheap_get_min` stored in the result slot, dataset as it was. -/
theorem minimum_reply (server : Server) (msg : Message) (elapsed : Int) (h : MedianHeap)
    (m : Int) (hinit : server.initialized = true) (hd : server.dataset = some h)
    (hne : medianheap_is_empty h = false) (hop : msg.operation = MINIMUM)
    (hm : medianheap_get_min h = Res.ok m) :
    ∃ s r, command_controller server msg elapsed = Res.ok (s, r)
      ∧ s.dataset = some h ∧ r.operation = MINIMUM
      ∧ r.operands = msg.operands.set RESULT (CDouble.ofInt m) := by
  have hr : msg.operation < 6 ∧ msg.operation ≥ 0 := by
    rw [hop]; decide
  have n1 : ¬ msg.operation = INSERT := by rw [hop]; decide
  have n2 : ¬ msg.operation = DELETE := by rw [hop]; decide
  have n3 : ¬ msg.operation = AVERAGE := by rw [hop]; decide
  have n4 : ¬ msg.operation = SUM := by rw [hop]; decide
  unfold command_controller
  simp only [hinit, Bool.not_true, Bool.false_eq_true, if_false, Res.pure_eq, Res.ok_bind,
    hr, and_self, if_true, hd, gate_open hne]
  simp only [n1, n2, n3, n4, if_false, if_pos hop, hm, Res.ok_bind]
  exact ⟨_, _, rfl, finish_dataset _ _ _, (finish_operation _ _ _).trans hop,
    finish_operands _ _ _⟩

/-- A MEDIAN request on a dataset that is not empty: operation kept, dataset as it was;
with two medians they go to slots 0 and 1 and the flag slot holds 1, with one median it
goes to slot 0 and the flag slot holds 0. -/
theorem median_reply (server : Server) (msg : Message) (elapsed : Int) (h : MedianHeap)
    (flag : Bool) (m0 m1 : Int)
    (hinit : server.initialized = true) (hd : server.dataset = some h)
    (hne : medianheap_is_empty h = false) (hop : msg.operation = MEDIAN)
    (hm : medianheap_get_median2 h server.medians = Res.ok (flag, (m0, m1))) :
    ∃ s r, command_controller server msg elapsed = Res.ok (s, r)
      ∧ s.dataset = some h ∧ r.operation = MEDIAN
      ∧ r.operands = (if flag = true then
          ((msg.operands.set MEDIAN1 (CDouble.ofInt m0)).set MEDIAN2 (CDouble.ofInt m1)).set
            FLAG_TWO_MEDIAN (CDouble.ofInt TWO_MEDIANS)
        else (msg.operands.set MEDIAN1 (CDouble.ofInt m0)).set
            FLAG_TWO_MEDIAN (CDouble.ofInt ONE_MEDIAN)) := by
  have hr : msg.operation < 6 ∧ msg.operation ≥ 0 := by
    rw [hop]; decide
  have n1 : ¬ msg.operation = INSERT := by rw [hop]; decide
  have n2 : ¬ msg.operation = DELETE := by rw [hop]; decide
  have n3 : ¬ msg.operation = AVERAGE := by rw [hop]; decide
  have n4 : ¬ msg.operation = SUM := by rw [hop]; decide
  have n5 : ¬ msg.operation = MINIMUM := by rw [hop]; decide
  unfold command_controller
  simp only [hinit, Bool.not_true, Bool.false_eq_true, if_false, Res.pure_eq, Res.ok_bind,
    hr, and_self, if_true, hd, gate_open hne]
  simp only [n1, n2, n3, n4, n5, if_false, if_pos hop, hm, Res.ok_bind]
  cases flag
  · exact ⟨_, _, rfl, finish_dataset _ _ _, (finish_operation _ _ _).trans hop,
      finish_operands _ _ _⟩
  · exact ⟨_, _, rfl, finish_dataset _ _ _, (finish_operation _ _ _).trans hop,
      finish_operands _ _ _⟩

/-- A QUIT request is never gated: the message comes back as it was. -/
theorem quit_reply (server : Server) (msg : Message) (elapsed : Int) (h : MedianHeap)
    (hinit : server.initialized = true) (hd : server.dataset = some h)
    (hop : msg.operation = QUIT) :
    ∃ s, command_controller server msg elapsed = Res.ok (s, msg) := by
  have hr : ¬ (msg.operation < 6 ∧ msg.operation ≥ 0) := by
    rw [hop]; decide
  unfold command_controller
  simp only [hinit, Bool.not_true, Bool.false_eq_true, if_false, Res.pure_eq, Res.ok_bind,
    hr, hd]
  have g : (medianheap_is_empty h
      && !(decide (msg.operation = INSERT) || decide (msg.operation = QUIT))) = false := by
    rw [hop]; cases medianheap_is_empty h <;> rfl
  have n1 : ¬ msg.operation = INSERT := by rw [hop]; decide
  have n2 : ¬ msg.operation = DELETE := by rw [hop]; decide
  have n3 : ¬ msg.operation = AVERAGE := by rw [hop]; decide
  have n4 : ¬ msg.operation = SUM := by rw [hop]; decide
  have n5 : ¬ msg.operation = MINIMUM := by rw [hop]; decide
  have n6 : ¬ msg.operation = MEDIAN := by rw [hop]; decide
  simp only [g, Bool.false_eq_true, if_false]
  simp only [n1, n2, n3, n4, n5, n6, if_false, if_pos hop]
  exact ⟨_, rfl⟩

/-- A request with an operation value outside INSERT..QUIT, on a dataset that is not
empty, changes nothing and comes back as it was. -/
theorem other_reply (server : Server) (msg : Message) (elapsed : Int) (h : MedianHeap)
    (hinit : server.initialized = true) (hd : server.dataset = some h)
    (hne : medianheap_is_empty h = false)
    (hop : msg.operation < 0 ∨ 6 < msg.operation) :
    command_controller server msg elapsed = Res.ok (server, msg) := by
  have hr : ¬ (msg.operation < 6 ∧ msg.operation ≥ 0) := by omega
  have n1 : ¬ msg.operation = INSERT := by unfold INSERT; omega
  have n2 : ¬ msg.operation = DELETE := by unfold DELETE; omega
  have n3 : ¬ msg.operation = AVERAGE := by unfold AVERAGE; omega
  have n4 : ¬ msg.operation = SUM := by unfold SUM; omega
  have n5 : ¬ msg.operation = MINIMUM := by unfold MINIMUM; omega
  have n6 : ¬ msg.operation = MEDIAN := by unfold MEDIAN; omega
  have n7 : ¬ msg.operation = QUIT := by unfold QUIT; omega
  unfold command_controller
  simp only [hinit, Bool.not_true, Bool.false_eq_true, if_false, Res.pure_eq, Res.ok_bind,
    hr, hd, gate_open hne]
  simp only [n1, n2, n3, n4, n5, n6, n7, if_false]

theorem get_min_returns {h : MedianHeap} (hw : h.wf) (hne : medianheap_is_empty h = false) :
    ∃ m, medianheap_get_min h = Res.ok m := by
  obtain ⟨hmax, hmin, htmax, _⟩ := hw
  unfold medianheap_get_min
  simp only [hne, Bool.not_false, if_true, priorityqueue_size, vec_size]
  by_cases hz : h.maxHeap.items.size = 0
  · have hc : ((h.maxHeap.items.size : Int) = 0) := by omega
    rw [if_pos hc]
    have hminpos : 0 < h.minHeap.items.size := by
      rcases Nat.eq_zero_or_pos h.minHeap.items.size with h0 | h0
      · have := (is_empty_iff h).mpr ⟨h0, hz⟩
        rw [hne] at this
        cases this
      · exact h0
    exact ⟨_, priorityqueue_peek_ok hmin.1 hminpos⟩
  · have hc : ¬ ((h.maxHeap.items.size : Int) = 0) := by omega
    rw [if_neg hc]
    obtain ⟨v, hv, _⟩ := max_heap_get_min_ok hmax htmax (by omega)
    exact ⟨v, hv⟩

/-- What `medianheap_get_median2` reads on a dual heap that is not empty: both roots
when the sizes are equal, else the root of the larger heap. -/
theorem get_median2_roots {h : MedianHeap} (hw : h.wf) (hne : medianheap_is_empty h = false)
    (medians : Int × Int) :
    medianheap_get_median2 h medians = Res.ok
      (if h.maxHeap.items.size = h.minHeap.items.size then
        (true, (h.maxHeap.contents.getD 0 0, h.minHeap.contents.getD 0 0))
      else if h.maxHeap.items.size > h.minHeap.items.size then
        (false, (h.maxHeap.contents.getD 0 0, medians.2))
      else (false, (h.minHeap.contents.getD 0 0, medians.2))) := by
  have hnz : ¬ (h.minHeap.items.size = 0 ∧ h.maxHeap.items.size = 0) := by
    intro hh
    have := (is_empty_iff h).mpr hh
    rw [hne] at this
    cases this
  obtain ⟨hmax, hmin, _, _⟩ := hw
  unfold medianheap_get_median2 priorityqueue_size vec_size
  by_cases heq : h.maxHeap.items.size = h.minHeap.items.size
  · have c : ((h.maxHeap.items.size : Int) = (h.minHeap.items.size : Int)) := by omega
    rw [if_pos c, if_pos heq, priorityqueue_peek_ok hmax.1 (by omega),
      priorityqueue_peek_ok hmin.1 (by omega)]
    simp only [Res.ok_bind, Res.pure_eq, cdouble_round_trip]
  · have c : ¬ ((h.maxHeap.items.size : Int) = (h.minHeap.items.size : Int)) := by omega
    rw [if_neg c, if_neg heq]
    by_cases hgt : h.maxHeap.items.size > h.minHeap.items.size
    · have c2 : ((h.maxHeap.items.size : Int) > (h.minHeap.items.size : Int)) := by omega
      rw [if_pos c2, if_pos hgt, priorityqueue_peek_ok hmax.1 (by omega)]
      simp only [Res.ok_bind, Res.pure_eq, cdouble_round_trip]
    · have c2 : ¬ ((h.maxHeap.items.size : Int) > (h.minHeap.items.size : Int)) := by omega
      rw [if_neg c2, if_neg hgt, priorityqueue_peek_ok hmin.1 (by omega)]
      simp only [Res.ok_bind, Res.pure_eq, cdouble_round_trip]


/-! ## calculator.c: every request is processed -/

/-- On an initialised server whose dataset satisfies the invariant and has room to
grow, every request is processed: no assertion fails.  A QUIT request comes back as it
was; any other request is answered with an operation other than QUIT and leaves a
dataset that again satisfies the invariant. -/
theorem controller_ready_init (server : Server) (msg : Message) (elapsed : Int)
    (h : MedianHeap) (hinit : server.initialized = true) (hd : server.dataset = some h)
    (hi : h.inv) (hc : h.cap_pos) :
    ∃ s r, command_controller server msg elapsed = Res.ok (s, r)
      ∧ (msg.operation = QUIT → r = msg)
      ∧ (msg.operation ≠ QUIT → r.operation ≠ QUIT
          ∧ ∃ d, s.dataset = some d ∧ d.inv ∧ d.cap_pos) := by
  by_cases q : msg.operation = QUIT
  · obtain ⟨s, hs⟩ := quit_reply server msg elapsed h hinit hd q
    exact ⟨s, msg, hs, fun _ => rfl, fun n => absurd q n⟩
  by_cases i : msg.operation = INSERT
  · obtain ⟨s, r, d, hs, hins, hsd, hro⟩ := insert_reply server msg elapsed h hinit hd hi hc i
    obtain ⟨w, b, _, _, cp, _, co⟩ := medianheap_insert_eq_ok hi.1 hins
    exact ⟨s, r, hs, fun e => absurd e q,
      fun _ => ⟨by rw [hro]; decide, d, hsd, ⟨w, b, co hi.2.2⟩, cp hc⟩⟩
  cases hemp : medianheap_is_empty h with
  | true =>
    obtain ⟨s, hs, hsd⟩ := error_gate_on_empty server msg elapsed h hinit hd hemp i q
    exact ⟨s, _, hs, fun e => absurd e q, fun _ => ⟨(by decide : ERROR ≠ QUIT), h, hsd, hi, hc⟩⟩
  | false =>
    by_cases c1 : msg.operation = DELETE
    · obtain ⟨d, hdel⟩ := medianheap_delete_all_ok
        (msg.operands.getD ARGUMENT ⟨0, 1⟩).toInt hi.1 hi.2.1 hi.2.2
      obtain ⟨w, b, _, _, cp, _, co⟩ := medianheap_delete_all_eq_ok hi.1 hdel
      obtain ⟨s, r, hs, hsd, hro, _⟩ := delete_reply server msg elapsed h d hinit hd hemp c1 hdel
      exact ⟨s, r, hs, fun e => absurd e q,
        fun _ => ⟨by rw [hro]; decide, d, hsd, ⟨w, b, co hi.2.2⟩, cp hc⟩⟩
    by_cases c2 : msg.operation = AVERAGE
    · obtain ⟨s, r, hs, hsd, hro, _⟩ := average_reply server msg elapsed h hinit hd hemp c2
      exact ⟨s, r, hs, fun e => absurd e q, fun _ => ⟨by rw [hro]; decide, h, hsd, hi, hc⟩⟩
    by_cases c3 : msg.operation = SUM
    · obtain ⟨s, r, hs, hsd, hro, _⟩ := sum_reply server msg elapsed h hinit hd hemp c3
      exact ⟨s, r, hs, fun e => absurd e q, fun _ => ⟨by rw [hro]; decide, h, hsd, hi, hc⟩⟩
    by_cases c4 : msg.operation = MINIMUM
    · obtain ⟨m, hm⟩ := get_min_returns hi.1 hemp
      obtain ⟨s, r, hs, hsd, hro, _⟩ := minimum_reply server msg elapsed h m hinit hd hemp c4 hm
      exact ⟨s, r, hs, fun e => absurd e q, fun _ => ⟨by rw [hro]; decide, h, hsd, hi, hc⟩⟩
    by_cases c5 : msg.operation = MEDIAN
    · obtain ⟨s, r, hs, hsd, hro, _⟩ := median_reply server msg elapsed h _ _ _ hinit hd hemp c5
        (get_median2_roots hi.1 hemp server.medians)
      exact ⟨s, r, hs, fun e => absurd e q, fun _ => ⟨by rw [hro]; decide, h, hsd, hi, hc⟩⟩
    have ho : msg.operation < 0 ∨ 6 < msg.operation := by
      unfold INSERT at i
      unfold DELETE at c1
      unfold AVERAGE at c2
      unfold SUM at c3
      unfold MINIMUM at c4
      unfold MEDIAN at c5
      unfold QUIT at q
      omega
    have hs := other_reply server msg elapsed h hinit hd hemp ho
    exact ⟨server, msg, hs, fun _ => rfl, fun _ => ⟨q, h, hd, hi, hc⟩⟩

theorem fresh_ready : fresh_server.ready := Or.inl rfl

/-- Every request to a server that can take one is processed: a QUIT request comes back
as it was, any other request is answered with an operation other than QUIT and leaves a
server that can take the next one. -/
theorem controller_ready (server : Server) (msg : Message) (elapsed : Int)
    (hs : server.ready) :
    ∃ s r, command_controller server msg elapsed = Res.ok (s, r)
      ∧ (msg.operation = QUIT → r = msg)
      ∧ (msg.operation ≠ QUIT → r.operation ≠ QUIT ∧ s.ready) := by
  cases hinit : server.initialized with
  | false =>
    obtain ⟨hi0, _, _, _, hcap0⟩ := medianheap_create_eq_ok create_ten
    obtain ⟨s, r, h1, h2, h3⟩ := controller_ready_init (Server.mk true
      (some (heap_of [0, 0, 0, 0, 0, 0, 0, 0, 0, 0] 0 [0, 0, 0, 0, 0, 0, 0, 0, 0, 0] 0 0))
      server.medians server.total_elapsed server.total_commands) msg elapsed _ rfl rfl hi0
      (hcap0 (by decide))
    refine ⟨s, r, by rw [controller_first server msg elapsed hinit]; exact h1, h2, fun n => ?_⟩
    exact ⟨(h3 n).1, Or.inr (h3 n).2⟩
  | true =>
    rcases hs with hs | ⟨h, hd, hi, hc⟩
    · rw [hinit] at hs
      cases hs
    · obtain ⟨s, r, h1, h2, h3⟩ := controller_ready_init server msg elapsed h hinit hd hi hc
      exact ⟨s, r, h1, h2, fun n => ⟨(h3 n).1, Or.inr (h3 n).2⟩⟩

/-- One turn of the server loop on a server that can take a request: a QUIT request
gives no reply, any other request gives one reply and a server that can take the next
request. -/
theorem server_step_ready (server : Server) (msg : Message) (elapsed : Int)
    (hs : server.ready) :
    (msg.operation = QUIT → ∃ s, server_step server msg elapsed = Res.ok (s, none))
    ∧ (msg.operation ≠ QUIT →
        ∃ s r, server_step server msg elapsed = Res.ok (s, some r) ∧ s.ready) := by
  obtain ⟨s, r, h1, h2, h3⟩ := controller_ready server msg elapsed hs
  constructor
  · intro q
    refine ⟨s, ?_⟩
    unfold server_step
    rw [h1, Res.ok_bind]
    simp only [h2 q, q, if_true, Res.pure_eq]
  · intro n
    refine ⟨s, r, ?_, (h3 n).2⟩
    unfold server_step
    rw [h1, Res.ok_bind]
    simp only [(h3 n).1, if_false, Res.pure_eq]

theorem server_loop_cons_none (server s : Server) (msg : Message) (elapsed : Int)
    (rest : List (Message × Int)) (hstep : server_step server msg elapsed = Res.ok (s, none)) :
    server_loop server ((msg, elapsed) :: rest) = Res.ok (s, [], true) := by
  rw [server_loop, hstep, Res.ok_bind]
  rfl

theorem server_loop_cons_some (server s : Server) (msg r : Message) (elapsed : Int)
    (rest : List (Message × Int))
    (hstep : server_step server msg elapsed = Res.ok (s, some r)) :
    server_loop server ((msg, elapsed) :: rest)
      = server_loop s rest >>= fun p => Res.ok (p.1, r :: p.2.1, p.2.2) := by
  rw [server_loop, hstep, Res.ok_bind]
  rfl

/-- The server loop started on a server that can take a request processes every list of
requests: it sends one reply for each request before the first QUIT, is left exactly when
there is a QUIT, and otherwise ends on a server that can take a further request. -/
theorem server_loop_ready (rs : List (Message × Int)) :
    ∀ server : Server, server.ready →
    ∃ s replies left, server_loop server rs = Res.ok (s, replies, left)
      ∧ replies.length = (rs.takeWhile (fun p => decide (p.1.operation ≠ QUIT))).length
      ∧ (left = true ↔ ∃ p ∈ rs, p.1.operation = QUIT)
      ∧ (left = false → s.ready) := by
  induction rs with
  | nil =>
    intro server hs
    exact ⟨server, [], false, rfl, rfl, by simp, fun _ => hs⟩
  | cons p rest ih =>
    intro server hs
    obtain ⟨msg, elapsed⟩ := p
    obtain ⟨hq, hn⟩ := server_step_ready server msg elapsed hs
    by_cases q : msg.operation = QUIT
    · obtain ⟨s, hstep⟩ := hq q
      refine ⟨s, [], true, server_loop_cons_none server s msg elapsed rest hstep, ?_, ?_, ?_⟩
      · simp [List.takeWhile, q]
      · simp only [true_iff]
        exact ⟨(msg, elapsed), List.mem_cons_self _ _, q⟩
      · intro hf; cases hf
    · obtain ⟨s, r, hstep, hsr⟩ := hn q
      obtain ⟨s2, replies, left, hl, hlen, hleft, hre⟩ := ih s hsr
      refine ⟨s2, r :: replies, left, ?_, ?_, ?_, hre⟩
      · rw [server_loop_cons_some server s msg r elapsed rest hstep, hl, Res.ok_bind]
      · simp [List.takeWhile, q, hlen]
      · rw [hleft]
        constructor
        · rintro ⟨p, hp, hpq⟩
          exact ⟨p, List.mem_cons_of_mem _ hp, hpq⟩
        · rintro ⟨p, hp, hpq⟩
          rcases List.mem_cons.mp hp with e | e
          · subst e
            exact absurd hpq q
          · exact ⟨p, e, hpq⟩

/-- Requests that arrive after a run of the loop that was not left are processed from
the server that run ended on, and their replies follow the replies already sent. -/
theorem server_loop_append (rs more : List (Message × Int)) :
    ∀ (server s : Server) (replies : List Message),
    server_loop server rs = Res.ok (s, replies, false) →
    server_loop server (rs ++ more)
      = server_loop s more >>= fun p => Res.ok (p.1, replies ++ p.2.1, p.2.2) := by
  induction rs with
  | nil =>
    intro server s replies hl
    simp only [server_loop, Res.pure_eq] at hl
    injection hl with hl
    injection hl with h1 h2
    injection h2 with h2 _
    subst h1 h2
    simp only [List.nil_append]
    rcases server_loop server more with p | _ | _ <;> rfl
  | cons p rest ih =>
    intro server s replies hl
    obtain ⟨msg, elapsed⟩ := p
    rcases hstep : server_step server msg elapsed with ⟨s1, reply⟩ | _ | _
    · cases reply with
      | none =>
        rw [server_loop_cons_none server s1 msg elapsed rest hstep] at hl
        injection hl with hl
        injection hl with _ h2
        injection h2 with _ h3
        cases h3
      | some r =>
        rw [server_loop_cons_some server s1 msg r elapsed rest hstep] at hl
        obtain ⟨p, hp, hl2⟩ := Res.bind_eq_ok.mp hl
        obtain ⟨s2, replies2, left2⟩ := p
        injection hl2 with hl2
        injection hl2 with h1 h2
        injection h2 with h2 h3
        simp only at h1 h2 h3
        subst h1 h2 h3
        rw [List.cons_append, server_loop_cons_some server s1 msg r elapsed _ hstep,
          ih s1 s2 replies2 hp]
        rcases server_loop s2 more with p | _ | _ <;> rfl
    · rw [server_loop, hstep] at hl
      cases hl
    · rw [server_loop, hstep] at hl
      cases hl


/-! ## calculator.c: requests on a dataset that is not empty -/

/-- C11: deleting an absent value.  On a server whose dataset is a non-empty dual heap
reached from `medianheap_create(10)`, a DELETE request whose argument slot holds an
integer `v` that is not among the elements is processed, answered with operation DELETE
(not ERROR) and operands as they came, and the dataset afterwards is the very same heap:
elements, sum and median are unchanged. -/
theorem delete_absent_request (calls : List Call) (h : MedianHeap) (server : Server)
    (msg : Message) (elapsed : Int) (v : Int)
    (hr : medianheap_run 10 calls = Res.ok h)
    (hinit : server.initialized = true) (hd : server.dataset = some h)
    (hne : medianheap_is_empty h = false) (hv : v ∉ h.elements)
    (hop : msg.operation = DELETE)
    (harg : msg.operands.getD ARGUMENT ⟨0, 1⟩ = CDouble.ofInt v) :
    ∃ s r, command_controller server msg elapsed = Res.ok (s, r)
      ∧ r.operation = DELETE ∧ r.operation ≠ ERROR ∧ r.operands = msg.operands
      ∧ s.dataset = some h := by
  obtain ⟨hi, _, _⟩ := medianheap_run_eq_ok hr
  have hdel : medianheap_delete_all h (msg.operands.getD ARGUMENT ⟨0, 1⟩).toInt = Res.ok h := by
    rw [harg, cdouble_round_trip]
    apply medianheap_delete_all_absent hi.1 hi.2.1
    · intro hm
      exact hv (List.mem_append.mpr (Or.inl hm))
    · intro hm
      exact hv (List.mem_append.mpr (Or.inr hm))
  obtain ⟨s, r, hs, hsd, hro, hrp⟩ := delete_reply server msg elapsed h h hinit hd hne hop hdel
  exact ⟨s, r, hs, hro, by rw [hro]; decide, hrp, hsd⟩

theorem delete_absent_request_witness :
    medianheap_run 10 [Call.insert 3, Call.insert 5]
        = Res.ok (heap_of [3, 0, 0, 0, 0, 0, 0, 0, 0, 0] 1 [5, 3, 0, 0, 0, 0, 0, 0, 0, 0] 1 8)
    ∧ (heap_of [3, 0, 0, 0, 0, 0, 0, 0, 0, 0] 1 [5, 3, 0, 0, 0, 0, 0, 0, 0, 0] 1 8).elements
        = [3, 5]
    ∧ ∃ s r, command_controller
          (Server.mk true
            (some (heap_of [3, 0, 0, 0, 0, 0, 0, 0, 0, 0] 1 [5, 3, 0, 0, 0, 0, 0, 0, 0, 0] 1 8))
            (0, 0) [2, 0, 0, 0, 0, 0] [2, 0, 0, 0, 0, 0])
          (request DELETE 4) 6 = Res.ok (s, r)
        ∧ r.operation = DELETE ∧ r.operation ≠ ERROR
        ∧ r.operands = (request DELETE 4).operands
        ∧ s.dataset
          = some (heap_of [3, 0, 0, 0, 0, 0, 0, 0, 0, 0] 1 [5, 3, 0, 0, 0, 0, 0, 0, 0, 0] 1 8) :=
  ⟨by decide, by decide,
    delete_absent_request [Call.insert 3, Call.insert 5] _ _ (request DELETE 4) 6 4
      (by decide) rfl rfl (by decide) (by decide) (by decide) (by decide)⟩

/-- C12: the server loop as a step function.  On every server state the loop reaches
from the fresh statics without having been left, a request with operation QUIT gives no
reply and ends the loop (the run extended by that request has the same replies and is
left), and a request with any other operation value is processed and gives exactly one
reply (the run extended by that request has the replies so far followed by that one
reply, and the loop goes on to read the next request). -/
theorem server_loop_step (requests : List (Message × Int)) (server : Server)
    (replies : List Message) (msg : Message) (elapsed : Int)
    (hreach : server_loop fresh_server requests = Res.ok (server, replies, false)) :
    (msg.operation = QUIT →
      ∃ s, server_step server msg elapsed = Res.ok (s, none)
        ∧ server_loop fresh_server (requests ++ [(msg, elapsed)]) = Res.ok (s, replies, true))
    ∧ (msg.operation ≠ QUIT →
      ∃ s r, server_step server msg elapsed = Res.ok (s, some r)
        ∧ server_loop fresh_server (requests ++ [(msg, elapsed)])
          = Res.ok (s, replies ++ [r], false)) := by
  have hs : server.ready := by
    obtain ⟨s, rp, left, hl, _, _, hre⟩ := server_loop_ready requests fresh_server fresh_ready
    rw [hreach] at hl
    injection hl with hl
    injection hl with h1 h2
    injection h2 with h2 h3
    subst h1 h3
    exact hre rfl
  have happ := server_loop_append requests [(msg, elapsed)] fresh_server server replies hreach
  obtain ⟨hq, hn⟩ := server_step_ready server msg elapsed hs
  constructor
  · intro q
    obtain ⟨s, hstep⟩ := hq q
    refine ⟨s, hstep, ?_⟩
    rw [happ, server_loop_cons_none server s msg elapsed [] hstep, Res.ok_bind]
    simp only [List.append_nil]
  · intro n
    obtain ⟨s, r, hstep, _⟩ := hn n
    refine ⟨s, r, hstep, ?_⟩
    rw [happ, server_loop_cons_some server s msg r elapsed [] hstep]
    rfl

theorem server_loop_step_witness :
    server_loop fresh_server [(request INSERT 3, 4)]
        = Res.ok (Server.mk true
            (some (heap_of [0, 0, 0, 0, 0, 0, 0, 0, 0, 0] 0 [3, 0, 0, 0, 0, 0, 0, 0, 0, 0] 1 3))
            (0, 0) [4, 0, 0, 0, 0, 0] [1, 0, 0, 0, 0, 0],
          [Message.mk 1 INSERT [CDouble.ofInt 3, CDouble.ofInt 0, CDouble.ofInt 0] ⟨4, 1⟩],
          false)
    ∧ (server_loop fresh_server [(request INSERT 3, 4), (request QUIT 0, 2)]
        >>= fun p => Res.ok (p.2.1.length, p.2.2)) = Res.ok (1, true)
    ∧ (server_loop fresh_server [(request INSERT 3, 4), (request SUM 0, 2)]
        >>= fun p => Res.ok (p.2.1.length, p.2.2)) = Res.ok (2, false)
    ∧ ((request SUM 0).operation ≠ QUIT →
      ∃ s r, server_step (Server.mk true
            (some (heap_of [0, 0, 0, 0, 0, 0, 0, 0, 0, 0] 0 [3, 0, 0, 0, 0, 0, 0, 0, 0, 0] 1 3))
            (0, 0) [4, 0, 0, 0, 0, 0] [1, 0, 0, 0, 0, 0]) (request SUM 0) 2
          = Res.ok (s, some r)
        ∧ server_loop fresh_server ([(request INSERT 3, 4)] ++ [(request SUM 0, 2)])
          = Res.ok (s,
            [Message.mk 1 INSERT [CDouble.ofInt 3, CDouble.ofInt 0, CDouble.ofInt 0] ⟨4, 1⟩]
              ++ [r], false)) :=
  ⟨by decide, by decide, by decide,
    (server_loop_step [(request INSERT 3, 4)] _ _ (request SUM 0) 2 (by decide)).2⟩

theorem two_medians_slots (ops : List CDouble) (a b c d : CDouble) (hlen : ops.length = 3) :
    (((ops.set MEDIAN1 a).set MEDIAN2 b).set FLAG_TWO_MEDIAN c).getD MEDIAN1 d = a
    ∧ (((ops.set MEDIAN1 a).set MEDIAN2 b).set FLAG_TWO_MEDIAN c).getD MEDIAN2 d = b
    ∧ (((ops.set MEDIAN1 a).set MEDIAN2 b).set FLAG_TWO_MEDIAN c).getD FLAG_TWO_MEDIAN d = c := by
  match ops, hlen with
  | [_, _, _], _ => exact ⟨rfl, rfl, rfl⟩

theorem one_median_slots (ops : List CDouble) (a c d : CDouble) (hlen : ops.length = 3) :
    ((ops.set MEDIAN1 a).set FLAG_TWO_MEDIAN c).getD MEDIAN1 d = a
    ∧ ((ops.set MEDIAN1 a).set FLAG_TWO_MEDIAN c).getD MEDIAN2 d = ops.getD MEDIAN2 d
    ∧ ((ops.set MEDIAN1 a).set FLAG_TWO_MEDIAN c).getD FLAG_TWO_MEDIAN d = c := by
  match ops, hlen with
  | [_, _, _], _ => exact ⟨rfl, rfl, rfl⟩

/-- C14: the MEDIAN reply.  On a server whose dataset is a non-empty dual heap reached
from `medianheap_create(10)`, a MEDIAN request with its three operand slots is processed,
keeps operation MEDIAN and leaves the dataset as it was.  Operand 2 of the reply is 1
exactly when the number of elements is even, and then operand 0 is the root of `maxHeap`
and operand 1 the root of `minHeap`; otherwise operand 2 is 0, operand 0 is the single
median `medianheap_get_median` returns (the root of the larger heap) and operand 1 is
left as it came. -/
theorem median_request_reply (calls : List Call) (h : MedianHeap) (server : Server)
    (msg : Message) (elapsed : Int)
    (hr : medianheap_run 10 calls = Res.ok h)
    (hinit : server.initialized = true) (hd : server.dataset = some h)
    (hne : medianheap_is_empty h = false) (hlen : msg.operands.length = 3)
    (hop : msg.operation = MEDIAN) :
    ∃ s r, command_controller server msg elapsed = Res.ok (s, r)
      ∧ r.operation = MEDIAN ∧ s.dataset = some h
      ∧ (r.operands.getD FLAG_TWO_MEDIAN ⟨0, 1⟩ = CDouble.ofInt 1
          ↔ h.elements.length % 2 = 0)
      ∧ (h.elements.length % 2 = 0 →
          ∃ a b, priorityqueue_peek h.maxHeap = Res.ok a
            ∧ priorityqueue_peek h.minHeap = Res.ok b
            ∧ r.operands.getD MEDIAN1 ⟨0, 1⟩ = CDouble.ofInt a
            ∧ r.operands.getD MEDIAN2 ⟨0, 1⟩ = CDouble.ofInt b)
      ∧ (h.elements.length % 2 ≠ 0 →
          r.operands.getD FLAG_TWO_MEDIAN ⟨0, 1⟩ = CDouble.ofInt 0
            ∧ medianheap_get_median h = Res.ok (r.operands.getD MEDIAN1 ⟨0, 1⟩)
            ∧ r.operands.getD MEDIAN2 ⟨0, 1⟩ = msg.operands.getD MEDIAN2 ⟨0, 1⟩) := by
  obtain ⟨hi, _, _⟩ := medianheap_run_eq_ok hr
  have hw := hi.1
  have hlenE := elements_length hw
  have hbal : ((h.maxHeap.items.size : Int) - (h.minHeap.items.size : Int)).natAbs ≤ 1 := hi.2.1
  have hnz : ¬ (h.minHeap.items.size = 0 ∧ h.maxHeap.items.size = 0) := by
    intro hh
    have := (is_empty_iff h).mpr hh
    rw [hne] at this
    cases this
  have hm2 := get_median2_roots hw hne server.medians
  have hm1 := get_median_ok hw hnz
  by_cases heq : h.maxHeap.items.size = h.minHeap.items.size
  · rw [if_pos heq] at hm2
    obtain ⟨s, r, hs, hsd, hro, hrp⟩ :=
      median_reply server msg elapsed h true _ _ hinit hd hne hop hm2
    simp only [if_true] at hrp
    obtain ⟨e0, e1, e2⟩ := two_medians_slots msg.operands
      (CDouble.ofInt (h.maxHeap.contents.getD 0 0)) (CDouble.ofInt (h.minHeap.contents.getD 0 0))
      (CDouble.ofInt TWO_MEDIANS) ⟨0, 1⟩ hlen
    have hev : h.elements.length % 2 = 0 := by omega
    refine ⟨s, r, hs, hro, hsd, ?_, ?_, ?_⟩
    · rw [hrp, e2]
      exact ⟨fun _ => hev, fun _ => rfl⟩
    · intro _
      exact ⟨_, _, priorityqueue_peek_ok hw.1.1 (by omega),
        priorityqueue_peek_ok hw.2.1.1 (by omega), by rw [hrp, e0], by rw [hrp, e1]⟩
    · intro hodd
      exact absurd hev hodd
  · rw [if_neg heq] at hm2 hm1
    have hodd : h.elements.length % 2 ≠ 0 := by omega
    by_cases hgt : h.maxHeap.items.size > h.minHeap.items.size
    · rw [if_pos hgt] at hm2 hm1
      obtain ⟨s, r, hs, hsd, hro, hrp⟩ :=
        median_reply server msg elapsed h false _ _ hinit hd hne hop hm2
      simp only [Bool.false_eq_true, if_false] at hrp
      obtain ⟨e0, e1, e2⟩ := one_median_slots msg.operands
        (CDouble.ofInt (h.maxHeap.contents.getD 0 0)) (CDouble.ofInt ONE_MEDIAN) ⟨0, 1⟩ hlen
      refine ⟨s, r, hs, hro, hsd, ?_, ?_, ?_⟩
      · rw [hrp, e2]
        exact ⟨fun hh => absurd hh (by decide), fun hh => absurd hh hodd⟩
      · intro hev
        exact absurd hev hodd
      · intro _
        exact ⟨by rw [hrp, e2]; rfl, by rw [hrp, e0]; exact hm1, by rw [hrp, e1]⟩
    · rw [if_neg hgt] at hm2 hm1
      obtain ⟨s, r, hs, hsd, hro, hrp⟩ :=
        median_reply server msg elapsed h false _ _ hinit hd hne hop hm2
      simp only [Bool.false_eq_true, if_false] at hrp
      obtain ⟨e0, e1, e2⟩ := one_median_slots msg.operands
        (CDouble.ofInt (h.minHeap.contents.getD 0 0)) (CDouble.ofInt ONE_MEDIAN) ⟨0, 1⟩ hlen
      refine ⟨s, r, hs, hro, hsd, ?_, ?_, ?_⟩
      · rw [hrp, e2]
        exact ⟨fun hh => absurd hh (by decide), fun hh => absurd hh hodd⟩
      · intro hev
        exact absurd hev hodd
      · intro _
        exact ⟨by rw [hrp, e2]; rfl, by rw [hrp, e0]; exact hm1, by rw [hrp, e1]⟩

theorem median_request_reply_witness :
    medianheap_run 10 [Call.insert 3, Call.insert 5]
        = Res.ok (heap_of [3, 0, 0, 0, 0, 0, 0, 0, 0, 0] 1 [5, 3, 0, 0, 0, 0, 0, 0, 0, 0] 1 8)
    ∧ (command_controller (Server.mk true
          (some (heap_of [3, 0, 0, 0, 0, 0, 0, 0, 0, 0] 1 [5, 3, 0, 0, 0, 0, 0, 0, 0, 0] 1 8))
          (0, 0) [2, 0, 0, 0, 0, 0] [2, 0, 0, 0, 0, 0]) (request MEDIAN 0) 6
        >>= fun p => Res.ok (p.2.operation, p.2.operands))
      = Res.ok (MEDIAN, [CDouble.ofInt 3, CDouble.ofInt 5, CDouble.ofInt 1])
    ∧ (command_controller (Server.mk true
          (some (heap_of [3, 0, 0, 0, 0, 0, 0, 0, 0, 0] 1 [4, 5, 0, 0, 0, 0, 0, 0, 0, 0] 2 12))
          (0, 0) [3, 0, 0, 0, 0, 0] [3, 0, 0, 0, 0, 0]) (request MEDIAN 0) 6
        >>= fun p => Res.ok (p.2.operation, p.2.operands))
      = Res.ok (MEDIAN, [CDouble.ofInt 4, CDouble.ofInt 0, CDouble.ofInt 0])
    ∧ ∃ s r, command_controller (Server.mk true
          (some (heap_of [3, 0, 0, 0, 0, 0, 0, 0, 0, 0] 1 [5, 3, 0, 0, 0, 0, 0, 0, 0, 0] 1 8))
          (0, 0) [2, 0, 0, 0, 0, 0] [2, 0, 0, 0, 0, 0]) (request MEDIAN 0) 6 = Res.ok (s, r)
      ∧ r.operation = MEDIAN
      ∧ s.dataset
        = some (heap_of [3, 0, 0, 0, 0, 0, 0, 0, 0, 0] 1 [5, 3, 0, 0, 0, 0, 0, 0, 0, 0] 1 8) :=
  ⟨by decide, by decide, by decide,
    (median_request_reply [Call.insert 3, Call.insert 5] _ _ (request MEDIAN 0) 6
      (by decide) rfl rfl (by decide) (by decide) (by decide)).imp
      fun _ hs => hs.imp fun _ hr => ⟨hr.1, hr.2.1, hr.2.2.1⟩⟩


/-! ## Vector.c: what a push stores, and the push into a vector without cells -/

/-- After a push, the last index holds the pushed value narrowed to the `char` cell. -/
theorem vec_pushback_get {v w : Vector} {x : Int} (hw : v.wf)
    (h : vec_pushback v x = Res.ok w) :
    vec_get w (vec_size w - 1) = Res.ok (to_char x) := by
  obtain ⟨hcon, hsz, _⟩ := vec_pushback_eq_ok hw h
  have hlen : v.contents.length = v.size := contents_length hw
  have hi : vec_size w - 1 = ((v.size : Nat) : Int) := by
    unfold vec_size
    rw [hsz]
    push_cast
    omega
  rw [hi, vec_get_ok w (by omega : v.size < w.size), hcon, ← hlen]
  simp [List.getD_eq_getElem?_getD]

/-- A push into a full vector with at least one cell doubles the capacity. -/
theorem vec_pushback_full {v w : Vector} {x : Int} (hfull : (v.size : Int) = v.capacity)
    (h : vec_pushback v x = Res.ok w) : w.capacity = 2 * v.capacity := by
  unfold vec_pushback at h
  rw [if_pos hfull] at h
  unfold _increase_capacity at h
  split at h
  · simp only [Res.ok_bind, Res.pure_eq] at h
    injection h with h
    subst h
    rfl
  · cases h

/-- C18 (as the code behaves): the cells of the vector are `char`s.  Pushing 200 onto a
fresh vector of capacity 10 and reading the last index returns -56, not 200; in general
the value read back is the pushed value narrowed to a signed 8-bit cell, which is the
pushed value itself only when it lies in -128..127. -/
theorem pushback_get_of_wide_value :
    (vec_allocate 10 >>= fun v => vec_pushback v 200 >>= fun w => vec_get w (vec_size w - 1))
      = Res.ok (-56)
    ∧ (∀ (v w : Vector) (x : Int), v.wf → vec_pushback v x = Res.ok w →
        vec_get w (vec_size w - 1) = Res.ok (to_char x))
    ∧ to_char 200 = -56
    ∧ ∀ x : Int, fits_cell x → to_char x = x :=
  ⟨by decide, fun _ _ _ hw h => vec_pushback_get hw h, by decide,
    fun _ hx => to_char_of_fits hx⟩

/-- C19 (as the code behaves): `vec_allocate(0)` yields a vector of size 0 without
cells, and the first `vec_pushback` on it fails the assertion of `_increase_capacity`
(the doubled capacity 0 is not larger than the capacity 0) whatever the element.  With a
capacity of at least one the first push succeeds, leaves size 1 and keeps the
capacity. -/
theorem first_pushback_at_capacity_zero :
    vec_allocate 0 = Res.ok (Vector.mk [] 0 0)
    ∧ (∀ elem : Int, (vec_allocate 0 >>= fun v => vec_pushback v elem) = Res.abort)
    ∧ ∀ (capacity elem : Int), 1 ≤ capacity →
        ∃ v w, vec_allocate capacity = Res.ok v ∧ vec_size v = 0
          ∧ vec_pushback v elem = Res.ok w ∧ vec_size w = 1 ∧ vec_capacity w = capacity := by
  refine ⟨rfl, fun elem => rfl, fun capacity elem hc => ?_⟩
  obtain ⟨v, hv⟩ := @vec_allocate_ok capacity (by omega)
  obtain ⟨_, hs, hcap, hw, _⟩ := vec_allocate_eq_ok hv
  obtain ⟨w, hp⟩ := @vec_pushback_ok v elem (by omega)
  obtain ⟨_, hsz, _, _, _, hsame, _⟩ := vec_pushback_eq_ok hw hp
  refine ⟨v, w, hv, ?_, hp, ?_, ?_⟩
  · unfold vec_size
    rw [hs]
    rfl
  · unfold vec_size
    rw [hsz, hs]
    rfl
  · unfold vec_capacity
    rw [hsame (by rw [hs]; push_cast; omega), hcap]

/-- C20 (as the code behaves): on the vector with size 0 and capacity 0, where
`max(1, 2 x capacity)` is 1, `vec_pushback` does not grow the capacity to 1 but fails the
assertion of `_increase_capacity`.  On every well-formed vector with a capacity of at
least one the push succeeds, keeps the elements at their indices, appends the element
(narrowed to the `char` cell) at index `size`, grows the size by exactly one, sets the
capacity to `2 x capacity = max(1, 2 x capacity)` when size = capacity and leaves it when
size < capacity. -/
theorem pushback_at_full_capacity_zero :
    vec_size (Vector.mk [] 0 0) = vec_capacity (Vector.mk [] 0 0)
    ∧ max 1 (2 * vec_capacity (Vector.mk [] 0 0)) = 1
    ∧ vec_pushback (Vector.mk [] 0 0) 5 = Res.abort
    ∧ ∀ (v : Vector) (elem : Int), v.wf → 1 ≤ v.capacity →
        ∃ w, vec_pushback v elem = Res.ok w
          ∧ w.contents = v.contents ++ [to_char elem]
          ∧ vec_get w (vec_size v) = Res.ok (to_char elem)
          ∧ vec_size w = vec_size v + 1
          ∧ (vec_size v = vec_capacity v → vec_capacity w = max 1 (2 * vec_capacity v))
          ∧ (vec_size v < vec_capacity v → vec_capacity w = vec_capacity v) := by
  refine ⟨rfl, rfl, rfl, fun v elem hw hc => ?_⟩
  obtain ⟨w, hp⟩ := @vec_pushback_ok v elem hc
  obtain ⟨hcon, hsz, _, _, _, hsame, _⟩ := vec_pushback_eq_ok hw hp
  have hget := vec_pushback_get hw hp
  have hi : vec_size w - 1 = vec_size v := by
    unfold vec_size
    rw [hsz]
    push_cast
    omega
  rw [hi] at hget
  refine ⟨w, hp, hcon, hget, by omega, ?_, ?_⟩
  · intro hfull
    unfold vec_size vec_capacity at hfull
    unfold vec_capacity
    rw [vec_pushback_full hfull hp]
    omega
  · intro hlt
    unfold vec_size vec_capacity at hlt
    unfold vec_capacity
    exact hsame hlt


/-! ## calculator.c: the latency field -/

/-- The counters after a request stopped by the empty-dataset gate: the count of its
operation kind has been incremented, the totals are as they were. -/
theorem gate_counters (server : Server) (msg : Message) (elapsed : Int) (h : MedianHeap)
    (hinit : server.initialized = true) (hd : server.dataset = some h)
    (hemp : medianheap_is_empty h = true)
    (h1 : msg.operation ≠ INSERT) (h2 : msg.operation ≠ QUIT)
    (hr : msg.operation < 6 ∧ msg.operation ≥ 0) :
    ∃ s r, command_controller server msg elapsed = Res.ok (s, r)
      ∧ r.operation = ERROR
      ∧ s.total_commands = server.total_commands.set msg.operation.toNat
          (server.total_commands.getD msg.operation.toNat 0 + 1)
      ∧ s.total_elapsed = server.total_elapsed := by
  unfold command_controller
  simp only [hinit, Bool.not_true, Bool.false_eq_true, if_false, Res.pure_eq, Res.ok_bind]
  simp only [hr, and_self, if_true, hd, hemp, h1, h2, decide_False, Bool.or_self,
    Bool.not_false, Bool.and_self]
  exact ⟨_, _, rfl, rfl, rfl, rfl⟩

/-- The latency accounting at the end of `command_controller`, reached by the requests
that pass the gate: the time is added to the total of the operation kind and the reply
carries the total divided by the count. -/
theorem finish_counters (server : Server) (msg : Message) (elapsed : Int)
    (hr : msg.operation < 6 ∧ msg.operation ≥ 0) :
    (command_controller_finish server msg elapsed).1.total_elapsed
        = server.total_elapsed.set msg.operation.toNat
          (server.total_elapsed.getD msg.operation.toNat 0 + elapsed)
    ∧ (command_controller_finish server msg elapsed).1.total_commands = server.total_commands
    ∧ (command_controller_finish server msg elapsed).2.elapsed
        = (CDouble.ofInt (server.total_elapsed.getD msg.operation.toNat 0 + elapsed)).divInt
          (server.total_commands.getD msg.operation.toNat 0) := by
  unfold command_controller_finish
  rw [if_pos hr]
  exact ⟨rfl, rfl, rfl⟩

/-- C15 (as the code behaves): the count of an operation kind is incremented before the
empty-dataset gate and the total after it, so a request answered with ERROR is counted
but its time is not added.  On a fresh server the requests SUM (4 us), INSERT 1 (1 us),
SUM (6 us) are answered ERROR, INSERT, SUM; afterwards the SUM total is 6 and the SUM
count is 2, and the latency of the SUM reply is 6/2 = 3, which is neither the mean 5 of
the two SUM requests nor the time 6 of the one that was answered.  In general, every
request of a kind in DELETE..MEDIAN that meets an empty dataset is answered with ERROR,
adds one to the count of its kind and leaves the totals as they were. -/
theorem latency_after_gated_request :
    (server_loop fresh_server [(request SUM 0, 4), (request INSERT 1, 1), (request SUM 0, 6)]
        >>= fun p => Res.ok (p.2.1.map (fun r => (r.operation, r.elapsed)),
          p.1.total_elapsed, p.1.total_commands))
      = Res.ok ([(ERROR, ⟨4, 1⟩), (INSERT, ⟨1, 1⟩), (SUM, ⟨6, 2⟩)],
          [1, 0, 0, 6, 0, 0], [1, 0, 0, 2, 0, 0])
    ∧ (CDouble.mk 6 2).toRat = 3
    ∧ (CDouble.mk 6 2).toRat ≠ (4 + 6) / 2
    ∧ (CDouble.mk 6 2).toRat ≠ 6 / 1
    ∧ ∀ (server : Server) (msg : Message) (elapsed : Int) (h : MedianHeap),
        server.initialized = true → server.dataset = some h →
        medianheap_is_empty h = true → msg.operation ≠ INSERT →
        msg.operation < 6 ∧ msg.operation ≥ 0 →
        ∃ s r, command_controller server msg elapsed = Res.ok (s, r)
          ∧ r.operation = ERROR
          ∧ s.total_commands = server.total_commands.set msg.operation.toNat
              (server.total_commands.getD msg.operation.toNat 0 + 1)
          ∧ s.total_elapsed = server.total_elapsed := by
  refine ⟨by decide, ?_, ?_, ?_, ?_⟩
  · norm_num [CDouble.toRat]
  · norm_num [CDouble.toRat]
  · norm_num [CDouble.toRat]
  · intro server msg elapsed h hinit hd hemp h1 hr
    have h2 : msg.operation ≠ QUIT := by
      unfold QUIT
      omega
    exact gate_counters server msg elapsed h hinit hd hemp h1 h2 hr

/-- C16 (as the code behaves): a request answered with ERROR carries the time measured
for that request alone.  On a fresh server two SUM requests taking 4 us and 6 us are both
answered with ERROR, with latency 4 and 6; the second is not the running average 5 of the
two, nor the quotient 0/2 of the SUM total (left at 0) by the SUM count (2).  In general,
the reply of the gate is the request with operation ERROR and the measured time. -/
theorem latency_of_error_reply :
    (server_loop fresh_server [(request SUM 0, 4), (request SUM 0, 6)]
        >>= fun p => Res.ok (p.2.1.map (fun r => (r.operation, r.elapsed)),
          p.1.total_elapsed, p.1.total_commands))
      = Res.ok ([(ERROR, CDouble.ofInt 4), (ERROR, CDouble.ofInt 6)],
          [0, 0, 0, 0, 0, 0], [0, 0, 0, 2, 0, 0])
    ∧ (CDouble.ofInt 6).toRat ≠ (4 + 6) / 2
    ∧ (CDouble.ofInt 6).toRat ≠ 0 / 2
    ∧ ∀ (server : Server) (msg : Message) (elapsed : Int) (h : MedianHeap),
        server.initialized = true → server.dataset = some h →
        medianheap_is_empty h = true → msg.operation ≠ INSERT → msg.operation ≠ QUIT →
        ∃ s, command_controller server msg elapsed
          = Res.ok (s, { msg with operation := ERROR, elapsed := CDouble.ofInt elapsed }) := by
  refine ⟨by decide, ?_, ?_, ?_⟩
  · norm_num [CDouble.toRat, CDouble.ofInt]
  · norm_num [CDouble.toRat, CDouble.ofInt]
  · intro server msg elapsed h hinit hd hemp h1 h2
    obtain ⟨s, hs, _⟩ := error_gate_on_empty server msg elapsed h hinit hd hemp h1 h2
    exact ⟨s, hs⟩

/-! ## user.c: command letters -/

theorem char_codes :
    (char_code 'i' = 105 ∧ char_code 'd' = 100 ∧ char_code 'a' = 97 ∧ char_code 's' = 115
      ∧ char_code 'm' = 109 ∧ char_code 'u' = 117 ∧ char_code 'q' = 113)
    ∧ (char_code 'I' = 73 ∧ char_code 'D' = 68 ∧ char_code 'A' = 65 ∧ char_code 'S' = 83
      ∧ char_code 'M' = 77 ∧ char_code 'U' = 85 ∧ char_code 'Q' = 81) := by
  decide

/-- C17 (as stated, refuted): the capital letter `I` is none of the characters i, d, a,
s, m, u, q, yet `get_op_type` maps it to INSERT and not to ERROR, because the command is
lowered by `tolower` first; so "every other character goes to ERROR" does not hold. -/
theorem get_op_type_capital_letter :
    fits_cell (char_code 'I')
    ∧ char_code 'I' ∉ [char_code 'i', char_code 'd', char_code 'a', char_code 's',
        char_code 'm', char_code 'u', char_code 'q']
    ∧ get_op_type (char_code 'I') = INSERT ∧ INSERT ≠ ERROR
    ∧ ¬ ∀ command : Int, fits_cell command →
        command ∉ [char_code 'i', char_code 'd', char_code 'a', char_code 's',
          char_code 'm', char_code 'u', char_code 'q'] →
        get_op_type command = ERROR := by
  refine ⟨by decide, by decide, by decide, by decide, fun hall => ?_⟩
  have h := hall (char_code 'I') (by decide) (by decide)
  revert h
  decide

/-- C17 (amended): for every `char` value, `get_op_type` maps the letters i, d, a, s, m,
u, q, in lower or upper case, to INSERT, DELETE, AVERAGE, SUM, MINIMUM, MEDIAN, QUIT
respectively and every other character to ERROR; `format_msg` sets the operation to that
value and returns false exactly when it is ERROR, and then `prompt_user` hands nothing to
`main` for that command but reads the next one, while a command for which `format_msg`
returns true is handed over to be sent. -/
theorem get_op_type_letters (command : Int) (hc : fits_cell command) :
    get_op_type command
      = (if command = char_code 'i' ∨ command = char_code 'I' then INSERT
        else if command = char_code 'd' ∨ command = char_code 'D' then DELETE
        else if command = char_code 'a' ∨ command = char_code 'A' then AVERAGE
        else if command = char_code 's' ∨ command = char_code 'S' then SUM
        else if command = char_code 'm' ∨ command = char_code 'M' then MINIMUM
        else if command = char_code 'u' ∨ command = char_code 'U' then MEDIAN
        else if command = char_code 'q' ∨ command = char_code 'Q' then QUIT
        else ERROR)
    ∧ ∀ (msg : Message) (typed : Int),
        (format_msg msg command typed).2.operation = get_op_type command
        ∧ ((format_msg msg command typed).1 = false ↔ get_op_type command = ERROR)
        ∧ ∀ rest : List (Int × Int),
            ((format_msg msg command typed).1 = false →
              prompt_user msg ((command, typed) :: rest)
                = prompt_user (format_msg msg command typed).2 rest)
            ∧ ((format_msg msg command typed).1 = true →
              prompt_user msg ((command, typed) :: rest)
                = some (format_msg msg command typed).2) := by
  obtain ⟨⟨ci, cd, ca, cs, cm, cu, cq⟩, ⟨cI, cD, cA, cS, cM, cU, cQ⟩⟩ := char_codes
  unfold fits_cell at hc
  constructor
  · have hl : to_char (tolower command)
        = if 65 ≤ command ∧ command ≤ 90 then command + 32 else command := by
      unfold tolower
      split <;> exact to_char_of_fits (by unfold fits_cell; omega)
    have k : ∀ n : Int, 97 ≤ n → n ≤ 122 →
        ((to_char (tolower command) = n) = (command = n ∨ command = n - 32)) := by
      intro n h1 h2
      rw [hl]
      apply propext
      split <;> omega
    unfold get_op_type
    simp only [ci, cd, ca, cs, cm, cu, cq, cI, cD, cA, cS, cM, cU, cQ,
      k 105 (by decide) (by decide), k 100 (by decide) (by decide),
      k 97 (by decide) (by decide), k 115 (by decide) (by decide),
      k 109 (by decide) (by decide), k 117 (by decide) (by decide),
      k 113 (by decide) (by decide)]
    norm_num
  · intro msg typed
    have hf : format_msg msg command typed
        = if get_op_type command = ERROR then
            (false, { msg with operation := get_op_type command })
          else (true, { msg with
            operation := get_op_type command,
            operands := msg.operands.set ARGUMENT
              (CDouble.ofInt (get_arg (get_op_type command) typed)),
            elapsed := CDouble.ofInt 0 }) := rfl
    by_cases he : get_op_type command = ERROR
    · have hf1 : (format_msg msg command typed).1 = false := by rw [hf, if_pos he]
      refine ⟨by rw [hf, if_pos he], ⟨fun _ => he, fun _ => hf1⟩, fun rest => ⟨fun _ => ?_, fun ht => ?_⟩⟩
      · rw [prompt_user]
        simp only [hf1, Bool.false_eq_true, if_false]
      · rw [hf1] at ht
        cases ht
    · have hf1 : (format_msg msg command typed).1 = true := by rw [hf, if_neg he]
      refine ⟨by rw [hf, if_neg he], ⟨fun hh => ?_, fun hh => absurd hh he⟩,
        fun rest => ⟨fun hh => ?_, fun _ => ?_⟩⟩
      · rw [hf1] at hh
        cases hh
      · rw [hf1] at hh
        cases hh
      · rw [prompt_user]
        simp only [hf1, if_true]

theorem get_op_type_letters_witness :
    fits_cell (char_code 'U')
    ∧ get_op_type (char_code 'U') = MEDIAN
    ∧ get_op_type (char_code 'x') = ERROR
    ∧ prompt_user (request 0 0) [(char_code 'x', 0), (char_code 'D', 5)]
        = some (Message.mk 1 DELETE [CDouble.ofInt 5, CDouble.ofInt 0, CDouble.ofInt 0]
            (CDouble.ofInt 0))
    ∧ ((format_msg (request 0 0) (char_code 'U') 0).1 = false
        ↔ get_op_type (char_code 'U') = ERROR) :=
  ⟨by decide, by decide, by decide, by decide,
    ((get_op_type_letters (char_code 'U') (by decide)).2 (request 0 0) 0).2.1⟩


/-! ## Vector.c: the contract of `vec_get` and the size invariant -/

/-- A push stores the value, narrowed to the cell, at index `size` and leaves the cells
below it as they were. -/
theorem vec_pushback_keeps {v w : Vector} {x : Int} (hw : v.wf)
    (hp : vec_pushback v x = Res.ok w) :
    vec_get w (v.size : Int) = Res.ok (to_char x)
      ∧ ∀ i : Nat, i < v.size → vec_get w i = vec_get v i := by
  obtain ⟨hcon, hsz, _⟩ := vec_pushback_eq_ok hw hp
  have hlen : v.contents.length = v.size := contents_length hw
  have hget := vec_pushback_get hw hp
  have hi : vec_size w - 1 = (v.size : Int) := by
    unfold vec_size
    rw [hsz]
    push_cast
    omega
  rw [hi] at hget
  refine ⟨hget, fun i hi => ?_⟩
  rw [vec_get_ok w (by omega : i < w.size), vec_get_ok v hi, hcon]
  simp [List.getD_eq_getElem?_getD, List.getElem?_append_left, hlen, hi]

/-- C21: `vec_get` fails its assertion if and only if the index is outside `[0, size)`;
for an index inside the range it returns the cell `elems[index]`, which for an index
that was pushed is the value stored by that push.  `vec_get` takes the vector as a
`const` pointer and returns only the value: the vector is not modified. -/
theorem vec_get_contract (vector : Vector) (index : Int) :
    (vec_get vector index = Res.abort ↔ ¬ (0 ≤ index ∧ index < vec_size vector))
    ∧ (0 ≤ index ∧ index < vec_size vector →
        vec_get vector index = Res.ok (vector.elems.getD index.toNat 0))
    ∧ vec_get vector index ≠ Res.fuel
    ∧ ∀ (w : Vector) (x : Int), vector.wf → vec_pushback vector x = Res.ok w →
        vec_get w (vec_size vector) = Res.ok (to_char x)
        ∧ ∀ i : Nat, i < vector.size → vec_get w i = vec_get vector i := by
  unfold vec_size
  by_cases h : index ≥ 0 ∧ index < (vector.size : Int)
  · have hg : vec_get vector index = Res.ok (vector.elems.getD index.toNat 0) := by
      unfold vec_get
      rw [if_pos h]
    refine ⟨?_, fun _ => hg, ?_, ?_⟩
    · rw [hg]
      constructor
      · intro hh; cases hh
      · intro hh; exact absurd ⟨h.1, h.2⟩ hh
    · rw [hg]
      intro hh; cases hh
    · exact fun w x hw hp => vec_pushback_keeps hw hp
  · have hg : vec_get vector index = Res.abort := by
      unfold vec_get
      rw [if_neg h]
    refine ⟨?_, fun hh => absurd ⟨hh.1, hh.2⟩ h, ?_, ?_⟩
    · rw [hg]
      exact ⟨fun _ hh => h ⟨hh.1, hh.2⟩, fun _ => rfl⟩
    · rw [hg]
      intro hh; cases hh
    · exact fun w x hw hp => vec_pushback_keeps hw hp

/-- A push keeps `size <= capacity` and never decreases the capacity. -/
theorem vec_pushback_bounds {v w : Vector} {x : Int} (hs : (v.size : Int) ≤ v.capacity)
    (hp : vec_pushback v x = Res.ok w) :
    (w.size : Int) ≤ w.capacity ∧ v.capacity ≤ w.capacity := by
  unfold vec_pushback at hp
  split at hp
  · rename_i hfull
    unfold _increase_capacity at hp
    split at hp
    · rename_i hlt
      simp only [Res.ok_bind, Res.pure_eq] at hp
      injection hp with hp
      subst hp
      simp only
      push_cast
      omega
    · cases hp
  · rename_i hfull
    simp only [Res.pure_eq, Res.ok_bind] at hp
    injection hp with hp
    subst hp
    simp only
    push_cast
    omega

/-- A swap changes neither the size nor the capacity. -/
theorem vec_swap_bounds {v w : Vector} {a b : Int} (hp : vec_swap v a b = Res.ok w) :
    w.size = v.size ∧ w.capacity = v.capacity := by
  unfold vec_swap at hp
  split at hp
  · injection hp with hp
    subst hp
    exact ⟨rfl, rfl⟩
  · cases hp

/-- A pop of a vector that is not empty decrements the size and keeps the capacity. -/
theorem vec_pop_bounds (v : Vector) (hs : 0 < v.size) :
    (vec_pop v).2.size = v.size - 1 ∧ (vec_pop v).2.capacity = v.capacity := by
  unfold vec_pop
  rw [if_neg (by omega)]
  exact ⟨rfl, rfl⟩

/-- C22 (as the code behaves): `vec_pop` has no assertion.  On the empty vector made by
`vec_allocate(10)` it does not fail: it returns, and the `size_t` size wraps from 0 to
`2^64 - 1`, which is above the capacity 10, so `size <= capacity` is lost.  The rest of
the claim holds on the code: for every vector with `size <= capacity`, a push or swap that
returns, and a pop of a vector that is not empty, leave `size <= capacity`, and none of
the three decreases the capacity (a pop of the empty vector keeps it as well). -/
theorem pop_of_empty_vector :
    vec_allocate 10 = Res.ok (Vector.mk [0, 0, 0, 0, 0, 0, 0, 0, 0, 0] 10 0)
    ∧ (vec_pop (Vector.mk [0, 0, 0, 0, 0, 0, 0, 0, 0, 0] 10 0)).2
        = Vector.mk [0, 0, 0, 0, 0, 0, 0, 0, 0, 0] 10 18446744073709551615
    ∧ ¬ ((vec_pop (Vector.mk [0, 0, 0, 0, 0, 0, 0, 0, 0, 0] 10 0)).2.size : Int)
        ≤ (vec_pop (Vector.mk [0, 0, 0, 0, 0, 0, 0, 0, 0, 0] 10 0)).2.capacity
    ∧ (∀ (v w : Vector) (x : Int), (v.size : Int) ≤ v.capacity →
        vec_pushback v x = Res.ok w → (w.size : Int) ≤ w.capacity ∧ v.capacity ≤ w.capacity)
    ∧ (∀ (v w : Vector) (a b : Int), (v.size : Int) ≤ v.capacity →
        vec_swap v a b = Res.ok w → (w.size : Int) ≤ w.capacity ∧ v.capacity ≤ w.capacity)
    ∧ (∀ v : Vector, (v.size : Int) ≤ v.capacity → 0 < v.size →
        ((vec_pop v).2.size : Int) ≤ (vec_pop v).2.capacity)
    ∧ ∀ v : Vector, v.capacity ≤ (vec_pop v).2.capacity := by
  refine ⟨by decide, by decide, by decide, fun v w x hs hp => vec_pushback_bounds hs hp,
    fun v w a b hs hp => ?_, fun v hs hpos => ?_, fun v => ?_⟩
  · obtain ⟨h1, h2⟩ := vec_swap_bounds hp
    rw [h1, h2]
    exact ⟨hs, le_refl _⟩
  · obtain ⟨h1, h2⟩ := vec_pop_bounds v hpos
    rw [h1, h2]
    omega
  · unfold vec_pop
    split <;> exact le_refl _


/-! ## PriorityQueue.c: the contracts of insert, pop, delete, minimum and peek -/

/-- The heap property only has to be checked at the indices of the array. -/
theorem heap_property_iff (t : HEAP_TYPE) (l : List Int) :
    heap_property t l ↔ ∀ i ∈ List.range l.length,
      (2 * i + 1 < l.length → heap_le t (l.getD i 0) (l.getD (2 * i + 1) 0))
      ∧ (2 * i + 2 < l.length → heap_le t (l.getD i 0) (l.getD (2 * i + 2) 0)) := by
  constructor
  · intro h i _
    exact h i
  · intro h i
    by_cases hi : i < l.length
    · exact h i (List.mem_range.mpr hi)
    · exact ⟨fun hh => by omega, fun hh => by omega⟩

/-- C23: insertion keeps the heap property.  For every well-formed heap, MIN or MAX,
whose array satisfies the heap property, and every key that fits the storage cell: when
`priorityqueue_insert` returns, the array again satisfies the heap property of the same
heap type, the size has grown by one and the elements are the old ones plus the key; and
with a capacity of at least one it does return (no assertion fails and the sift-up ends
within its step budget). -/
theorem insert_restores_heap (q : PriorityQueue) (key : Int) (hw : q.wf)
    (hk : fits_cell key) :
    (∀ r, priorityqueue_insert q key = Res.ok r →
        heap_property r.heap_type r.contents ∧ r.heap_type = q.heap_type
        ∧ priorityqueue_size r = priorityqueue_size q + 1
        ∧ r.contents.Perm (key :: q.contents))
    ∧ (1 ≤ priorityqueue_capacity q → ∃ r, priorityqueue_insert q key = Res.ok r) := by
  constructor
  · intro r hr
    obtain ⟨hrw, hperm, ht, hsz, _⟩ := priorityqueue_insert_eq_ok hw hr
    rw [to_char_of_fits hk] at hperm
    refine ⟨hrw.2, ht, ?_, hperm⟩
    unfold priorityqueue_size vec_size
    rw [hsz]
    push_cast
    rfl
  · intro hc
    exact priorityqueue_insert_ok key hw hc

theorem insert_restores_heap_witness :
    (PriorityQueue.mk (Vector.mk [1, 4, 2, 0] 4 3) HEAP_TYPE.MIN).wf
    ∧ fits_cell 0
    ∧ priorityqueue_insert (PriorityQueue.mk (Vector.mk [1, 4, 2, 0] 4 3) HEAP_TYPE.MIN) 0
        = Res.ok (PriorityQueue.mk (Vector.mk [0, 1, 2, 4] 4 4) HEAP_TYPE.MIN)
    ∧ ∃ r, priorityqueue_insert
        (PriorityQueue.mk (Vector.mk [1, 4, 2, 0] 4 3) HEAP_TYPE.MIN) 0 = Res.ok r :=
  ⟨⟨by unfold Vector.wf; decide, (heap_property_iff _ _).mpr (by decide)⟩, by decide,
    by decide,
    (insert_restores_heap (PriorityQueue.mk (Vector.mk [1, 4, 2, 0] 4 3) HEAP_TYPE.MIN) 0
      ⟨by unfold Vector.wf; decide, (heap_property_iff _ _).mpr (by decide)⟩ (by decide)).2
      (by decide)⟩

/-- C24: popping the root.  For every well-formed non-empty heap whose array satisfies
the heap property, `priorityqueue_pop_root` returns `items[0]`, which is an element of
the heap, below or equal to every element in a MIN heap and above or equal to every
element in a MAX heap; the heap left holds the original elements minus one copy of the
returned value and again satisfies the heap property of the same heap type. -/
theorem pop_root_extreme (q : PriorityQueue) (hw : q.wf) (hs : 0 < q.items.size) :
    ∃ root r, priorityqueue_pop_root q = Res.ok (root, r)
      ∧ vec_get q.items 0 = Res.ok root
      ∧ root ∈ q.contents
      ∧ (q.heap_type = HEAP_TYPE.MIN → ∀ x ∈ q.contents, root ≤ x)
      ∧ (q.heap_type = HEAP_TYPE.MAX → ∀ x ∈ q.contents, x ≤ root)
      ∧ r.contents.Perm (q.contents.erase root)
      ∧ heap_property r.heap_type r.contents ∧ r.heap_type = q.heap_type
      ∧ priorityqueue_size r = priorityqueue_size q - 1 := by
  obtain ⟨r, hr, hrw, hperm, ht, hsz, _⟩ := priorityqueue_pop_root_ok hw hs
  have hroot := root_extreme_mem hw.2
  refine ⟨q.contents.getD 0 0, r, hr, vec_get_ok q.items hs, mem_contents_getD_zero hw.1 hs,
    ?_, ?_, ?_, hrw.2, ht, ?_⟩
  · intro hmin x hx
    have := hroot x hx
    rw [hmin] at this
    exact this
  · intro hmax x hx
    have := hroot x hx
    rw [hmax] at this
    exact this
  · have := List.Perm.erase (q.contents.getD 0 0) hperm
    rw [List.erase_cons_head] at this
    exact this
  · unfold priorityqueue_size vec_size
    rw [hsz]
    omega

theorem pop_root_extreme_witness :
    (PriorityQueue.mk (Vector.mk [7, 4, 7, 1] 4 4) HEAP_TYPE.MAX).wf
    ∧ priorityqueue_pop_root (PriorityQueue.mk (Vector.mk [7, 4, 7, 1] 4 4) HEAP_TYPE.MAX)
        = Res.ok (7, PriorityQueue.mk (Vector.mk [7, 4, 1, 7] 4 3) HEAP_TYPE.MAX)
    ∧ ∃ root r, priorityqueue_pop_root
          (PriorityQueue.mk (Vector.mk [7, 4, 7, 1] 4 4) HEAP_TYPE.MAX) = Res.ok (root, r)
        ∧ root ∈ (PriorityQueue.mk (Vector.mk [7, 4, 7, 1] 4 4) HEAP_TYPE.MAX).contents
        ∧ r.contents.Perm
          ((PriorityQueue.mk (Vector.mk [7, 4, 7, 1] 4 4) HEAP_TYPE.MAX).contents.erase root) :=
  ⟨⟨by unfold Vector.wf; decide, (heap_property_iff _ _).mpr (by decide)⟩, by decide,
    (pop_root_extreme (PriorityQueue.mk (Vector.mk [7, 4, 7, 1] 4 4) HEAP_TYPE.MAX)
      ⟨by unfold Vector.wf; decide, (heap_property_iff _ _).mpr (by decide)⟩
      (by decide)).imp fun _ hx => hx.imp fun _ hr => ⟨hr.1, hr.2.2.1, hr.2.2.2.2.2.1⟩⟩

/-- C25: deleting a key.  For every well-formed heap, MIN or MAX, whose array satisfies
the heap property, and every key, `priorityqueue_delete` returns the number of elements
equal to the key (0 when it is absent, and then the heap is left as it was); afterwards
the heap holds no copy of the key and every other value as often as before, its capacity
and heap type are unchanged, and its array satisfies the heap property (restored by
`_rebuild_heap`, which sifts down every index from `size / 2 - 1` to 0). -/
theorem delete_rebuilds_heap (q : PriorityQueue) (key : Int) (hw : q.wf) :
    ∃ r, priorityqueue_delete q key = Res.ok (((q.contents.count key : Nat) : Int), r)
      ∧ (key ∉ q.contents → r = q)
      ∧ r.contents.Perm (q.contents.filter (fun x => decide (x ≠ key)))
      ∧ r.contents.count key = 0
      ∧ (∀ x, x ≠ key → r.contents.count x = q.contents.count x)
      ∧ priorityqueue_capacity r = priorityqueue_capacity q
      ∧ r.heap_type = q.heap_type
      ∧ heap_property r.heap_type r.contents := by
  obtain ⟨r, hr, hrw, hperm, ht, hcap, hsame⟩ := priorityqueue_delete_ok q key hw
  refine ⟨r, hr, hsame, hperm, ?_, ?_, hcap, ht, hrw.2⟩
  · rw [hperm.count_eq]
    apply List.count_eq_zero_of_not_mem
    intro hm
    have := (List.mem_filter.mp hm).2
    simp at this
  · intro x hx
    rw [hperm.count_eq, List.count_filter]
    simpa using hx

theorem delete_rebuilds_heap_witness :
    (PriorityQueue.mk (Vector.mk [1, 4, 1, 5, 0] 5 4) HEAP_TYPE.MIN).wf
    ∧ priorityqueue_delete (PriorityQueue.mk (Vector.mk [1, 4, 1, 5, 0] 5 4) HEAP_TYPE.MIN) 1
        = Res.ok (2, PriorityQueue.mk (Vector.mk [4, 5, 0, 0, 0] 5 2) HEAP_TYPE.MIN)
    ∧ ∃ r, priorityqueue_delete
          (PriorityQueue.mk (Vector.mk [1, 4, 1, 5, 0] 5 4) HEAP_TYPE.MIN) 1
          = Res.ok ((((PriorityQueue.mk (Vector.mk [1, 4, 1, 5, 0] 5 4)
              HEAP_TYPE.MIN).contents.count 1 : Nat) : Int), r)
        ∧ r.contents.count 1 = 0 :=
  ⟨⟨by unfold Vector.wf; decide, (heap_property_iff _ _).mpr (by decide)⟩, by decide,
    (delete_rebuilds_heap (PriorityQueue.mk (Vector.mk [1, 4, 1, 5, 0] 5 4) HEAP_TYPE.MIN) 1
      ⟨by unfold Vector.wf; decide, (heap_property_iff _ _).mpr (by decide)⟩).imp
      fun _ hr => ⟨hr.1, hr.2.2.2.1⟩⟩

/-- C26: the minimum of a MAX heap.  For every well-formed non-empty MAX heap whose
array satisfies the max-heap property, `max_heap_get_min`, which reads only the indices
`size / 2 .. size - 1`, returns a value that is stored at one of those indices and is
below or equal to every element of the heap: the minimum of all elements. -/
theorem max_heap_min_in_last_row (q : PriorityQueue) (hw : q.wf)
    (ht : q.heap_type = HEAP_TYPE.MAX) (hs : 0 < q.items.size) :
    ∃ v, max_heap_get_min q = Res.ok v ∧ v ∈ q.contents ∧ (∀ x ∈ q.contents, v ≤ x)
      ∧ ∃ e : Nat, q.items.size / 2 ≤ e ∧ e < q.items.size
        ∧ vec_get q.items (e : Int) = Res.ok v := by
  obtain ⟨v, hv, hmem, hmin⟩ := max_heap_get_min_ok hw ht hs
  have hlen : q.contents.length = q.items.size := contents_length hw.1
  have hmax : heap_property HEAP_TYPE.MAX q.contents := by rw [← ht]; exact hw.2
  obtain ⟨j, hj, hjv⟩ := mem_iff_getD.mp hmem
  obtain ⟨e, he1, he2, he3⟩ := max_heap_leaf_below hmax q.contents.length j (by omega) hj
  have hge : v ≤ q.contents.getD e 0 := hmin _ (mem_iff_getD.mpr ⟨e, he2, rfl⟩)
  rw [hlen] at he1 he2
  refine ⟨v, hv, hmem, hmin, e, he1, he2, ?_⟩
  rw [vec_get_ok q.items he2]
  have : q.contents.getD e 0 = v := by rw [hjv] at he3; omega
  exact congrArg Res.ok this

theorem max_heap_min_in_last_row_witness :
    (PriorityQueue.mk (Vector.mk [9, 7, 8, 2, 5, 3, 0, 0] 8 6) HEAP_TYPE.MAX).wf
    ∧ max_heap_get_min (PriorityQueue.mk (Vector.mk [9, 7, 8, 2, 5, 3, 0, 0] 8 6) HEAP_TYPE.MAX)
        = Res.ok 2
    ∧ ∃ v, max_heap_get_min
          (PriorityQueue.mk (Vector.mk [9, 7, 8, 2, 5, 3, 0, 0] 8 6) HEAP_TYPE.MAX) = Res.ok v
        ∧ ∀ x ∈ (PriorityQueue.mk (Vector.mk [9, 7, 8, 2, 5, 3, 0, 0] 8 6)
            HEAP_TYPE.MAX).contents, v ≤ x :=
  ⟨⟨by unfold Vector.wf; decide, (heap_property_iff _ _).mpr (by decide)⟩, by decide,
    (max_heap_min_in_last_row
      (PriorityQueue.mk (Vector.mk [9, 7, 8, 2, 5, 3, 0, 0] 8 6) HEAP_TYPE.MAX)
      ⟨by unfold Vector.wf; decide, (heap_property_iff _ _).mpr (by decide)⟩ rfl
      (by decide)).imp fun _ hv => ⟨hv.1, hv.2.2.1⟩⟩

/-- C27: calls on an empty heap.  On a heap of size 0, `priorityqueue_pop_root`,
`priorityqueue_peek` and `max_heap_get_min` each fail an assertion (that of `vec_get` in
the case of a peek on an empty heap with cells), and `max_heap_get_min` fails its
assertion on every MIN heap; none returns a value.  On a well-formed non-empty heap
`priorityqueue_peek` returns `items[0]`; it takes the heap as a `const` pointer and
returns only the value, so the heap is left as it was. -/
theorem empty_heap_calls_abort (q : PriorityQueue) :
    (vec_size q.items = 0 →
      priorityqueue_pop_root q = Res.abort ∧ priorityqueue_peek q = Res.abort
        ∧ max_heap_get_min q = Res.abort)
    ∧ (q.heap_type = HEAP_TYPE.MIN → max_heap_get_min q = Res.abort)
    ∧ (q.items.wf → 0 < vec_size q.items →
        priorityqueue_peek q = Res.ok (q.items.elems.getD 0 0)
          ∧ vec_get q.items 0 = Res.ok (q.items.elems.getD 0 0)) := by
  unfold vec_size
  refine ⟨fun h0 => ?_, fun hmin => ?_, fun hw hs => ?_⟩
  · have hz : q.items.size = 0 := by omega
    refine ⟨?_, ?_, ?_⟩
    · unfold priorityqueue_pop_root
      rw [if_neg (by omega)]
    · unfold priorityqueue_peek vec_get
      rw [hz]
      split <;> rfl
    · unfold max_heap_get_min vec_size
      rw [if_neg (by omega)]
  · unfold max_heap_get_min
    rw [if_neg (by rw [hmin]; simp)]
  · have hg : vec_get q.items 0 = Res.ok (q.items.elems.getD 0 0) := by
      unfold vec_get
      rw [if_pos ⟨by omega, by omega⟩]
      rfl
    refine ⟨?_, hg⟩
    obtain ⟨hcap, hsz, _⟩ := hw
    unfold priorityqueue_peek vec_capacity
    rw [if_pos (by omega), hg]


/-! ## calculator.c: no assertion fails under the dispatcher -/

/-- C28: the dispatcher is safe.  For every finite sequence of requests whose operations
are among INSERT, DELETE, AVERAGE, SUM, MINIMUM and MEDIAN, whatever their operands and
measured times, the loop started on the fresh statics processes all of them: every call
of `command_controller` returns, so no assertion of `Vector`, `PriorityQueue` or
`MedianHeap` fails and no step budget runs out; one reply is sent per request, and the
server left can process any further request as well. -/
theorem dispatcher_never_aborts (requests : List (Message × Int))
    (hops : ∀ p ∈ requests,
      p.1.operation ∈ [INSERT, DELETE, AVERAGE, SUM, MINIMUM, MEDIAN]) :
    ∃ s replies, server_loop fresh_server requests = Res.ok (s, replies, false)
      ∧ replies.length = requests.length
      ∧ ∀ (msg : Message) (elapsed : Int),
          ∃ r, command_controller s msg elapsed = Res.ok r := by
  obtain ⟨s, replies, left, hl, hlen, hleft, hre⟩ :=
    server_loop_ready requests fresh_server fresh_ready
  have hnq : ∀ p ∈ requests, p.1.operation ≠ QUIT := by
    intro p hp hq
    have := hops p hp
    rw [hq] at this
    revert this
    decide
  have hf : left = false := by
    cases left with
    | false => rfl
    | true =>
      obtain ⟨p, hp, hq⟩ := hleft.mp rfl
      exact absurd hq (hnq p hp)
  subst hf
  refine ⟨s, replies, hl, ?_, fun msg elapsed => ?_⟩
  · rw [hlen, List.takeWhile_eq_self_iff.mpr]
    intro p hp
    simpa using hnq p hp
  · obtain ⟨s2, r, hc, _⟩ := controller_ready s msg elapsed (hre rfl)
    exact ⟨(s2, r), hc⟩

theorem dispatcher_never_aborts_witness :
    (∀ p ∈ [(request MINIMUM 0, 3), (request INSERT 200, 1), (request INSERT 5, 1),
          (request DELETE 7, 2), (request MEDIAN 0, 5), (request DELETE 5, 2),
          (request AVERAGE 0, 2), (request DELETE (-56), 2), (request SUM 0, 9)],
        (p.1.operation ∈ [INSERT, DELETE, AVERAGE, SUM, MINIMUM, MEDIAN]))
    ∧ (server_loop fresh_server [(request MINIMUM 0, 3), (request INSERT 200, 1),
          (request INSERT 5, 1), (request DELETE 7, 2), (request MEDIAN 0, 5),
          (request DELETE 5, 2), (request AVERAGE 0, 2), (request DELETE (-56), 2),
          (request SUM 0, 9)]
        >>= fun p => Res.ok (p.2.1.map (fun r => r.operation)))
      = Res.ok [ERROR, INSERT, INSERT, DELETE, MEDIAN, DELETE, AVERAGE, DELETE, ERROR]
    ∧ ∃ s replies, server_loop fresh_server [(request MINIMUM 0, 3), (request INSERT 200, 1),
          (request INSERT 5, 1), (request DELETE 7, 2), (request MEDIAN 0, 5),
          (request DELETE 5, 2), (request AVERAGE 0, 2), (request DELETE (-56), 2),
          (request SUM 0, 9)] = Res.ok (s, replies, false)
        ∧ replies.length = 9 :=
  ⟨by decide, by decide,
    (dispatcher_never_aborts _ (by decide)).imp fun _ hs => hs.imp fun _ hr => ⟨hr.1, hr.2.1⟩⟩

/-! ## MedianHeap.c: where an insert places the value, and how many transfers follow -/

/-- The comparison of an `int` with a double of positive denominator is the comparison
of the numbers they stand for. -/
theorem lt_iff_toRat (n : Int) (m : CDouble) (hd : 0 < m.den) :
    (CDouble.ofInt n).lt m = true ↔ (n : ℚ) < m.toRat := by
  have hq : (0 : ℚ) < (m.den : ℚ) := by exact_mod_cast hd
  unfold CDouble.lt CDouble.ofInt CDouble.toRat
  simp only [decide_eq_true_eq, mul_one]
  rw [lt_div_iff₀ hq]
  exact_mod_cast Iff.rfl

/-- The median of a dual heap that is not empty has a positive denominator. -/
theorem median_den_pos {h : MedianHeap} {m : CDouble} (hw : h.wf)
    (hne : medianheap_is_empty h = false) (hm : medianheap_get_median h = Res.ok m) :
    0 < m.den := by
  have hnz : ¬ (h.minHeap.items.size = 0 ∧ h.maxHeap.items.size = 0) := by
    intro hh
    have := (is_empty_iff h).mpr hh
    rw [hne] at this
    cases this
  rw [get_median_ok hw hnz] at hm
  injection hm with hm
  subst hm
  split
  · show (0 : Int) < 1 * 1 * 2
    decide
  · split
    · show (0 : Int) < 1
      decide
    · show (0 : Int) < 1
      decide

/-- C29: where an insert places the value.  For every well-formed dual heap: on an
empty dual heap `medianheap_insert` is the insertion of the value into `minHeap`, with
`maxHeap` left empty and nothing rebalanced; on a dual heap that is not empty it reads the
median, and is the insertion of the value into `maxHeap` if and only if the value is
below the median, and into `minHeap` otherwise, the other heap being as it was, followed
by `_rebalance` on the heap so obtained.  With room to grow in both heaps the call runs
to completion. -/
theorem insert_placement (h : MedianHeap) (n : Int) (hw : h.wf) :
    (medianheap_is_empty h = true →
      h.maxHeap.contents = []
        ∧ medianheap_insert h n = priorityqueue_insert h.minHeap n >>= fun q =>
            Res.ok (MedianHeap.mk h.maxHeap q (h.sum + n)))
    ∧ (medianheap_is_empty h = false →
      ∃ m, medianheap_get_median h = Res.ok m
        ∧ ((CDouble.ofInt n).lt m = true ↔ (n : ℚ) < m.toRat)
        ∧ ((n : ℚ) < m.toRat →
            medianheap_insert h n = priorityqueue_insert h.maxHeap n >>= fun q =>
              _rebalance (rebalance_budget (MedianHeap.mk q h.minHeap (h.sum + n)))
                (MedianHeap.mk q h.minHeap (h.sum + n)))
        ∧ (¬ (n : ℚ) < m.toRat →
            medianheap_insert h n = priorityqueue_insert h.minHeap n >>= fun q =>
              _rebalance (rebalance_budget (MedianHeap.mk h.maxHeap q (h.sum + n)))
                (MedianHeap.mk h.maxHeap q (h.sum + n))))
    ∧ (h.cap_pos → ∃ r, medianheap_insert h n = Res.ok r) := by
  refine ⟨fun hemp => ?_, fun hne => ?_, fun hc => medianheap_insert_ok n hw hc⟩
  · obtain ⟨hz1, hz2⟩ := (is_empty_iff h).mp hemp
    have e1 : h.maxHeap.contents = [] := by
      apply List.length_eq_zero.mp
      rw [PriorityQueue.contents, contents_length hw.1.1]
      exact hz2
    refine ⟨e1, ?_⟩
    rw [insert_unfold]
    unfold insert_place
    simp only [hemp, if_true]
    rcases hq : priorityqueue_insert h.minHeap n with q | _ | _
    · obtain ⟨_, _, _, hsz, _⟩ := priorityqueue_insert_eq_ok hw.2.1 hq
      simp only [Res.pure_eq, Res.ok_bind]
      apply rebalance_balanced
      rw [gap_eq]
      simp only [hsz, hz1, hz2]
      decide
    · rfl
    · rfl
  · have hnz : ¬ (h.minHeap.items.size = 0 ∧ h.maxHeap.items.size = 0) := by
      intro hh
      have := (is_empty_iff h).mpr hh
      rw [hne] at this
      cases this
    have hm := get_median_ok hw hnz
    have hd := median_den_pos hw hne hm
    have hlt := lt_iff_toRat n _ hd
    refine ⟨_, hm, hlt, fun hlow => ?_, fun hhigh => ?_⟩
    · have hb := hlt.mpr hlow
      rw [insert_unfold]
      unfold insert_place
      simp only [hne, Bool.false_eq_true, if_false, hm, Res.pure_eq, Res.ok_bind, hb, if_true]
      rcases priorityqueue_insert h.maxHeap n with q | _ | _ <;> rfl
    · have hb : ¬ _ := fun hh => hhigh (hlt.mp hh)
      rw [insert_unfold]
      unfold insert_place
      simp only [hne, Bool.false_eq_true, if_false, hm, Res.pure_eq, Res.ok_bind, hb]
      rcases priorityqueue_insert h.minHeap n with q | _ | _ <;> rfl

theorem insert_placement_witness :
    medianheap_run 10 [Call.insert 3, Call.insert 5]
        = Res.ok (heap_of [3, 0, 0, 0, 0, 0, 0, 0, 0, 0] 1 [5, 3, 0, 0, 0, 0, 0, 0, 0, 0] 1 8)
    ∧ medianheap_get_median
          (heap_of [3, 0, 0, 0, 0, 0, 0, 0, 0, 0] 1 [5, 3, 0, 0, 0, 0, 0, 0, 0, 0] 1 8)
        = Res.ok (CDouble.mk 8 2)
    ∧ medianheap_insert
          (heap_of [3, 0, 0, 0, 0, 0, 0, 0, 0, 0] 1 [5, 3, 0, 0, 0, 0, 0, 0, 0, 0] 1 8) 2
        = Res.ok (heap_of [3, 2, 0, 0, 0, 0, 0, 0, 0, 0] 2 [5, 3, 0, 0, 0, 0, 0, 0, 0, 0] 1 10)
    ∧ medianheap_insert
          (heap_of [3, 0, 0, 0, 0, 0, 0, 0, 0, 0] 1 [5, 3, 0, 0, 0, 0, 0, 0, 0, 0] 1 8) 4
        = Res.ok (heap_of [3, 0, 0, 0, 0, 0, 0, 0, 0, 0] 1 [4, 5, 0, 0, 0, 0, 0, 0, 0, 0] 2 12)
    ∧ medianheap_insert
          (heap_of [0, 0, 0, 0, 0, 0, 0, 0, 0, 0] 0 [0, 0, 0, 0, 0, 0, 0, 0, 0, 0] 0 0) 7
        = Res.ok (heap_of [0, 0, 0, 0, 0, 0, 0, 0, 0, 0] 0 [7, 0, 0, 0, 0, 0, 0, 0, 0, 0] 1 7)
    ∧ (medianheap_is_empty
          (heap_of [3, 0, 0, 0, 0, 0, 0, 0, 0, 0] 1 [5, 3, 0, 0, 0, 0, 0, 0, 0, 0] 1 8) = false →
        ∃ m, medianheap_get_median
            (heap_of [3, 0, 0, 0, 0, 0, 0, 0, 0, 0] 1 [5, 3, 0, 0, 0, 0, 0, 0, 0, 0] 1 8)
            = Res.ok m
          ∧ ((CDouble.ofInt 2).lt m = true ↔ ((2 : Int) : ℚ) < m.toRat)) :=
  ⟨by decide, by decide, by decide, by decide, by decide,
    fun hne => ((insert_placement
      (heap_of [3, 0, 0, 0, 0, 0, 0, 0, 0, 0] 1 [5, 3, 0, 0, 0, 0, 0, 0, 0, 0] 1 8) 2
      (medianheap_run_eq_ok (by decide : medianheap_run 10 [Call.insert 3, Call.insert 5]
        = Res.ok (heap_of [3, 0, 0, 0, 0, 0, 0, 0, 0, 0] 1
            [5, 3, 0, 0, 0, 0, 0, 0, 0, 0] 1 8))).1.1).2.1 hne).imp
      fun _ hm => ⟨hm.1, hm.2.1⟩⟩


/-! ## MedianHeap.c: the number of transfers of `_rebalance` -/

/-- The counting version of `_rebalance` ends on the heap `_rebalance` ends on. -/
theorem rebalance_transfers_heap : ∀ (fuel : Nat) (h : MedianHeap),
    (rebalance_transfers fuel h >>= fun p => Res.ok p.2) = _rebalance fuel h := by
  intro fuel
  induction fuel with
  | zero => intro h; rfl
  | succ f ih =>
    intro h
    rw [rebalance_unfold, rebalance_transfers]
    rcases rebalance_step h with h1 | _ | _
    · simp only [Res.ok_bind]
      by_cases hg : h1.gap > 1
      · simp only [hg, if_true]
        rw [← ih h1]
        rcases rebalance_transfers f h1 with p | _ | _ <;> rfl
      · simp only [hg, if_false]
        rfl
    · rfl
    · rfl

/-- The number of transfers: half the difference of the two sizes, rounded down. -/
theorem rebalance_transfers_count : ∀ (fuel : Nat) (h r : MedianHeap) (k : Nat), h.wf →
    rebalance_transfers fuel h = Res.ok (k, r) → k = h.gap / 2 := by
  intro fuel
  induction fuel with
  | zero =>
    intro h r k _ hr
    cases hr
  | succ f ih =>
    intro h r k hw hr
    rw [rebalance_transfers] at hr
    obtain ⟨h1, hs, hr1⟩ := Res.bind_eq_ok.mp hr
    obtain ⟨hw1, _, _, _, _, hgt, hle⟩ := rebalance_step_eq_ok hw hs
    by_cases hg : h1.gap > 1
    · simp only [hg, if_true] at hr1
      obtain ⟨p, hp, hr2⟩ := Res.bind_eq_ok.mp hr1
      obtain ⟨k1, r1⟩ := p
      have hk1 := ih h1 r1 k1 hw1 hp
      simp only [Res.pure_eq] at hr2
      injection hr2 with hr2
      injection hr2 with hk _
      by_cases hh : h.gap > 1
      · have := hgt hh
        rw [if_pos hh] at hk
        omega
      · have := hle (by omega)
        rw [this] at hg
        omega
    · simp only [hg, if_false, Res.pure_eq] at hr1
      injection hr1 with hr1
      injection hr1 with hk _
      by_cases hh : h.gap > 1
      · have := hgt hh
        rw [if_pos hh] at hk
        omega
      · rw [if_neg hh] at hk
        omega

/-- `medianheap_insert` and its counting version end on the same heap. -/
theorem insert_transfers_heap (h : MedianHeap) (n : Int) :
    (medianheap_insert_transfers h n >>= fun p => Res.ok p.2) = medianheap_insert h n := by
  rw [insert_unfold]
  unfold medianheap_insert_transfers
  rcases insert_place h n with h1 | _ | _
  · exact rebalance_transfers_heap _ _
  · rfl
  · rfl

/-- `medianheap_delete_all` and its counting version end on the same heap. -/
theorem delete_all_transfers_heap (h : MedianHeap) (n : Int) :
    (medianheap_delete_all_transfers h n >>= fun p => Res.ok p.2)
      = medianheap_delete_all h n := by
  unfold medianheap_delete_all_transfers medianheap_delete_all
  rcases priorityqueue_delete h.maxHeap n with ⟨c1, p⟩ | _ | _
  · rcases priorityqueue_delete h.minHeap n with ⟨c2, m⟩ | _ | _
    · exact rebalance_transfers_heap _ _
    · rfl
    · rfl
  · rfl
  · rfl

/-- The placement of an insert grows one of the two heaps by one element. -/
theorem insert_place_gap {h r : MedianHeap} {n : Int} (hw : h.wf)
    (hr : insert_place h n = Res.ok r) : r.gap ≤ h.gap + 1 := by
  unfold insert_place at hr
  rw [gap_eq, gap_eq]
  split at hr
  · obtain ⟨q, hq, hr1⟩ := Res.bind_eq_ok.mp hr
    obtain ⟨_, _, _, hsz, _⟩ := priorityqueue_insert_eq_ok hw.2.1 hq
    simp only [Res.pure_eq] at hr1
    injection hr1 with hr1
    subst hr1
    simp only [hsz]
    omega
  · obtain ⟨m, _, hr1⟩ := Res.bind_eq_ok.mp hr
    split at hr1
    · obtain ⟨q, hq, hr2⟩ := Res.bind_eq_ok.mp hr1
      obtain ⟨_, _, _, hsz, _⟩ := priorityqueue_insert_eq_ok hw.1 hq
      simp only [Res.pure_eq] at hr2
      injection hr2 with hr2
      subst hr2
      simp only [hsz]
      omega
    · obtain ⟨q, hq, hr2⟩ := Res.bind_eq_ok.mp hr1
      obtain ⟨_, _, _, hsz, _⟩ := priorityqueue_insert_eq_ok hw.2.1 hq
      simp only [Res.pure_eq] at hr2
      injection hr2 with hr2
      subst hr2
      simp only [hsz]
      omega

/-- C30 (as stated, refuted): the dual heap reached by inserting 2, 1, 2, 1, 2, 1, 2
into a fresh heap of capacity 10 is balanced (three elements below, four above), and the
single call `medianheap_delete_all(heap, 1)` empties `maxHeap`, after which `_rebalance`
transfers two elements, not at most one, to end on two elements in each heap. -/
theorem delete_all_two_transfers :
    medianheap_run 10 [Call.insert 2, Call.insert 1, Call.insert 2, Call.insert 1,
        Call.insert 2, Call.insert 1, Call.insert 2]
      = Res.ok (heap_of [1, 1, 1, 0, 0, 0, 0, 0, 0, 0] 3 [2, 2, 2, 2, 0, 0, 0, 0, 0, 0] 4 11)
    ∧ (heap_of [1, 1, 1, 0, 0, 0, 0, 0, 0, 0] 3 [2, 2, 2, 2, 0, 0, 0, 0, 0, 0] 4 11).gap = 1
    ∧ medianheap_delete_all_transfers
        (heap_of [1, 1, 1, 0, 0, 0, 0, 0, 0, 0] 3 [2, 2, 2, 2, 0, 0, 0, 0, 0, 0] 4 11) 1
      = Res.ok (2,
          heap_of [2, 2, 0, 0, 0, 0, 0, 0, 0, 0] 2 [2, 2, 2, 2, 0, 0, 0, 0, 0, 0] 2 8)
    ∧ medianheap_delete_all
        (heap_of [1, 1, 1, 0, 0, 0, 0, 0, 0, 0] 3 [2, 2, 2, 2, 0, 0, 0, 0, 0, 0] 4 11) 1
      = Res.ok (heap_of [2, 2, 0, 0, 0, 0, 0, 0, 0, 0] 2 [2, 2, 2, 2, 0, 0, 0, 0, 0, 0] 2 8)
    ∧ ¬ ∃ k r, medianheap_delete_all_transfers
          (heap_of [1, 1, 1, 0, 0, 0, 0, 0, 0, 0] 3 [2, 2, 2, 2, 0, 0, 0, 0, 0, 0] 4 11) 1
          = Res.ok (k, r) ∧ k ≤ 1 := by
  have he : medianheap_delete_all_transfers
        (heap_of [1, 1, 1, 0, 0, 0, 0, 0, 0, 0] 3 [2, 2, 2, 2, 0, 0, 0, 0, 0, 0] 4 11) 1
      = Res.ok (2,
          heap_of [2, 2, 0, 0, 0, 0, 0, 0, 0, 0] 2 [2, 2, 2, 2, 0, 0, 0, 0, 0, 0] 2 8) := by
    decide
  refine ⟨by decide, by decide, he, by decide, ?_⟩
  rintro ⟨k, r, hk, hle⟩
  rw [he] at hk
  injection hk with hk
  injection hk with hk _
  omega

/-- C30 (amended): starting from any dual heap reached from `medianheap_create`, the
`_rebalance` of a single `medianheap_insert` call transfers at most one element between
the two heaps (and with a capacity of at least one the call runs to completion); a single
`medianheap_delete_all` call runs to completion and its `_rebalance` transfers half the
difference (rounded down) of the sizes the removal leaves, which is at most one element
when the call removes at most two elements. -/
theorem rebalance_transfer_count (capacity : Int) (calls : List Call) (h : MedianHeap)
    (n : Int) (hr : medianheap_run capacity calls = Res.ok h) :
    (∀ k r, medianheap_insert_transfers h n = Res.ok (k, r) →
      medianheap_insert h n = Res.ok r ∧ k ≤ 1)
    ∧ (1 ≤ capacity → ∃ k r, medianheap_insert_transfers h n = Res.ok (k, r))
    ∧ (∃ k r, medianheap_delete_all_transfers h n = Res.ok (k, r)
      ∧ medianheap_delete_all h n = Res.ok r
      ∧ k = ((((h.maxHeap.items.size - h.maxHeap.contents.count n : Nat) : Int)
            - ((h.minHeap.items.size - h.minHeap.contents.count n : Nat) : Int)).natAbs) / 2
      ∧ (h.elements.count n ≤ 2 → k ≤ 1)) := by
  obtain ⟨hi, hcp, _⟩ := medianheap_run_eq_ok hr
  have hw := hi.1
  have hb : h.gap ≤ 1 := hi.2.1
  refine ⟨fun k r1 hp => ?_, fun hcap => ?_, ?_⟩
  · have hag := insert_transfers_heap h n
    rw [hp] at hag
    refine ⟨hag.symm, ?_⟩
    unfold medianheap_insert_transfers at hp
    obtain ⟨h1, hpl, hp3⟩ := Res.bind_eq_ok.mp hp
    obtain ⟨hw1, _⟩ := insert_place_eq_ok hw hpl
    have hgap := insert_place_gap hw hpl
    have hk := rebalance_transfers_count _ _ _ _
      (show (MedianHeap.mk h1.maxHeap h1.minHeap (h1.sum + n)).wf from hw1) hp3
    have hg : (MedianHeap.mk h1.maxHeap h1.minHeap (h1.sum + n)).gap = h1.gap := rfl
    rw [hg] at hk
    omega
  · obtain ⟨r, hins⟩ := medianheap_insert_ok n hw (hcp hcap)
    have hag := insert_transfers_heap h n
    rw [hins] at hag
    obtain ⟨p, hp, _⟩ := Res.bind_eq_ok.mp hag
    exact ⟨p.1, p.2, hp⟩
  · obtain ⟨r, hdel⟩ := medianheap_delete_all_ok n hw hi.2.1 hi.2.2
    have hag := delete_all_transfers_heap h n
    rw [hdel] at hag
    obtain ⟨p, hp, hp2⟩ := Res.bind_eq_ok.mp hag
    obtain ⟨k, r1⟩ := p
    injection hp2 with hp2
    simp only at hp2
    subst hp2
    obtain ⟨pq, mq, hpd, hmd, _, hpw, hmw, hpt, hmt, hpperm, hmperm, _⟩ :=
      medianheap_delete_all_unfold h n hw
    have hp0 := hp
    unfold medianheap_delete_all_transfers at hp
    rw [hpd, hmd] at hp
    simp only [Res.ok_bind] at hp
    have hwq : (MedianHeap.mk pq mq (h.sum - (0 + ((h.maxHeap.contents.count n : Nat) : Int)
        + ((h.minHeap.contents.count n : Nat) : Int)) * n)).wf :=
      ⟨hpw, hmw, by rw [hpt]; exact hw.2.2.1, by rw [hmt]; exact hw.2.2.2⟩
    have hk := rebalance_transfers_count _ _ _ _ hwq hp
    have hps : pq.items.size + h.maxHeap.contents.count n = h.maxHeap.items.size := by
      rw [← contents_length hpw.1, ← contents_length hw.1.1]
      have := length_filter_ne_add_count h.maxHeap.contents n
      rw [← hpperm.length_eq] at this
      exact this
    have hms : mq.items.size + h.minHeap.contents.count n = h.minHeap.items.size := by
      rw [← contents_length hmw.1, ← contents_length hw.2.1.1]
      have := length_filter_ne_add_count h.minHeap.contents n
      rw [← hmperm.length_eq] at this
      exact this
    rw [gap_eq] at hk hb
    simp only at hk
    have hcount : h.elements.count n
        = h.maxHeap.contents.count n + h.minHeap.contents.count n := by
      simp only [MedianHeap.elements, List.count_append]
    refine ⟨k, r1, hp0, hdel, ?_, ?_⟩
    · rw [hk]
      congr 2
      omega
    · intro hle
      rw [hk]
      omega

theorem rebalance_transfer_count_witness :
    medianheap_run 10 [Call.insert 3, Call.insert 5, Call.insert 4]
        = Res.ok (heap_of [3, 0, 0, 0, 0, 0, 0, 0, 0, 0] 1 [4, 5, 0, 0, 0, 0, 0, 0, 0, 0] 2 12)
    ∧ medianheap_insert_transfers
          (heap_of [3, 0, 0, 0, 0, 0, 0, 0, 0, 0] 1 [4, 5, 0, 0, 0, 0, 0, 0, 0, 0] 2 12) 6
        = Res.ok (1,
            heap_of [4, 3, 0, 0, 0, 0, 0, 0, 0, 0] 2 [5, 6, 4, 0, 0, 0, 0, 0, 0, 0] 2 18)
    ∧ medianheap_delete_all_transfers
          (heap_of [3, 0, 0, 0, 0, 0, 0, 0, 0, 0] 1 [4, 5, 0, 0, 0, 0, 0, 0, 0, 0] 2 12) 3
        = Res.ok (1,
            heap_of [4, 0, 0, 0, 0, 0, 0, 0, 0, 0] 1 [5, 4, 0, 0, 0, 0, 0, 0, 0, 0] 1 9)
    ∧ ∃ k r, medianheap_insert_transfers
          (heap_of [3, 0, 0, 0, 0, 0, 0, 0, 0, 0] 1 [4, 5, 0, 0, 0, 0, 0, 0, 0, 0] 2 12) 6
          = Res.ok (k, r)
        ∧ medianheap_insert
          (heap_of [3, 0, 0, 0, 0, 0, 0, 0, 0, 0] 1 [4, 5, 0, 0, 0, 0, 0, 0, 0, 0] 2 12) 6
          = Res.ok r
        ∧ k ≤ 1 :=
  ⟨by decide, by decide, by decide,
    ((rebalance_transfer_count 10 [Call.insert 3, Call.insert 5, Call.insert 4] _ 6
      (by decide)).2.1 (by decide)).imp fun k hk => hk.imp fun r hr =>
        ⟨hr, (rebalance_transfer_count 10 [Call.insert 3, Call.insert 5, Call.insert 4] _ 6
          (by decide)).1 k r hr⟩⟩


/-! ## uart.c: the LED outputs follow the state -/

theorem red_bit_eq (b : Board) : red_bit b = b.P1OUT.testBit 0 := by
  unfold red_bit RED_LED
  have h := Nat.and_two_pow b.P1OUT 0
  simp only [pow_zero, mul_one] at h
  rw [h]
  cases b.P1OUT.testBit 0 <;> rfl

theorem green_bit_eq (b : Board) : green_bit b = b.P2OUT.testBit 1 := by
  unfold green_bit GREEN_LED
  have h := Nat.and_two_pow b.P2OUT 1
  simp only [pow_one] at h
  rw [h]
  cases b.P2OUT.testBit 1 <;> rfl

theorem red_on_bits (b : Board) :
    red_bit (RED_ON b) = true ∧ green_bit (RED_ON b) = green_bit b
      ∧ (RED_ON b).state = b.state := by
  refine ⟨?_, rfl, rfl⟩
  rw [red_bit_eq]
  unfold RED_ON RED_LED
  simp [Nat.testBit_or]

theorem red_off_bits (b : Board) :
    red_bit (RED_OFF b) = false ∧ green_bit (RED_OFF b) = green_bit b
      ∧ (RED_OFF b).state = b.state := by
  refine ⟨?_, rfl, rfl⟩
  rw [red_bit_eq]
  unfold RED_OFF RED_LED
  simp [Nat.testBit_and]

theorem green_on_bits (b : Board) :
    green_bit (GREEN_ON b) = true ∧ red_bit (GREEN_ON b) = red_bit b
      ∧ (GREEN_ON b).state = b.state := by
  refine ⟨?_, rfl, rfl⟩
  rw [green_bit_eq]
  unfold GREEN_ON GREEN_LED
  have h2 : Nat.testBit 2 1 = true := by decide
  simp [Nat.testBit_or, h2]

theorem green_off_bits (b : Board) :
    green_bit (GREEN_OFF b) = false ∧ red_bit (GREEN_OFF b) = red_bit b
      ∧ (GREEN_OFF b).state = b.state := by
  refine ⟨?_, rfl, rfl⟩
  rw [green_bit_eq]
  unfold GREEN_OFF GREEN_LED
  have h2 : Nat.testBit 253 1 = false := by decide
  simp [Nat.testBit_and, h2]

theorem putchar_bits (b : Board) (c : Int) :
    red_bit (UART0_putchar b c) = red_bit b ∧ green_bit (UART0_putchar b c) = green_bit b
      ∧ (UART0_putchar b c).state = b.state := ⟨rfl, rfl, rfl⟩

theorem with_state_bits (b : Board) (s : Int) :
    red_bit { b with state := s } = red_bit b ∧ green_bit { b with state := s } = green_bit b :=
  ⟨rfl, rfl⟩

/-- One call of `state_controller` keeps the state among the four enum values and the
LED bits in step with it. -/
theorem state_controller_leds (b : Board) (input : Int)
    (hs : b.state = OFF_STATE ∨ b.state = RED_STATE ∨ b.state = GREEN_STATE
      ∨ b.state = BOTH_STATE)
    (hr : red_bit b = true ↔ (b.state = RED_STATE ∨ b.state = BOTH_STATE))
    (hg : green_bit b = true ↔ (b.state = GREEN_STATE ∨ b.state = BOTH_STATE)) :
    ((state_controller b input).state = OFF_STATE
        ∨ (state_controller b input).state = RED_STATE
        ∨ (state_controller b input).state = GREEN_STATE
        ∨ (state_controller b input).state = BOTH_STATE)
    ∧ (red_bit (state_controller b input) = true
        ↔ ((state_controller b input).state = RED_STATE
          ∨ (state_controller b input).state = BOTH_STATE))
    ∧ (green_bit (state_controller b input) = true
        ↔ ((state_controller b input).state = GREEN_STATE
          ∨ (state_controller b input).state = BOTH_STATE)) := by
  unfold state_controller
  by_cases i2 : input = GET_STATE
  · simp only [i2, if_true, putchar_bits]
    exact ⟨hs, hr, hg⟩
  · simp only [i2, if_false]
    have n01 : ¬ (PREVIOUS_STATE = NEXT_STATE) := by decide
    rcases hs with h | h | h | h
    · by_cases i0 : input = NEXT_STATE
      · simp only [h, OFF_STATE, RED_STATE, GREEN_STATE, BOTH_STATE] at hr hg
        simp [h, i0, putchar_bits, red_on_bits, green_on_bits, red_off_bits, green_off_bits,
          with_state_bits, OFF_STATE, RED_STATE, GREEN_STATE, BOTH_STATE]
        simp_all
      · by_cases i1 : input = PREVIOUS_STATE
        · simp only [h, OFF_STATE, RED_STATE, GREEN_STATE, BOTH_STATE] at hr hg
          simp [h, i1, n01, putchar_bits, red_on_bits, green_on_bits, red_off_bits,
            green_off_bits, with_state_bits, OFF_STATE, RED_STATE, GREEN_STATE, BOTH_STATE]
        · simp only [h, OFF_STATE, RED_STATE, GREEN_STATE, BOTH_STATE] at hr hg
          simp [h, i0, i1, putchar_bits, OFF_STATE, RED_STATE, GREEN_STATE, BOTH_STATE]
          simp_all
    · by_cases i0 : input = NEXT_STATE
      · simp only [h, OFF_STATE, RED_STATE, GREEN_STATE, BOTH_STATE] at hr hg
        simp [h, i0, putchar_bits, red_on_bits, green_on_bits, red_off_bits, green_off_bits,
          with_state_bits, OFF_STATE, RED_STATE, GREEN_STATE, BOTH_STATE]
      · by_cases i1 : input = PREVIOUS_STATE
        · simp only [h, OFF_STATE, RED_STATE, GREEN_STATE, BOTH_STATE] at hr hg
          simp [h, i1, n01, putchar_bits, red_on_bits, green_on_bits, red_off_bits,
            green_off_bits, with_state_bits, OFF_STATE, RED_STATE, GREEN_STATE, BOTH_STATE]
          simp_all
        · simp only [h, OFF_STATE, RED_STATE, GREEN_STATE, BOTH_STATE] at hr hg
          simp [h, i0, i1, putchar_bits, OFF_STATE, RED_STATE, GREEN_STATE, BOTH_STATE]
          simp_all
    · by_cases i0 : input = NEXT_STATE
      · simp only [h, OFF_STATE, RED_STATE, GREEN_STATE, BOTH_STATE] at hr hg
        simp [h, i0, putchar_bits, red_on_bits, green_on_bits, red_off_bits, green_off_bits,
          with_state_bits, OFF_STATE, RED_STATE, GREEN_STATE, BOTH_STATE]
        simp_all
      · by_cases i1 : input = PREVIOUS_STATE
        · simp only [h, OFF_STATE, RED_STATE, GREEN_STATE, BOTH_STATE] at hr hg
          simp [h, i1, n01, putchar_bits, red_on_bits, green_on_bits, red_off_bits,
            green_off_bits, with_state_bits, OFF_STATE, RED_STATE, GREEN_STATE, BOTH_STATE]
        · simp only [h, OFF_STATE, RED_STATE, GREEN_STATE, BOTH_STATE] at hr hg
          simp [h, i0, i1, putchar_bits, OFF_STATE, RED_STATE, GREEN_STATE, BOTH_STATE]
          simp_all
    · by_cases i0 : input = NEXT_STATE
      · simp only [h, OFF_STATE, RED_STATE, GREEN_STATE, BOTH_STATE] at hr hg
        simp [h, i0, putchar_bits, red_on_bits, green_on_bits, red_off_bits, green_off_bits,
          with_state_bits, OFF_STATE, RED_STATE, GREEN_STATE, BOTH_STATE]
      · by_cases i1 : input = PREVIOUS_STATE
        · simp only [h, OFF_STATE, RED_STATE, GREEN_STATE, BOTH_STATE] at hr hg
          simp [h, i1, n01, putchar_bits, red_on_bits, green_on_bits, red_off_bits,
            green_off_bits, with_state_bits, OFF_STATE, RED_STATE, GREEN_STATE, BOTH_STATE]
          simp_all
        · simp only [h, OFF_STATE, RED_STATE, GREEN_STATE, BOTH_STATE] at hr hg
          simp [h, i0, i1, putchar_bits, OFF_STATE, RED_STATE, GREEN_STATE, BOTH_STATE]
          simp_all

theorem run_inputs_leds (inputs : List Int) : ∀ b : Board,
    (b.state = OFF_STATE ∨ b.state = RED_STATE ∨ b.state = GREEN_STATE
      ∨ b.state = BOTH_STATE) →
    (red_bit b = true ↔ (b.state = RED_STATE ∨ b.state = BOTH_STATE)) →
    (green_bit b = true ↔ (b.state = GREEN_STATE ∨ b.state = BOTH_STATE)) →
    ((run_inputs b inputs).state = OFF_STATE ∨ (run_inputs b inputs).state = RED_STATE
        ∨ (run_inputs b inputs).state = GREEN_STATE
        ∨ (run_inputs b inputs).state = BOTH_STATE)
    ∧ (red_bit (run_inputs b inputs) = true
        ↔ ((run_inputs b inputs).state = RED_STATE
          ∨ (run_inputs b inputs).state = BOTH_STATE))
    ∧ (green_bit (run_inputs b inputs) = true
        ↔ ((run_inputs b inputs).state = GREEN_STATE
          ∨ (run_inputs b inputs).state = BOTH_STATE)) := by
  induction inputs with
  | nil =>
    intro b hs hr hg
    exact ⟨hs, hr, hg⟩
  | cons i rest ih =>
    intro b hs hr hg
    obtain ⟨hs1, hr1, hg1⟩ := state_controller_leds b i hs hr hg
    exact ih (state_controller b i) hs1 hr1 hg1

/-- C38: the LEDs follow the state.  From every board in the reset condition (state
`OFF_STATE`, red and green LED bits clear, the other register bits arbitrary), after any
sequence of inputs, valid or not, handed to `state_controller`, the state is one of the
four enum values, the red LED bit of `P1OUT` is set exactly when the state is `RED_STATE`
or `BOTH_STATE`, and the green LED bit of `P2OUT` is set exactly when the state is
`GREEN_STATE` or `BOTH_STATE`. -/
theorem leds_follow_state (b : Board) (inputs : List Int) (h0 : b.state = OFF_STATE)
    (hr0 : red_bit b = false) (hg0 : green_bit b = false) :
    ((run_inputs b inputs).state = OFF_STATE ∨ (run_inputs b inputs).state = RED_STATE
        ∨ (run_inputs b inputs).state = GREEN_STATE
        ∨ (run_inputs b inputs).state = BOTH_STATE)
    ∧ (red_bit (run_inputs b inputs) = true
        ↔ ((run_inputs b inputs).state = RED_STATE
          ∨ (run_inputs b inputs).state = BOTH_STATE))
    ∧ (green_bit (run_inputs b inputs) = true
        ↔ ((run_inputs b inputs).state = GREEN_STATE
          ∨ (run_inputs b inputs).state = BOTH_STATE)) := by
  apply run_inputs_leds inputs b (Or.inl h0)
  · rw [hr0, h0]
    decide
  · rw [hg0, h0]
    decide

theorem leds_follow_state_witness :
    (board_after_setup 19 7).state = OFF_STATE
    ∧ red_bit (board_after_setup 19 7) = false
    ∧ green_bit (board_after_setup 19 7) = false
    ∧ run_inputs (board_after_setup 19 7)
        [NEXT_STATE, NEXT_STATE, 9, GET_STATE, PREVIOUS_STATE, PREVIOUS_STATE, PREVIOUS_STATE]
      = Board.mk BOTH_STATE 19 7 [49, 50, 50, 50, 49, 48, 51]
    ∧ (red_bit (run_inputs (board_after_setup 19 7)
          [NEXT_STATE, NEXT_STATE, 9, GET_STATE, PREVIOUS_STATE, PREVIOUS_STATE,
            PREVIOUS_STATE]) = true
        ↔ ((run_inputs (board_after_setup 19 7)
            [NEXT_STATE, NEXT_STATE, 9, GET_STATE, PREVIOUS_STATE, PREVIOUS_STATE,
              PREVIOUS_STATE]).state = RED_STATE
          ∨ (run_inputs (board_after_setup 19 7)
            [NEXT_STATE, NEXT_STATE, 9, GET_STATE, PREVIOUS_STATE, PREVIOUS_STATE,
              PREVIOUS_STATE]).state = BOTH_STATE)) :=
  ⟨by decide, by decide, by decide, by decide,
    (leds_follow_state (board_after_setup 19 7)
      [NEXT_STATE, NEXT_STATE, 9, GET_STATE, PREVIOUS_STATE, PREVIOUS_STATE, PREVIOUS_STATE]
      (by decide) (by decide) (by decide)).2.1⟩

/-- C39: `NEXT_STATE` and `PREVIOUS_STATE` are mutual inverses.  From every board whose
state is one of the four enum values, `NEXT_STATE` followed by `PREVIOUS_STATE`, and
`PREVIOUS_STATE` followed by `NEXT_STATE`, lead back to the same state; the successive
states under `NEXT_STATE` from `OFF_STATE` are `RED_STATE`, `GREEN_STATE`, `BOTH_STATE`
and `OFF_STATE` again, and four `NEXT_STATE` inputs lead from every state back to it. -/
theorem next_previous_inverse (b : Board)
    (hs : b.state = OFF_STATE ∨ b.state = RED_STATE ∨ b.state = GREEN_STATE
      ∨ b.state = BOTH_STATE) :
    (state_controller (state_controller b NEXT_STATE) PREVIOUS_STATE).state = b.state
    ∧ (state_controller (state_controller b PREVIOUS_STATE) NEXT_STATE).state = b.state
    ∧ (run_inputs b [NEXT_STATE, NEXT_STATE, NEXT_STATE, NEXT_STATE]).state = b.state
    ∧ (b.state = OFF_STATE →
        (run_inputs b [NEXT_STATE]).state = RED_STATE
        ∧ (run_inputs b [NEXT_STATE, NEXT_STATE]).state = GREEN_STATE
        ∧ (run_inputs b [NEXT_STATE, NEXT_STATE, NEXT_STATE]).state = BOTH_STATE
        ∧ (run_inputs b [NEXT_STATE, NEXT_STATE, NEXT_STATE, NEXT_STATE]).state
          = OFF_STATE) := by
  obtain ⟨st, p1, p2, sent⟩ := b
  simp only at hs
  rcases hs with h | h | h | h <;> subst h <;>
    simp [run_inputs, state_controller, UART0_putchar, RED_ON, RED_OFF, GREEN_ON, GREEN_OFF,
      OFF_STATE, RED_STATE, GREEN_STATE, BOTH_STATE, NEXT_STATE, PREVIOUS_STATE, GET_STATE]

theorem next_previous_inverse_witness :
    run_inputs (board_after_setup 18 0) [PREVIOUS_STATE]
        = Board.mk BOTH_STATE 19 2 [51]
    ∧ (state_controller (state_controller (Board.mk BOTH_STATE 19 2 [51]) NEXT_STATE)
        PREVIOUS_STATE).state = BOTH_STATE
    ∧ (state_controller (state_controller (Board.mk BOTH_STATE 19 2 [51]) NEXT_STATE)
        PREVIOUS_STATE).state = (Board.mk BOTH_STATE 19 2 [51]).state :=
  ⟨by decide, by decide,
    (next_previous_inverse (Board.mk BOTH_STATE 19 2 [51])
      (Or.inr (Or.inr (Or.inr rfl)))).1⟩


/-! ## PriorityQueue.c: the sift-up ends -/

/-- The sift-up from a valid index returns, with the same result for every step budget
above the index, and the result holds the same elements. -/
theorem heapify_bottom_top_total : ∀ (n : Nat) (q : PriorityQueue) (i : Nat), i ≤ n →
    q.items.wf → i < q.items.size →
    ∃ r, (∀ fuel, i ≤ fuel → _heapify_bottom_top (fuel + 1) q (i : Int) = Res.ok r)
      ∧ (heap_le q.heap_type (q.contents.getD ((i - 1) / 2) 0) (q.contents.getD i 0) → r = q)
      ∧ r.contents.Perm q.contents ∧ r.items.size = q.items.size
      ∧ r.heap_type = q.heap_type := by
  intro n
  induction n with
  | zero =>
    intro q i hin hw hi
    have h0 : i = 0 := by omega
    subst h0
    refine ⟨q, fun fuel _ => ?_, fun _ => rfl, List.Perm.refl _, rfl, rfl⟩
    rw [heapify_bottom_top_step fuel q 0 hi, if_neg (not_not.mpr (heap_le_refl _ _))]
  | succ n ih =>
    intro q i hin hw hi
    by_cases hle : heap_le q.heap_type (q.contents.getD ((i - 1) / 2) 0) (q.contents.getD i 0)
    · refine ⟨q, fun fuel _ => ?_, fun _ => rfl, List.Perm.refl _, rfl, rfl⟩
      rw [heapify_bottom_top_step fuel q i hi, if_neg (not_not.mpr hle)]
    · have hpos : 0 < i := by
        rcases Nat.eq_zero_or_pos i with h0 | h0
        · subst h0
          exact absurd (heap_le_refl _ _) hle
        · exact h0
      have hp : (i - 1) / 2 < q.items.size := by omega
      obtain ⟨w, hsw, hcon, hsz, _, hww⟩ := vec_swap_ok hw hp hi
      obtain ⟨r, hr, _, hperm, hrs, hrt⟩ :=
        ih { q with items := w } ((i - 1) / 2) (by omega) hww (by rw [hsz]; exact hp)
      have hlen : q.contents.length = q.items.size := contents_length hw
      refine ⟨r, fun fuel hf => ?_, fun h => absurd h hle, ?_, by rw [hrs]; exact hsz, hrt⟩
      · obtain ⟨f, rfl⟩ : ∃ f, fuel = f + 1 := ⟨fuel - 1, by omega⟩
        rw [heapify_bottom_top_step (f + 1) q i hi, if_pos hle, hsw, Res.ok_bind]
        exact hr f (by omega)
      · refine hperm.trans ?_
        show w.contents.Perm q.contents
        rw [hcon]
        exact swap_at_perm _ (by rw [PriorityQueue.contents] at hlen; omega)
          (by rw [PriorityQueue.contents] at hlen; omega)

/-- C32: the sift-up terminates.  For every heap with a well-formed vector, whatever its
elements, and every valid start index, `_heapify_bottom_top` returns, with one and the
same result for every step budget above the index: no assertion fails and no index is
out of range.  It returns the heap as it is as soon as heap order holds against the
parent, which is the case at the latest at the root: there the parent index
`(0 - 1) / 2`, with the truncating division of C, is 0 itself.  The result holds the same
elements. -/
theorem heapify_bottom_top_terminates (q : PriorityQueue) (i : Nat) (hw : q.items.wf)
    (hi : i < q.items.size) :
    ∃ r, (∀ fuel, i ≤ fuel → _heapify_bottom_top (fuel + 1) q (i : Int) = Res.ok r)
      ∧ (heap_le q.heap_type (q.contents.getD ((i - 1) / 2) 0) (q.contents.getD i 0) → r = q)
      ∧ (i = 0 → r = q)
      ∧ Int.tdiv ((0 : Int) - 1) 2 = 0
      ∧ Int.tdiv ((i : Int) - 1) 2 = (((i - 1) / 2 : Nat) : Int)
      ∧ r.contents.Perm q.contents ∧ r.items.size = q.items.size := by
  obtain ⟨r, hr, hstop, hperm, hsz, _⟩ := heapify_bottom_top_total i q i (le_refl _) hw hi
  refine ⟨r, hr, hstop, fun h0 => ?_, by decide, parent_index i, hperm, hsz⟩
  subst h0
  exact hstop (heap_le_refl _ _)

theorem heapify_bottom_top_terminates_witness :
    (Vector.mk [1, 4, 2, 0] 4 4).wf
    ∧ _heapify_bottom_top 4 (PriorityQueue.mk (Vector.mk [1, 4, 2, 0] 4 4) HEAP_TYPE.MIN) 3
        = Res.ok (PriorityQueue.mk (Vector.mk [0, 1, 2, 4] 4 4) HEAP_TYPE.MIN)
    ∧ _heapify_bottom_top 1 (PriorityQueue.mk (Vector.mk [1, 4, 2, 0] 4 4) HEAP_TYPE.MIN) 0
        = Res.ok (PriorityQueue.mk (Vector.mk [1, 4, 2, 0] 4 4) HEAP_TYPE.MIN)
    ∧ ∃ r, (∀ fuel, 3 ≤ fuel →
          _heapify_bottom_top (fuel + 1)
            (PriorityQueue.mk (Vector.mk [1, 4, 2, 0] 4 4) HEAP_TYPE.MIN) ((3 : Nat) : Int)
          = Res.ok r)
        ∧ r.items.size
          = (PriorityQueue.mk (Vector.mk [1, 4, 2, 0] 4 4) HEAP_TYPE.MIN).items.size :=
  ⟨by unfold Vector.wf; decide, by decide, by decide,
    (heapify_bottom_top_terminates
      (PriorityQueue.mk (Vector.mk [1, 4, 2, 0] 4 4) HEAP_TYPE.MIN) 3
      (by unfold Vector.wf; decide) (by decide)).imp
      fun _ hr => ⟨hr.1, hr.2.2.2.2.2.2⟩⟩

/-! ## MedianHeap.c: `_rebalance` ends, balanced, on the same elements -/

/-- With room to grow in both heaps `_rebalance` returns, with one and the same result
for every step budget of at least the size difference. -/
theorem rebalance_total : ∀ (n : Nat) (h : MedianHeap), h.gap ≤ n → h.wf → h.cap_pos →
    ∃ r, ∀ fuel, h.gap ≤ fuel → _rebalance (fuel + 1) h = Res.ok r := by
  intro n
  induction n with
  | zero =>
    intro h hg _ _
    exact ⟨h, fun fuel _ => rebalance_balanced fuel (by omega)⟩
  | succ n ih =>
    intro h hg hw hc
    obtain ⟨h1, hs⟩ := rebalance_step_ok hw hc
    obtain ⟨hw1, _, _, _, hc1, hgt, hle⟩ := rebalance_step_eq_ok hw hs
    by_cases hg1 : h1.gap > 1
    · have hbig : h.gap > 1 := by
        by_contra hn
        rw [hle (by omega)] at hg1
        exact hn hg1
      have e := hgt hbig
      obtain ⟨r, hr⟩ := ih h1 (by omega) hw1 (hc1 hc)
      refine ⟨r, fun fuel hf => ?_⟩
      obtain ⟨f, rfl⟩ : ∃ f, fuel = f + 1 := ⟨fuel - 1, by omega⟩
      rw [rebalance_unfold, hs, Res.ok_bind, if_pos hg1]
      exact hr f (by omega)
    · refine ⟨h1, fun fuel _ => ?_⟩
      rw [rebalance_unfold, hs, Res.ok_bind, if_neg hg1]

theorem rebalance_total_cap_ok (h : MedianHeap) (hw : h.wf) (hc : h.cap_ok) :
    ∃ r, ∀ fuel, h.gap ≤ fuel → _rebalance (fuel + 1) h = Res.ok r := by
  rcases hc with hc | hc
  · exact rebalance_total h.gap h (le_refl _) hw hc
  · exact ⟨h, fun fuel _ => rebalance_balanced fuel (gap_le_of_cap_zero hw hc)⟩

theorem gap_le_budget (h : MedianHeap) : h.gap + 1 ≤ rebalance_budget h := by
  have := gap_lt_budget h
  omega

/-- With the capacities a created dual heap can have, `_rebalance` returns under the
budget its callers pass, with the result of every budget of at least the size
difference. -/
theorem rebalance_returns (h : MedianHeap) (hw : h.wf) (hc : h.cap_ok) :
    ∃ r, (∀ fuel, h.gap ≤ fuel → _rebalance (fuel + 1) h = Res.ok r)
      ∧ _rebalance (rebalance_budget h) h = Res.ok r := by
  obtain ⟨r, hr⟩ := rebalance_total_cap_ok h hw hc
  have hb := gap_le_budget h
  obtain ⟨f, hf⟩ : ∃ f, rebalance_budget h = f + 1 := ⟨rebalance_budget h - 1, by omega⟩
  refine ⟨r, hr, ?_⟩
  rw [hf]
  exact hr f (by omega)

/-- The dual heap left by `medianheap_delete_all(heap, 1)` before its `_rebalance`, in the
heap reached by inserting 2, 1, 2, 1, 2, 1, 2: nothing below, four elements above. -/
theorem emptied_side_wf :
    (heap_of [0, 0, 0, 0, 0, 0, 0, 0, 0, 0] 0 [2, 2, 2, 2, 0, 0, 0, 0, 0, 0] 4 8).wf :=
  ⟨⟨by unfold Vector.wf; decide, (heap_property_iff _ _).mpr (by decide)⟩,
    ⟨by unfold Vector.wf; decide, (heap_property_iff _ _).mpr (by decide)⟩, rfl, rfl⟩

/-- C31: `_rebalance` terminates, balanced.  For every pair of well-formed sub-heaps
satisfying their heap properties, whatever their sizes: whenever `_rebalance` returns,
the sizes of the two heaps differ by at most one; and with the capacities a created dual
heap can have (both at least one, or both zero) it does return, with one and the same
result for every step budget of at least the size difference, the budget its callers
pass included, so the recursion ends. -/
theorem rebalance_terminates (h : MedianHeap) (hw : h.wf) :
    (∀ fuel r, _rebalance fuel h = Res.ok r →
      (priorityqueue_size r.maxHeap - priorityqueue_size r.minHeap).natAbs ≤ 1)
    ∧ (h.cap_ok →
      ∃ r, (∀ fuel, h.gap ≤ fuel → _rebalance (fuel + 1) h = Res.ok r)
        ∧ _rebalance (rebalance_budget h) h = Res.ok r
        ∧ (priorityqueue_size r.maxHeap - priorityqueue_size r.minHeap).natAbs ≤ 1) := by
  refine ⟨fun fuel r hr => (rebalance_eq_ok fuel hw hr).2.1, fun hc => ?_⟩
  obtain ⟨r, hr, hrb⟩ := rebalance_returns h hw hc
  exact ⟨r, hr, hrb, (rebalance_eq_ok _ hw hrb).2.1⟩

theorem rebalance_terminates_witness :
    (heap_of [0, 0, 0, 0, 0, 0, 0, 0, 0, 0] 0 [2, 2, 2, 2, 0, 0, 0, 0, 0, 0] 4 8).wf
    ∧ (heap_of [0, 0, 0, 0, 0, 0, 0, 0, 0, 0] 0 [2, 2, 2, 2, 0, 0, 0, 0, 0, 0] 4 8).gap = 4
    ∧ _rebalance 5
        (heap_of [0, 0, 0, 0, 0, 0, 0, 0, 0, 0] 0 [2, 2, 2, 2, 0, 0, 0, 0, 0, 0] 4 8)
      = Res.ok (heap_of [2, 2, 0, 0, 0, 0, 0, 0, 0, 0] 2 [2, 2, 2, 2, 0, 0, 0, 0, 0, 0] 2 8)
    ∧ ∃ r, (∀ fuel,
          (heap_of [0, 0, 0, 0, 0, 0, 0, 0, 0, 0] 0 [2, 2, 2, 2, 0, 0, 0, 0, 0, 0] 4 8).gap
            ≤ fuel →
          _rebalance (fuel + 1)
            (heap_of [0, 0, 0, 0, 0, 0, 0, 0, 0, 0] 0 [2, 2, 2, 2, 0, 0, 0, 0, 0, 0] 4 8)
          = Res.ok r)
        ∧ (priorityqueue_size r.maxHeap - priorityqueue_size r.minHeap).natAbs ≤ 1 :=
  ⟨emptied_side_wf, by decide, by decide,
    ((rebalance_terminates _ emptied_side_wf).2 (Or.inl ⟨by decide, by decide⟩)).imp
      fun _ hr => ⟨hr.1, hr.2.2⟩⟩

/-- C37: `_rebalance` only moves elements.  For every pair of well-formed sub-heaps:
whenever `_rebalance` returns, the elements of `maxHeap` and `minHeap` taken together are
the same multiset as before and the running sum is the same; and with the capacities a
created dual heap can have it does return. -/
theorem rebalance_keeps_elements (h : MedianHeap) (hw : h.wf) :
    (∀ fuel r, _rebalance fuel h = Res.ok r →
      r.elements.Perm h.elements ∧ r.sum = h.sum
        ∧ medianheap_get_sum r = medianheap_get_sum h
        ∧ ∀ x, r.maxHeap.contents.count x + r.minHeap.contents.count x
            = h.maxHeap.contents.count x + h.minHeap.contents.count x)
    ∧ (h.cap_ok → ∃ r, _rebalance (rebalance_budget h) h = Res.ok r) := by
  refine ⟨fun fuel r hr => ?_, fun hc => ?_⟩
  · obtain ⟨_, _, hperm, hsum, _⟩ := rebalance_eq_ok fuel hw hr
    refine ⟨hperm, hsum, hsum, fun x => ?_⟩
    have := hperm.count_eq x
    simp only [MedianHeap.elements, List.count_append] at this
    exact this
  · obtain ⟨r, _, hr⟩ := rebalance_returns h hw hc
    exact ⟨r, hr⟩

theorem rebalance_keeps_elements_witness :
    (heap_of [0, 0, 0, 0, 0, 0, 0, 0, 0, 0] 0 [2, 2, 2, 2, 0, 0, 0, 0, 0, 0] 4 8).wf
    ∧ (∀ r, _rebalance 5
          (heap_of [0, 0, 0, 0, 0, 0, 0, 0, 0, 0] 0 [2, 2, 2, 2, 0, 0, 0, 0, 0, 0] 4 8)
          = Res.ok r →
        r.elements.Perm
          (heap_of [0, 0, 0, 0, 0, 0, 0, 0, 0, 0] 0 [2, 2, 2, 2, 0, 0, 0, 0, 0, 0] 4 8).elements
        ∧ r.sum
          = (heap_of [0, 0, 0, 0, 0, 0, 0, 0, 0, 0] 0 [2, 2, 2, 2, 0, 0, 0, 0, 0, 0] 4 8).sum)
    ∧ (heap_of [2, 2, 0, 0, 0, 0, 0, 0, 0, 0] 2 [2, 2, 2, 2, 0, 0, 0, 0, 0, 0] 2 8).elements
        = [2, 2, 2, 2]
    ∧ (heap_of [0, 0, 0, 0, 0, 0, 0, 0, 0, 0] 0 [2, 2, 2, 2, 0, 0, 0, 0, 0, 0] 4 8).elements
        = [2, 2, 2, 2] :=
  ⟨emptied_side_wf,
    fun r hr => ⟨((rebalance_keeps_elements _ emptied_side_wf).1 5 r hr).1,
      ((rebalance_keeps_elements _ emptied_side_wf).1 5 r hr).2.1⟩,
    by decide, by decide⟩

/-! ## MedianHeap.c: the median after inserts and delete-alls -/

/-- C33: the median after interleaved calls.  For every sequence of `medianheap_insert`
and `medianheap_delete_all` calls whose values all lie in -128..127, applied to a heap
made by `medianheap_create`: with a capacity of at least one the calls run to completion;
the heap they leave is empty exactly when the plain multiset built by the same calls is;
and when it is not empty, `medianheap_get_median` returns the statistical median of that
multiset.  Inserting 5, 1, 3, 2 and deleting 3 gives the median 2. -/
theorem median_after_calls (capacity : Int) (calls : List Call)
    (hfit : ∀ c ∈ calls, fits_cell c.arg) :
    (1 ≤ capacity → ∃ h, medianheap_run capacity calls = Res.ok h)
    ∧ (∀ h, medianheap_run capacity calls = Res.ok h →
        (medianheap_is_empty h = false ↔ apply_calls [] calls ≠ [])
        ∧ (medianheap_is_empty h = false →
            ∃ m, medianheap_get_median h = Res.ok m
              ∧ m.toRat = stat_median (apply_calls [] calls)))
    ∧ (medianheap_run 10 [Call.insert 5, Call.insert 1, Call.insert 3, Call.insert 2,
          Call.delete_all 3] >>= medianheap_get_median) = Res.ok (CDouble.ofInt 2)
    ∧ stat_median (apply_calls [] [Call.insert 5, Call.insert 1, Call.insert 3,
          Call.insert 2, Call.delete_all 3]) = 2 := by
  refine ⟨fun hc => medianheap_run_ok hc calls, fun h hr => ⟨?_, fun hne => ?_⟩,
    by decide, ?_⟩
  · obtain ⟨hi, _, hrest⟩ := medianheap_run_eq_ok hr
    obtain ⟨_, hperm, _⟩ := hrest hfit
    rw [is_empty_false_iff hi.1]
    constructor
    · intro hne hnil
      rw [hnil] at hperm
      exact hne (List.perm_nil.mp hperm)
    · intro hne hnil
      rw [hnil] at hperm
      exact hne (List.nil_perm.mp hperm)
  · exact median_of_fitting_calls hfit hr hne
  · have hs : sorted_of (apply_calls [] [Call.insert 5, Call.insert 1, Call.insert 3,
        Call.insert 2, Call.delete_all 3]) = [1, 2, 5] := by decide
    unfold stat_median
    simp only [hs]
    norm_num

theorem median_after_calls_witness :
    (∀ c ∈ [Call.insert 5, Call.insert 1, Call.insert 3, Call.insert 2, Call.delete_all 3],
      fits_cell c.arg)
    ∧ (1 ≤ (10 : Int) →
      ∃ h, medianheap_run 10 [Call.insert 5, Call.insert 1, Call.insert 3, Call.insert 2,
        Call.delete_all 3] = Res.ok h) :=
  ⟨by decide,
    (median_after_calls 10 [Call.insert 5, Call.insert 1, Call.insert 3, Call.insert 2,
      Call.delete_all 3] (by decide)).1⟩


/-! ## calculator.c: the statics along the loop -/

theorem finish_ok_init {S : Server} {M : Message} {e : Int} {s : Server} {r : Message}
    (hc : Res.ok (command_controller_finish S M e) = Res.ok (s, r))
    (hS : S.initialized = true) :
    s.initialized = true := by
  injection hc with hc
  have := finish_initialized S M e
  rw [hc] at this
  exact this.trans hS

theorem controller_initialized (server : Server) (msg : Message) (elapsed : Int)
    (s : Server) (r : Message) (hinit : server.initialized = true)
    (hc : command_controller server msg elapsed = Res.ok (s, r)) : s.initialized = true := by
  unfold command_controller at hc
  simp only [hinit, Bool.not_true, Bool.false_eq_true, if_false, Res.pure_eq, Res.ok_bind] at hc
  by_cases hr : msg.operation < 6 ∧ msg.operation ≥ 0
  · simp only [hr, and_self, if_true] at hc
    rcases hd : server.dataset with _ | d
    · rw [hd] at hc
      cases hc
    · rw [hd] at hc
      simp only at hc
      repeat' split at hc
      all_goals first
        | exact finish_ok_init hc rfl
        | (injection hc with hc; injection hc with hc _; rw [← hc])
        | (obtain ⟨x, _, hc2⟩ := Res.bind_eq_ok.mp hc; exact finish_ok_init hc2 rfl)
        | (obtain ⟨x, _, hc2⟩ := Res.bind_eq_ok.mp hc
           split at hc2 <;> exact finish_ok_init hc2 rfl)
  · simp only [hr, if_false] at hc
    rcases hd : server.dataset with _ | d
    · rw [hd] at hc
      cases hc
    · rw [hd] at hc
      simp only at hc
      repeat' split at hc
      all_goals first
        | exact finish_ok_init hc hinit
        | (injection hc with hc; injection hc with hc _; rw [← hc]; exact hinit)
        | (obtain ⟨x, _, hc2⟩ := Res.bind_eq_ok.mp hc
           exact finish_ok_init hc2 hinit)
        | (obtain ⟨x, _, hc2⟩ := Res.bind_eq_ok.mp hc
           split at hc2 <;>
             exact finish_ok_init hc2 hinit)

theorem finish_ok_operation {S : Server} {M : Message} {e : Int} {s : Server} {r : Message}
    (hc : Res.ok (command_controller_finish S M e) = Res.ok (s, r)) :
    r.operation = M.operation := by
  injection hc with hc
  have := finish_operation S M e
  rw [hc] at this
  exact this

/-- A request that is not stopped by the empty-dataset gate is answered with its own
operation. -/
theorem controller_same_operation (server : Server) (msg : Message) (elapsed : Int)
    (s : Server) (r : Message) (d : MedianHeap) (hinit : server.initialized = true)
    (hd : server.dataset = some d)
    (hg : (medianheap_is_empty d
      && !(decide (msg.operation = INSERT) || decide (msg.operation = QUIT))) = false)
    (hc : command_controller server msg elapsed = Res.ok (s, r)) :
    r.operation = msg.operation := by
  unfold command_controller at hc
  simp only [hinit, Bool.not_true, Bool.false_eq_true, if_false, Res.pure_eq, Res.ok_bind] at hc
  by_cases hr : msg.operation < 6 ∧ msg.operation ≥ 0
  · simp only [hr, and_self, if_true, hd, hg, Bool.false_eq_true, if_false] at hc
    repeat' split at hc
    all_goals first
      | (have h := finish_ok_operation hc; exact h)
      | (injection hc with hc; injection hc with _ hc; rw [← hc])
      | (obtain ⟨x, _, hc2⟩ := Res.bind_eq_ok.mp hc; (have h := finish_ok_operation hc2; exact h))
      | (obtain ⟨x, _, hc2⟩ := Res.bind_eq_ok.mp hc
         split at hc2 <;> (have h := finish_ok_operation hc2; exact h))
  · simp only [hr, if_false, hd, hg, Bool.false_eq_true] at hc
    repeat' split at hc
    all_goals first
      | (have h := finish_ok_operation hc; exact h)
      | (injection hc with hc; injection hc with _ hc; rw [← hc])
      | (obtain ⟨x, _, hc2⟩ := Res.bind_eq_ok.mp hc; (have h := finish_ok_operation hc2; exact h))
      | (obtain ⟨x, _, hc2⟩ := Res.bind_eq_ok.mp hc
         split at hc2 <;> (have h := finish_ok_operation hc2; exact h))

theorem ready_of_consistent {s : Server} (hs : s.consistent) : s.ready := by
  rcases hs with ⟨hi, _⟩ | ⟨_, hd⟩
  · exact Or.inl hi
  · exact Or.inr hd

theorem fresh_consistent : fresh_server.consistent := Or.inl ⟨rfl, rfl⟩

/-- A request other than QUIT leaves initialised statics with a dataset that satisfies
the invariant. -/
theorem controller_consistent (server : Server) (msg : Message) (elapsed : Int)
    (s : Server) (r : Message) (hs : server.consistent) (hq : msg.operation ≠ QUIT)
    (hc : command_controller server msg elapsed = Res.ok (s, r)) :
    s.initialized = true ∧ ∃ d, s.dataset = some d ∧ d.inv ∧ d.cap_pos := by
  rcases hs with ⟨hi, _⟩ | ⟨hi, h, hd, hinv, hcap⟩
  · rw [controller_first server msg elapsed hi] at hc
    obtain ⟨hi0, _, _, _, hcap0⟩ := medianheap_create_eq_ok create_ten
    obtain ⟨s2, r2, h1, _, h3⟩ := controller_ready_init (Server.mk true
      (some (heap_of [0, 0, 0, 0, 0, 0, 0, 0, 0, 0] 0 [0, 0, 0, 0, 0, 0, 0, 0, 0, 0] 0 0))
      server.medians server.total_elapsed server.total_commands) msg elapsed _ rfl rfl hi0
      (hcap0 (by decide))
    rw [hc] at h1
    injection h1 with h1
    injection h1 with h1 _
    subst h1
    exact ⟨controller_initialized _ msg elapsed s r rfl hc, (h3 hq).2⟩
  · obtain ⟨s2, r2, h1, _, h3⟩ := controller_ready_init server msg elapsed h hi hd hinv hcap
    rw [hc] at h1
    injection h1 with h1
    injection h1 with h1 _
    subst h1
    exact ⟨controller_initialized server msg elapsed s r hi hc, (h3 hq).2⟩

/-- Whatever requests the loop has processed without being left, its statics are
consistent. -/
theorem server_loop_consistent (rs : List (Message × Int)) :
    ∀ (server s : Server) (replies : List Message), server.consistent →
    server_loop server rs = Res.ok (s, replies, false) → s.consistent := by
  induction rs with
  | nil =>
    intro server s replies hs hl
    simp only [server_loop, Res.pure_eq] at hl
    injection hl with hl
    injection hl with h1 _
    subst h1
    exact hs
  | cons p rest ih =>
    intro server s replies hs hl
    obtain ⟨msg, elapsed⟩ := p
    rcases hstep : server_step server msg elapsed with ⟨s1, reply⟩ | _ | _
    · cases reply with
      | none =>
        rw [server_loop_cons_none server s1 msg elapsed rest hstep] at hl
        injection hl with hl
        injection hl with _ h2
        injection h2 with _ h3
        cases h3
      | some r =>
        rw [server_loop_cons_some server s1 msg r elapsed rest hstep] at hl
        obtain ⟨p, hp, hl2⟩ := Res.bind_eq_ok.mp hl
        obtain ⟨s2, replies2, left2⟩ := p
        injection hl2 with hl2
        injection hl2 with h1 h2
        injection h2 with h2 h3
        simp only at h1 h2 h3
        subst h1 h3
        have hq : msg.operation ≠ QUIT := by
          intro hq
          obtain ⟨sq, hsq⟩ := (server_step_ready server msg elapsed
            (ready_of_consistent hs)).1 hq
          rw [hsq] at hstep
          injection hstep with hstep
          injection hstep with _ hstep
          cases hstep
        obtain ⟨s3, r3, hst3, _⟩ := (server_step_ready server msg elapsed
          (ready_of_consistent hs)).2 hq
        unfold server_step at hstep
        obtain ⟨c, hc, hrest⟩ := Res.bind_eq_ok.mp hstep
        obtain ⟨c1, c2⟩ := c
        simp only at hrest
        split at hrest
        · injection hrest with hrest
          injection hrest with _ hrest
          cases hrest
        · simp only [Res.pure_eq] at hrest
          injection hrest with hrest
          injection hrest with e1 _
          subst e1
          obtain ⟨hi1, hd1⟩ := controller_consistent server msg elapsed c1 c2 hs hq hc
          exact ih c1 s2 replies2 (Or.inr ⟨hi1, hd1⟩) hp
    · rw [server_loop, hstep] at hl
      cases hl
    · rw [server_loop, hstep] at hl
      cases hl


/-! ## calculator.c: the ERROR reply and the queries leave the dataset alone -/

theorem gate_true_iff (d : MedianHeap) (op : Int) :
    (medianheap_is_empty d && !(decide (op = INSERT) || decide (op = QUIT))) = true
      ↔ (medianheap_is_empty d = true ∧ op ≠ INSERT ∧ op ≠ QUIT) := by
  simp [not_or]

theorem elements_nil_of_empty {d : MedianHeap} (hw : d.wf)
    (he : medianheap_is_empty d = true) : d.elements = [] := by
  by_contra hne
  have := (is_empty_false_iff hw).mpr hne
  rw [he] at this
  cases this

/-- The reply of the empty-dataset gate on consistent statics: the request with
operation ERROR and the measured time, and a dataset that is empty afterwards. -/
theorem gate_reply (server : Server) (msg : Message) (elapsed : Int)
    (hs : server.consistent)
    (hemp : ∀ h, server.dataset = some h → medianheap_is_empty h = true)
    (h1 : msg.operation ≠ INSERT) (h2 : msg.operation ≠ QUIT) :
    ∃ s d, command_controller server msg elapsed
        = Res.ok (s, { msg with operation := ERROR, elapsed := CDouble.ofInt elapsed })
      ∧ s.dataset = some d ∧ medianheap_is_empty d = true ∧ d.elements = []
      ∧ s.initialized = true := by
  rcases hs with ⟨hi, _⟩ | ⟨hi, h, hd, hinv, _⟩
  · rw [controller_first server msg elapsed hi]
    obtain ⟨hi0, _, _, _, _⟩ := medianheap_create_eq_ok create_ten
    obtain ⟨s, hc, hsd⟩ := error_gate_on_empty (Server.mk true
      (some (heap_of [0, 0, 0, 0, 0, 0, 0, 0, 0, 0] 0 [0, 0, 0, 0, 0, 0, 0, 0, 0, 0] 0 0))
      server.medians server.total_elapsed server.total_commands) msg elapsed _ rfl rfl
      (by decide) h1 h2
    exact ⟨s, _, hc, hsd, by decide, by decide, controller_initialized _ msg elapsed s _ rfl hc⟩
  · obtain ⟨s, hc, hsd⟩ := error_gate_on_empty server msg elapsed h hi hd (hemp h hd) h1 h2
    exact ⟨s, h, hc, hsd, hemp h hd, elements_nil_of_empty hinv.1 (hemp h hd),
      controller_initialized server msg elapsed s _ hi hc⟩

/-- C34: the ERROR reply.  On every server state the loop reaches: a request other than
INSERT and QUIT that meets an empty dataset is answered with the request itself, operation
set to ERROR, so the three operand slots of the reply are exactly those of the request,
and the dataset is still empty afterwards; and whenever a request whose operation is not
ERROR is answered with ERROR, the dataset was empty, the operands of the reply are those
of the request and the dataset is empty afterwards. -/
theorem error_reply_frame (requests : List (Message × Int)) (server : Server)
    (replies : List Message) (msg : Message) (elapsed : Int)
    (hreach : server_loop fresh_server requests = Res.ok (server, replies, false)) :
    ((∀ h, server.dataset = some h → medianheap_is_empty h = true) →
      msg.operation ≠ INSERT → msg.operation ≠ QUIT →
      ∃ s r d, command_controller server msg elapsed = Res.ok (s, r)
        ∧ r.operation = ERROR ∧ r.operands = msg.operands
        ∧ s.dataset = some d ∧ medianheap_is_empty d = true ∧ d.elements = [])
    ∧ (∀ s r, command_controller server msg elapsed = Res.ok (s, r) →
        r.operation = ERROR → msg.operation ≠ ERROR →
        r.operands = msg.operands
          ∧ (∀ h, server.dataset = some h → medianheap_is_empty h = true)
          ∧ ∃ d, s.dataset = some d ∧ medianheap_is_empty d = true ∧ d.elements = []) := by
  have hs := server_loop_consistent requests fresh_server server replies fresh_consistent hreach
  constructor
  · intro hemp h1 h2
    obtain ⟨s, d, hc, hsd, he, hel, _⟩ := gate_reply server msg elapsed hs hemp h1 h2
    exact ⟨s, _, d, hc, rfl, rfl, hsd, he, hel⟩
  · intro s r hc her hne
    have hgate : (∀ h, server.dataset = some h → medianheap_is_empty h = true)
        ∧ msg.operation ≠ INSERT ∧ msg.operation ≠ QUIT := by
      rcases hs with ⟨hi, hnone⟩ | ⟨hi, h, hd, _, _⟩
      · refine ⟨fun h hd => (by rw [hnone] at hd; cases hd), ?_⟩
        by_contra hn
        have hg : (medianheap_is_empty
            (heap_of [0, 0, 0, 0, 0, 0, 0, 0, 0, 0] 0 [0, 0, 0, 0, 0, 0, 0, 0, 0, 0] 0 0)
          && !(decide (msg.operation = INSERT) || decide (msg.operation = QUIT))) = false := by
          rw [Bool.eq_false_iff]
          intro hg
          exact hn ((gate_true_iff _ _).mp hg).2
        rw [controller_first server msg elapsed hi] at hc
        have := controller_same_operation _ msg elapsed s r _ rfl rfl hg hc
        rw [her] at this
        exact hne this.symm
      · by_contra hn
        have hg : (medianheap_is_empty h
          && !(decide (msg.operation = INSERT) || decide (msg.operation = QUIT))) = false := by
          rw [Bool.eq_false_iff]
          intro hg
          obtain ⟨g1, g2⟩ := (gate_true_iff _ _).mp hg
          apply hn
          refine ⟨fun h2 hd2 => ?_, g2⟩
          rw [hd] at hd2
          injection hd2 with hd2
          rw [← hd2]
          exact g1
        have := controller_same_operation server msg elapsed s r h hi hd hg hc
        rw [her] at this
        exact hne this.symm
    obtain ⟨s2, d, hc2, hsd, he, hel, _⟩ :=
      gate_reply server msg elapsed hs hgate.1 hgate.2.1 hgate.2.2
    rw [hc] at hc2
    injection hc2 with hc2
    injection hc2 with e1 e2
    subst e1
    rw [e2]
    exact ⟨rfl, hgate.1, d, hsd, he, hel⟩

theorem error_reply_frame_witness :
    server_loop fresh_server [(request INSERT 5, 1), (request DELETE 5, 2)]
        = Res.ok (Server.mk true
            (some (heap_of [0, 0, 0, 0, 0, 0, 0, 0, 0, 0] 0 [0, 0, 0, 0, 0, 0, 0, 0, 0, 0] 0 0))
            (0, 0) [1, 2, 0, 0, 0, 0] [1, 1, 0, 0, 0, 0],
          [Message.mk 1 INSERT [CDouble.ofInt 5, CDouble.ofInt 0, CDouble.ofInt 0] ⟨1, 1⟩,
            Message.mk 1 DELETE [CDouble.ofInt 5, CDouble.ofInt 0, CDouble.ofInt 0] ⟨2, 1⟩],
          false)
    ∧ command_controller (Server.mk true
          (some (heap_of [0, 0, 0, 0, 0, 0, 0, 0, 0, 0] 0 [0, 0, 0, 0, 0, 0, 0, 0, 0, 0] 0 0))
          (0, 0) [1, 2, 0, 0, 0, 0] [1, 1, 0, 0, 0, 0]) (request SUM 9) 3
        = Res.ok (Server.mk true
            (some (heap_of [0, 0, 0, 0, 0, 0, 0, 0, 0, 0] 0 [0, 0, 0, 0, 0, 0, 0, 0, 0, 0] 0 0))
            (0, 0) [1, 2, 0, 0, 0, 0] [1, 1, 0, 1, 0, 0],
          Message.mk 1 ERROR [CDouble.ofInt 9, CDouble.ofInt 0, CDouble.ofInt 0] ⟨3, 1⟩)
    ∧ ∃ s r d, command_controller (Server.mk true
          (some (heap_of [0, 0, 0, 0, 0, 0, 0, 0, 0, 0] 0 [0, 0, 0, 0, 0, 0, 0, 0, 0, 0] 0 0))
          (0, 0) [1, 2, 0, 0, 0, 0] [1, 1, 0, 0, 0, 0]) (request SUM 9) 3 = Res.ok (s, r)
        ∧ r.operation = ERROR ∧ r.operands = (request SUM 9).operands
        ∧ s.dataset = some d ∧ medianheap_is_empty d = true ∧ d.elements = [] :=
  ⟨by decide, by decide,
    (error_reply_frame [(request INSERT 5, 1), (request DELETE 5, 2)]
      (Server.mk true
        (some (heap_of [0, 0, 0, 0, 0, 0, 0, 0, 0, 0] 0 [0, 0, 0, 0, 0, 0, 0, 0, 0, 0] 0 0))
        (0, 0) [1, 2, 0, 0, 0, 0] [1, 1, 0, 0, 0, 0])
      [Message.mk 1 INSERT [CDouble.ofInt 5, CDouble.ofInt 0, CDouble.ofInt 0] ⟨1, 1⟩,
        Message.mk 1 DELETE [CDouble.ofInt 5, CDouble.ofInt 0, CDouble.ofInt 0] ⟨2, 1⟩]
      (request SUM 9) 3 (by decide)).1
      (fun h hd => by injection hd with hd; rw [← hd]; decide) (by decide) (by decide)⟩

/-- C35: gating by the current contents.  On every server state the loop reaches, by
whatever requests, a DELETE, AVERAGE, SUM, MINIMUM or MEDIAN request is processed, and it
is answered with ERROR when the dataset is empty at that moment (not yet created, or
holding no element, as after INSERT 5 and DELETE 5), and with its own operation, not
ERROR, when the dataset holds an element; one of the two is always the case. -/
theorem error_gate_by_contents (requests : List (Message × Int)) (server : Server)
    (replies : List Message) (msg : Message) (elapsed : Int)
    (hreach : server_loop fresh_server requests = Res.ok (server, replies, false))
    (hop : msg.operation ∈ [DELETE, AVERAGE, SUM, MINIMUM, MEDIAN]) :
    ∃ s r, command_controller server msg elapsed = Res.ok (s, r)
      ∧ ((∀ h, server.dataset = some h → medianheap_is_empty h = true) →
          r.operation = ERROR)
      ∧ ((∃ h, server.dataset = some h ∧ medianheap_is_empty h = false) →
          r.operation = msg.operation ∧ r.operation ≠ ERROR)
      ∧ ((∀ h, server.dataset = some h → medianheap_is_empty h = true)
          ∨ ∃ h, server.dataset = some h ∧ medianheap_is_empty h = false) := by
  have hs := server_loop_consistent requests fresh_server server replies fresh_consistent hreach
  have h1 : msg.operation ≠ INSERT := by
    intro hh; rw [hh] at hop; revert hop; decide
  have h2 : msg.operation ≠ QUIT := by
    intro hh; rw [hh] at hop; revert hop; decide
  have h7 : msg.operation ≠ ERROR := by
    intro hh; rw [hh] at hop; revert hop; decide
  obtain ⟨s, r, hc, _⟩ := controller_ready server msg elapsed (ready_of_consistent hs)
  refine ⟨s, r, hc, fun hemp => ?_, fun hne => ?_, ?_⟩
  · obtain ⟨s2, d, hc2, _⟩ := gate_reply server msg elapsed hs hemp h1 h2
    rw [hc] at hc2
    injection hc2 with hc2
    injection hc2 with _ e2
    rw [e2]
  · obtain ⟨h, hd, hne⟩ := hne
    rcases hs with ⟨_, hnone⟩ | ⟨hi, _⟩
    · rw [hnone] at hd
      cases hd
    · have hg : (medianheap_is_empty h
        && !(decide (msg.operation = INSERT) || decide (msg.operation = QUIT))) = false := by
        rw [hne]; rfl
      have hsame := controller_same_operation server msg elapsed s r h hi hd hg hc
      exact ⟨hsame, by rw [hsame]; exact h7⟩
  · rcases hd : server.dataset with _ | h
    · exact Or.inl (fun h hh => by cases hh)
    · cases he : medianheap_is_empty h with
      | true =>
        refine Or.inl (fun h2 hh => ?_)
        injection hh with hh
        rw [← hh]
        exact he
      | false => exact Or.inr ⟨h, rfl, he⟩

theorem error_gate_by_contents_witness :
    (server_loop fresh_server [(request INSERT 5, 1), (request DELETE 5, 2),
          (request MEDIAN 0, 3), (request INSERT 5, 1), (request MEDIAN 0, 3)]
        >>= fun p => Res.ok (p.2.1.map (fun r => r.operation)))
      = Res.ok [INSERT, DELETE, ERROR, INSERT, MEDIAN]
    ∧ ∃ s r, command_controller (Server.mk true
          (some (heap_of [0, 0, 0, 0, 0, 0, 0, 0, 0, 0] 0 [0, 0, 0, 0, 0, 0, 0, 0, 0, 0] 0 0))
          (0, 0) [1, 2, 0, 0, 0, 0] [1, 1, 0, 0, 0, 0]) (request MEDIAN 0) 3 = Res.ok (s, r)
        ∧ ((∀ h, (Server.mk true
              (some (heap_of [0, 0, 0, 0, 0, 0, 0, 0, 0, 0] 0
                [0, 0, 0, 0, 0, 0, 0, 0, 0, 0] 0 0))
              (0, 0) [1, 2, 0, 0, 0, 0] [1, 1, 0, 0, 0, 0]).dataset = some h →
            medianheap_is_empty h = true) →
          r.operation = ERROR) :=
  ⟨by decide,
    (error_gate_by_contents [(request INSERT 5, 1), (request DELETE 5, 2)]
      (Server.mk true
        (some (heap_of [0, 0, 0, 0, 0, 0, 0, 0, 0, 0] 0 [0, 0, 0, 0, 0, 0, 0, 0, 0, 0] 0 0))
        (0, 0) [1, 2, 0, 0, 0, 0] [1, 1, 0, 0, 0, 0])
      [Message.mk 1 INSERT [CDouble.ofInt 5, CDouble.ofInt 0, CDouble.ofInt 0] ⟨1, 1⟩,
        Message.mk 1 DELETE [CDouble.ofInt 5, CDouble.ofInt 0, CDouble.ofInt 0] ⟨2, 1⟩]
      (request MEDIAN 0) 3 (by decide) (by decide)).imp
      fun _ hs => hs.imp fun _ hr => ⟨hr.1, hr.2.1⟩⟩

/-- The reply to a query on a dataset that is not empty is fixed by the request and the
dataset: the other statics and the measured time play no part in its operands. -/
theorem query_reply_fixed (msg : Message) (h : MedianHeap) (hw : h.wf)
    (hne : medianheap_is_empty h = false)
    (hop : msg.operation ∈ [AVERAGE, SUM, MINIMUM, MEDIAN]) :
    ∃ ops : List CDouble, ∀ (server : Server) (elapsed : Int),
      server.initialized = true → server.dataset = some h →
      ∃ s r, command_controller server msg elapsed = Res.ok (s, r)
        ∧ s.dataset = some h ∧ r.operation = msg.operation ∧ r.operands = ops := by
  simp only [List.mem_cons, List.mem_singleton, List.not_mem_nil, or_false] at hop
  rcases hop with hop | hop | hop | hop
  · refine ⟨msg.operands.set RESULT (medianheap_get_average h).to_float, fun server elapsed hi hd => ?_⟩
    obtain ⟨s, r, hc, hsd, hro, hrp⟩ := average_reply server msg elapsed h hi hd hne hop
    exact ⟨s, r, hc, hsd, hro.trans hop.symm, hrp⟩
  · refine ⟨msg.operands.set RESULT (CDouble.ofInt (medianheap_get_sum h)).to_float, fun server elapsed hi hd => ?_⟩
    obtain ⟨s, r, hc, hsd, hro, hrp⟩ := sum_reply server msg elapsed h hi hd hne hop
    exact ⟨s, r, hc, hsd, hro.trans hop.symm, hrp⟩
  · obtain ⟨m, hm⟩ := get_min_returns hw hne
    refine ⟨msg.operands.set RESULT (CDouble.ofInt m), fun server elapsed hi hd => ?_⟩
    obtain ⟨s, r, hc, hsd, hro, hrp⟩ := minimum_reply server msg elapsed h m hi hd hne hop hm
    exact ⟨s, r, hc, hsd, hro.trans hop.symm, hrp⟩
  · by_cases heq : h.maxHeap.items.size = h.minHeap.items.size
    · refine ⟨((msg.operands.set MEDIAN1 (CDouble.ofInt (h.maxHeap.contents.getD 0 0))).set MEDIAN2
        (CDouble.ofInt (h.minHeap.contents.getD 0 0))).set FLAG_TWO_MEDIAN
        (CDouble.ofInt TWO_MEDIANS), fun server elapsed hi hd => ?_⟩
      have hm := get_median2_roots hw hne server.medians
      rw [if_pos heq] at hm
      obtain ⟨s, r, hc, hsd, hro, hrp⟩ :=
        median_reply server msg elapsed h true _ _ hi hd hne hop hm
      simp only [if_true] at hrp
      exact ⟨s, r, hc, hsd, hro.trans hop.symm, hrp⟩
    · by_cases hgt : h.maxHeap.items.size > h.minHeap.items.size
      · refine ⟨(msg.operands.set MEDIAN1 (CDouble.ofInt (h.maxHeap.contents.getD 0 0))).set
          FLAG_TWO_MEDIAN (CDouble.ofInt ONE_MEDIAN), fun server elapsed hi hd => ?_⟩
        have hm := get_median2_roots hw hne server.medians
        rw [if_neg heq, if_pos hgt] at hm
        obtain ⟨s, r, hc, hsd, hro, hrp⟩ :=
          median_reply server msg elapsed h false _ _ hi hd hne hop hm
        simp only [Bool.false_eq_true, if_false] at hrp
        exact ⟨s, r, hc, hsd, hro.trans hop.symm, hrp⟩
      · refine ⟨(msg.operands.set MEDIAN1 (CDouble.ofInt (h.minHeap.contents.getD 0 0))).set
          FLAG_TWO_MEDIAN (CDouble.ofInt ONE_MEDIAN), fun server elapsed hi hd => ?_⟩
        have hm := get_median2_roots hw hne server.medians
        rw [if_neg heq, if_neg hgt] at hm
        obtain ⟨s, r, hc, hsd, hro, hrp⟩ :=
          median_reply server msg elapsed h false _ _ hi hd hne hop hm
        simp only [Bool.false_eq_true, if_false] at hrp
        exact ⟨s, r, hc, hsd, hro.trans hop.symm, hrp⟩

/-- C36: queries leave the dataset alone.  On every server state the loop reaches with
a dataset `h`, an AVERAGE, SUM, MINIMUM or MEDIAN request is processed and the dataset
afterwards is the very same `h` (the element arrays and sizes of both sub-heaps and the
running sum); the same request repeated, whatever the time measured for it, is answered
with the same operation and the same operands, and leaves `h` in place again. -/
theorem query_leaves_dataset (requests : List (Message × Int)) (server : Server)
    (replies : List Message) (msg : Message) (elapsed elapsed2 : Int) (h : MedianHeap)
    (hreach : server_loop fresh_server requests = Res.ok (server, replies, false))
    (hd : server.dataset = some h)
    (hop : msg.operation ∈ [AVERAGE, SUM, MINIMUM, MEDIAN]) :
    ∃ s r, command_controller server msg elapsed = Res.ok (s, r)
      ∧ s.dataset = some h
      ∧ ∃ s2 r2, command_controller s msg elapsed2 = Res.ok (s2, r2)
        ∧ s2.dataset = some h ∧ r2.operation = r.operation ∧ r2.operands = r.operands := by
  have hs := server_loop_consistent requests fresh_server server replies fresh_consistent hreach
  have h1 : msg.operation ≠ INSERT := by
    intro hh; rw [hh] at hop; revert hop; decide
  have h2 : msg.operation ≠ QUIT := by
    intro hh; rw [hh] at hop; revert hop; decide
  rcases hs with ⟨_, hnone⟩ | ⟨hi, h', hd', hinv, _⟩
  · rw [hnone] at hd
    cases hd
  · rw [hd] at hd'
    injection hd' with hd'
    subst hd'
    cases hemp : medianheap_is_empty h with
    | true =>
      obtain ⟨s, hc, hsd⟩ := error_gate_on_empty server msg elapsed h hi hd hemp h1 h2
      have hsi := controller_initialized server msg elapsed s _ hi hc
      obtain ⟨s2, hc2, hsd2⟩ := error_gate_on_empty s msg elapsed2 h hsi hsd hemp h1 h2
      exact ⟨s, _, hc, hsd, s2, _, hc2, hsd2, rfl, rfl⟩
    | false =>
      obtain ⟨ops, hq⟩ := query_reply_fixed msg h hinv.1 hemp hop
      obtain ⟨s, r, hc, hsd, hro, hrp⟩ := hq server elapsed hi hd
      have hsi := controller_initialized server msg elapsed s r hi hc
      obtain ⟨s2, r2, hc2, hsd2, hro2, hrp2⟩ := hq s elapsed2 hsi hsd
      exact ⟨s, r, hc, hsd, s2, r2, hc2, hsd2, hro2.trans hro.symm, hrp2.trans hrp.symm⟩

theorem query_leaves_dataset_witness :
    server_loop fresh_server [(request INSERT 5, 1), (request INSERT 3, 2)]
        = Res.ok (Server.mk true
            (some (heap_of [3, 0, 0, 0, 0, 0, 0, 0, 0, 0] 1 [5, 0, 0, 0, 0, 0, 0, 0, 0, 0] 1 8))
            (0, 0) [3, 0, 0, 0, 0, 0] [2, 0, 0, 0, 0, 0],
          [Message.mk 1 INSERT [CDouble.ofInt 5, CDouble.ofInt 0, CDouble.ofInt 0] ⟨1, 1⟩,
            Message.mk 1 INSERT [CDouble.ofInt 3, CDouble.ofInt 0, CDouble.ofInt 0] ⟨3, 2⟩],
          false)
    ∧ (server_loop fresh_server [(request INSERT 5, 1), (request INSERT 3, 2),
          (request MEDIAN 0, 4), (request MEDIAN 0, 9)]
        >>= fun p => Res.ok (p.1.dataset, p.2.1.map (fun r => r.operands)))
      = Res.ok (some (heap_of [3, 0, 0, 0, 0, 0, 0, 0, 0, 0] 1 [5, 0, 0, 0, 0, 0, 0, 0, 0, 0] 1 8),
          [[CDouble.ofInt 5, CDouble.ofInt 0, CDouble.ofInt 0],
            [CDouble.ofInt 3, CDouble.ofInt 0, CDouble.ofInt 0],
            [CDouble.ofInt 3, CDouble.ofInt 5, CDouble.ofInt 1],
            [CDouble.ofInt 3, CDouble.ofInt 5, CDouble.ofInt 1]])
    ∧ ∃ s r, command_controller (Server.mk true
          (some (heap_of [3, 0, 0, 0, 0, 0, 0, 0, 0, 0] 1 [5, 0, 0, 0, 0, 0, 0, 0, 0, 0] 1 8))
          (0, 0) [3, 0, 0, 0, 0, 0] [2, 0, 0, 0, 0, 0]) (request MEDIAN 0) 4 = Res.ok (s, r)
        ∧ s.dataset
          = some (heap_of [3, 0, 0, 0, 0, 0, 0, 0, 0, 0] 1 [5, 0, 0, 0, 0, 0, 0, 0, 0, 0] 1 8) :=
  ⟨by decide, by decide,
    (query_leaves_dataset [(request INSERT 5, 1), (request INSERT 3, 2)]
      (Server.mk true
        (some (heap_of [3, 0, 0, 0, 0, 0, 0, 0, 0, 0] 1 [5, 0, 0, 0, 0, 0, 0, 0, 0, 0] 1 8))
        (0, 0) [3, 0, 0, 0, 0, 0] [2, 0, 0, 0, 0, 0])
      [Message.mk 1 INSERT [CDouble.ofInt 5, CDouble.ofInt 0, CDouble.ofInt 0] ⟨1, 1⟩,
        Message.mk 1 INSERT [CDouble.ofInt 3, CDouble.ofInt 0, CDouble.ofInt 0] ⟨3, 2⟩]
      (request MEDIAN 0) 4 9 _ (by decide) rfl (by decide)).imp
      fun _ hs => hs.imp fun _ hr => ⟨hr.1, hr.2.1⟩⟩

end MsgQueueCalc
